import Mathlib

/-!
# fxopt: fixed-point format inference and range analysis

A shallow embedding of the range engine (`fxopt_range.c`), the affine engine
(`fxopt_affine.c`), the format shifts (`fxopt_utils.c`) and the operation rules
(`fxopt_stmts.c`).

Conventions of the embedding.

* C `int` fields (bit counts, shifts, keys) are `Int`.
* A GCC `double_int` is a two's-complement integer of
  `HOST_BITS_PER_DOUBLE_INT = 128` bits. It is carried as an `Int` and every
  arithmetic primitive reduces its result to the signed 128-bit range with an
  explicit `%`.
* A linked `struct AA` list is a `List AA`; the `NULL` list is `[]`.
* The global option flags are an explicit `Config`; the global counter
  `next_error_id` is passed in and returned.
* Diagnostics written to `stderr` have no effect on the computed formats and
  are left out.
-/

namespace Fxopt

/-! ## GCC `double_int` primitives -/

/-- Number of bits of a GCC `double_int` on a host with 64-bit
`HOST_WIDE_INT`. -/
def HOST_BITS_PER_DOUBLE_INT : Nat := 128

/-- A GCC `double_int`, carried as the integer it denotes. -/
abbrev double_int := Int

/-- Value of the low `prec` bits of `x` read as a two's-complement number. -/
def sext_bits (x : Int) (prec : Nat) : Int :=
  if prec = 0 then 0 else (x + 2 ^ (prec - 1)) % 2 ^ prec - 2 ^ (prec - 1)

/-- Reduction of an exact result to the 128 bits of a `double_int`. -/
def wrap (x : Int) : double_int := (x + 2 ^ 127) % 2 ^ 128 - 2 ^ 127

/-- The 128-bit pattern of a `double_int`, as a natural number. -/
def pattern (x : double_int) : Nat := (x % 2 ^ 128).toNat

/-- A value is representable in a `double_int`. -/
def DI_fits (x : Int) : Prop := -2 ^ 127 ≤ x ∧ x < 2 ^ 127

instance (x : Int) : Decidable (DI_fits x) := by
  unfold DI_fits; infer_instance

def double_int_zero : double_int := 0
def double_int_one : double_int := 1

def double_int_add (a b : double_int) : double_int := wrap (a + b)
def double_int_sub (a b : double_int) : double_int := wrap (a - b)
def double_int_mul (a b : double_int) : double_int := wrap (a * b)
def double_int_neg (a : double_int) : double_int := wrap (-a)

def double_int_zero_p (a : double_int) : Bool := decide (a = 0)
def double_int_negative_p (a : double_int) : Bool := decide (a < 0)
def double_int_equal_p (a b : double_int) : Bool := decide (a = b)

/-- Signed comparison: -1, 0 or 1. -/
def double_int_scmp (a b : double_int) : Int :=
  if a < b then -1 else if a = b then 0 else 1

def double_int_smax (a b : double_int) : double_int :=
  if double_int_scmp a b = 1 then a else b

def double_int_smin (a b : double_int) : double_int :=
  if double_int_scmp a b = -1 then a else b

/-- Bitwise complement. -/
def double_int_not (a : double_int) : double_int := wrap (-a - 1)

/-- Bitwise and of the two 128-bit patterns. -/
def double_int_and (a b : double_int) : double_int :=
  wrap (Int.ofNat (Nat.land (pattern a) (pattern b)))

/-- Bitwise inclusive or of the two 128-bit patterns. -/
def double_int_ior (a b : double_int) : double_int :=
  wrap (Int.ofNat (Nat.lor (pattern a) (pattern b)))

/-- Mask of the low `prec` bits. GCC computes `2 << (prec - 1)`, which is
defined for `1 ≤ prec ≤ 128` only; outside that interval the model returns the
all-ones pattern. -/
def double_int_mask (prec : Int) : double_int :=
  if 1 ≤ prec ∧ prec ≤ 128 then wrap (2 ^ prec.toNat - 1) else -1

/-- Sign extension from `prec` bits (`1 ≤ prec ≤ 128`; outside that interval
GCC shifts by an invalid count and the model returns the operand). -/
def double_int_sext (cst : double_int) (prec : Int) : double_int :=
  if 1 ≤ prec ∧ prec ≤ 128 then sext_bits cst prec.toNat else cst

/-- Trailing zeros of a nonzero pattern, searched over `fuel` bits. -/
def ctz_aux : Nat → Nat → Nat
  | 0, _ => 0
  | fuel + 1, n => if n % 2 = 1 then 0 else 1 + ctz_aux fuel (n / 2)

/-- Count of trailing zero bits; `HOST_BITS_PER_DOUBLE_INT` for zero. -/
def double_int_ctz (a : double_int) : Int :=
  if pattern a = 0 then (HOST_BITS_PER_DOUBLE_INT : Int)
  else (ctz_aux HOST_BITS_PER_DOUBLE_INT (pattern a) : Int)

/-- Right shift by `count` at the full precision `HOST_BITS_PER_DOUBLE_INT`
(the precision every call site passes); a negative `count` shifts left.
`arith = true` is `ARITH`, `false` is `LOGICAL`. -/
def double_int_rshift (a : double_int) (count : Int) (arith : Bool) : double_int :=
  if count < 0 then wrap (a * 2 ^ (-count).toNat)
  else if arith then a / 2 ^ count.toNat
  else wrap (Int.ofNat (pattern a / 2 ^ count.toNat))

/-- GCC's `rshift_double`: right shift by `count > 0` keeping `prec` bits. The
bits beyond the low `prec - count` bits of the result are copies of the sign
of the 128-bit operand for `ARITH` and zero for `LOGICAL`. -/
def rshift_double (a : double_int) (count prec : Nat) (arith : Bool) : double_int :=
  let signmask : Int := if arith = true ∧ a < 0 then -1 else 0
  let shifted : Int := if arith then a / 2 ^ count else Int.ofNat (pattern a / 2 ^ count)
  if count ≥ prec then signmask
  else if prec - count ≥ HOST_BITS_PER_DOUBLE_INT then wrap shifted
  else shifted % 2 ^ (prec - count) + signmask * 2 ^ (prec - count)

/-- Left shift by `count` keeping `prec` bits: GCC's `lshift_double`
sign-extends the result beyond `prec` bits in both modes, and `arith` only
selects the kind of right shift made for a negative `count`. -/
def double_int_lshift (a : double_int) (count : Int) (prec : Nat) (arith : Bool) :
    double_int :=
  if count < 0 then rshift_double a (-count).toNat prec arith
  else
    let v := wrap (a * 2 ^ count.toNat)
    if prec ≥ HOST_BITS_PER_DOUBLE_INT then v
    else sext_bits v prec

/-- Right shift by `count` keeping `prec` bits (`double_int_rshift` at a
precision other than `HOST_BITS_PER_DOUBLE_INT`): GCC passes the negated
count to `lshift_double`. -/
def double_int_rshift_prec (a : double_int) (count : Int) (prec : Nat) (arith : Bool) :
    double_int :=
  double_int_lshift a (-count) prec arith

/-- Truncating signed division (`TRUNC_DIV_EXPR`). GCC's
`div_and_round_double` replaces a zero divisor by one. -/
def double_int_sdiv (a b : double_int) : double_int :=
  if b = 0 then a else wrap (Int.tdiv a b)

/-! ## Data model (`fxopt_plugin.h`) -/

/-- The global option flags. -/
structure Config where
  INTERVAL : Bool
  AFFINE : Bool
  GUARDING : Bool
  ROUNDING : Bool
  POSITIVE : Bool
  DBL_PRECISION_MULTS : Bool
  CONST_DIV_TO_MULT : Bool
  deriving DecidableEq

/-- One term of an affine definition (`struct AA`). -/
structure AA where
  id : Int
  coeff : double_int
  bp : Int
  deriving DecidableEq

/-- The format of a variable (`struct SIF`); the field `alias` is `alias_id`
here. -/
structure SIF where
  id : Int
  alias_id : Int
  S : Int
  I : Int
  F : Int
  E : Int
  originalF : Int
  size : Int
  shift : Int
  ptr_op : Int
  sgnd : Int
  iv : Int
  iter : Int
  max : double_int
  min : double_int
  aa : List AA
  has_attribute : Int
  attrS : Int
  attrI : Int
  attrF : Int
  attrE : Int
  attrmax : double_int
  attrmin : double_int
  deriving DecidableEq

/-- What the code reads from an operand's GCC tree: whether it is a
constant, and for a constant its full unshifted value (`TREE_INT_CST`, or the
maximum-precision integer of a `REAL_CST`) and the sign reported by
`tree_int_cst_sgn`. -/
inductive tree where
  | var : tree
  | integer_cst (value : double_int) : tree
  | real_cst (value : double_int) (sgn : Int) : tree
  deriving DecidableEq

def TREE_CONSTANT : tree → Bool
  | tree.var => false
  | _ => true

def tree_int_cst_sgn : tree → Int
  | tree.var => 0
  | tree.integer_cst v => if v < 0 then -1 else if v = 0 then 0 else 1
  | tree.real_cst _ s => s

/-- The constant fetched at the head of `fix_f_e_bits`. -/
def tree_constant_value : tree → double_int
  | tree.var => 0
  | tree.integer_cst v => v
  | tree.real_cst v _ => v

/-! ## Format shifts (`fxopt_utils.c`) -/

/-- `fix_f_e_bits`: for a constant operand, redistribute F and E bits from the
trailing zeros of the shifted constant. -/
def fix_f_e_bits (fmt : SIF) (t : tree) : SIF :=
  if TREE_CONSTANT t then
    let constant := tree_constant_value t
    let constant := if tree_int_cst_sgn t < 0 then double_int_neg constant else constant
    let constant :=
      if fmt.shift > 0 then
        double_int_rshift
          (double_int_add (double_int_rshift constant (fmt.shift - 1) true) double_int_one)
          1 true
      else constant
    let constant :=
      if fmt.shift < 0 then double_int_rshift constant fmt.shift true else constant
    let F1 := fmt.F + fmt.E
    let E1 := min (double_int_ctz constant) F1
    let F2 := F1 - E1
    { fmt with F := F2, E := E1, originalF := F2 }
  else fmt

/-- `shift_right` on one operand format. -/
def shift_right (fmt : SIF) (t : tree) (count : Int) : SIF :=
  if count = 0 then fmt
  else
    let fmt := { fmt with shift := fmt.shift + count, S := fmt.S + count }
    let fmt :=
      if count ≤ fmt.E then { fmt with E := fmt.E - count }
      else { fmt with F := fmt.F + fmt.E - count, E := 0 }
    fix_f_e_bits fmt t

/-- `shift_left` on one operand format. -/
def shift_left (fmt : SIF) (t : tree) (count : Int) : SIF :=
  let fmt := { fmt with shift := fmt.shift - count, S := fmt.S - count }
  let fmt :=
    if fmt.originalF - fmt.F > count then { fmt with F := fmt.F + count }
    else { fmt with E := fmt.E + (count - (fmt.originalF - fmt.F)), F := fmt.originalF }
  fix_f_e_bits fmt t

/-- `initialize_format`; the `attr` fields, which the C function leaves unset,
are zero here. -/
def initialize_format : SIF :=
  { id := 0xdead, alias_id := 0, S := 0, I := 0, F := 0, E := 0, originalF := 0,
    size := 0, shift := 0, ptr_op := 0, sgnd := 0, iv := 0, iter := 0,
    max := double_int_zero, min := double_int_one, aa := [],
    has_attribute := 0, attrS := 0, attrI := 0, attrF := 0, attrE := 0,
    attrmax := 0, attrmin := 0 }

/-- `format_initialized`. -/
def format_initialized (oprnd_frmt : SIF) : Bool :=
  decide (oprnd_frmt.I ≠ 0) || decide (oprnd_frmt.F ≠ 0)

/-- Macro `PRECISION(x)`. -/
def PRECISION (x : SIF) : Int := x.I + x.F + x.E + x.sgnd

/-- Macro `BINARY_PT(x)` on the operand format itself. -/
def BINARY_PT (x : SIF) : Int := x.F + x.E

/-- Macro `LOST_F_BITS(x)` on the operand format itself. -/
def LOST_F_BITS (x : SIF) : Int := x.originalF - x.F

/-- Macro `INFO_BITS(x)` on the operand format itself. -/
def INFO_BITS (x : SIF) : Int := x.I + x.F

/-! ## Affine engine (`fxopt_affine.c`) -/

/-- `search_aa_var`: the first term with the given key, if any. -/
def search_aa_var (aa_list : List AA) (var_key : Int) : Option AA :=
  aa_list.find? (fun e => decide (e.id = var_key))

/-- `append_aa_var`: a key already in the list is an error and leaves the list
as it is; otherwise the term is appended at the tail. -/
def append_aa_var (aa_list : List AA) (var_key : Int) (coeff : double_int) (bp : Int) :
    List AA :=
  match search_aa_var aa_list var_key with
  | some _ => aa_list
  | none => aa_list ++ [{ id := var_key, coeff := coeff, bp := bp }]

/-- The assignment `res_elt_p->coeff = double_int_add(res_elt_p->coeff, v)` on
the term `search_aa_var` finds for `key`. -/
def add_to_coeff : List AA → Int → double_int → List AA
  | [], _, _ => []
  | e :: rest, key, v =>
    if e.id = key then { e with coeff := double_int_add e.coeff v } :: rest
    else e :: add_to_coeff rest key v

/-- The pattern `affine_multiply` uses for affine product terms: add to the
term with this key when the result has one, append a new term otherwise. -/
def aa_accumulate (result : List AA) (key : Int) (product : double_int) (new_bp : Int) :
    List AA :=
  match search_aa_var result key with
  | some _ => add_to_coeff result key product
  | none => append_aa_var result key product new_bp

/-- `get_aa_bp`. -/
def get_aa_bp (aa_list : List AA) : Int :=
  aa_list.foldl
    (fun list_bp e =>
      if e.bp ≠ list_bp then (if list_bp = 0xbad then e.bp else list_bp) else list_bp)
    0xbad

/-- The block that `new_max`, `new_min`, `new_aa_list`, `fix_aa_bp`,
`new_aa_max` and `new_aa_min` each spell out for a nonzero shift: when the
shift is to the right and `ROUNDING` is set, add `1 << (shift - 1)` (less one
for a negative value unless `POSITIVE` is set), then shift arithmetically. -/
def round_shift (cfg : Config) (val : double_int) (shift : Int) : double_int :=
  let val :=
    if shift > 0 ∧ cfg.ROUNDING = true then
      let constant :=
        double_int_lshift double_int_one (shift - 1) HOST_BITS_PER_DOUBLE_INT false
      let constant :=
        if double_int_negative_p val = true ∧ cfg.POSITIVE = false then
          double_int_sub constant double_int_one
        else constant
      double_int_add val constant
    else val
  double_int_rshift val shift true

/-- `new_aa_list`: the operand's affine list with every coefficient brought to
the operand's binary point `F + E`. -/
def new_aa_list (cfg : Config) (op_fmt : SIF) : List AA :=
  let org_bp := op_fmt.F + op_fmt.E
  op_fmt.aa.foldl
    (fun new_list aa_elt =>
      let shift := aa_elt.bp - org_bp
      let coeff := if shift ≠ 0 then round_shift cfg aa_elt.coeff shift else aa_elt.coeff
      append_aa_var new_list aa_elt.id coeff org_bp)
    []

/-- `shift_aa_list`: virtual shift, the binary point of every term moves. -/
def shift_aa_list (op_fmt : SIF) (k : Int) : List AA :=
  op_fmt.aa.foldl
    (fun new_list aa_elt => append_aa_var new_list aa_elt.id aa_elt.coeff (aa_elt.bp - k))
    []

/-- `fix_aa_bp`: the affine list of the format re-normalised to `F + E`; the C
function rewrites the list in place, the model returns the rewritten list. -/
def fix_aa_bp (cfg : Config) (op_fmt : SIF) : List AA :=
  let format_bp := op_fmt.F + op_fmt.E
  let shift := get_aa_bp op_fmt.aa - format_bp
  op_fmt.aa.map
    (fun aa_elt =>
      { aa_elt with
        bp := format_bp,
        coeff := if shift ≠ 0 then round_shift cfg aa_elt.coeff shift else aa_elt.coeff })

/-- `double_int_abs`. -/
def double_int_abs (dblint : double_int) : double_int :=
  if double_int_negative_p dblint then double_int_neg dblint else dblint

/-- `double_int_positive_p`. -/
def double_int_positive_p (dblint : double_int) : Bool :=
  !double_int_zero_p dblint && !double_int_negative_p dblint

/-- One step of the loop of `aa_max` on the pair `(constant, maxval)`. -/
def aa_max_step (st : double_int × double_int) (e : AA) : double_int × double_int :=
  if e.id = 0 then (e.coeff, st.2)
  else if double_int_negative_p e.coeff then (st.1, double_int_sub st.2 e.coeff)
  else (st.1, double_int_add st.2 e.coeff)

/-- `aa_max`: center plus the absolute values of the other coefficients. -/
def aa_max (aa_list : List AA) : double_int :=
  match aa_list with
  | [] => double_int_zero
  | _ =>
    let st := aa_list.foldl aa_max_step (double_int_zero, double_int_zero)
    double_int_add st.1 st.2

/-- One step of the loop of `aa_min` on the pair `(constant, minval)`. -/
def aa_min_step (st : double_int × double_int) (e : AA) : double_int × double_int :=
  if e.id = 0 then (e.coeff, st.2)
  else if double_int_negative_p e.coeff then (st.1, double_int_add st.2 e.coeff)
  else (st.1, double_int_sub st.2 e.coeff)

/-- `aa_min`: center minus the absolute values of the other coefficients; the
`NULL` list gives one (with `aa_max` zero, the undefined range). -/
def aa_min (aa_list : List AA) : double_int :=
  match aa_list with
  | [] => double_int_one
  | _ =>
    let st := aa_list.foldl aa_min_step (double_int_zero, double_int_zero)
    double_int_add st.1 st.2

/-- `new_aa_max`. -/
def new_aa_max (cfg : Config) (op_fmt : SIF) : double_int :=
  match op_fmt.aa with
  | [] => double_int_zero
  | _ =>
    let maxval := aa_max op_fmt.aa
    if op_fmt.shift ≠ 0 then round_shift cfg maxval op_fmt.shift else maxval

/-- `new_aa_min`. -/
def new_aa_min (cfg : Config) (op_fmt : SIF) : double_int :=
  match op_fmt.aa with
  | [] => double_int_zero
  | _ =>
    let minval := aa_min op_fmt.aa
    if op_fmt.shift ≠ 0 then round_shift cfg minval op_fmt.shift else minval

/-- The coefficient of operand 2 as `affine_add` combines it: unchanged for
`ADD`, `double_int_neg(double_int_add(double_int_one, op2_coeff))` for `SUB`. -/
def affine_add_op2_coeff (add : Bool) (op2_coeff : double_int) : double_int :=
  if add then op2_coeff else double_int_neg (double_int_add double_int_one op2_coeff)

/-- `affine_add`; `add = true` is `ADD`, `false` is `SUB`. -/
def affine_add (cfg : Config) (oprnd1 oprnd2 : SIF) (add : Bool) : List AA :=
  if oprnd1.aa = [] ∨ oprnd2.aa = [] then []
  else
    let aa1_list := new_aa_list cfg oprnd1
    let aa2_list := new_aa_list cfg oprnd2
    let result :=
      aa1_list.foldl
        (fun result aa1_elt =>
          match search_aa_var aa2_list aa1_elt.id with
          | none => append_aa_var result aa1_elt.id aa1_elt.coeff aa1_elt.bp
          | some aa2_elt =>
            append_aa_var result aa1_elt.id
              (double_int_add aa1_elt.coeff (affine_add_op2_coeff add aa2_elt.coeff))
              aa1_elt.bp)
        []
    aa2_list.foldl
      (fun result aa2_elt =>
        match search_aa_var aa1_list aa2_elt.id with
        | none =>
          append_aa_var result aa2_elt.id (affine_add_op2_coeff add aa2_elt.coeff) aa2_elt.bp
        | some _ => result)
      result

/-- The body of the inner loop of `affine_multiply` on the pair
`(result, aa_err)`. -/
def affine_multiply_step (aa1_list aa2_list : List AA) (new_bp : Int) (aa1_elt : AA)
    (st : List AA × double_int) (aa2_elt : AA) : List AA × double_int :=
  let product := double_int_mul aa1_elt.coeff aa2_elt.coeff
  if aa1_elt.id = 0 then (aa_accumulate st.1 aa2_elt.id product new_bp, st.2)
  else if aa2_elt.id = 0 then (aa_accumulate st.1 aa1_elt.id product new_bp, st.2)
  else if aa1_elt.id = aa2_elt.id then
    let product := double_int_rshift product 1 true
    (aa_accumulate st.1 0 product new_bp, double_int_add st.2 (double_int_abs product))
  else
    match search_aa_var aa2_list aa1_elt.id, search_aa_var aa1_list aa2_elt.id with
    | some other1, some other2 =>
      let otherp := double_int_mul other1.coeff other2.coeff
      let product := double_int_abs (double_int_add product otherp)
      let product := double_int_rshift product 1 true
      (st.1, double_int_add st.2 product)
    | _, _ => (st.1, double_int_add st.2 (double_int_abs product))

/-- `affine_multiply`; returns the product list and the new value of the
global `next_error_id`. -/
def affine_multiply (next_error_id : Int) (aa1_list aa2_list : List AA) : List AA × Int :=
  if aa1_list = [] ∨ aa2_list = [] then ([], next_error_id)
  else
    let new_bp := get_aa_bp aa1_list + get_aa_bp aa2_list
    let st :=
      aa1_list.foldl
        (fun st aa1_elt =>
          aa2_list.foldl (affine_multiply_step aa1_list aa2_list new_bp aa1_elt) st)
        (([] : List AA), double_int_zero)
    if double_int_zero_p st.2 then (st.1, next_error_id)
    else (append_aa_var st.1 next_error_id st.2 new_bp, next_error_id + 1)

/-- `affine_divide`; returns the quotient list and the new `next_error_id`, or
`none` where the C code stores through the `NULL` pointer that
`search_aa_var(reciprocal_p, 0)` returned. -/
def affine_divide (next_error_id : Int) (numerator denominator : List AA) :
    Option (List AA × Int) :=
  if numerator = [] ∨ denominator = [] then some ([], next_error_id)
  else
    let num_bp := get_aa_bp numerator
    let den_bp := get_aa_bp denominator
    let den_min := aa_min denominator
    let den_max := aa_max denominator
    let a := double_int_smin (double_int_abs den_min) (double_int_abs den_max)
    let b := double_int_smax (double_int_abs den_min) (double_int_abs den_max)
    let double_1 := double_int_lshift double_int_one num_bp (num_bp + 2).toNat true
    let alpha := double_int_sdiv double_1 b
    let alpha := double_int_mul alpha alpha
    let alpha := double_int_neg alpha
    let dmax_1 := double_int_sdiv double_1 a
    let dmax_2 := double_int_rshift (double_int_mul alpha a) num_bp true
    let dmax := double_int_sub dmax_1 dmax_2
    let dmin_1 := double_int_sdiv double_1 b
    let dmin_2 := double_int_rshift (double_int_mul alpha b) num_bp true
    let dmin := double_int_sub dmin_1 dmin_2
    let zeta := double_int_add dmin dmax
    let zeta := double_int_rshift zeta 1 true
    let delta := double_int_smax (double_int_sub zeta dmin) (double_int_sub dmax zeta)
    let zeta := if double_int_negative_p den_min then double_int_neg zeta else zeta
    let alpha := double_int_rshift alpha (num_bp - den_bp) true
    let reciprocal := append_aa_var [] 0 alpha (num_bp - den_bp)
    let temp := affine_multiply next_error_id denominator reciprocal
    let reciprocal := temp.1
    let next_error_id := temp.2
    let after_zeta : Option (List AA) :=
      if double_int_zero_p zeta then some reciprocal
      else
        let zeta := double_int_lshift zeta den_bp HOST_BITS_PER_DOUBLE_INT true
        match search_aa_var reciprocal 0 with
        | none => none
        | some _ => some (add_to_coeff reciprocal 0 zeta)
    match after_zeta with
    | none => none
    | some reciprocal =>
      let with_delta : List AA × Int :=
        if double_int_zero_p delta then (reciprocal, next_error_id)
        else
          let delta := double_int_lshift delta den_bp HOST_BITS_PER_DOUBLE_INT true
          (append_aa_var reciprocal next_error_id delta num_bp, next_error_id + 1)
      some (affine_multiply with_delta.2 numerator with_delta.1)

/-! ## Range engine (`fxopt_range.c`) -/

/-- The loop of `ceil_log2_range`; 128 logical shifts clear any pattern. -/
def ceil_log2_loop : Nat → double_int → Int → Int
  | 0, _, ceil => ceil
  | fuel + 1, onebits, ceil =>
    if double_int_zero_p onebits then ceil
    else ceil_log2_loop fuel (double_int_rshift onebits 1 false) (ceil + 1)

/-- `ceil_log2_range`. -/
def ceil_log2_range (op_fmt : SIF) : Int :=
  let onebits := double_int_abs op_fmt.max
  let onebits := double_int_ior onebits (double_int_abs op_fmt.min)
  ceil_log2_loop (HOST_BITS_PER_DOUBLE_INT + 1) onebits 0

/-- `log2_range`. -/
def log2_range (op_fmt : SIF) : Int :=
  if !double_int_equal_p op_fmt.max op_fmt.min then -1
  else
    let const_val := double_int_abs (double_int_sext op_fmt.max op_fmt.size)
    if double_int_equal_p double_int_zero
        (double_int_and const_val (double_int_sub const_val double_int_one)) then
      double_int_ctz const_val
    else -1

/-- `new_max`. -/
def new_max (cfg : Config) (op_fmt : SIF) : double_int :=
  let maxval := op_fmt.max
  if !double_int_zero_p maxval ∧ op_fmt.shift ≠ 0 then
    let maxval := round_shift cfg maxval op_fmt.shift
    if cfg.AFFINE then
      let aa_max := new_aa_max cfg op_fmt
      if double_int_scmp maxval aa_max ≠ 0 ∧ double_int_scmp (double_int_neg maxval) aa_max ≠ 0
      then aa_max else maxval
    else maxval
  else maxval

/-- `new_min`. -/
def new_min (cfg : Config) (op_fmt : SIF) : double_int :=
  let minval := op_fmt.min
  if !double_int_zero_p minval ∧ op_fmt.shift ≠ 0 then
    let minval := round_shift cfg minval op_fmt.shift
    if cfg.AFFINE then
      let aa_min := new_aa_min cfg op_fmt
      if double_int_scmp minval aa_min ≠ 0 ∧ double_int_scmp (double_int_neg minval) aa_min ≠ 0
      then aa_min else minval
    else minval
  else minval

/-- `new_range`. -/
def new_range (cfg : Config) (op_fmt : SIF) : SIF :=
  { op_fmt with max := new_max cfg op_fmt, min := new_min cfg op_fmt }

/-- `rounding_may_overflow`. -/
def rounding_may_overflow (cfg : Config) (op_fmt : SIF) : Bool :=
  if op_fmt.E ≥ op_fmt.shift then false
  else
    let op_fmt := { op_fmt with max := double_int_sext op_fmt.max (PRECISION op_fmt + op_fmt.shift) }
    let op_fmt := { op_fmt with min := double_int_sext op_fmt.min (PRECISION op_fmt + op_fmt.shift) }
    let newmax := double_int_sext (new_max cfg op_fmt) (PRECISION op_fmt)
    let newmin := double_int_sext (new_min cfg op_fmt) (PRECISION op_fmt)
    (double_int_positive_p op_fmt.max && double_int_negative_p newmax)
      || (double_int_negative_p op_fmt.min && double_int_positive_p newmin)

/-- `pessimistic_format`. -/
def pessimistic_format (cfg : Config) (op_fmt : SIF) : Int :=
  if op_fmt.I = 0 then 0
  else if double_int_zero_p op_fmt.max && double_int_zero_p op_fmt.max then 0
  else max 0 ((op_fmt.I + op_fmt.F + op_fmt.E) - ceil_log2_range (new_range cfg op_fmt))

/-- `max_is_mnn`. -/
def max_is_mnn (cfg : Config) (op_fmt : SIF) : Bool :=
  let mnn := double_int_lshift double_int_one (op_fmt.size - 1) HOST_BITS_PER_DOUBLE_INT false
  double_int_equal_p (new_max cfg op_fmt) mnn

/-- `new_range_add`. -/
def new_range_add (cfg : Config) (oprnd1 oprnd2 result_frmt : SIF) : SIF :=
  if cfg.AFFINE then
    let new_frmt := { result_frmt with aa := affine_add cfg oprnd1 oprnd2 true }
    let new_frmt := { new_frmt with max := new_aa_max cfg new_frmt }
    { new_frmt with min := new_aa_min cfg new_frmt }
  else
    { result_frmt with
      max := double_int_add (new_max cfg oprnd1) (new_max cfg oprnd2),
      min := double_int_add (new_min cfg oprnd1) (new_min cfg oprnd2) }

/-- `new_range_sub`. -/
def new_range_sub (cfg : Config) (oprnd1 oprnd2 result_frmt : SIF) : SIF :=
  if cfg.AFFINE then
    let new_frmt := { result_frmt with aa := affine_add cfg oprnd1 oprnd2 false }
    let new_frmt := { new_frmt with max := new_aa_max cfg new_frmt }
    { new_frmt with min := new_aa_min cfg new_frmt }
  else
    { result_frmt with
      max := double_int_sub (new_max cfg oprnd1) (new_min cfg oprnd2),
      min := double_int_sub (new_min cfg oprnd1) (new_max cfg oprnd2) }

/-- `new_range_mul`; returns the format and the new `next_error_id`. -/
def new_range_mul (cfg : Config) (next_error_id : Int) (oprnd1 oprnd2 result_frmt : SIF) :
    SIF × Int :=
  if cfg.AFFINE then
    let aa1_list := new_aa_list cfg oprnd1
    let aa2_list := new_aa_list cfg oprnd2
    let prod := affine_multiply next_error_id aa1_list aa2_list
    let new_frmt := { result_frmt with aa := prod.1 }
    let new_frmt := { new_frmt with max := new_aa_max cfg new_frmt }
    ({ new_frmt with min := new_aa_min cfg new_frmt }, prod.2)
  else
    let max1 := new_max cfg oprnd1
    let min1 := new_min cfg oprnd1
    let max2 := new_max cfg oprnd2
    let min2 := new_min cfg oprnd2
    let temp := double_int_mul max1 max2
    let rmax := temp
    let rmin := temp
    let temp := double_int_mul max1 min2
    let rmax := double_int_smax rmax temp
    let rmin := double_int_smin rmin temp
    let temp := double_int_mul min1 max2
    let rmax := double_int_smax rmax temp
    let rmin := double_int_smin rmin temp
    let temp := double_int_mul min1 min2
    let rmax := double_int_smax rmax temp
    let rmin := double_int_smin rmin temp
    ({ result_frmt with max := rmax, min := rmin }, next_error_id)

/-- The test of `new_range_div` for a divisor range that contains zero. -/
def divisor_may_be_zero (min2 max2 : double_int) : Bool :=
  double_int_zero_p min2 || double_int_zero_p max2 ||
    (double_int_positive_p max2 && double_int_negative_p min2)

/-- `new_range_div`; returns the format and the new `next_error_id`, `none`
where `affine_divide` stores through a `NULL` pointer. -/
def new_range_div (cfg : Config) (next_error_id : Int) (oprnd1 oprnd2 result_frmt : SIF) :
    Option (SIF × Int) :=
  if cfg.AFFINE then
    let aa1_list := new_aa_list cfg oprnd1
    let aa2_list := new_aa_list cfg oprnd2
    match affine_divide next_error_id aa1_list aa2_list with
    | none => none
    | some quot =>
      let new_frmt := { result_frmt with aa := quot.1 }
      let new_frmt := { new_frmt with aa := fix_aa_bp cfg new_frmt }
      let new_frmt := { new_frmt with max := new_aa_max cfg new_frmt }
      some ({ new_frmt with min := new_aa_min cfg new_frmt }, quot.2)
  else
    let max1 := double_int_sext (new_max cfg oprnd1) oprnd1.size
    let min1 := double_int_sext (new_min cfg oprnd1) oprnd1.size
    let max2 := double_int_sext (new_max cfg oprnd2) oprnd2.size
    let min2 := double_int_sext (new_min cfg oprnd2) oprnd2.size
    if divisor_may_be_zero min2 max2 then
      let rmax := double_int_mask (result_frmt.size - 1)
      some ({ result_frmt with max := rmax, min := double_int_not rmax }, next_error_id)
    else
      let temp := double_int_sdiv max1 max2
      let rmax := temp
      let rmin := temp
      let temp := double_int_sdiv max1 min2
      let rmax := double_int_smax rmax temp
      let rmin := double_int_smin rmin temp
      let temp := double_int_sdiv min1 max2
      let rmax := double_int_smax rmax temp
      let rmin := double_int_smin rmin temp
      let temp := double_int_sdiv min1 min2
      let rmax := double_int_smax rmax temp
      let rmin := double_int_smin rmin temp
      some ({ result_frmt with max := rmax, min := rmin }, next_error_id)

/-! ## Overflow side conditions and sample inputs -/

/-- A pending shift can be applied to the bound `x` inside the 128 bits of a
`double_int`: the bound is a `double_int`, a left shift does not overflow and
the rounding add before a right shift does not overflow. -/
def shift_fits (x s : Int) : Prop :=
  DI_fits x ∧ s ≤ 127 ∧ (s < 0 → DI_fits (x * 2 ^ (-s).toNat)) ∧
    (0 < s → DI_fits (x + 2 ^ (s - 1).toNat))

/-- The pending shift of the format applies to both of its bounds without
overflow. -/
def range_shift_fits (o : SIF) : Prop :=
  shift_fits o.min o.shift ∧ shift_fits o.max o.shift

instance (x s : Int) : Decidable (shift_fits x s) :=
  inferInstanceAs (Decidable (DI_fits x ∧ s ≤ 127 ∧ (s < 0 → DI_fits (x * 2 ^ (-s).toNat)) ∧
    (0 < s → DI_fits (x + 2 ^ (s - 1).toNat))))

instance (o : SIF) : Decidable (range_shift_fits o) :=
  inferInstanceAs (Decidable (shift_fits o.min o.shift ∧ shift_fits o.max o.shift))

/-- Interval mode with rounding (ties away from zero). -/
def cfg_interval : Config :=
  { INTERVAL := true, AFFINE := false, GUARDING := false, ROUNDING := true,
    POSITIVE := false, DBL_PRECISION_MULTS := false, CONST_DIV_TO_MULT := false }

/-- Affine mode with rounding (ties away from zero). -/
def cfg_affine : Config :=
  { INTERVAL := false, AFFINE := true, GUARDING := false, ROUNDING := true,
    POSITIVE := false, DBL_PRECISION_MULTS := false, CONST_DIV_TO_MULT := false }

/-- A signed 8-bit variable format `(S, I, F, E)` with range `[min, max]`,
pending shift `shift` and affine list `aa`. -/
def sample_format (S I F E shift : Int) (min max : double_int) (aa : List AA) : SIF :=
  { initialize_format with
    S := S, I := I, F := F, E := E, originalF := F, size := 8, sgnd := 1,
    shift := shift, min := min, max := max, aa := aa }

/-! ## Reading an affine list -/

/-- The keys of an affine list, in list order. -/
def aa_keys (aa_list : List AA) : List Int := aa_list.map AA.id

/-- The coefficient the list holds for a key (`search_aa_var`), zero for a
key that is not in the list. -/
def coeff_of (aa_list : List AA) (key : Int) : Int :=
  match search_aa_var aa_list key with
  | some e => e.coeff
  | none => 0

/-- Sum of the absolute values of all coefficients, the center included. -/
def aa_abs_sum (aa_list : List AA) : Int := (aa_list.map (fun e => |e.coeff|)).sum

/-- The value of an affine list (as an integer multiple of `2^(-bp)`) under an
assignment `eps` of the noise symbols; the center term has key 0 and its
symbol is the constant one. -/
def aa_value {K : Type} [Ring K] (eps : Int → K) (aa_list : List AA) : K :=
  (aa_list.map (fun e => (e.coeff : K) * eps e.id)).sum

/-- The term the first loop of `affine_add` appends for a term of operand 1. -/
def affine_add_term1 (add : Bool) (aa2_list : List AA) (aa1_elt : AA) : AA :=
  match search_aa_var aa2_list aa1_elt.id with
  | none => aa1_elt
  | some aa2_elt =>
    { id := aa1_elt.id,
      coeff := double_int_add aa1_elt.coeff (affine_add_op2_coeff add aa2_elt.coeff),
      bp := aa1_elt.bp }

/-- The term the second loop of `affine_add` appends for a term of operand 2
that operand 1 does not have. -/
def affine_add_term2 (add : Bool) (aa2_elt : AA) : AA :=
  { id := aa2_elt.id, coeff := affine_add_op2_coeff add aa2_elt.coeff, bp := aa2_elt.bp }

/-- Sum of the center coefficients of a list (with distinct keys: the center
coefficient, zero when there is no center term). -/
def aa_center_sum (aa_list : List AA) : Int :=
  (aa_list.map (fun e => if e.id = 0 then e.coeff else 0)).sum

/-- Sum of the absolute values of the coefficients of the non-center terms. -/
def aa_radius (aa_list : List AA) : Int :=
  (aa_list.map (fun e => if e.id = 0 then 0 else |e.coeff|)).sum

/-! ## Operation rules (`fxopt_stmts.c`) -/

/-- `addition`, sign-bit step: an operand with fewer than `min_s_bits` sign
bits is shifted right by one. -/
def addition_sign_step (f0 : SIF) (ops : SIF × SIF) (t1 t2 : tree) : SIF × SIF :=
  let min_s_bits := f0.sgnd + 1
  let op1 := if ops.1.S < min_s_bits then shift_right ops.1 t1 1 else ops.1
  let op2 := if ops.2.S < min_s_bits then shift_right ops.2 t2 1 else ops.2
  (op1, op2)

/-- `addition`, alignment step: consume redundant sign bits of the operand with
the smaller binary point, then shift the other operand right. -/
def addition_align_step (f0 : SIF) (ops : SIF × SIF) (t1 t2 : tree) : SIF × SIF :=
  let min_s_bits := f0.sgnd + 1
  let ops : SIF × SIF :=
    if BINARY_PT ops.1 > BINARY_PT ops.2 then
      let op2 :=
        if ops.2.S > min_s_bits then
          shift_left ops.2 t2 (min (ops.2.S - min_s_bits) (BINARY_PT ops.1 - BINARY_PT ops.2))
        else ops.2
      let op1 :=
        if BINARY_PT ops.1 > BINARY_PT op2 then
          shift_right ops.1 t1 (BINARY_PT ops.1 - BINARY_PT op2)
        else ops.1
      (op1, op2)
    else ops
  if BINARY_PT ops.2 > BINARY_PT ops.1 then
    let op1 :=
      if ops.1.S > min_s_bits then
        shift_left ops.1 t1 (min (ops.1.S - min_s_bits) (BINARY_PT ops.2 - BINARY_PT ops.1))
      else ops.1
    let op2 :=
      if BINARY_PT ops.2 > BINARY_PT op1 then
        shift_right ops.2 t2 (BINARY_PT ops.2 - BINARY_PT op1)
      else ops.2
    (op1, op2)
  else ops

/-- `addition`, guard step: with `ROUNDING` and `GUARDING`, one more sign bit in
both operands when rounding could overflow in either. -/
def addition_guard_step (cfg : Config) (ops : SIF × SIF) (t1 t2 : tree) : SIF × SIF :=
  if cfg.ROUNDING && cfg.GUARDING then
    if rounding_may_overflow cfg ops.1 || rounding_may_overflow cfg ops.2 then
      (shift_right ops.1 t1 1, shift_right ops.2 t2 1)
    else ops
  else ops

/-- `addition`, the provisional result format. -/
def addition_provisional (f0 : SIF) (ops : SIF × SIF) : SIF :=
  let result_frmt := { f0 with aa := [] }
  let result_frmt := { result_frmt with S := min ops.1.S ops.2.S - 1 }
  let result_frmt := { result_frmt with I := max ops.1.I ops.2.I + 1 }
  let result_frmt := { result_frmt with F := max ops.1.F ops.2.F }
  { result_frmt with E := f0.size - result_frmt.S - result_frmt.I - result_frmt.F }

/-- The range of the sum or difference (`MINUS_EXPR` when `minus`). -/
def addition_range (cfg : Config) (minus : Bool) (ops : SIF × SIF) (result_frmt : SIF) : SIF :=
  if minus then new_range_sub cfg ops.1 ops.2 result_frmt
  else new_range_add cfg ops.1 ops.2 result_frmt

/-- `addition`, pessimism correction of the provisional format; returns the
corrected format and the operands. -/
def addition_pessimism (cfg : Config) (f0 : SIF) (minus : Bool) (ops : SIF × SIF)
    (t1 t2 : tree) (result_frmt : SIF) : SIF × (SIF × SIF) :=
  let temp_frmt := addition_range cfg minus ops result_frmt
  if pessimistic_format cfg temp_frmt ≠ 0 ∧ f0.ptr_op = 0 then
    if ops.1.shift > 0 ∧ ops.1.shift > 0 then
      let result_frmt := { result_frmt with I := result_frmt.I - 1 }
      let result_frmt :=
        if LOST_F_BITS ops.1 > 0 ∨ LOST_F_BITS ops.2 > 0 then
          { result_frmt with F := result_frmt.F + 1 }
        else { result_frmt with E := result_frmt.E + 1 }
      (result_frmt, (shift_left ops.1 t1 1, shift_left ops.2 t2 1))
    else
      let result_frmt := { result_frmt with S := result_frmt.S + 1 }
      ({ result_frmt with I := result_frmt.I - 1 }, ops)
  else (result_frmt, ops)

/-- `addition`, from the point where both operand formats are defined
(`result_frmt = oprnd_frmt[0]` onwards): `f0` is the format of the
destination, `ops` the operand formats, `t1`, `t2` the operand trees, `minus`
tells a `MINUS_EXPR`. Returns the result format and the operand formats with
their pending shifts. -/
def addition (cfg : Config) (f0 : SIF) (ops : SIF × SIF) (t1 t2 : tree) (minus : Bool) :
    SIF × (SIF × SIF) :=
  let ops := addition_sign_step f0 ops t1 t2
  let ops := addition_align_step f0 ops t1 t2
  let ops := addition_guard_step cfg ops t1 t2
  let result_frmt := addition_provisional f0 ops
  let corrected := addition_pessimism cfg f0 minus ops t1 t2 result_frmt
  let result_frmt := addition_range cfg minus corrected.2 corrected.1
  ({ result_frmt with aa := fix_aa_bp cfg result_frmt }, corrected.2)


/-! ## Reference readings of the range helpers -/

/-- The shifted bound as the text describes it, case by case: the bound
itself for no shift or a zero bound, an exact scaling for a left shift, the
floor for a right shift without rounding, a half added before the floor with
round-to-positive-infinity, and ties away from zero with plain rounding. -/
def shifted_bound_spec (cfg : Config) (x s : Int) : Int :=
  if s = 0 ∨ x = 0 then x
  else if s < 0 then x * 2 ^ (-s).toNat
  else if cfg.ROUNDING = false then x / 2 ^ s.toNat
  else if cfg.POSITIVE = true then (x + 2 ^ (s - 1).toNat) / 2 ^ s.toNat
  else if 0 < x then (x + 2 ^ (s - 1).toNat) / 2 ^ s.toNat
  else -((-x + 2 ^ (s - 1).toNat) / 2 ^ s.toNat)

/-! ## Multiplication and division (`fxopt_stmts.c`) -/

/-- The calls of `error()` in `multiplication` and `division`, by message:
"multiply by 2^(-K), K too big", "multiply by 2^K, K too big",
"Multiplication impossible, too many I bits", "Multiplication FAILED, sign bit
is lost", "divide by 2^K, K too big", "divide by 2^(-K), K too big" and
"FAILED to process a division". -/
inductive fx_error where
  | mul_neg_K_too_big
  | mul_K_too_big
  | mul_too_many_I_bits
  | mul_sign_bit_lost
  | div_K_too_big
  | div_neg_K_too_big
  | div_failed
  deriving DecidableEq

/-- What an operation rule leaves behind: the returned format, the operand
formats with their pending shifts, the errors reported and the counter
`next_error_id`. -/
structure stmt_result where
  frmt : SIF
  ops : SIF × SIF
  errors : List fx_error
  next_error_id : Int

/-- The effective K of the virtual shift in `multiplication`: the exponent of
the stored constant, less the constant's binary point when its format has no
integer bits. -/
def multiplication_k (ops : SIF × SIF) : Int :=
  let k := log2_range ops.2
  if ops.2.I = 0 ∧ ops.2.F ≠ 0 then k - ops.2.F - ops.2.E else k

/-- The two feasibility tests of the virtual shift in `multiplication`. -/
def multiplication_virtual_errors (ops : SIF × SIF) : List fx_error :=
  (if (ops.2.I = 0 ∧ ops.2.F ≠ 0) ∧ multiplication_k ops + ops.1.I < 0 then
      [fx_error.mul_neg_K_too_big] else []) ++
  (if multiplication_k ops > ops.1.F + ops.1.E then [fx_error.mul_K_too_big] else [])

/-- The result format of the virtual shift in `multiplication`. -/
def multiplication_virtual (f0 : SIF) (ops : SIF × SIF) : SIF :=
  let k := multiplication_k ops
  let result_frmt := { f0 with aa := [] }
  let result_frmt := { result_frmt with I := ops.1.I + k }
  let result_frmt :=
    if ops.1.F ≥ k then { result_frmt with F := ops.1.F - k, E := ops.1.E }
    else { result_frmt with F := 0, E := ops.1.E - k }
  { result_frmt with
    aa := shift_aa_list ops.1 k, S := ops.1.S, max := ops.1.max, min := ops.1.min,
    shift := 0 }

/-- The integer bits of the product that are known sign bits
(`fraction_zeros` in `multiplication`), from the operand formats on entry. -/
def fraction_zeros (ops : SIF × SIF) : Int :=
  let fz : Int := 0
  let fz :=
    if ops.1.I > 0 ∧ ops.2.I = 0 then
      min (ops.2.F + ops.2.E - ceil_log2_range ops.2) ops.1.I
    else fz
  if ops.2.I > 0 ∧ ops.1.I = 0 then
    min (ops.1.F + ops.1.E - ceil_log2_range ops.1) ops.2.I
  else fz

/-- Body of the first discard loop of `multiplication`: one fraction bit off
the operand with more information bits. -/
def mul_discard_step (ops : SIF × SIF) (t1 t2 : tree) : SIF × SIF :=
  if INFO_BITS ops.1 > INFO_BITS ops.2 then
    if ops.1.F > 0 then (shift_right ops.1 t1 1, ops.2)
    else if ops.2.F > 0 then (ops.1, shift_right ops.2 t2 1)
    else ops
  else
    if ops.2.F > 0 then (ops.1, shift_right ops.2 t2 1)
    else if ops.1.F > 0 then (shift_right ops.1 t1 1, ops.2)
    else ops

/-- The first discard loop of `multiplication`; `none` when the budget of
iterations is used up before the loop condition fails. -/
def mul_discard_loop : Nat → Int → SIF × SIF → tree → tree → Option (SIF × SIF)
  | 0, _, _, _, _ => none
  | fuel + 1, result_info_bits, ops, t1, t2 =>
    if INFO_BITS ops.1 + INFO_BITS ops.2 > result_info_bits ∧ (ops.1.F > 0 ∨ ops.2.F > 0) then
      mul_discard_loop fuel result_info_bits (mul_discard_step ops t1 t2) t1 t2
    else some ops

/-- The "overoptimized" correction after the first discard loop. -/
def mul_give_back (result_info_bits : Int) (ops : SIF × SIF) (t1 t2 : tree) : SIF × SIF :=
  if INFO_BITS ops.1 + INFO_BITS ops.2 < result_info_bits then
    if INFO_BITS ops.1 < INFO_BITS ops.2 ∧ LOST_F_BITS ops.1 > 0 then
      (shift_left ops.1 t1 1, ops.2)
    else if LOST_F_BITS ops.2 > 0 then (ops.1, shift_left ops.2 t2 1)
    else if LOST_F_BITS ops.1 > 0 then (shift_left ops.1 t1 1, ops.2)
    else ops
  else ops

/-- Body of the second discard loop of `multiplication`: all empty bits off the
operand that has more of them. -/
def mul_justify_step (ops : SIF × SIF) (t1 t2 : tree) : SIF × SIF :=
  if ops.1.E > ops.2.E then (shift_right ops.1 t1 ops.1.E, ops.2)
  else (ops.1, shift_right ops.2 t2 ops.2.E)

/-- The second discard loop of `multiplication`; `none` when the budget of
iterations is used up before the loop condition fails. -/
def mul_justify_loop : Nat → Int → SIF × SIF → tree → tree → Option (SIF × SIF)
  | 0, _, _, _, _ => none
  | fuel + 1, result_info_bits, ops, t1, t2 =>
    if INFO_BITS ops.1 + ops.1.E + INFO_BITS ops.2 + ops.2.E > result_info_bits ∧
        (ops.1.E > 0 ∨ ops.2.E > 0) then
      mul_justify_loop fuel result_info_bits (mul_justify_step ops t1 t2) t1 t2
    else some ops

/-- The most-negative-number step of `multiplication`; `result_frmt` is the
destination format with the size of the product. Returns the operands and the
new `next_error_id`. -/
def mul_mnn_step (cfg : Config) (next_error_id : Int) (fz : Int) (result_frmt : SIF)
    (ops : SIF × SIF) (t1 t2 : tree) : (SIF × SIF) × Int :=
  let result_sign_bits :=
    result_frmt.size - (ops.1.I + ops.2.I - fz) - (ops.1.F + ops.2.F) - (ops.1.E + ops.2.E)
  let tmp_fmt := new_range_mul cfg next_error_id ops.1 ops.2 result_frmt
  if (cfg.INTERVAL = true ∧ max_is_mnn cfg tmp_fmt.1 = true) ∨
      (cfg.INTERVAL = false ∧ cfg.ROUNDING = true ∧ result_sign_bits = 1) then
    if INFO_BITS ops.1 > INFO_BITS ops.2 ∧ ops.1.F + ops.1.E > 0 then
      ((shift_right ops.1 t1 1, ops.2), tmp_fmt.2)
    else if ops.2.F + ops.2.E > 0 then ((ops.1, shift_right ops.2 t2 1), tmp_fmt.2)
    else (ops, tmp_fmt.2)
  else (ops, tmp_fmt.2)

/-- State of `multiplication` when all operand shifts before the product
format are done: the size of the product, `fraction_zeros`, the operands, the
errors so far and `next_error_id`. -/
structure mul_state where
  size : Int
  fz : Int
  ops : SIF × SIF
  errors : List fx_error
  next_error_id : Int

/-- `multiplication`, general path: with `DBL_PRECISION_MULTS` the product is
widened when it does not fit, otherwise fraction bits are discarded by the
first loop. Returns the size of the product, the operands and the errors. -/
def multiplication_shape (fuel : Nat) (cfg : Config) (next_error_id : Int) (f0 : SIF)
    (ops : SIF × SIF) (t1 t2 : tree) : Option ((Int × (SIF × SIF)) × List fx_error) :=
  let result_frmt := { f0 with aa := [] }
  let fz := fraction_zeros ops
  let result_info_bits := result_frmt.size - result_frmt.sgnd + fz
  let oprnds_info_bits := INFO_BITS ops.1 + INFO_BITS ops.2
  let tmp_fmt := new_range_mul cfg next_error_id ops.1 ops.2 result_frmt
  let new_frmt_info_bits := ceil_log2_range tmp_fmt.1
  if cfg.DBL_PRECISION_MULTS then
    if (cfg.INTERVAL = false ∧ oprnds_info_bits > result_info_bits) ∨
        (cfg.INTERVAL = true ∧ new_frmt_info_bits > result_info_bits) then
      some ((2 * f0.size,
        ({ ops.1 with S := ops.1.S + ops.1.size, size := 2 * ops.1.size },
         { ops.2 with S := ops.2.S + ops.2.size, size := 2 * ops.2.size })), [])
    else some ((f0.size, ops), [])
  else
    let errors :=
      if ops.1.I + ops.2.I > result_info_bits then [fx_error.mul_too_many_I_bits] else []
    match mul_discard_loop fuel result_info_bits ops t1 t2 with
    | none => none
    | some ops => some ((f0.size, mul_give_back result_info_bits ops t1 t2), errors)

/-- `multiplication`, general path, up to the product format: widening or the
first discard loop, the second discard loop and the most-negative-number
step. -/
def multiplication_shifts (fuel : Nat) (cfg : Config) (next_error_id : Int) (f0 : SIF)
    (ops : SIF × SIF) (t1 t2 : tree) : Option mul_state :=
  let fz := fraction_zeros ops
  let next_error_id2 := (new_range_mul cfg next_error_id ops.1 ops.2 { f0 with aa := [] }).2
  match multiplication_shape fuel cfg next_error_id f0 ops t1 t2 with
  | none => none
  | some sh =>
    let result_frmt := { f0 with aa := [], size := sh.1.1 }
    let result_info_bits := result_frmt.size - result_frmt.sgnd + fz
    match mul_justify_loop fuel result_info_bits sh.1.2 t1 t2 with
    | none => none
    | some ops =>
      let stepped := mul_mnn_step cfg next_error_id2 fz result_frmt ops t1 t2
      some { size := sh.1.1, fz := fz, ops := stepped.1, errors := sh.2,
             next_error_id := stepped.2 }

/-- The product format of `multiplication`, before the pessimism correction;
`result_frmt` is the destination format with the size of the product. -/
def multiplication_product (result_frmt : SIF) (fz : Int) (ops : SIF × SIF) : SIF :=
  let result_frmt := { result_frmt with I := ops.1.I + ops.2.I - fz }
  let result_frmt := { result_frmt with F := ops.1.F + ops.2.F }
  let result_frmt := { result_frmt with E := ops.1.E + ops.2.E }
  { result_frmt with S := result_frmt.size - result_frmt.I - result_frmt.F - result_frmt.E }

/-- The pessimism correction of `multiplication`: returns the corrected
format, the operands and the new `next_error_id`. -/
def multiplication_pessimism (cfg : Config) (next_error_id : Int) (fz : Int)
    (ops : SIF × SIF) (t1 t2 : tree) (result_frmt : SIF) : (SIF × (SIF × SIF)) × Int :=
  let tmp_fmt := new_range_mul cfg next_error_id ops.1 ops.2 result_frmt
  if pessimistic_format cfg tmp_fmt.1 > fz ∧ result_frmt.I > 0 then
    let given : SIF × (SIF × SIF) :=
      if INFO_BITS ops.1 < INFO_BITS ops.2 ∧ ops.1.shift > 0 then
        ({ result_frmt with F := result_frmt.F + 1 }, (shift_left ops.1 t1 1, ops.2))
      else if ops.2.shift > 0 then
        ({ result_frmt with F := result_frmt.F + 1 }, (ops.1, shift_left ops.2 t2 1))
      else if ops.1.shift > 0 then
        ({ result_frmt with F := result_frmt.F + 1 }, (shift_left ops.1 t1 1, ops.2))
      else ({ result_frmt with S := result_frmt.S + 1 }, ops)
    (({ given.1 with I := given.1.I - 1 }, given.2), tmp_fmt.2)
  else ((result_frmt, ops), tmp_fmt.2)

/-- `multiplication`, from the point where both operand formats are defined
(`result_frmt = oprnd_frmt[0]` onwards): `f0` is the format of the
destination, `ops` the operand formats, `t1`, `t2` the operand trees, `fuel`
the budget of iterations of each discard loop (`none` when it is used up). The
rewriting of the statement in the last pass is left out. -/
def multiplication (fuel : Nat) (cfg : Config) (next_error_id : Int) (f0 : SIF)
    (ops : SIF × SIF) (t1 t2 : tree) : Option stmt_result :=
  if log2_range ops.2 ≥ 0 then
    let result_frmt := multiplication_virtual f0 ops
    some { frmt := { result_frmt with aa := fix_aa_bp cfg result_frmt }, ops := ops,
           errors := multiplication_virtual_errors ops, next_error_id := next_error_id }
  else
    match multiplication_shifts fuel cfg next_error_id f0 ops t1 t2 with
    | none => none
    | some st =>
      let result_frmt :=
        multiplication_product { f0 with aa := [], size := st.size } st.fz st.ops
      let errors :=
        st.errors ++
          (if result_frmt.S < result_frmt.sgnd then [fx_error.mul_sign_bit_lost] else [])
      let corrected :=
        multiplication_pessimism cfg st.next_error_id st.fz st.ops t1 t2 result_frmt
      let tmp_fmt :=
        new_range_mul cfg corrected.2 corrected.1.2.1 corrected.1.2.2 corrected.1.1
      let result_frmt := { tmp_fmt.1 with shift := 0 }
      some { frmt := { result_frmt with aa := fix_aa_bp cfg result_frmt },
             ops := corrected.1.2, errors := errors, next_error_id := tmp_fmt.2 }

/-- The effective K of the virtual shift in `division`. -/
def division_k (ops : SIF × SIF) : Int :=
  log2_range ops.2 - ops.2.F - ops.2.E

/-- The two feasibility tests of the virtual shift in `division`. -/
def division_virtual_errors (ops : SIF × SIF) : List fx_error :=
  (if division_k ops > ops.1.I then [fx_error.div_K_too_big] else []) ++
  (if division_k ops + ops.1.F + ops.1.E < 0 then [fx_error.div_neg_K_too_big] else [])

/-- The result format of the virtual shift in `division`. -/
def division_virtual (f0 : SIF) (ops : SIF × SIF) : SIF :=
  let k := division_k ops
  let result_frmt := { f0 with aa := [] }
  let result_frmt := { result_frmt with I := ops.1.I - k }
  let result_frmt :=
    if ops.1.F + k ≥ 0 then { result_frmt with F := ops.1.F + k, E := ops.1.E }
    else { result_frmt with F := 0, E := ops.1.E + k - ops.1.F }
  { result_frmt with
    aa := shift_aa_list ops.1 (-k), S := ops.1.S, max := ops.1.max, min := ops.1.min,
    shift := 0 }

/-- `division`, general path: the numerator loses its extra sign bits and is
cast to fraction-bit positions. -/
def division_numerator (op1 : SIF) (t1 : tree) : SIF :=
  let op1 := if op1.S > 1 then shift_left op1 t1 (op1.S - 1) else op1
  if op1.F ≠ op1.size - op1.S - op1.I then
    { op1 with F := op1.size - op1.S - op1.I, E := 0 }
  else op1

/-- `division`, general path: the divisor is right-justified and reduced to
half the information bits of the numerator. -/
def division_divisor_halve (op1 op2 : SIF) (t2 : tree) : SIF :=
  let op2 := shift_right op2 t2 op2.E
  if op2.F + op2.I > Int.tdiv (op1.F + op1.I) 2 then
    shift_right op2 t2 (min (op2.F + op2.I - Int.tdiv (op1.F + op1.I) 2) op2.F)
  else op2

/-- `division`, general path: the divisor is truncated to the fraction bits of
the numerator. The flag tells that the "FAILED to process a division" return
was taken. -/
def division_divisor_truncate (op1 op2 : SIF) (t2 : tree) : SIF × Bool :=
  if op2.F > op1.F then
    if op2.F - op1.F > 0 then (shift_right op2 t2 (op2.F - op1.F), false)
    else (op2, true)
  else (op2, false)

/-- `division`, general path: the divisor is truncated until the integer bits
of the numerator and the fraction bits of the divisor fit the destination. The
flag tells that the "FAILED to process a division" return was taken. -/
def division_divisor_fit (f0 : SIF) (op1 op2 : SIF) (t2 : tree) : SIF × Bool :=
  if op1.I + op2.F ≥ f0.size then
    let shift := f0.size - op1.I + 1
    if shift > 0 ∧ shift ≤ op2.F then (shift_right op2 t2 shift, false)
    else (op2, true)
  else (op2, false)

/-- `division`, general path: the three steps on the divisor, stopping at the
first "FAILED to process a division" return. -/
def division_divisor (f0 : SIF) (op1 op2 : SIF) (t2 : tree) : SIF × Bool :=
  let truncated := division_divisor_truncate op1 (division_divisor_halve op1 op2 t2) t2
  if truncated.2 then truncated
  else division_divisor_fit f0 op1 truncated.1 t2

/-- The quotient format of `division`, before the range and the corrections. -/
def division_quotient (f0 : SIF) (ops : SIF × SIF) : SIF :=
  let result_frmt := { f0 with aa := [] }
  let result_frmt := { result_frmt with I := ops.1.I + ops.2.F }
  let result_frmt := { result_frmt with F := ops.1.F - ops.2.F }
  let result_frmt := { result_frmt with S := ops.1.S }
  { result_frmt with
    E := result_frmt.size - result_frmt.S - result_frmt.I - result_frmt.F }

/-- The pessimism correction of `division`. -/
def division_pessimism (cfg : Config) (result_frmt : SIF) : SIF :=
  if pessimistic_format cfg result_frmt ≠ 0 then
    let extraI :=
      result_frmt.I + result_frmt.F + result_frmt.E - ceil_log2_range result_frmt
    let extraI := min result_frmt.I extraI
    let result_frmt := { result_frmt with S := result_frmt.S + extraI }
    { result_frmt with I := result_frmt.I - extraI }
  else result_frmt

/-- The most-negative-number step of `division`. -/
def division_mnn_step (cfg : Config) (result_frmt : SIF) : SIF :=
  if max_is_mnn cfg result_frmt then
    let result_frmt := { result_frmt with S := result_frmt.S - 1 }
    { result_frmt with I := result_frmt.I + 1 }
  else result_frmt

/-- `division` for a statement that is not turned into a multiplication
(`CONST_DIV_TO_MULT` off, or a divisor that is not a constant tree), from the
point where both operand formats are defined. `none` where `affine_divide`
stores through a `NULL` pointer. The rewriting of the statement in the last
pass is left out. -/
def division (cfg : Config) (next_error_id : Int) (f0 : SIF) (ops : SIF × SIF)
    (t1 t2 : tree) : Option stmt_result :=
  if log2_range ops.2 ≥ 0 then
    let result_frmt := division_virtual f0 ops
    some { frmt := { result_frmt with aa := fix_aa_bp cfg result_frmt }, ops := ops,
           errors := division_virtual_errors ops, next_error_id := next_error_id }
  else
    let op1 := division_numerator ops.1 t1
    let divisor := division_divisor f0 op1 ops.2 t2
    if divisor.2 then
      some { frmt := { f0 with aa := [] }, ops := (op1, divisor.1),
             errors := [fx_error.div_failed], next_error_id := next_error_id }
    else
      let result_frmt := division_quotient f0 (op1, divisor.1)
      match new_range_div cfg next_error_id op1 divisor.1 result_frmt with
      | none => none
      | some temp_frmt =>
        let result_frmt := division_mnn_step cfg (division_pessimism cfg temp_frmt.1)
        some { frmt := { result_frmt with aa := fix_aa_bp cfg result_frmt },
               ops := (op1, divisor.1), errors := [], next_error_id := temp_frmt.2 }

/-- The format `get_format_real_value_type` computes for the constant 0.25 when
`long` has 64 bits: no integer bits, F = 2, E = 61, stored integer `2^61` at
binary point 63. -/
def quarter_format : SIF :=
  { initialize_format with
    S := 1, I := 0, F := 2, E := 61, originalF := 2, size := 64, sgnd := 1,
    max := 2 ^ 61, min := 2 ^ 61, aa := [⟨0, 2 ^ 61, 63⟩] }

/-- Both the fraction bits and the empty bits of the format are counted
non-negative. -/
def fe_nonneg (o : SIF) : Prop := 0 ≤ o.F ∧ 0 ≤ o.E

instance (o : SIF) : Decidable (fe_nonneg o) :=
  inferInstanceAs (Decidable (0 ≤ o.F ∧ 0 ≤ o.E))

/-! ## Range merging (`fxopt_range.c`) -/

/-- The test of `range_max` that reports "comparing an undefined range". -/
def range_max_undefined (fmt1 fmt2 : SIF) : Bool :=
  decide (double_int_scmp fmt1.max fmt1.min = -1) ||
    decide (double_int_scmp fmt2.max fmt2.min = -1)

/-- The test of `range_min` that reports "comparing an undefined range"; it
compares each minimum with itself. -/
def range_min_undefined (fmt1 fmt2 : SIF) : Bool :=
  decide (double_int_scmp fmt1.min fmt1.min = -1) ||
    decide (double_int_scmp fmt2.min fmt2.min = -1)

/-- `range_max`: the larger maximum of two formats, at the binary point of the
first. -/
def range_max (cfg : Config) (fmt1 fmt2 : SIF) : double_int :=
  let max1 := fmt1.max
  let bp1 := fmt1.F + fmt1.E
  let max2 := fmt2.max
  let bp2 := fmt2.F + fmt2.E
  let max2 :=
    if bp1 > bp2 then double_int_lshift max2 (bp1 - bp2) HOST_BITS_PER_DOUBLE_INT false
    else max2
  let max1 :=
    if bp1 > bp2 then max1
    else if bp2 > bp1 then
      double_int_lshift max1 (bp2 - bp1) HOST_BITS_PER_DOUBLE_INT false
    else max1
  let maxcmp := double_int_scmp max1 max2
  if maxcmp = -1 then
    if bp1 > bp2 then max2
    else if bp2 > bp1 then
      let max2 := fmt2.max
      let max2 :=
        if cfg.ROUNDING then
          let constant :=
            double_int_lshift double_int_one (bp2 - bp2 - 1) HOST_BITS_PER_DOUBLE_INT false
          let constant :=
            if double_int_negative_p max2 = true ∧ cfg.POSITIVE = false then
              double_int_sub constant double_int_one
            else constant
          double_int_add max2 constant
        else max2
      double_int_rshift max2 (bp2 - bp1) true
    else fmt2.max
  else fmt1.max

/-- `range_min`: the smaller minimum of two formats, at the binary point of
the first. -/
def range_min (cfg : Config) (fmt1 fmt2 : SIF) : double_int :=
  let min1 := fmt1.min
  let bp1 := fmt1.F + fmt1.E
  let min2 := fmt2.min
  let bp2 := fmt2.F + fmt2.E
  let min2 :=
    if bp1 > bp2 then double_int_lshift min2 (bp1 - bp2) HOST_BITS_PER_DOUBLE_INT false
    else min2
  let min1 :=
    if bp1 > bp2 then min1
    else if bp2 > bp1 then
      double_int_lshift min1 (bp2 - bp1) HOST_BITS_PER_DOUBLE_INT false
    else min1
  let mincmp := double_int_scmp min2 min1
  if mincmp = -1 then
    if bp1 > bp2 then min2
    else if bp2 > bp1 then
      let min2 := fmt2.min
      let min2 :=
        if cfg.ROUNDING then
          let constant :=
            double_int_lshift double_int_one (bp2 - bp2 - 1) HOST_BITS_PER_DOUBLE_INT false
          let constant :=
            if double_int_negative_p min2 = true ∧ cfg.POSITIVE = false then
              double_int_sub constant double_int_one
            else constant
          double_int_add min2 constant
        else min2
      double_int_rshift min2 (bp2 - bp1) true
    else fmt2.min
  else fmt1.min

/-- The constant the merge adds before its right shift: the C code shifts one
left by `bp2 - bp2 - 1 = -1`, which gives 0, and takes one off for a negative
bound unless `POSITIVE` is set. -/
def merge_round_const (cfg : Config) (x : Int) : Int :=
  if cfg.ROUNDING = true ∧ x < 0 ∧ cfg.POSITIVE = false then -1 else 0

/-! ## The format table (`fxopt_plugin.h`, `fxopt_utils.c`) -/

def MAX_PASSES : Int := 256
def MAX_ELEMENTS : Int := 256

/-- Index that marks a format that is not an array element. -/
def NOT_AN_ARRAY : Int := MAX_ELEMENTS - 1

def UID_IDX_TO_KEY (x y : Int) : Int := ((x * MAX_ELEMENTS) + y) * MAX_PASSES

/-- Macro `UID_PASS_IDX_TO_KEY(x,y,z)`: `x` the uid, `y` the pass, `z` the
index. -/
def UID_PASS_IDX_TO_KEY (x y z : Int) : Int := (((x * MAX_PASSES) + z) * MAX_ELEMENTS) + y

def KEY_TO_UID (x : Int) : Int := Int.tdiv x (MAX_ELEMENTS * MAX_PASSES)
def KEY_TO_PASS (x : Int) : Int := Int.tmod x MAX_PASSES
def KEY_TO_IDX (x : Int) : Int := Int.tmod (Int.tdiv x MAX_PASSES) MAX_ELEMENTS

/-- `id_sort`: order by uid, then index, then pass. -/
def id_sort (a b : SIF) : Int :=
  if KEY_TO_UID a.id ≠ KEY_TO_UID b.id then KEY_TO_UID a.id - KEY_TO_UID b.id
  else if KEY_TO_IDX a.id ≠ KEY_TO_IDX b.id then KEY_TO_IDX a.id - KEY_TO_IDX b.id
  else KEY_TO_PASS a.id - KEY_TO_PASS b.id

/-- `get_format_ptr` (`HASH_FIND_INT`) on the hash table `var_formats`, which
is carried as the list of its entries in iteration order. -/
def get_format_ptr (tbl : List SIF) (var_id : Int) : Option SIF :=
  tbl.find? (fun s => decide (s.id = var_id))

/-- An assignment through the pointer that `get_format_ptr` returns for
`var_id`. -/
def table_modify : List SIF → Int → (SIF → SIF) → List SIF
  | [], _, _ => []
  | e :: rest, var_id, f =>
    if e.id = var_id then f e :: rest else e :: table_modify rest var_id f

/-- `add_var_format`. -/
def add_var_format (tbl : List SIF) (var_id : Int) : List SIF :=
  let uid := KEY_TO_UID var_id
  if uid = 0 then tbl
  else
    let s := { initialize_format with id := var_id }
    let declid := UID_IDX_TO_KEY uid NOT_AN_ARRAY
    let s :=
      if var_id ≠ declid then
        match get_format_ptr tbl declid with
        | some declfmt =>
          { s with
            size := declfmt.size, sgnd := declfmt.sgnd,
            has_attribute := declfmt.has_attribute, attrS := declfmt.attrS,
            attrI := declfmt.attrI, attrF := declfmt.attrF, attrE := declfmt.attrE,
            attrmax := declfmt.attrmax, attrmin := declfmt.attrmin,
            ptr_op := declfmt.ptr_op, iv := declfmt.iv, iter := declfmt.iter }
        | none => s
      else s
    tbl ++ [s]

/-- Insertion of one entry into a list sorted by `id_sort`, after the entries
that do not compare greater. -/
def hash_sort_insert (s : SIF) : List SIF → List SIF
  | [] => [s]
  | e :: rest => if id_sort s e < 0 then s :: e :: rest else e :: hash_sort_insert s rest

/-- `HASH_SORT(var_formats, id_sort)`, a stable sort. -/
def HASH_SORT (tbl : List SIF) : List SIF :=
  tbl.foldl (fun sorted s => hash_sort_insert s sorted) []

/-- The block that `force_ptr_consistency` spells out twice: the affine list
that states the range `[aamin, aamax]` alone, a center term and one term of
the given key at binary point `bp`, zero terms left out. -/
def range_aa_list (aamax aamin : double_int) (key bp : Int) : List AA :=
  let x0 := double_int_rshift (double_int_add aamax aamin) 1 true
  let x1 := double_int_rshift (double_int_sub aamax aamin) 1 true
  let aa : List AA := []
  let aa := if !double_int_zero_p x0 then append_aa_var aa 0 x0 bp else aa
  if !double_int_zero_p x1 then append_aa_var aa key x1 bp else aa

/-- Body of the first loop of `force_ptr_consistency` for the entry `s`: an
alias written in this pass pushes its range to its target. `none` where the
target cannot be created and a `NULL` pointer is read. -/
def force_ptr_alias_step (fxpass : Int) (tbl : List SIF) (s : SIF) : Option (List SIF) :=
  if s.alias_id ≠ 0 ∧ KEY_TO_PASS s.id = fxpass ∧ s.aa ≠ [] then
    let index := KEY_TO_IDX s.id
    let key := UID_PASS_IDX_TO_KEY (KEY_TO_UID s.alias_id) fxpass index
    let found : Option (List SIF) :=
      match get_format_ptr tbl key with
      | some _ => some tbl
      | none =>
        let tbl := add_var_format tbl key
        match get_format_ptr tbl key with
        | none => none
        | some _ =>
          some (table_modify tbl key (fun ss =>
            if ss.has_attribute ≠ 0 then
              { ss with S := ss.attrS, I := ss.attrI, F := ss.attrF, E := ss.attrE,
                        max := ss.attrmax, min := ss.attrmin }
            else ss))
    match found with
    | none => none
    | some tbl =>
      match get_format_ptr tbl s.id, get_format_ptr tbl key with
      | some s, some ss =>
        let bp := s.F + s.E
        let newmax := double_int_smax s.max ss.max
        let newmin := double_int_smin s.min ss.min
        let aamax := double_int_smax (aa_max ss.aa) (aa_max s.aa)
        let aamin := double_int_smin (aa_min ss.aa) (aa_min s.aa)
        let key2 := UID_PASS_IDX_TO_KEY (KEY_TO_UID ss.id) fxpass index
        let tbl := table_modify tbl ss.id (fun ss =>
          { ss with max := newmax, min := newmin, aa := range_aa_list aamax aamin key2 bp })
        some (table_modify tbl s.id (fun s => { s with alias_id := key2 }))
      | _, _ => none
  else some tbl

/-- The first loop of `force_ptr_consistency`, over the entries in iteration
order (entries created on the way are visited too); `none` also when the
budget of iterations is used up. -/
def force_ptr_alias_loop (fxpass : Int) : Nat → Nat → List SIF → Option (List SIF)
  | 0, _, _ => none
  | fuel + 1, i, tbl =>
    match tbl.get? i with
    | none => some tbl
    | some s =>
      match force_ptr_alias_step fxpass tbl s with
      | none => none
      | some tbl => force_ptr_alias_loop fxpass fuel (i + 1) tbl

/-- The locals of the second loop of `force_ptr_consistency`. -/
structure ptr_acc where
  uid : Int
  max : double_int
  min : double_int
  aamax : double_int
  aamin : double_int
  bp : Int

/-- The inner loop of the second loop: every entry of the saved uid in this
pass, at each index below `MAX_ELEMENTS`, gets the accumulated range. -/
def force_ptr_flush (fxpass : Int) (acc : ptr_acc) (tbl : List SIF) : List SIF :=
  (List.range 256).foldl
    (fun tbl j =>
      let key := UID_PASS_IDX_TO_KEY acc.uid fxpass (j : Int)
      match get_format_ptr tbl key with
      | none => tbl
      | some _ =>
        table_modify tbl key (fun ss =>
          { ss with max := acc.max, min := acc.min,
                    aa := range_aa_list acc.aamax acc.aamin key acc.bp }))
    tbl

/-- Body of the second loop of `force_ptr_consistency` for the entry `s`. -/
def force_ptr_union_step (fxpass : Int) (acc : ptr_acc) (tbl : List SIF) (s : SIF) :
    ptr_acc × List SIF :=
  let flushed : ptr_acc × List SIF :=
    if 0 ≠ acc.uid ∧ KEY_TO_UID s.id ≠ acc.uid then
      ({ acc with uid := 0, max := double_int_zero, min := double_int_zero,
                  aamax := double_int_zero, aamin := double_int_zero },
        force_ptr_flush fxpass acc tbl)
    else (acc, tbl)
  let acc := flushed.1
  let tbl := flushed.2
  if KEY_TO_UID s.id = acc.uid ∧ KEY_TO_PASS s.id = fxpass then
    if NOT_AN_ARRAY ≠ KEY_TO_IDX s.id then
      ({ acc with
          max := double_int_smax acc.max s.max, min := double_int_smin acc.min s.min,
          aamax := double_int_smax acc.aamax (aa_max s.aa),
          aamin := double_int_smin acc.aamin (aa_min s.aa) }, tbl)
    else (acc, tbl)
  else if s.ptr_op ≠ 0 ∧ s.alias_id = 0 ∧ KEY_TO_PASS s.id = fxpass then
    ({ uid := KEY_TO_UID s.id, max := s.max, min := s.min, aamax := aa_max s.aa,
       aamin := aa_min s.aa, bp := s.F + s.E }, tbl)
  else (acc, tbl)

/-- The second loop of `force_ptr_consistency`, over the sorted entries; the
entry at each position is read when the loop reaches it. -/
def force_ptr_union_loop (fxpass : Int) : Nat → Nat → ptr_acc → List SIF → List SIF
  | 0, _, _, tbl => tbl
  | n + 1, i, acc, tbl =>
    match tbl.get? i with
    | none => tbl
    | some s =>
      let st := force_ptr_union_step fxpass acc tbl s
      force_ptr_union_loop fxpass n (i + 1) st.1 st.2

/-- `force_ptr_consistency` on the table `var_formats` in pass `fxpass`. The
locals the C code leaves unset are zero; they are assigned before they reach
any entry. -/
def force_ptr_consistency (fxpass : Int) (tbl : List SIF) : Option (List SIF) :=
  match force_ptr_alias_loop fxpass (2 * tbl.length + 1) 0 tbl with
  | none => none
  | some tbl =>
    let tbl := HASH_SORT tbl
    some (force_ptr_union_loop fxpass tbl.length 0
      { uid := 0, max := 0, min := 0, aamax := 0, aamin := 0, bp := 0 } tbl)

/-- A pointer-valued 8-bit format with the given key and range. -/
def pointer_format (id : Int) (min max : double_int) : SIF :=
  { sample_format 1 3 4 0 0 min max [] with id := id, ptr_op := 1 }

/-! ## Copies, constants and pinned formats (`fxopt_affine.c`, `fxopt_utils.c`) -/

/-- The test of `append_aa_var` that reports "cannot append to list, already
has this element". -/
def append_aa_var_reports (aa_list : List AA) (var_key : Int) : Bool :=
  (search_aa_var aa_list var_key).isSome

/-- `copy_aa_list`: a copy of every term; the `NULL` list as soon as a term
carries the key `0xbad` of a destroyed list. -/
def copy_aa_list (aa_src_list : List AA) : List AA :=
  if aa_src_list.any (fun e => decide (e.id = 0xbad)) then [] else aa_src_list

/-- `affine_assign`: a copy of every term, negated when `add` is false; the
`NULL` list as soon as a term carries the key `0xbad`. -/
def affine_assign (aa_src_list : List AA) (add : Bool) : List AA :=
  if aa_src_list.any (fun e => decide (e.id = 0xbad)) then []
  else aa_src_list.map (fun e => if add then e else { e with coeff := double_int_neg e.coeff })

/-- `copy_SIF`. The flag `same` tells that `dest` and `src` are one object,
`shared_aa` that the two objects point to one affine list. -/
def copy_SIF (src dest : SIF) (same shared_aa : Bool) : SIF :=
  if same then dest
  else
    { dest with
      S := src.S, I := src.I, F := src.F, E := src.E, max := src.max, min := src.min,
      iv := src.iv, aa := if shared_aa then dest.aa else copy_aa_list src.aa }

/-- GCC `tree_int_cst_min_precision`: the bits needed for the value in an
unsigned or a signed type; a negative value is complemented first. -/
def tree_int_cst_min_precision (value : Int) (unsignedp : Bool) : Int :=
  let value := if value < 0 then -value - 1 else value
  let log : Int := if value = 0 then 0 else (Nat.log 2 value.toNat : Int)
  log + 1 + (if unsignedp then 0 else 1)

/-- `int_constant_format` for the integer constant `v`, on the format
`op_fmt`. -/
def int_constant_format (v : double_int) (op_fmt : SIF) : SIF :=
  let sg : Int := if tree_int_cst_sgn (tree.integer_cst v) < 0 then 1 else 0
  let op_fmt :=
    { op_fmt with I := if v = 0 then 1 else tree_int_cst_min_precision v true }
  let op_fmt := { op_fmt with F := 0, E := 0, S := sg, sgnd := sg }
  let op_fmt := { op_fmt with size := op_fmt.I + op_fmt.S }
  let op_fmt := { op_fmt with min := v, max := v }
  let op_fmt :=
    { op_fmt with shift := 0, has_attribute := 0, ptr_op := 0, iv := 0, alias_id := 0 }
  { op_fmt with aa := append_aa_var [] 0 op_fmt.max 0 }

/-- What the loop keeps of one assignment processed in a pass: whether the
format of its result is initialized, and whether `set_var_format` reported a
change on a destination that is used iteratively. -/
structure stmt_outcome where
  result_initialized : Bool
  lhs_changed : Bool
  deriving DecidableEq

/-- The three counters of a pass. -/
structure pass_counters where
  undefined_result_format : Int
  statements_updated : Int
  formats_changed : Int
  deriving DecidableEq

/-- The counter updates at the end of the processing of one assignment. -/
def count_statement (c : pass_counters) (o : stmt_outcome) : pass_counters :=
  let c :=
    if o.result_initialized then { c with statements_updated := c.statements_updated + 1 }
    else { c with undefined_result_format := c.undefined_result_format + 1 }
  if o.lhs_changed then
    { statements_updated := c.statements_updated + 1,
      undefined_result_format := c.undefined_result_format + 1,
      formats_changed := c.formats_changed + 1 }
  else c

/-- The counters at the end of a pass over the given assignments. -/
def pass_counts (os : List stmt_outcome) : pass_counters :=
  os.foldl count_statement
    { undefined_result_format := 0, statements_updated := 0, formats_changed := 0 }

/-- How the measure loop ends: all formats resolved, the error "couldn't
resolve all formats", or the fatal error "Too many passes". -/
inductive measure_end where
  | resolved
  | unresolved
  | too_many_passes
  deriving DecidableEq

/-- The state at the end of the measure loop: how it ended, the pass counter,
the program state and the assignments of the last pass (none when the loop is
aborted at its head). -/
structure measure_result (σ : Type) where
  ending : measure_end
  fxpass : Int
  state : σ
  last : List stmt_outcome

/-- The `do ... while (undefined_result_format && statements_updated)` loop of
`execute_fxopt_plugin`. The processing of the statements of one pass is the
parameter `body`: from the pass number, the flag `formats_changed` of the
pass before and the program state it gives the new state and the assignments
it processed. `none` when the budget of iterations is used up. -/
def measure_loop {σ : Type} (body : Int → Bool → σ → σ × List stmt_outcome) :
    Nat → Int → Int → σ → Option (measure_result σ)
  | 0, _, _, _ => none
  | fuel + 1, fxpass, formats_changed, s =>
    let fxpass := fxpass + 1
    if fxpass ≥ MAX_PASSES then
      some { ending := measure_end.too_many_passes, fxpass := fxpass, state := s, last := [] }
    else
      let r := body fxpass (decide (formats_changed ≠ 0)) s
      let c := pass_counts r.2
      if c.undefined_result_format ≠ 0 ∧ c.statements_updated ≠ 0 then
        measure_loop body fuel fxpass c.formats_changed r.1
      else
        some { ending :=
                 if c.undefined_result_format ≠ 0 then measure_end.unresolved
                 else measure_end.resolved,
               fxpass := fxpass, state := r.1, last := r.2 }

/-- A pass body standing for a loop-carried value whose range widens on every
pass: the one assignment has an initialized result, and `set_var_format`
reports a change on its iteratively used destination. The state counts the
passes. -/
def widening_body (_fxpass : Int) (_revisit : Bool) (n : Nat) : Nat × List stmt_outcome :=
  (n + 1, [{ result_initialized := true, lhs_changed := true }])

/-- A pass body of two assignments that settles in its third pass: in the
first two passes the second result is still undefined. -/
def settling_body (_fxpass : Int) (_revisit : Bool) (n : Nat) : Nat × List stmt_outcome :=
  (n + 1,
   [{ result_initialized := true, lhs_changed := false },
    { result_initialized := decide (2 ≤ n), lhs_changed := false }])

/-- The value is representable in `size` bits of two's complement, for a size
of 1 to 128 bits. -/
def fits_width (x size : Int) : Prop :=
  1 ≤ size ∧ size ≤ 128 ∧ -2 ^ (size - 1).toNat ≤ x ∧ x < 2 ^ (size - 1).toNat

instance (x size : Int) : Decidable (fits_width x size) :=
  inferInstanceAs (Decidable (1 ≤ size ∧ size ≤ 128 ∧ -2 ^ (size - 1).toNat ≤ x ∧
    x < 2 ^ (size - 1).toNat))

/-! ## Error-term keys -/

/-- The value of the global `next_error_id` after a sequence of calls of
`affine_multiply` on the given pairs of operand lists, from the value given. -/
def error_ids_after (calls : List (List AA × List AA)) (next_error_id : Int) : Int :=
  calls.foldl (fun n c => (affine_multiply n c.1 c.2).2) next_error_id

/-- The affine form `3 + 2 e` of a variable with key 327680 (uid 5) at binary
point 0. -/
def sample_aa1 : List AA := [⟨0, 3, 0⟩, ⟨327680, 2, 0⟩]

/-- The affine form `1 + e` of a variable with key 458752 (uid 7) at binary
point 0. -/
def sample_aa2 : List AA := [⟨0, 1, 0⟩, ⟨458752, 1, 0⟩]

/-! ## Rewriting of the operands in the last pass (`execute_fxopt_plugin`) -/

def double_int_minus_one : double_int := -1

/-- The constant the last pass writes into the statement for a constant
operand with a nonzero pending shift: `constant_double` as it is handed to
`double_int_to_tree`. The shifts keep `size` bits. -/
def folded_constant (fmt : SIF) (t : tree) : double_int :=
  let constant_double := tree_constant_value t
  if fmt.shift < 0 then
    double_int_lshift constant_double (-fmt.shift) fmt.size.toNat false
  else
    let round_const := double_int_lshift double_int_one (fmt.shift - 1) fmt.size.toNat false
    let round_const :=
      if double_int_negative_p constant_double then
        double_int_add round_const double_int_minus_one
      else round_const
    let constant_double := double_int_add constant_double round_const
    double_int_rshift_prec constant_double fmt.shift fmt.size.toNat true

/-- A value brought to the two's-complement type of `size` bits in which the
inserted statements compute. -/
def to_type (size : Int) (v : Int) : Int := double_int_sext (wrap v) size

/-- The value of the operand after the statements the last pass inserts for a
variable operand with a nonzero pending shift, as a function of the operand's
run-time value `x`: the guard shift, the sign-bit extraction and the rounding
add where they are emitted, then the shift. -/
def emitted_shift (cfg : Config) (fmt : SIF) (x : Int) : Int :=
  if fmt.shift < 0 then to_type fmt.size (x * 2 ^ (-fmt.shift).toNat)
  else
    let st : Int × Int :=
      if cfg.ROUNDING = true ∧ fmt.originalF > fmt.F then
        let guarded : Bool := cfg.GUARDING && rounding_may_overflow cfg fmt
        let v := if guarded then x / 2 else x
        let shift := if guarded then fmt.shift - 1 else fmt.shift
        if shift > 0 then
          let rounding_const : Int := 2 ^ (shift - 1).toNat
          if double_int_negative_p fmt.min = true ∧ double_int_positive_p fmt.max = true ∧
              cfg.POSITIVE = false then
            let sign_bit_var := v / 2 ^ (fmt.size - 1).toNat
            let s_round_var := to_type fmt.size (sign_bit_var + rounding_const)
            (to_type fmt.size (v + s_round_var), shift)
          else if double_int_positive_p fmt.max then
            (to_type fmt.size (v + rounding_const), shift)
          else (to_type fmt.size (v + (rounding_const - 1)), shift)
        else (v, shift)
      else (x, fmt.shift)
    if st.2 ≠ 0 then st.1 / 2 ^ st.2.toNat else st.1

/-- The rounded shift as the text gives it: `(x + 2^(s-1) - d) >> s` with
`d = 1` for a negative `x` when round-to-positive-infinity is off and `d = 0`
otherwise. -/
def rounded_shift_spec (cfg : Config) (x s : Int) : Int :=
  (x + 2 ^ (s - 1).toNat - (if x < 0 ∧ cfg.POSITIVE = false then 1 else 0)) / 2 ^ s.toNat

/-- Interval mode with rounding to positive infinity. -/
def cfg_interval_positive : Config :=
  { INTERVAL := true, AFFINE := false, GUARDING := false, ROUNDING := true,
    POSITIVE := true, DBL_PRECISION_MULTS := false, CONST_DIV_TO_MULT := false }

/-- Interval mode without rounding. -/
def cfg_interval_truncate : Config :=
  { INTERVAL := true, AFFINE := false, GUARDING := false, ROUNDING := false,
    POSITIVE := false, DBL_PRECISION_MULTS := false, CONST_DIV_TO_MULT := false }

/-! ## Storing a result format (`set_var_format`) -/

/-- What `nop` leaves behind: the returned format, the format of operand 1
with its pending shift, and whether "could not preserve pointer format" was
reported. -/
structure nop_result where
  frmt : SIF
  oprnd1 : SIF
  pointer_error : Bool

/-- `nop` from the point where the format `f1` of operand 1 has been fetched.
`cast_p` is `gimple_assign_cast_p(stmt)`, `negate` tells a `NEGATE_EXPR`. The
closing loop over the elements of a whole-array source changes table entries
only and is left out. -/
def nop (cfg : Config) (cast_p negate : Bool) (f0 f1 : SIF) (t1 : tree) : nop_result :=
  if format_initialized f1 = false then ⟨initialize_format, f1, false⟩
  else
    let result_frmt := { f0 with shift := 0, aa := [] }
    let st : SIF × SIF :=
      if f0.size = f1.size then
        if cast_p = true ∨ f0.sgnd = f1.sgnd ∨
            (f0.sgnd ≠ 0 ∧ f1.ptr_op ≠ 0 ∧ f0.ptr_op = 0) ∨
            (f1.sgnd ≠ 0 ∧ f0.ptr_op ≠ 0 ∧ f1.ptr_op = 0) then
          (copy_SIF f1 result_frmt false false, f1)
        else if f1.sgnd ≠ 0 then (result_frmt, f1)
        else (result_frmt, shift_right f1 t1 1)
      else (result_frmt, f1)
    let result_frmt := st.1
    let f1 := st.2
    let result_frmt :=
      if negate then
        { result_frmt with
          max := double_int_neg result_frmt.min, min := double_int_neg result_frmt.max }
      else result_frmt
    let st : SIF × SIF × Bool :=
      if f0.ptr_op ≠ 0 ∧ f1.ptr_op = 0 then
        let bp_diff := (f0.S + f0.I) - (result_frmt.S + result_frmt.I)
        let sh : SIF × Bool :=
          if bp_diff > 0 then (shift_right f1 t1 bp_diff, false)
          else if bp_diff < 0 then
            if bp_diff + f1.S > 0 then (shift_left f1 t1 bp_diff, false)
            else (f1, true)
          else (f1, false)
        let f1 := sh.1
        ({ result_frmt with
            S := f1.S, I := f1.I, F := f1.F, E := f1.E,
            min := new_min cfg f1, max := new_max cfg f1 }, f1, sh.2)
      else (result_frmt, f1, false)
    let result_frmt := st.1
    let f1 := st.2.1
    let result_frmt :=
      { result_frmt with
        E := result_frmt.size - result_frmt.S - result_frmt.I - result_frmt.F }
    ⟨{ result_frmt with aa := affine_assign f1.aa (!negate) }, f1, st.2.2⟩

/-- A pointer-typed destination with the format (1,3,4,0). -/
def sample_pointer_dest : SIF :=
  { sample_format 1 3 4 0 0 (-128) 127 [] with ptr_op := 1 }

/-! ## Saturation to a pinned format (`apply_fxfrmt` in `fxopt_utils.c`) -/

/-- GCC `double_int_and_not`: `a & ~b`. -/
def double_int_and_not (a b : double_int) : double_int :=
  double_int_and a (double_int_not b)

/-- The saturation value of `apply_fxfrmt`: the mask of `sat_bits` bits with
the low bits at the pending-shift and empty positions cleared. -/
def sat_value (new_frmt : SIF) (sat_bits : Int) : double_int :=
  let sat_value := double_int_mask sat_bits
  let sat_value :=
    if new_frmt.shift ≠ 0 then double_int_and_not sat_value (double_int_mask new_frmt.shift)
    else sat_value
  if new_frmt.E > 0 then double_int_and_not sat_value (double_int_mask new_frmt.E)
  else sat_value

/-- The attribute block of `apply_fxfrmt`. -/
def apply_fxfrmt_saturate (f0 result_frmt : SIF) : SIF :=
  let new_frmt := result_frmt
  if f0.has_attribute ≠ 0 then
    if f0.I < result_frmt.I then
      let new_frmt :=
        { new_frmt with
          S := result_frmt.S + (result_frmt.I - f0.I),
          shift := result_frmt.shift - (result_frmt.I - f0.I) }
      let new_frmt := { new_frmt with shift := max new_frmt.shift 0, I := f0.I }
      let sat_bits := f0.I + result_frmt.F + result_frmt.E
      let new_frmt :=
        { new_frmt with max := double_int_smin new_frmt.max (sat_value new_frmt sat_bits) }
      { new_frmt with
        min := double_int_smax new_frmt.min
          (double_int_sext (double_int_neg new_frmt.max) (PRECISION new_frmt)) }
    else new_frmt
  else new_frmt

/-- The pointer block of `apply_fxfrmt`. -/
def apply_fxfrmt_pointer (f0 result_frmt new_frmt : SIF) : SIF :=
  if f0.ptr_op ≠ 0 then
    let st : SIF × Int :=
      if f0.I > result_frmt.I then
        let bits2convert := min (f0.S - 1) (f0.I - result_frmt.I)
        let new_frmt :=
          if bits2convert > 0 then
            { new_frmt with S := result_frmt.S - bits2convert, I := result_frmt.I + bits2convert }
          else new_frmt
        let shift_size := f0.I - result_frmt.I - bits2convert
        ({ new_frmt with I := new_frmt.I + shift_size }, shift_size)
      else (new_frmt, 0)
    let new_frmt := st.1
    let shift_size := if f0.S ≠ new_frmt.S then st.2 + (f0.S - new_frmt.S) else st.2
    let new_frmt := { new_frmt with shift := new_frmt.shift + shift_size }
    let new_frmt :=
      if new_frmt.E > shift_size then { new_frmt with E := new_frmt.E - shift_size }
      else { new_frmt with F := new_frmt.F - (shift_size - new_frmt.E), E := 0 }
    { new_frmt with S := f0.S }
  else new_frmt

/-- `apply_fxfrmt`: the format returned for a destination with the format
`f0` and the derived format `result_frmt`. The statements inserted on the last
pass do not enter the returned format. -/
def apply_fxfrmt (f0 result_frmt : SIF) : SIF :=
  apply_fxfrmt_pointer f0 result_frmt (apply_fxfrmt_saturate f0 result_frmt)

/-- The statements `apply_fxfrmt` inserts on the last pass, on a value `x` of
the result variable: `MIN_EXPR` with the constant `new_frmt.max` when that is
positive, then `MAX_EXPR` with its negation when `new_frmt.min` is negative. -/
def emitted_saturation (new_frmt : SIF) (x : Int) : Int :=
  let maxpos := to_type new_frmt.size new_frmt.max
  let x := if double_int_positive_p new_frmt.max then min x maxpos else x
  if double_int_negative_p new_frmt.min then max x (to_type new_frmt.size (-maxpos)) else x

/-- Spec side: `2^(I0+F+E) - 1` with the low bits below the pending shift
left after saturation and below the unused bits cleared. -/
def sat_value_spec (f0 result_frmt : SIF) : Int :=
  let n := (f0.I + result_frmt.F + result_frmt.E).toNat
  let k := (max (max (result_frmt.shift - (result_frmt.I - f0.I)) 0) result_frmt.E).toNat
  2 ^ n - 2 ^ (min n k)

/-- A destination pinned to the format (1,3,4,0). -/
def sample_pinned_dest : SIF :=
  { sample_format 1 3 4 0 0 (-128) 127 [] with
    has_attribute := 1, attrS := 1, attrI := 3, attrF := 4, attrE := 0, attrmax := 127,
    attrmin := -128 }
/-! ## Theorems -/

/-! ### `double_int` arithmetic without overflow -/

theorem wrap_eq_self {x : Int} (h : DI_fits x) : wrap x = x := by
  unfold DI_fits at h
  unfold wrap
  have h1 : (0 : Int) ≤ x + 2 ^ 127 := by linarith [h.1]
  have h2 : x + 2 ^ 127 < 2 ^ 128 := by
    have : (2 : Int) ^ 128 = 2 ^ 127 + 2 ^ 127 := by norm_num
    linarith [h.2]
  rw [Int.emod_eq_of_lt h1 h2]
  ring

theorem wrap_fits (x : Int) : DI_fits (wrap x) := by
  unfold DI_fits wrap
  have hpos : (0 : Int) < 2 ^ 128 := by positivity
  have h1 := Int.emod_nonneg (x + 2 ^ 127) (ne_of_gt hpos)
  have h2 := Int.emod_lt_of_pos (x + 2 ^ 127) hpos
  have : (2 : Int) ^ 128 = 2 ^ 127 + 2 ^ 127 := by norm_num
  constructor <;> linarith

theorem double_int_smax_eq (a b : Int) : double_int_smax a b = max a b := by
  unfold double_int_smax double_int_scmp
  rcases lt_trichotomy a b with h | h | h
  · simp [h, max_eq_right (le_of_lt h)]
  · simp [h]
  · have h1 : ¬ a < b := not_lt.mpr (le_of_lt h)
    have h2 : ¬ a = b := ne_of_gt h
    simp [h1, h2, max_eq_left (le_of_lt h)]

theorem double_int_smin_eq (a b : Int) : double_int_smin a b = min a b := by
  unfold double_int_smin double_int_scmp
  rcases lt_trichotomy a b with h | h | h
  · simp [h, min_eq_left (le_of_lt h)]
  · simp [h]
  · have h1 : ¬ a < b := not_lt.mpr (le_of_lt h)
    have h2 : ¬ a = b := ne_of_gt h
    simp [h1, h2, min_eq_right (le_of_lt h)]

theorem pow_toNat_le_126 (s : Int) (hs : s ≤ 127) :
    (2 : Int) ^ (s - 1).toNat ≤ 2 ^ 126 := by
  apply pow_le_pow_right₀ (by norm_num)
  omega

theorem round_shift_left (cfg : Config) (x s : Int) (hs : s < 0)
    (hx : DI_fits (x * 2 ^ (-s).toNat)) :
    round_shift cfg x s = x * 2 ^ (-s).toNat := by
  unfold round_shift double_int_rshift
  have h1 : ¬ s > 0 := by omega
  simp only [h1, false_and, if_false, hs, if_true]
  exact wrap_eq_self hx

theorem round_shift_right (cfg : Config) (x s : Int) (hs : 0 < s) (hs2 : s ≤ 127)
    (hx : DI_fits x) (hxc : DI_fits (x + 2 ^ (s - 1).toNat)) :
    round_shift cfg x s =
      (x + (if cfg.ROUNDING = true then
              2 ^ (s - 1).toNat - (if x < 0 ∧ cfg.POSITIVE = false then 1 else 0)
            else 0)) / 2 ^ s.toNat := by
  have hp := pow_toNat_le_126 s hs2
  have hp0 : (0 : Int) < 2 ^ (s - 1).toNat := by positivity
  have e127 : (2 : Int) ^ 127 = 2 ^ 126 + 2 ^ 126 := by norm_num
  have hc : wrap (1 * 2 ^ (s - 1).toNat) = 2 ^ (s - 1).toNat := by
    rw [one_mul]
    apply wrap_eq_self
    unfold DI_fits
    constructor <;> linarith
  have hc1 : wrap (2 ^ (s - 1).toNat - 1) = 2 ^ (s - 1).toNat - 1 := by
    apply wrap_eq_self
    unfold DI_fits
    constructor <;> linarith
  unfold DI_fits at hx hxc
  have hxc1 : wrap (x + (2 ^ (s - 1).toNat - 1)) = x + (2 ^ (s - 1).toNat - 1) := by
    apply wrap_eq_self
    unfold DI_fits
    constructor <;> linarith [hx.1, hxc.2]
  have hxc0 : wrap (x + 2 ^ (s - 1).toNat) = x + 2 ^ (s - 1).toNat :=
    wrap_eq_self hxc
  have hns : ¬ s < 0 := by omega
  have hs1 : ¬ s - 1 < 0 := by omega
  unfold round_shift double_int_rshift double_int_lshift double_int_add double_int_sub
    double_int_negative_p double_int_one HOST_BITS_PER_DOUBLE_INT
  by_cases hR : cfg.ROUNDING = true
  · by_cases hneg : x < 0 ∧ cfg.POSITIVE = false
    · simp only [hs, hR, hneg, hns, hs1, hc, hc1, hxc1, and_self, if_true, if_false,
        decide_True, ge_iff_le, le_refl, gt_iff_lt]
    · have hneg2 : ¬ (decide (x < 0) = true ∧ cfg.POSITIVE = false) := by
        simpa using hneg
      simp only [hs, hR, hneg, hneg2, hns, hs1, hc, hxc0, and_self, if_true, if_false,
        ge_iff_le, le_refl, gt_iff_lt, sub_zero]
  · have hR2 : cfg.ROUNDING = false := by simpa using hR
    simp [hs, hR2, hns]

theorem shifted_bound_mono (cfg : Config) (s x y : Int) (hxy : x ≤ y)
    (hx : shift_fits x s) (hy : shift_fits y s) :
    (if ¬ x = 0 ∧ s ≠ 0 then round_shift cfg x s else x) ≤
      (if ¬ y = 0 ∧ s ≠ 0 then round_shift cfg y s else y) := by
  obtain ⟨hx1, hs127, hxl, hxr⟩ := hx
  obtain ⟨hy1, -, hyl, hyr⟩ := hy
  rcases lt_trichotomy s 0 with hs | hs | hs
  · have hs0 : s ≠ 0 := by omega
    have ex : (if ¬ x = 0 ∧ s ≠ 0 then round_shift cfg x s else x) = x * 2 ^ (-s).toNat := by
      by_cases h0 : x = 0
      · simp [h0]
      · simp only [h0, hs0, not_false_eq_true, ne_eq, and_self, if_true]
        exact round_shift_left cfg x s hs (hxl hs)
    have ey : (if ¬ y = 0 ∧ s ≠ 0 then round_shift cfg y s else y) = y * 2 ^ (-s).toNat := by
      by_cases h0 : y = 0
      · simp [h0]
      · simp only [h0, hs0, not_false_eq_true, ne_eq, and_self, if_true]
        exact round_shift_left cfg y s hs (hyl hs)
    rw [ex, ey]
    exact mul_le_mul_of_nonneg_right hxy (by positivity)
  · simp [hs, hxy]
  · have hs0 : s ≠ 0 := by omega
    have hpos : (0 : Int) < 2 ^ s.toNat := by positivity
    have hhalf : (2 : Int) ^ (s - 1).toNat < 2 ^ s.toNat := by
      apply pow_lt_pow_right₀ (by norm_num)
      omega
    have hp0 : (0 : Int) < 2 ^ (s - 1).toNat := by positivity
    have key : ∀ z : Int, DI_fits z → DI_fits (z + 2 ^ (s - 1).toNat) →
        (if ¬ z = 0 ∧ s ≠ 0 then round_shift cfg z s else z) =
          (z + (if cfg.ROUNDING = true then
              2 ^ (s - 1).toNat - (if z < 0 ∧ cfg.POSITIVE = false then 1 else 0)
            else 0)) / 2 ^ s.toNat := by
      intro z hz hzc
      by_cases h0 : z = 0
      · subst h0
        simp only [not_true_eq_false, false_and, if_false, lt_self_iff_false, zero_add,
          sub_zero]
        by_cases hR : cfg.ROUNDING = true
        · simp only [hR, if_true]
          exact (Int.ediv_eq_zero_of_lt (le_of_lt hp0) hhalf).symm
        · simp [hR]
      · simp only [h0, hs0, not_false_eq_true, ne_eq, and_self, if_true]
        exact round_shift_right cfg z s hs hs127 hz hzc
    rw [key x hx1 (hxr hs), key y hy1 (hyr hs)]
    apply Int.ediv_le_ediv hpos
    by_cases hP : cfg.POSITIVE = false
    · simp only [hP, and_true]
      split_ifs <;> linarith
    · have hP2 : ∀ z : Int, (z < 0 ∧ cfg.POSITIVE = false) ↔ False := by
        intro z; constructor
        · exact fun h => hP h.2
        · exact fun h => h.elim
      simp only [hP2, if_false]
      split_ifs <;> linarith
/-! ### Affine lists: keys, coefficients, `aa_min` and `aa_max` -/

theorem search_aa_var_eq_none {l : List AA} {k : Int} :
    search_aa_var l k = none ↔ k ∉ aa_keys l := by
  unfold search_aa_var aa_keys
  rw [List.find?_eq_none]
  simp only [decide_eq_true_eq, List.mem_map, not_exists, not_and]

theorem search_aa_var_some_id {l : List AA} {k : Int} {e : AA}
    (h : search_aa_var l k = some e) : e.id = k ∧ e ∈ l := by
  unfold search_aa_var at h
  have h1 := List.find?_some h
  have h2 := List.mem_of_find?_eq_some h
  simp only [decide_eq_true_eq] at h1
  exact ⟨h1, h2⟩

theorem search_aa_var_of_mem {l : List AA} {e : AA} (hn : (aa_keys l).Nodup) (he : e ∈ l) :
    search_aa_var l e.id = some e := by
  induction l with
  | nil => cases he
  | cons a r ih =>
    unfold aa_keys at hn
    simp only [List.map_cons, List.nodup_cons, List.mem_map, not_exists, not_and] at hn
    unfold search_aa_var
    rcases List.mem_cons.mp he with h | h
    · subst h
      simp
    · have hne : ¬ a.id = e.id := fun hh => hn.1 e h hh.symm
      rw [List.find?_cons_of_neg _ (by simpa using hne)]
      exact ih hn.2 h

theorem append_aa_var_of_not_mem {l : List AA} {k : Int} (c : Int) (b : Int)
    (h : k ∉ aa_keys l) : append_aa_var l k c b = l ++ [{ id := k, coeff := c, bp := b }] := by
  unfold append_aa_var
  rw [search_aa_var_eq_none.mpr h]

/-- A loop that appends, for the terms that pass a test, a term with the same
key: when the keys that pass are new and pairwise distinct, every append
succeeds. -/
theorem foldl_append_aa_var (P : AA → Bool) (g : AA → AA) (hg : ∀ e, (g e).id = e.id) :
    ∀ (l acc : List AA), (aa_keys (l.filter P)).Nodup →
      (∀ e ∈ l.filter P, e.id ∉ aa_keys acc) →
      l.foldl (fun acc e => if P e then append_aa_var acc (g e).id (g e).coeff (g e).bp
                            else acc) acc
        = acc ++ (l.filter P).map g := by
  intro l
  induction l with
  | nil => intro acc _ _; simp
  | cons a r ih =>
    intro acc hn hd
    rw [List.foldl_cons]
    by_cases hP : P a = true
    · rw [List.filter_cons_of_pos hP] at hn hd
      unfold aa_keys at hn
      simp only [List.map_cons, List.nodup_cons, List.mem_map, not_exists, not_and] at hn
      have ha : (g a).id ∉ aa_keys acc := by
        rw [hg]; exact hd a (List.mem_cons_self _ _)
      simp only [hP, if_true]
      rw [append_aa_var_of_not_mem _ _ ha, ih _ hn.2]
      · rw [List.filter_cons_of_pos hP]
        simp
      · intro e he
        unfold aa_keys
        simp only [List.map_append, List.map_cons, List.map_nil, List.mem_append,
          List.mem_singleton, not_or]
        refine ⟨hd e (List.mem_cons_of_mem _ he), ?_⟩
        rw [hg]
        exact fun hh => hn.1 e he hh
    · have hP2 : P a = false := by simpa using hP
      rw [List.filter_cons_of_neg hP] at hn hd
      simp only [hP2, Bool.false_eq_true, if_false]
      rw [ih _ hn hd, List.filter_cons_of_neg hP]

theorem new_aa_list_eq_self (cfg : Config) (o : SIF) (hn : (aa_keys o.aa).Nodup)
    (hbp : ∀ e ∈ o.aa, e.bp = o.F + o.E) : new_aa_list cfg o = o.aa := by
  unfold new_aa_list
  have h := foldl_append_aa_var (fun _ => true) (fun e => e) (fun _ => rfl) o.aa []
    (by simpa using hn) (by intro e _; simp [aa_keys])
  simp only [if_true, List.filter_true, List.map_id', List.nil_append] at h
  refine Eq.trans ?_ h
  simp only
  apply List.foldl_ext
  intro acc e he
  have hb := hbp e he
  simp [hb]

theorem affine_add_term1_id (add : Bool) (l2 : List AA) (e : AA) :
    (affine_add_term1 add l2 e).id = e.id := by
  unfold affine_add_term1
  split <;> rfl

/-- With distinct keys in each operand and every term at its operand's binary
point, `affine_add` returns the terms of operand 1, combined with the term of
operand 2 of the same key where there is one, followed by the terms of operand
2 whose key operand 1 does not have. -/
theorem affine_add_eq (cfg : Config) (o1 o2 : SIF) (add : Bool)
    (hne1 : o1.aa ≠ []) (hne2 : o2.aa ≠ [])
    (hk1 : (aa_keys o1.aa).Nodup) (hk2 : (aa_keys o2.aa).Nodup)
    (hbp1 : ∀ e ∈ o1.aa, e.bp = o1.F + o1.E) (hbp2 : ∀ e ∈ o2.aa, e.bp = o2.F + o2.E) :
    affine_add cfg o1 o2 add =
      o1.aa.map (affine_add_term1 add o2.aa) ++
        (o2.aa.filter (fun e => decide (e.id ∉ aa_keys o1.aa))).map (affine_add_term2 add) := by
  unfold affine_add
  rw [new_aa_list_eq_self cfg o1 hk1 hbp1, new_aa_list_eq_self cfg o2 hk2 hbp2]
  have hne : ¬ (o1.aa = [] ∨ o2.aa = []) := by
    intro h; rcases h with h | h
    · exact hne1 h
    · exact hne2 h
  simp only [hne, if_false]
  have e1 : o1.aa.foldl
      (fun result aa1_elt =>
        match search_aa_var o2.aa aa1_elt.id with
        | none => append_aa_var result aa1_elt.id aa1_elt.coeff aa1_elt.bp
        | some aa2_elt =>
          append_aa_var result aa1_elt.id
            (double_int_add aa1_elt.coeff (affine_add_op2_coeff add aa2_elt.coeff))
            aa1_elt.bp) [] = o1.aa.map (affine_add_term1 add o2.aa) := by
    have h := foldl_append_aa_var (fun _ => true) (affine_add_term1 add o2.aa)
      (affine_add_term1_id add o2.aa) o1.aa [] (by simpa using hk1)
      (by intro e _; simp [aa_keys])
    simp only [if_true, List.filter_true, List.nil_append] at h
    rw [← h]
    apply List.foldl_ext
    intro acc e _
    unfold affine_add_term1
    split <;> simp_all
  rw [e1]
  have hk2f : (aa_keys (o2.aa.filter (fun e => decide (e.id ∉ aa_keys o1.aa)))).Nodup := by
    unfold aa_keys
    unfold aa_keys at hk2
    exact List.Nodup.sublist (List.Sublist.map _ (List.filter_sublist _)) hk2
  have h2 := foldl_append_aa_var (fun e => decide (e.id ∉ aa_keys o1.aa))
    (affine_add_term2 add) (fun _ => rfl) o2.aa (o1.aa.map (affine_add_term1 add o2.aa)) hk2f
    (by
      intro e he
      have := (List.mem_filter.mp he).2
      simp only [decide_eq_true_eq] at this
      unfold aa_keys
      unfold aa_keys at this
      rw [List.map_map]
      have hfun : (AA.id ∘ affine_add_term1 add o2.aa) = AA.id := by
        funext x; exact affine_add_term1_id add o2.aa x
      rw [hfun]
      exact this)
  rw [← h2]
  apply List.foldl_ext
  intro acc e _
  by_cases hmem : e.id ∈ aa_keys o1.aa
  · have hs : ∃ x, search_aa_var o1.aa e.id = some x := by
      cases hsr : search_aa_var o1.aa e.id with
      | none => exact absurd hmem (search_aa_var_eq_none.mp hsr)
      | some x => exact ⟨x, rfl⟩
    obtain ⟨x, hx⟩ := hs
    simp [hx, hmem]
  · have hs := search_aa_var_eq_none.mpr hmem
    simp [hs, hmem, affine_add_term2]

theorem abs_coeff_le_abs_sum {l : List AA} {e : AA} (he : e ∈ l) : |e.coeff| ≤ aa_abs_sum l := by
  unfold aa_abs_sum
  apply List.single_le_sum
  · intro x hx
    obtain ⟨a, _, rfl⟩ := List.mem_map.mp hx
    exact abs_nonneg _
  · exact List.mem_map.mpr ⟨e, he, rfl⟩

theorem aa_abs_sum_nonneg (l : List AA) : 0 ≤ aa_abs_sum l := by
  unfold aa_abs_sum
  apply List.sum_nonneg
  intro x hx
  obtain ⟨a, _, rfl⟩ := List.mem_map.mp hx
  exact abs_nonneg _

theorem DI_fits_of_abs_lt {x : Int} (h : |x| < 2 ^ 127) : DI_fits x := by
  unfold DI_fits
  have := abs_lt.mp h
  constructor <;> linarith [this.1, this.2]

theorem coeff_of_eq_of_mem {l : List AA} {e : AA} (hn : (aa_keys l).Nodup) (he : e ∈ l) :
    coeff_of l e.id = e.coeff := by
  unfold coeff_of
  rw [search_aa_var_of_mem hn he]

theorem coeff_of_eq_zero {l : List AA} {k : Int} (h : k ∉ aa_keys l) : coeff_of l k = 0 := by
  unfold coeff_of
  rw [search_aa_var_eq_none.mpr h]

theorem abs_coeff_of_le (l : List AA) (k : Int) : |coeff_of l k| ≤ aa_abs_sum l := by
  unfold coeff_of
  cases h : search_aa_var l k with
  | none => simpa using aa_abs_sum_nonneg l
  | some e => exact abs_coeff_le_abs_sum (search_aa_var_some_id h).2

/-- The coefficient `affine_add` gives a key in `ADD` mode is the sum of the
coefficients the operands have for it. -/
theorem coeff_of_affine_add (cfg : Config) (o1 o2 : SIF)
    (hne1 : o1.aa ≠ []) (hne2 : o2.aa ≠ [])
    (hk1 : (aa_keys o1.aa).Nodup) (hk2 : (aa_keys o2.aa).Nodup)
    (hbp1 : ∀ e ∈ o1.aa, e.bp = o1.F + o1.E) (hbp2 : ∀ e ∈ o2.aa, e.bp = o2.F + o2.E)
    (hfit : aa_abs_sum o1.aa + aa_abs_sum o2.aa < 2 ^ 127) (k : Int) :
    coeff_of (affine_add cfg o1 o2 true) k = coeff_of o1.aa k + coeff_of o2.aa k := by
  rw [affine_add_eq cfg o1 o2 true hne1 hne2 hk1 hk2 hbp1 hbp2]
  have hsum : wrap (coeff_of o1.aa k + coeff_of o2.aa k) = coeff_of o1.aa k + coeff_of o2.aa k := by
    apply wrap_eq_self
    apply DI_fits_of_abs_lt
    calc |coeff_of o1.aa k + coeff_of o2.aa k|
        ≤ |coeff_of o1.aa k| + |coeff_of o2.aa k| := abs_add _ _
      _ ≤ aa_abs_sum o1.aa + aa_abs_sum o2.aa :=
          add_le_add (abs_coeff_of_le _ _) (abs_coeff_of_le _ _)
      _ < 2 ^ 127 := hfit
  have hcomp : ((fun e : AA => decide (e.id = k)) ∘ affine_add_term1 true o2.aa) =
      (fun e : AA => decide (e.id = k)) := by
    funext x
    simp [affine_add_term1_id]
  have hA : search_aa_var (o1.aa.map (affine_add_term1 true o2.aa)) k =
      (search_aa_var o1.aa k).map (affine_add_term1 true o2.aa) := by
    unfold search_aa_var
    rw [List.find?_map, hcomp]
  have hcomp2 : ((fun e : AA => decide (e.id = k)) ∘ affine_add_term2 true) =
      (fun e : AA => decide (e.id = k)) := by
    funext x
    simp [affine_add_term2]
  cases h1 : search_aa_var o1.aa k with
  | some e1 =>
    have hid := (search_aa_var_some_id h1).1
    have hR : search_aa_var (o1.aa.map (affine_add_term1 true o2.aa) ++
        (o2.aa.filter (fun e => decide (e.id ∉ aa_keys o1.aa))).map (affine_add_term2 true)) k
        = some (affine_add_term1 true o2.aa e1) := by
      unfold search_aa_var at hA ⊢
      rw [List.find?_append, hA]
      unfold search_aa_var at h1
      rw [h1]
      rfl
    have hc1 : coeff_of o1.aa k = e1.coeff := by unfold coeff_of; rw [h1]
    have hRc : coeff_of (o1.aa.map (affine_add_term1 true o2.aa) ++
        (o2.aa.filter (fun e => decide (e.id ∉ aa_keys o1.aa))).map (affine_add_term2 true)) k
        = (affine_add_term1 true o2.aa e1).coeff := by
      unfold coeff_of; rw [hR]
    rw [hRc, hc1]
    cases h2 : search_aa_var o2.aa k with
    | none =>
      have hc2 : coeff_of o2.aa k = 0 := by unfold coeff_of; rw [h2]
      have ht : affine_add_term1 true o2.aa e1 = e1 := by
        unfold affine_add_term1; rw [hid, h2]
      rw [ht, hc2, add_zero]
    | some e2 =>
      have hc2 : coeff_of o2.aa k = e2.coeff := by unfold coeff_of; rw [h2]
      have ht : (affine_add_term1 true o2.aa e1).coeff = wrap (e1.coeff + e2.coeff) := by
        unfold affine_add_term1; rw [hid, h2]
        simp [affine_add_op2_coeff, double_int_add]
      rw [ht, hc2]
      rw [hc1, hc2] at hsum
      exact hsum
  | none =>
    have hk : k ∉ aa_keys o1.aa := search_aa_var_eq_none.mp h1
    have hB : search_aa_var ((o2.aa.filter (fun e => decide (e.id ∉ aa_keys o1.aa))).map
        (affine_add_term2 true)) k = (search_aa_var o2.aa k).map (affine_add_term2 true) := by
      unfold search_aa_var
      rw [List.find?_map, hcomp2, List.find?_filter]
      congr 2
      funext x
      by_cases hx : x.id = k
      · simp [hx, hk]
      · simp [hx]
    have hR : search_aa_var (o1.aa.map (affine_add_term1 true o2.aa) ++
        (o2.aa.filter (fun e => decide (e.id ∉ aa_keys o1.aa))).map (affine_add_term2 true)) k
        = (search_aa_var o2.aa k).map (affine_add_term2 true) := by
      unfold search_aa_var at hA hB ⊢
      rw [List.find?_append, hA, hB]
      unfold search_aa_var at h1
      rw [h1]
      rfl
    have hc1 : coeff_of o1.aa k = 0 := by unfold coeff_of; rw [h1]
    rw [hc1, zero_add]
    unfold coeff_of
    rw [hR]
    cases h2 : search_aa_var o2.aa k with
    | none => simp
    | some e2 => simp [affine_add_term2, affine_add_op2_coeff]

theorem sum_map_eq_sum_keys {M : Type} [AddCommMonoid M] (F : Int → Int → M)
    (hF : ∀ k, F k 0 = 0) (l : List AA) (hn : (aa_keys l).Nodup) (S : Finset Int)
    (hS : ∀ k ∈ aa_keys l, k ∈ S) :
    (l.map (fun e => F e.id e.coeff)).sum = ∑ k in S, F k (coeff_of l k) := by
  have h1 : l.map (fun e => F e.id e.coeff) = (aa_keys l).map (fun k => F k (coeff_of l k)) := by
    unfold aa_keys
    rw [List.map_map]
    apply List.map_congr_left
    intro e he
    simp only [Function.comp]
    rw [coeff_of_eq_of_mem hn he]
  rw [h1, ← List.sum_toFinset _ hn]
  apply Finset.sum_subset
  · intro k hk
    exact hS k (List.mem_toFinset.mp hk)
  · intro k _ hk
    have : k ∉ aa_keys l := fun h => hk (List.mem_toFinset.mpr h)
    rw [coeff_of_eq_zero this, hF]

theorem aa_center_sum_eq_zero {l : List AA} (h : (0 : Int) ∉ aa_keys l) : aa_center_sum l = 0 := by
  unfold aa_center_sum
  apply List.sum_eq_zero
  intro x hx
  obtain ⟨e, he, rfl⟩ := List.mem_map.mp hx
  have : e.id ≠ 0 := by
    intro h0
    apply h
    unfold aa_keys
    exact List.mem_map.mpr ⟨e, he, h0⟩
  simp [this]

theorem aa_radius_nonneg (l : List AA) : 0 ≤ aa_radius l := by
  unfold aa_radius
  apply List.sum_nonneg
  intro x hx
  obtain ⟨e, _, rfl⟩ := List.mem_map.mp hx
  split
  · exact le_refl _
  · exact abs_nonneg _

theorem abs_center_add_radius_le (l : List AA) :
    |aa_center_sum l| + aa_radius l ≤ aa_abs_sum l := by
  induction l with
  | nil => simp [aa_center_sum, aa_radius, aa_abs_sum]
  | cons a r ih =>
    unfold aa_center_sum aa_radius aa_abs_sum at ih ⊢
    simp only [List.map_cons, List.sum_cons]
    by_cases h0 : a.id = 0
    · simp only [h0, if_true, zero_add]
      have := abs_add a.coeff (r.map (fun e => if e.id = 0 then e.coeff else 0)).sum
      linarith
    · simp only [h0, if_false, zero_add]
      linarith

theorem aa_max_fold (l : List AA) :
    ∀ (c m : Int), (aa_keys l).Nodup → 0 ≤ m → m + aa_radius l < 2 ^ 127 →
      l.foldl aa_max_step (c, m) =
        (if (0 : Int) ∈ aa_keys l then aa_center_sum l else c, m + aa_radius l) := by
  induction l with
  | nil => intro c m _ _ _; simp [aa_keys, aa_radius]
  | cons a r ih =>
    intro c m hn hm hfit
    have hn2 : (aa_keys r).Nodup := by
      unfold aa_keys at hn ⊢
      exact (List.nodup_cons.mp hn).2
    have hrad : aa_radius (a :: r) = (if a.id = 0 then 0 else |a.coeff|) + aa_radius r := by
      simp [aa_radius]
    have hcen : aa_center_sum (a :: r) = (if a.id = 0 then a.coeff else 0) + aa_center_sum r := by
      simp [aa_center_sum]
    have hkeys : aa_keys (a :: r) = a.id :: aa_keys r := by simp [aa_keys]
    have hr0 := aa_radius_nonneg r
    rw [List.foldl_cons]
    by_cases h0 : a.id = 0
    · have hnot : (0 : Int) ∉ aa_keys r := by
        rw [hkeys, h0] at hn
        exact (List.nodup_cons.mp hn).1
      have hstep : aa_max_step (c, m) a = (a.coeff, m) := by simp [aa_max_step, h0]
      rw [hstep, ih a.coeff m hn2 hm (by rw [hrad] at hfit; simp only [h0, if_true] at hfit; linarith)]
      rw [hrad, hcen, hkeys, aa_center_sum_eq_zero hnot]
      simp [h0, hnot]
    · have habs := abs_nonneg a.coeff
      rw [hrad] at hfit
      simp only [h0, if_false] at hfit
      have hstep : aa_max_step (c, m) a = (c, m + |a.coeff|) := by
        have hw : wrap (m + |a.coeff|) = m + |a.coeff| := by
          apply wrap_eq_self
          unfold DI_fits
          constructor <;> linarith
        unfold aa_max_step double_int_negative_p double_int_sub double_int_add
        simp only [h0, if_false]
        by_cases hneg : a.coeff < 0
        · simp only [hneg, decide_True, if_true]
          rw [abs_of_neg hneg] at hw
          rw [abs_of_neg hneg, ← hw]
          congr 2
        · simp only [hneg, decide_False, Bool.false_eq_true, if_false]
          rw [abs_of_nonneg (not_lt.mp hneg)] at hw ⊢
          rw [hw]
      rw [hstep, ih c (m + |a.coeff|) hn2 (by linarith) (by linarith)]
      rw [hrad, hcen, hkeys]
      have hmem : (0 : Int) ∈ a.id :: aa_keys r ↔ (0 : Int) ∈ aa_keys r := by
        simp only [List.mem_cons]
        constructor
        · rintro (h | h)
          · exact absurd h.symm h0
          · exact h
        · exact Or.inr
      simp only [h0, if_false, zero_add, hmem]
      congr 1
      ring

theorem aa_min_fold (l : List AA) :
    ∀ (c m : Int), (aa_keys l).Nodup → m ≤ 0 → -2 ^ 127 < m - aa_radius l →
      l.foldl aa_min_step (c, m) =
        (if (0 : Int) ∈ aa_keys l then aa_center_sum l else c, m - aa_radius l) := by
  induction l with
  | nil => intro c m _ _ _; simp [aa_keys, aa_radius]
  | cons a r ih =>
    intro c m hn hm hfit
    have hn2 : (aa_keys r).Nodup := by
      unfold aa_keys at hn ⊢
      exact (List.nodup_cons.mp hn).2
    have hrad : aa_radius (a :: r) = (if a.id = 0 then 0 else |a.coeff|) + aa_radius r := by
      simp [aa_radius]
    have hcen : aa_center_sum (a :: r) = (if a.id = 0 then a.coeff else 0) + aa_center_sum r := by
      simp [aa_center_sum]
    have hkeys : aa_keys (a :: r) = a.id :: aa_keys r := by simp [aa_keys]
    have hr0 := aa_radius_nonneg r
    rw [List.foldl_cons]
    by_cases h0 : a.id = 0
    · have hnot : (0 : Int) ∉ aa_keys r := by
        rw [hkeys, h0] at hn
        exact (List.nodup_cons.mp hn).1
      have hstep : aa_min_step (c, m) a = (a.coeff, m) := by simp [aa_min_step, h0]
      rw [hstep, ih a.coeff m hn2 hm (by rw [hrad] at hfit; simp only [h0, if_true] at hfit; linarith)]
      rw [hrad, hcen, hkeys, aa_center_sum_eq_zero hnot]
      simp [h0, hnot]
    · have habs := abs_nonneg a.coeff
      rw [hrad] at hfit
      simp only [h0, if_false] at hfit
      have hstep : aa_min_step (c, m) a = (c, m - |a.coeff|) := by
        have hw : wrap (m - |a.coeff|) = m - |a.coeff| := by
          apply wrap_eq_self
          unfold DI_fits
          constructor <;> linarith
        unfold aa_min_step double_int_negative_p double_int_sub double_int_add
        simp only [h0, if_false]
        by_cases hneg : a.coeff < 0
        · simp only [hneg, decide_True, if_true]
          rw [abs_of_neg hneg] at hw
          rw [abs_of_neg hneg, ← hw]
          congr 2
          ring
        · simp only [hneg, decide_False, Bool.false_eq_true, if_false]
          rw [abs_of_nonneg (not_lt.mp hneg)] at hw ⊢
          rw [hw]
      rw [hstep, ih c (m - |a.coeff|) hn2 (by linarith) (by linarith)]
      rw [hrad, hcen, hkeys]
      have hmem : (0 : Int) ∈ a.id :: aa_keys r ↔ (0 : Int) ∈ aa_keys r := by
        simp only [List.mem_cons]
        constructor
        · rintro (h | h)
          · exact absurd h.symm h0
          · exact h
        · exact Or.inr
      simp only [h0, if_false, zero_add, hmem]
      congr 1
      ring

/-- Without overflow, `aa_max` of a list with distinct keys is the center
plus the absolute values of the other coefficients. -/
theorem aa_max_eq (l : List AA) (hn : (aa_keys l).Nodup) (hfit : aa_abs_sum l < 2 ^ 127) :
    aa_max l = aa_center_sum l + aa_radius l := by
  have hb := abs_center_add_radius_le l
  have hr0 := aa_radius_nonneg l
  have hc := abs_le.mp (le_refl |aa_center_sum l|)
  cases l with
  | nil => simp [aa_max, aa_center_sum, aa_radius, double_int_zero]
  | cons a r =>
    unfold aa_max
    simp only
    rw [aa_max_fold (a :: r) double_int_zero double_int_zero hn (le_refl _)
      (by simp only [double_int_zero, zero_add]; linarith [abs_nonneg (aa_center_sum (a :: r))])]
    have hcen : (if (0 : Int) ∈ aa_keys (a :: r) then aa_center_sum (a :: r) else double_int_zero)
        = aa_center_sum (a :: r) := by
      split
      · rfl
      · rename_i h0
        rw [aa_center_sum_eq_zero h0]; rfl
    simp only [double_int_zero] at hcen
    simp only [double_int_zero, zero_add, double_int_add, hcen]
    apply wrap_eq_self
    unfold DI_fits
    constructor <;> linarith [hc.1, hc.2]

/-- Without overflow, `aa_min` of a nonempty list with distinct keys is the
center minus the absolute values of the other coefficients. -/
theorem aa_min_eq (l : List AA) (hne : l ≠ []) (hn : (aa_keys l).Nodup)
    (hfit : aa_abs_sum l < 2 ^ 127) :
    aa_min l = aa_center_sum l - aa_radius l := by
  have hb := abs_center_add_radius_le l
  have hr0 := aa_radius_nonneg l
  have hc := abs_le.mp (le_refl |aa_center_sum l|)
  cases l with
  | nil => exact absurd rfl hne
  | cons a r =>
    unfold aa_min
    simp only
    rw [aa_min_fold (a :: r) double_int_zero double_int_zero hn (le_refl _)
      (by simp only [double_int_zero, zero_sub]; linarith [abs_nonneg (aa_center_sum (a :: r))])]
    have hcen : (if (0 : Int) ∈ aa_keys (a :: r) then aa_center_sum (a :: r) else double_int_zero)
        = aa_center_sum (a :: r) := by
      split
      · rfl
      · rename_i h0
        rw [aa_center_sum_eq_zero h0]; rfl
    simp only [double_int_zero] at hcen
    simp only [double_int_zero, zero_sub, double_int_add, hcen]
    rw [← sub_eq_add_neg]
    apply wrap_eq_self
    unfold DI_fits
    constructor <;> linarith [hc.1, hc.2]

/-- The value of an affine list lies between center minus radius and center
plus radius, for every assignment of the noise symbols in `[-1, 1]`. -/
theorem aa_value_bounds {K : Type} [LinearOrderedField K] (eps : Int → K) (h0 : eps 0 = 1)
    (h1 : ∀ k, |eps k| ≤ 1) (l : List AA) :
    ((aa_center_sum l - aa_radius l : Int) : K) ≤ aa_value eps l ∧
      aa_value eps l ≤ ((aa_center_sum l + aa_radius l : Int) : K) := by
  induction l with
  | nil => simp [aa_center_sum, aa_radius, aa_value]
  | cons a r ih =>
    have hrad : aa_radius (a :: r) = (if a.id = 0 then 0 else |a.coeff|) + aa_radius r := by
      simp [aa_radius]
    have hcen : aa_center_sum (a :: r) = (if a.id = 0 then a.coeff else 0) + aa_center_sum r := by
      simp [aa_center_sum]
    have hval : aa_value eps (a :: r) = (a.coeff : K) * eps a.id + aa_value eps r := by
      simp [aa_value]
    rw [hrad, hcen, hval]
    by_cases hz : a.id = 0
    · simp only [hz, if_true, h0, mul_one]
      push_cast at ih ⊢
      constructor <;> linarith [ih.1, ih.2]
    · simp only [hz, if_false]
      have hb : |(a.coeff : K) * eps a.id| ≤ |(a.coeff : K)| := by
        rw [abs_mul]
        calc |(a.coeff : K)| * |eps a.id| ≤ |(a.coeff : K)| * 1 :=
              mul_le_mul_of_nonneg_left (h1 _) (abs_nonneg _)
          _ = |(a.coeff : K)| := mul_one _
      have hb2 := abs_le.mp hb
      push_cast at ih ⊢
      constructor <;> linarith [ih.1, ih.2, hb2.1, hb2.2]

/-- Soundness of `aa_min` and `aa_max`: without overflow, the value of a
nonempty list with distinct keys lies in `[aa_min, aa_max]`. -/
theorem aa_min_le_value_le_aa_max {K : Type} [LinearOrderedField K] (eps : Int → K)
    (h0 : eps 0 = 1) (h1 : ∀ k, |eps k| ≤ 1) (l : List AA) (hne : l ≠ [])
    (hn : (aa_keys l).Nodup) (hfit : aa_abs_sum l < 2 ^ 127) :
    ((aa_min l : Int) : K) ≤ aa_value eps l ∧ aa_value eps l ≤ ((aa_max l : Int) : K) := by
  rw [aa_min_eq l hne hn hfit, aa_max_eq l hn hfit]
  exact aa_value_bounds eps h0 h1 l

theorem aa_keys_affine_add (cfg : Config) (o1 o2 : SIF) (add : Bool)
    (hne1 : o1.aa ≠ []) (hne2 : o2.aa ≠ [])
    (hk1 : (aa_keys o1.aa).Nodup) (hk2 : (aa_keys o2.aa).Nodup)
    (hbp1 : ∀ e ∈ o1.aa, e.bp = o1.F + o1.E) (hbp2 : ∀ e ∈ o2.aa, e.bp = o2.F + o2.E) :
    aa_keys (affine_add cfg o1 o2 add) =
      aa_keys o1.aa ++ (aa_keys o2.aa).filter (fun k => decide (k ∉ aa_keys o1.aa)) := by
  rw [affine_add_eq cfg o1 o2 add hne1 hne2 hk1 hk2 hbp1 hbp2]
  unfold aa_keys
  rw [List.map_append, List.map_map, List.map_map, List.filter_map]
  have h1 : (AA.id ∘ affine_add_term1 add o2.aa) = AA.id := by
    funext x; exact affine_add_term1_id add o2.aa x
  have h2 : (AA.id ∘ affine_add_term2 add) = AA.id := by
    funext x; rfl
  rw [h1, h2]
  rfl

theorem aa_keys_affine_add_nodup (cfg : Config) (o1 o2 : SIF) (add : Bool)
    (hne1 : o1.aa ≠ []) (hne2 : o2.aa ≠ [])
    (hk1 : (aa_keys o1.aa).Nodup) (hk2 : (aa_keys o2.aa).Nodup)
    (hbp1 : ∀ e ∈ o1.aa, e.bp = o1.F + o1.E) (hbp2 : ∀ e ∈ o2.aa, e.bp = o2.F + o2.E) :
    (aa_keys (affine_add cfg o1 o2 add)).Nodup ∧
    (∀ k, k ∈ aa_keys (affine_add cfg o1 o2 add) ↔ k ∈ aa_keys o1.aa ∨ k ∈ aa_keys o2.aa) := by
  rw [aa_keys_affine_add cfg o1 o2 add hne1 hne2 hk1 hk2 hbp1 hbp2]
  constructor
  · rw [List.nodup_append]
    refine ⟨hk1, hk2.filter _, ?_⟩
    intro k h1 h2
    have := (List.mem_filter.mp h2).2
    simp only [decide_eq_true_eq] at this
    exact this h1
  · intro k
    simp only [List.mem_append, List.mem_filter, decide_eq_true_eq]
    constructor
    · rintro (h | h)
      · exact Or.inl h
      · exact Or.inr h.1
    · rintro (h | h)
      · exact Or.inl h
      · by_cases hk : k ∈ aa_keys o1.aa
        · exact Or.inl hk
        · exact Or.inr ⟨h, hk⟩

theorem affine_add_bp (cfg : Config) (o1 o2 : SIF) (add : Bool)
    (hne1 : o1.aa ≠ []) (hne2 : o2.aa ≠ [])
    (hk1 : (aa_keys o1.aa).Nodup) (hk2 : (aa_keys o2.aa).Nodup)
    (hbp1 : ∀ e ∈ o1.aa, e.bp = o1.F + o1.E) (hbp2 : ∀ e ∈ o2.aa, e.bp = o2.F + o2.E)
    (hbp : o1.F + o1.E = o2.F + o2.E) :
    ∀ e ∈ affine_add cfg o1 o2 add, e.bp = o1.F + o1.E := by
  rw [affine_add_eq cfg o1 o2 add hne1 hne2 hk1 hk2 hbp1 hbp2]
  intro e he
  rcases List.mem_append.mp he with h | h
  · obtain ⟨a, ha, rfl⟩ := List.mem_map.mp h
    have : (affine_add_term1 add o2.aa a).bp = a.bp := by
      unfold affine_add_term1
      split <;> rfl
    rw [this]
    exact hbp1 a ha
  · obtain ⟨a, ha, rfl⟩ := List.mem_map.mp h
    have ha2 := (List.mem_filter.mp ha).1
    show a.bp = o1.F + o1.E
    rw [hbp]
    exact hbp2 a ha2

theorem aa_value_eq_sum_keys {K : Type} [LinearOrderedField K] (eps : Int → K) (l : List AA)
    (hn : (aa_keys l).Nodup) (S : Finset Int) (hS : ∀ k ∈ aa_keys l, k ∈ S) :
    aa_value eps l = ∑ k in S, ((coeff_of l k : Int) : K) * eps k := by
  unfold aa_value
  exact sum_map_eq_sum_keys (fun k c => ((c : Int) : K) * eps k) (by intro k; simp) l hn S hS

theorem aa_abs_sum_eq_sum_keys (l : List AA)
    (hn : (aa_keys l).Nodup) (S : Finset Int) (hS : ∀ k ∈ aa_keys l, k ∈ S) :
    aa_abs_sum l = ∑ k in S, |coeff_of l k| := by
  unfold aa_abs_sum
  exact sum_map_eq_sum_keys (fun _ c => |c|) (by intro k; simp) l hn S hS

theorem aa_center_sum_eq_sum_keys (l : List AA)
    (hn : (aa_keys l).Nodup) (S : Finset Int) (hS : ∀ k ∈ aa_keys l, k ∈ S) :
    aa_center_sum l = ∑ k in S, (if k = 0 then coeff_of l k else 0) := by
  unfold aa_center_sum
  exact sum_map_eq_sum_keys (fun k c => if k = 0 then c else 0) (by intro k; simp) l hn S hS

theorem aa_radius_eq_sum_keys (l : List AA)
    (hn : (aa_keys l).Nodup) (S : Finset Int) (hS : ∀ k ∈ aa_keys l, k ∈ S) :
    aa_radius l = ∑ k in S, (if k = 0 then 0 else |coeff_of l k|) := by
  unfold aa_radius
  exact sum_map_eq_sum_keys (fun k c => if k = 0 then 0 else |c|) (by intro k; simp) l hn S hS


/-! ### Format shifts -/

theorem fix_f_e_bits_frame (fmt : SIF) (t : tree) :
    (fix_f_e_bits fmt t).S = fmt.S ∧ (fix_f_e_bits fmt t).I = fmt.I ∧
    (fix_f_e_bits fmt t).shift = fmt.shift ∧ (fix_f_e_bits fmt t).size = fmt.size ∧
    (fix_f_e_bits fmt t).F + (fix_f_e_bits fmt t).E = fmt.F + fmt.E := by
  unfold fix_f_e_bits
  split
  · simp
  · simp

theorem fix_f_e_bits_var (fmt : SIF) : fix_f_e_bits fmt tree.var = fmt := by
  simp [fix_f_e_bits, TREE_CONSTANT]

theorem shift_right_var (fmt : SIF) (count : Int) (hc : count ≠ 0) :
    shift_right fmt tree.var count =
      if count ≤ fmt.E then
        { fmt with shift := fmt.shift + count, S := fmt.S + count, E := fmt.E - count }
      else
        { fmt with shift := fmt.shift + count, S := fmt.S + count,
                   F := fmt.F + fmt.E - count, E := 0 } := by
  unfold shift_right
  simp only [hc, if_false, fix_f_e_bits_var]

theorem fix_f_e_bits_rest (fmt : SIF) (t : tree) :
    (fix_f_e_bits fmt t).sgnd = fmt.sgnd ∧ (fix_f_e_bits fmt t).max = fmt.max ∧
    (fix_f_e_bits fmt t).min = fmt.min ∧ (fix_f_e_bits fmt t).aa = fmt.aa := by
  unfold fix_f_e_bits
  split
  · simp
  · simp

theorem double_int_ctz_nonneg (a : double_int) : 0 ≤ double_int_ctz a := by
  unfold double_int_ctz HOST_BITS_PER_DOUBLE_INT
  split
  · norm_num
  · exact Int.ofNat_nonneg _

/-- After `fix_f_e_bits` on a constant, F is never negative and E is negative
only with the binary point. -/
theorem fix_f_e_bits_nonneg (fmt : SIF) (t : tree) (hF : 0 ≤ fmt.F) (hE : 0 ≤ fmt.E) :
    0 ≤ (fix_f_e_bits fmt t).F ∧ 0 ≤ (fix_f_e_bits fmt t).E := by
  unfold fix_f_e_bits
  split
  · simp only
    constructor
    · have := min_le_right
        (double_int_ctz
          (if fmt.shift < 0 then
            double_int_rshift
              (if fmt.shift > 0 then
                double_int_rshift
                  (double_int_add
                    (double_int_rshift
                      (if tree_int_cst_sgn t < 0 then double_int_neg (tree_constant_value t)
                       else tree_constant_value t) (fmt.shift - 1) true) double_int_one)
                  1 true
               else
                if tree_int_cst_sgn t < 0 then double_int_neg (tree_constant_value t)
                else tree_constant_value t) fmt.shift true
           else
            if fmt.shift > 0 then
              double_int_rshift
                (double_int_add
                  (double_int_rshift
                    (if tree_int_cst_sgn t < 0 then double_int_neg (tree_constant_value t)
                     else tree_constant_value t) (fmt.shift - 1) true) double_int_one)
                1 true
            else
              if tree_int_cst_sgn t < 0 then double_int_neg (tree_constant_value t)
              else tree_constant_value t)) (fmt.F + fmt.E)
      linarith
    · exact le_min (double_int_ctz_nonneg _) (by linarith)
  · exact ⟨hF, hE⟩

theorem shift_right_frame (fmt : SIF) (t : tree) (count : Int) :
    (shift_right fmt t count).S = fmt.S + count ∧
    (shift_right fmt t count).shift = fmt.shift + count ∧
    (shift_right fmt t count).I = fmt.I ∧
    (shift_right fmt t count).size = fmt.size ∧
    (shift_right fmt t count).F + (shift_right fmt t count).E = fmt.F + fmt.E - count := by
  unfold shift_right
  by_cases h0 : count = 0
  · simp [h0]
  · simp only [h0, if_false]
    split
    · obtain ⟨h1, h2, h3, h4, h5⟩ := fix_f_e_bits_frame
        { fmt with shift := fmt.shift + count, S := fmt.S + count, E := fmt.E - count } t
      refine ⟨h1, h3, h2, h4, ?_⟩
      rw [h5]; simp; ring
    · obtain ⟨h1, h2, h3, h4, h5⟩ := fix_f_e_bits_frame
        { fmt with shift := fmt.shift + count, S := fmt.S + count,
                   F := fmt.F + fmt.E - count, E := 0 } t
      refine ⟨h1, h3, h2, h4, ?_⟩
      rw [h5]; simp

theorem shift_left_frame (fmt : SIF) (t : tree) (count : Int) :
    (shift_left fmt t count).S = fmt.S - count ∧
    (shift_left fmt t count).shift = fmt.shift - count ∧
    (shift_left fmt t count).I = fmt.I ∧
    (shift_left fmt t count).size = fmt.size ∧
    (shift_left fmt t count).F + (shift_left fmt t count).E = fmt.F + fmt.E + count := by
  unfold shift_left
  simp only
  split
  · obtain ⟨h1, h2, h3, h4, h5⟩ := fix_f_e_bits_frame
      { fmt with shift := fmt.shift - count, S := fmt.S - count, F := fmt.F + count } t
    refine ⟨h1, h3, h2, h4, ?_⟩
    rw [h5]; simp; ring
  · obtain ⟨h1, h2, h3, h4, h5⟩ := fix_f_e_bits_frame
      { fmt with shift := fmt.shift - count, S := fmt.S - count,
                 E := fmt.E + (count - (fmt.originalF - fmt.F)), F := fmt.originalF } t
    refine ⟨h1, h3, h2, h4, ?_⟩
    rw [h5]; simp; ring

theorem shift_right_rest (fmt : SIF) (t : tree) (count : Int) :
    (shift_right fmt t count).sgnd = fmt.sgnd ∧ (shift_right fmt t count).max = fmt.max ∧
    (shift_right fmt t count).min = fmt.min ∧ (shift_right fmt t count).aa = fmt.aa := by
  unfold shift_right
  by_cases h0 : count = 0
  · simp [h0]
  · simp only [h0, if_false]
    split
    · exact fix_f_e_bits_rest _ t
    · exact fix_f_e_bits_rest _ t

theorem shift_left_rest (fmt : SIF) (t : tree) (count : Int) :
    (shift_left fmt t count).sgnd = fmt.sgnd ∧ (shift_left fmt t count).max = fmt.max ∧
    (shift_left fmt t count).min = fmt.min ∧ (shift_left fmt t count).aa = fmt.aa := by
  unfold shift_left
  simp only
  split
  · exact fix_f_e_bits_rest _ t
  · exact fix_f_e_bits_rest _ t

/-- A right shift that stays within the fraction and empty bits leaves F and E
non-negative, for a variable and for a constant. -/
theorem shift_right_nonneg (fmt : SIF) (t : tree) (count : Int) (hF : 0 ≤ fmt.F)
    (hE : 0 ≤ fmt.E) (hle : count ≤ fmt.F + fmt.E) :
    0 ≤ (shift_right fmt t count).F ∧ 0 ≤ (shift_right fmt t count).E := by
  unfold shift_right
  by_cases h0 : count = 0
  · simp [h0, hF, hE]
  · simp only [h0, if_false]
    split
    · next h => exact fix_f_e_bits_nonneg _ t hF (by simp; linarith)
    · exact fix_f_e_bits_nonneg _ t (by simp; linarith) (by simp)

/-- On a variable, no shift makes E negative. -/
theorem shift_right_var_E (fmt : SIF) (count : Int) (hE : 0 ≤ fmt.E) :
    0 ≤ (shift_right fmt tree.var count).E := by
  by_cases h0 : count = 0
  · simp [shift_right, h0, hE]
  · rw [shift_right_var fmt count h0]
    split
    · simp; linarith
    · simp

theorem shift_left_var_E (fmt : SIF) (count : Int) (hE : 0 ≤ fmt.E) :
    0 ≤ (shift_left fmt tree.var count).E := by
  unfold shift_left
  simp only [fix_f_e_bits_var]
  split
  · exact hE
  · simp; linarith

/-! ### `log2_range` of a power of two -/

theorem ctz_aux_two_pow (m : Nat) : ∀ fuel : Nat, m < fuel → ctz_aux fuel (2 ^ m) = m := by
  induction m with
  | zero =>
    intro fuel h
    cases fuel with
    | zero => omega
    | succ f => simp [ctz_aux]
  | succ k ih =>
    intro fuel h
    cases fuel with
    | zero => omega
    | succ f =>
      have h2 : 2 ^ (k + 1) % 2 = 0 := by rw [pow_succ]; omega
      have h3 : 2 ^ (k + 1) / 2 = 2 ^ k := by rw [pow_succ]; omega
      simp only [ctz_aux, h2, h3]
      rw [ih f (by omega)]
      simp; omega

theorem two_pow_le_126 (m : Nat) (hm : m ≤ 126) : (2 : Int) ^ m ≤ 2 ^ 126 :=
  pow_le_pow_right₀ (by norm_num) hm

/-- The stored integer of a constant `±2^m`, sign-extended from a size that
holds it and made positive, is `2^m`. -/
theorem abs_sext_two_pow (v : Int) (size : Int) (m : Nat) (hv : v = 2 ^ m ∨ v = -2 ^ m)
    (hm : m ≤ 126) (hs1 : (m : Int) + 1 ≤ size) (hs2 : size ≤ 128) :
    double_int_abs (double_int_sext v size) = 2 ^ m := by
  have h126 := two_pow_le_126 m hm
  have e127 : (2 : Int) ^ 127 = 2 ^ 126 + 2 ^ 126 := by norm_num
  have hpos : (0 : Int) < 2 ^ m := by positivity
  have habs : ∀ w : Int, (w = 2 ^ m ∨ w = -2 ^ m) → double_int_abs w = 2 ^ m := by
    intro w hw
    unfold double_int_abs double_int_negative_p double_int_neg
    rcases hw with h | h
    · subst h
      have : ¬ (2 : Int) ^ m < 0 := by linarith
      simp only [this, decide_False, Bool.false_eq_true, if_false]
    · subst h
      have : -(2 : Int) ^ m < 0 := by linarith
      simp only [this, decide_True, if_true, neg_neg]
      have hf : DI_fits ((2 : Int) ^ m) := ⟨by linarith, by linarith⟩
      exact wrap_eq_self hf
  apply habs
  unfold double_int_sext
  have hsz : 1 ≤ size ∧ size ≤ 128 := ⟨by omega, hs2⟩
  rw [if_pos hsz]
  unfold sext_bits
  obtain ⟨n, hn⟩ : ∃ n : Nat, size = n + 1 := ⟨(size - 1).toNat, by omega⟩
  have hn1 : size.toNat = n + 1 := by omega
  rw [hn1]
  simp only [Nat.add_one_ne_zero, if_false, Nat.add_sub_cancel]
  have hmn : m ≤ n := by omega
  have hle : (2 : Int) ^ m ≤ 2 ^ n := pow_le_pow_right₀ (by norm_num) hmn
  have e2 : (2 : Int) ^ (n + 1) = 2 ^ n + 2 ^ n := by rw [pow_succ]; ring
  have hpn : (0 : Int) < 2 ^ n := by positivity
  rcases hv with h | h
  · rcases eq_or_lt_of_le hmn with heq | hlt
    · right
      subst heq
      rw [h, ← e2, Int.emod_self]
      ring
    · left
      have hlt2 : (2 : Int) ^ m < 2 ^ n := pow_lt_pow_right₀ (by norm_num) hlt
      rw [h, Int.emod_eq_of_lt (by linarith) (by linarith)]
      ring
  · right
    rw [h, Int.emod_eq_of_lt (by linarith) (by linarith)]
    ring

theorem pattern_of_nonneg (x : Int) (h0 : 0 ≤ x) (h1 : x < 2 ^ 127) :
    pattern x = x.toNat := by
  unfold pattern
  have e : (2 : Int) ^ 128 = 2 ^ 127 + 2 ^ 127 := by norm_num
  rw [Int.emod_eq_of_lt h0 (by linarith)]

/-- `log2_range` of a constant whose stored integer is `±2^m`. -/
theorem log2_range_two_pow (c : SIF) (m : Nat) (hmax : c.max = 2 ^ m ∨ c.max = -2 ^ m)
    (hmin : c.min = c.max) (hm : m ≤ 126) (hs1 : (m : Int) + 1 ≤ c.size)
    (hs2 : c.size ≤ 128) :
    log2_range c = m := by
  have h126 := two_pow_le_126 m hm
  have e127 : (2 : Int) ^ 127 = 2 ^ 126 + 2 ^ 126 := by norm_num
  have hpos : (0 : Int) < 2 ^ m := by positivity
  have hone : (1 : Int) ≤ 2 ^ m := by linarith [Int.add_one_le_iff.mpr hpos]
  unfold log2_range
  have heq : double_int_equal_p c.max c.min = true := by
    unfold double_int_equal_p; simp [hmin]
  rw [heq]
  simp only [Bool.not_true, Bool.false_eq_true, if_false]
  rw [abs_sext_two_pow c.max c.size m hmax hm hs1 hs2]
  have hsub : double_int_sub (2 ^ m) double_int_one = 2 ^ m - 1 := by
    unfold double_int_sub double_int_one
    exact wrap_eq_self ⟨by linarith, by linarith⟩
  have hp1 : pattern ((2 : Int) ^ m) = 2 ^ m := by
    rw [pattern_of_nonneg _ (le_of_lt hpos) (by linarith)]
    have : ((2 : Int) ^ m) = ((2 ^ m : Nat) : Int) := by push_cast; rfl
    rw [this, Int.toNat_natCast]
  have hp2 : pattern ((2 : Int) ^ m - 1) = 2 ^ m - 1 := by
    rw [pattern_of_nonneg _ (by linarith) (by linarith)]
    have h1 : (1 : Nat) ≤ 2 ^ m := Nat.one_le_two_pow
    have : ((2 : Int) ^ m - 1) = ((2 ^ m - 1 : Nat) : Int) := by
      rw [Nat.cast_sub h1]; push_cast; rfl
    rw [this, Int.toNat_natCast]
  have hand : double_int_and (2 ^ m) (double_int_sub (2 ^ m) double_int_one) = 0 := by
    rw [hsub]
    unfold double_int_and
    rw [hp1, hp2]
    have : Nat.land (2 ^ m) (2 ^ m - 1) = 0 := by
      show 2 ^ m &&& 2 ^ m - 1 = 0
      rw [Nat.and_pow_two_sub_one_eq_mod]
      exact Nat.mod_self _
    rw [this]
    unfold wrap; norm_num
  rw [hand]
  have hz : double_int_equal_p double_int_zero 0 = true := by
    unfold double_int_equal_p double_int_zero; simp
  rw [hz]
  simp only [if_true]
  unfold double_int_ctz
  rw [hp1]
  have hne : ¬ (2 ^ m = 0) := by positivity
  rw [if_neg hne]
  unfold HOST_BITS_PER_DOUBLE_INT
  rw [ctz_aux_two_pow m 128 (by omega)]

/-! ### Virtual shifts -/

theorem multiplication_virtual_fields (f0 : SIF) (ops : SIF × SIF) :
    (multiplication_virtual f0 ops).S = ops.1.S ∧
    (multiplication_virtual f0 ops).I = ops.1.I + multiplication_k ops ∧
    (multiplication_virtual f0 ops).F =
      (if ops.1.F ≥ multiplication_k ops then ops.1.F - multiplication_k ops else 0) ∧
    (multiplication_virtual f0 ops).E =
      (if ops.1.F ≥ multiplication_k ops then ops.1.E
       else ops.1.E - multiplication_k ops) ∧
    (multiplication_virtual f0 ops).shift = 0 ∧
    (multiplication_virtual f0 ops).max = ops.1.max ∧
    (multiplication_virtual f0 ops).min = ops.1.min ∧
    (multiplication_virtual f0 ops).aa = shift_aa_list ops.1 (multiplication_k ops) := by
  unfold multiplication_virtual
  by_cases h : ops.1.F ≥ multiplication_k ops
  · simp [h]
  · simp [h]


/-! ### The operand shifts of `multiplication` -/

theorem shift_right_fe_nonneg (fmt : SIF) (t : tree) (count : Int) (h : fe_nonneg fmt)
    (hle : count ≤ fmt.F + fmt.E) : fe_nonneg (shift_right fmt t count) :=
  shift_right_nonneg fmt t count h.1 h.2 hle

/-- Giving back one lost fraction bit leaves F and E non-negative. -/
theorem shift_left_one_fe_nonneg (fmt : SIF) (t : tree) (h : fe_nonneg fmt)
    (hlost : LOST_F_BITS fmt > 0) : fe_nonneg (shift_left fmt t 1) := by
  unfold LOST_F_BITS at hlost
  unfold shift_left
  simp only
  split
  · exact fix_f_e_bits_nonneg _ t (by simp; linarith [h.1]) (by simp; exact h.2)
  · next hn =>
    exact fix_f_e_bits_nonneg _ t (by simp; linarith [h.1]) (by simp; linarith [h.2])

theorem mul_discard_step_spec (ops : SIF × SIF) (t1 t2 : tree) (h1 : fe_nonneg ops.1)
    (h2 : fe_nonneg ops.2) (hc : ops.1.F > 0 ∨ ops.2.F > 0) :
    fe_nonneg (mul_discard_step ops t1 t2).1 ∧ fe_nonneg (mul_discard_step ops t1 t2).2 ∧
    (mul_discard_step ops t1 t2).1.I = ops.1.I ∧ (mul_discard_step ops t1 t2).2.I = ops.2.I ∧
    BINARY_PT (mul_discard_step ops t1 t2).1 + BINARY_PT (mul_discard_step ops t1 t2).2 =
      BINARY_PT ops.1 + BINARY_PT ops.2 - 1 := by
  have s1 : ops.1.F > 0 →
      fe_nonneg (shift_right ops.1 t1 1) ∧ (shift_right ops.1 t1 1).I = ops.1.I ∧
      BINARY_PT (shift_right ops.1 t1 1) = BINARY_PT ops.1 - 1 := by
    intro h
    obtain ⟨-, -, f3, -, f5⟩ := shift_right_frame ops.1 t1 1
    exact ⟨shift_right_fe_nonneg _ _ _ h1 (by linarith [h1.2]), f3, f5⟩
  have s2 : ops.2.F > 0 →
      fe_nonneg (shift_right ops.2 t2 1) ∧ (shift_right ops.2 t2 1).I = ops.2.I ∧
      BINARY_PT (shift_right ops.2 t2 1) = BINARY_PT ops.2 - 1 := by
    intro h
    obtain ⟨-, -, f3, -, f5⟩ := shift_right_frame ops.2 t2 1
    exact ⟨shift_right_fe_nonneg _ _ _ h2 (by linarith [h2.2]), f3, f5⟩
  unfold mul_discard_step
  split
  · split
    · next h => obtain ⟨a, b, c⟩ := s1 h; exact ⟨a, h2, b, rfl, by simp only; linarith⟩
    · next h =>
      have h' : ops.2.F > 0 := by rcases hc with hc | hc; exact absurd hc h; exact hc
      rw [if_pos h']
      obtain ⟨a, b, c⟩ := s2 h'; exact ⟨h1, a, rfl, b, by simp only; linarith⟩
  · split
    · next h => obtain ⟨a, b, c⟩ := s2 h; exact ⟨h1, a, rfl, b, by simp only; linarith⟩
    · next h =>
      have h' : ops.1.F > 0 := by rcases hc with hc | hc; exact hc; exact absurd hc h
      rw [if_pos h']
      obtain ⟨a, b, c⟩ := s1 h'; exact ⟨a, h2, b, rfl, by simp only; linarith⟩

theorem mul_justify_step_spec (ops : SIF × SIF) (t1 t2 : tree) (h1 : fe_nonneg ops.1)
    (h2 : fe_nonneg ops.2) (hc : ops.1.E > 0 ∨ ops.2.E > 0) :
    fe_nonneg (mul_justify_step ops t1 t2).1 ∧ fe_nonneg (mul_justify_step ops t1 t2).2 ∧
    (mul_justify_step ops t1 t2).1.I = ops.1.I ∧ (mul_justify_step ops t1 t2).2.I = ops.2.I ∧
    BINARY_PT (mul_justify_step ops t1 t2).1 + BINARY_PT (mul_justify_step ops t1 t2).2 ≤
      BINARY_PT ops.1 + BINARY_PT ops.2 - 1 := by
  unfold mul_justify_step
  split
  · next h =>
    obtain ⟨-, -, f3, -, f5⟩ := shift_right_frame ops.1 t1 ops.1.E
    refine ⟨shift_right_fe_nonneg _ _ _ h1 (by linarith [h1.1]), h2, f3, rfl, ?_⟩
    show BINARY_PT (shift_right ops.1 t1 ops.1.E) + BINARY_PT ops.2 ≤ _
    unfold BINARY_PT
    rw [f5]
    linarith [h2.2]
  · next h =>
    have hE2 : ops.2.E > 0 := by
      rcases hc with hc | hc
      · linarith [not_lt.mp h]
      · exact hc
    obtain ⟨-, -, f3, -, f5⟩ := shift_right_frame ops.2 t2 ops.2.E
    refine ⟨h1, shift_right_fe_nonneg _ _ _ h2 (by linarith [h2.1]), rfl, f3, ?_⟩
    show BINARY_PT ops.1 + BINARY_PT (shift_right ops.2 t2 ops.2.E) ≤ _
    unfold BINARY_PT
    rw [f5]
    linarith

theorem mul_discard_loop_spec (rib : Int) (t1 t2 : tree) :
    ∀ (fuel : Nat) (ops : SIF × SIF), fe_nonneg ops.1 → fe_nonneg ops.2 →
      BINARY_PT ops.1 + BINARY_PT ops.2 < fuel →
      ∃ ops2, mul_discard_loop fuel rib ops t1 t2 = some ops2 ∧
        fe_nonneg ops2.1 ∧ fe_nonneg ops2.2 ∧ ops2.1.I = ops.1.I ∧ ops2.2.I = ops.2.I ∧
        BINARY_PT ops2.1 + BINARY_PT ops2.2 ≤ BINARY_PT ops.1 + BINARY_PT ops.2 ∧
        ¬ (INFO_BITS ops2.1 + INFO_BITS ops2.2 > rib ∧ (ops2.1.F > 0 ∨ ops2.2.F > 0)) := by
  intro fuel
  induction fuel with
  | zero =>
    intro ops h1 h2 hb
    unfold BINARY_PT at hb
    have := h1.1; have := h1.2; have := h2.1; have := h2.2
    simp at hb
    linarith
  | succ k ih =>
    intro ops h1 h2 hb
    unfold mul_discard_loop
    split
    · next hc =>
      obtain ⟨a1, a2, a3, a4, a5⟩ := mul_discard_step_spec ops t1 t2 h1 h2 hc.2
      have hb2 : BINARY_PT (mul_discard_step ops t1 t2).1 +
          BINARY_PT (mul_discard_step ops t1 t2).2 < k := by
        rw [a5]; push_cast at hb; linarith
      obtain ⟨ops2, e1, e2, e3, e4, e5, e6, e7⟩ := ih (mul_discard_step ops t1 t2) a1 a2 hb2
      exact ⟨ops2, e1, e2, e3, by rw [e4, a3], by rw [e5, a4], by linarith, e7⟩
    · next hc => exact ⟨ops, rfl, h1, h2, rfl, rfl, le_refl _, hc⟩

theorem mul_justify_loop_spec (rib : Int) (t1 t2 : tree) :
    ∀ (fuel : Nat) (ops : SIF × SIF), fe_nonneg ops.1 → fe_nonneg ops.2 →
      BINARY_PT ops.1 + BINARY_PT ops.2 < fuel →
      ∃ ops2, mul_justify_loop fuel rib ops t1 t2 = some ops2 ∧
        fe_nonneg ops2.1 ∧ fe_nonneg ops2.2 ∧ ops2.1.I = ops.1.I ∧ ops2.2.I = ops.2.I ∧
        BINARY_PT ops2.1 + BINARY_PT ops2.2 ≤ BINARY_PT ops.1 + BINARY_PT ops.2 ∧
        ¬ (INFO_BITS ops2.1 + ops2.1.E + INFO_BITS ops2.2 + ops2.2.E > rib ∧
            (ops2.1.E > 0 ∨ ops2.2.E > 0)) := by
  intro fuel
  induction fuel with
  | zero =>
    intro ops h1 h2 hb
    unfold BINARY_PT at hb
    have := h1.1; have := h1.2; have := h2.1; have := h2.2
    simp at hb
    linarith
  | succ k ih =>
    intro ops h1 h2 hb
    unfold mul_justify_loop
    split
    · next hc =>
      obtain ⟨a1, a2, a3, a4, a5⟩ := mul_justify_step_spec ops t1 t2 h1 h2 hc.2
      have hb2 : BINARY_PT (mul_justify_step ops t1 t2).1 +
          BINARY_PT (mul_justify_step ops t1 t2).2 < k := by
        push_cast at hb; linarith
      obtain ⟨ops2, e1, e2, e3, e4, e5, e6, e7⟩ := ih (mul_justify_step ops t1 t2) a1 a2 hb2
      exact ⟨ops2, e1, e2, e3, by rw [e4, a3], by rw [e5, a4], by linarith, e7⟩
    · next hc => exact ⟨ops, rfl, h1, h2, rfl, rfl, le_refl _, hc⟩

theorem mul_give_back_spec (rib : Int) (ops : SIF × SIF) (t1 t2 : tree)
    (h1 : fe_nonneg ops.1) (h2 : fe_nonneg ops.2) :
    fe_nonneg (mul_give_back rib ops t1 t2).1 ∧ fe_nonneg (mul_give_back rib ops t1 t2).2 ∧
    (mul_give_back rib ops t1 t2).1.I = ops.1.I ∧ (mul_give_back rib ops t1 t2).2.I = ops.2.I ∧
    BINARY_PT (mul_give_back rib ops t1 t2).1 + BINARY_PT (mul_give_back rib ops t1 t2).2 ≤
      BINARY_PT ops.1 + BINARY_PT ops.2 + 1 := by
  have s1 : LOST_F_BITS ops.1 > 0 →
      fe_nonneg (shift_left ops.1 t1 1) ∧ (shift_left ops.1 t1 1).I = ops.1.I ∧
      BINARY_PT (shift_left ops.1 t1 1) = BINARY_PT ops.1 + 1 := by
    intro h
    obtain ⟨-, -, f3, -, f5⟩ := shift_left_frame ops.1 t1 1
    exact ⟨shift_left_one_fe_nonneg _ _ h1 h, f3, f5⟩
  have s2 : LOST_F_BITS ops.2 > 0 →
      fe_nonneg (shift_left ops.2 t2 1) ∧ (shift_left ops.2 t2 1).I = ops.2.I ∧
      BINARY_PT (shift_left ops.2 t2 1) = BINARY_PT ops.2 + 1 := by
    intro h
    obtain ⟨-, -, f3, -, f5⟩ := shift_left_frame ops.2 t2 1
    exact ⟨shift_left_one_fe_nonneg _ _ h2 h, f3, f5⟩
  unfold mul_give_back
  split
  · split
    · next h => obtain ⟨a, b, c⟩ := s1 h.2; exact ⟨a, h2, b, rfl, by simp only; linarith⟩
    · split
      · next h => obtain ⟨a, b, c⟩ := s2 h; exact ⟨h1, a, rfl, b, by simp only; linarith⟩
      · split
        · next h => obtain ⟨a, b, c⟩ := s1 h; exact ⟨a, h2, b, rfl, by simp only; linarith⟩
        · exact ⟨h1, h2, rfl, rfl, by linarith⟩
  · exact ⟨h1, h2, rfl, rfl, by linarith⟩

theorem mul_mnn_step_spec (cfg : Config) (nid fz : Int) (rf : SIF) (ops : SIF × SIF)
    (t1 t2 : tree) (h1 : fe_nonneg ops.1) (h2 : fe_nonneg ops.2) :
    fe_nonneg (mul_mnn_step cfg nid fz rf ops t1 t2).1.1 ∧
    fe_nonneg (mul_mnn_step cfg nid fz rf ops t1 t2).1.2 ∧
    (mul_mnn_step cfg nid fz rf ops t1 t2).1.1.I = ops.1.I ∧
    (mul_mnn_step cfg nid fz rf ops t1 t2).1.2.I = ops.2.I := by
  obtain ⟨-, -, f3, -, -⟩ := shift_right_frame ops.1 t1 1
  obtain ⟨-, -, g3, -, -⟩ := shift_right_frame ops.2 t2 1
  unfold mul_mnn_step
  simp only
  split
  · split
    · next h => exact ⟨shift_right_fe_nonneg _ _ _ h1 (by linarith [h.2]), h2, f3, rfl⟩
    · split
      · next h => exact ⟨h1, shift_right_fe_nonneg _ _ _ h2 (by linarith), rfl, g3⟩
      · exact ⟨h1, h2, rfl, rfl⟩
  · exact ⟨h1, h2, rfl, rfl⟩

theorem multiplication_shape_spec (fuel : Nat) (cfg : Config) (nid : Int) (f0 : SIF)
    (ops : SIF × SIF) (t1 t2 : tree) (h1 : fe_nonneg ops.1) (h2 : fe_nonneg ops.2)
    (hfuel : BINARY_PT ops.1 + BINARY_PT ops.2 < fuel) :
    ∃ sh, multiplication_shape fuel cfg nid f0 ops t1 t2 = some sh ∧
      (sh.1.1 = f0.size ∨ sh.1.1 = 2 * f0.size) ∧
      fe_nonneg sh.1.2.1 ∧ fe_nonneg sh.1.2.2 ∧
      sh.1.2.1.I = ops.1.I ∧ sh.1.2.2.I = ops.2.I ∧
      BINARY_PT sh.1.2.1 + BINARY_PT sh.1.2.2 ≤ BINARY_PT ops.1 + BINARY_PT ops.2 + 1 ∧
      (sh.2 = [] ∨
        (sh.2 = [fx_error.mul_too_many_I_bits] ∧ sh.1.1 = f0.size ∧
          ops.1.I + ops.2.I > f0.size - f0.sgnd + fraction_zeros ops)) := by
  unfold multiplication_shape
  simp only
  split
  · split
    · exact ⟨_, rfl, Or.inr rfl, h1, h2, rfl, rfl, by unfold BINARY_PT; simp, Or.inl rfl⟩
    · exact ⟨_, rfl, Or.inl rfl, h1, h2, rfl, rfl, by linarith, Or.inl rfl⟩
  · obtain ⟨ops2, e1, e2, e3, e4, e5, e6, -⟩ :=
      mul_discard_loop_spec (f0.size - f0.sgnd + fraction_zeros ops) t1 t2 fuel ops h1 h2 hfuel
    rw [e1]
    simp only
    obtain ⟨g1, g2, g3, g4, g5⟩ :=
      mul_give_back_spec (f0.size - f0.sgnd + fraction_zeros ops) ops2 t1 t2 e2 e3
    refine ⟨_, rfl, Or.inl rfl, g1, g2, by rw [g3, e4], by rw [g4, e5], by linarith, ?_⟩
    by_cases hi : ops.1.I + ops.2.I > f0.size - f0.sgnd + fraction_zeros ops
    · right; exact ⟨by simp only [if_pos hi], rfl, hi⟩
    · left; simp only [if_neg hi]

theorem multiplication_shifts_spec (fuel : Nat) (cfg : Config) (nid : Int) (f0 : SIF)
    (ops : SIF × SIF) (t1 t2 : tree) (h1 : fe_nonneg ops.1) (h2 : fe_nonneg ops.2)
    (hfuel : BINARY_PT ops.1 + BINARY_PT ops.2 + 2 ≤ fuel) :
    ∃ st, multiplication_shifts fuel cfg nid f0 ops t1 t2 = some st ∧
      st.fz = fraction_zeros ops ∧
      (st.size = f0.size ∨ st.size = 2 * f0.size) ∧
      fe_nonneg st.ops.1 ∧ fe_nonneg st.ops.2 ∧
      st.ops.1.I = ops.1.I ∧ st.ops.2.I = ops.2.I ∧
      (st.errors = [] ∨
        (st.errors = [fx_error.mul_too_many_I_bits] ∧ st.size = f0.size ∧
          ops.1.I + ops.2.I > f0.size - f0.sgnd + fraction_zeros ops)) := by
  obtain ⟨sh, s1, s2, s3, s4, s5, s6, s7, s8⟩ :=
    multiplication_shape_spec fuel cfg nid f0 ops t1 t2 h1 h2 (by linarith)
  obtain ⟨ops2, e1, e2, e3, e4, e5, -, -⟩ :=
    mul_justify_loop_spec (sh.1.1 - f0.sgnd + fraction_zeros ops) t1 t2 fuel sh.1.2 s3 s4
      (by linarith)
  obtain ⟨m1, m2, m3, m4⟩ := mul_mnn_step_spec cfg
    (new_range_mul cfg nid ops.1 ops.2 { f0 with aa := [] }).2 (fraction_zeros ops)
    { f0 with aa := [], size := sh.1.1 } ops2 t1 t2 e2 e3
  unfold multiplication_shifts
  simp only
  rw [s1]
  simp only
  rw [e1]
  exact ⟨_, rfl, rfl, s2, m1, m2, by rw [m3, e4, s5], by rw [m4, e5, s6], s8⟩
/-! ### C1 -/

/-- C1: `shift_right` and `shift_left` keep the bit budget. For every operand
format, every operand tree (variable or constant) and every count (in
particular every count `≥ 0`),
`shift_right` adds `count` to S and to the pending shift, keeps I and takes
`count` off F+E, and `shift_left` does the reverse; either way S+I+F+E is
unchanged, so a format with S+I+F+E = size keeps that equation. -/
theorem C1_shift_keeps_bit_budget (fmt : SIF) (t : tree) (count : Int) :
    ((shift_right fmt t count).S = fmt.S + count ∧
     (shift_right fmt t count).shift = fmt.shift + count ∧
     (shift_right fmt t count).I = fmt.I ∧
     (shift_right fmt t count).F + (shift_right fmt t count).E = fmt.F + fmt.E - count) ∧
    ((shift_left fmt t count).S = fmt.S - count ∧
     (shift_left fmt t count).shift = fmt.shift - count ∧
     (shift_left fmt t count).I = fmt.I ∧
     (shift_left fmt t count).F + (shift_left fmt t count).E = fmt.F + fmt.E + count) ∧
    ((shift_right fmt t count).S + (shift_right fmt t count).I +
       (shift_right fmt t count).F + (shift_right fmt t count).E
       = fmt.S + fmt.I + fmt.F + fmt.E) ∧
    ((shift_left fmt t count).S + (shift_left fmt t count).I +
       (shift_left fmt t count).F + (shift_left fmt t count).E
       = fmt.S + fmt.I + fmt.F + fmt.E) ∧
    ((shift_right fmt t count).size = fmt.size ∧ (shift_left fmt t count).size = fmt.size) := by
  have hr : (shift_right fmt t count).S = fmt.S + count ∧
      (shift_right fmt t count).shift = fmt.shift + count ∧
      (shift_right fmt t count).I = fmt.I ∧
      (shift_right fmt t count).size = fmt.size ∧
      (shift_right fmt t count).F + (shift_right fmt t count).E = fmt.F + fmt.E - count := by
    unfold shift_right
    by_cases h0 : count = 0
    · simp [h0]
    · simp only [h0, if_false]
      split
      · obtain ⟨h1, h2, h3, h4, h5⟩ := fix_f_e_bits_frame
          { fmt with shift := fmt.shift + count, S := fmt.S + count, E := fmt.E - count } t
        refine ⟨h1, h3, h2, h4, ?_⟩
        rw [h5]; simp; ring
      · obtain ⟨h1, h2, h3, h4, h5⟩ := fix_f_e_bits_frame
          { fmt with shift := fmt.shift + count, S := fmt.S + count,
                     F := fmt.F + fmt.E - count, E := 0 } t
        refine ⟨h1, h3, h2, h4, ?_⟩
        rw [h5]; simp
  have hl : (shift_left fmt t count).S = fmt.S - count ∧
      (shift_left fmt t count).shift = fmt.shift - count ∧
      (shift_left fmt t count).I = fmt.I ∧
      (shift_left fmt t count).size = fmt.size ∧
      (shift_left fmt t count).F + (shift_left fmt t count).E = fmt.F + fmt.E + count := by
    unfold shift_left
    simp only
    split
    · obtain ⟨h1, h2, h3, h4, h5⟩ := fix_f_e_bits_frame
        { fmt with shift := fmt.shift - count, S := fmt.S - count, F := fmt.F + count } t
      refine ⟨h1, h3, h2, h4, ?_⟩
      rw [h5]; simp; ring
    · obtain ⟨h1, h2, h3, h4, h5⟩ := fix_f_e_bits_frame
        { fmt with shift := fmt.shift - count, S := fmt.S - count,
                   E := fmt.E + (count - (fmt.originalF - fmt.F)), F := fmt.originalF } t
      refine ⟨h1, h3, h2, h4, ?_⟩
      rw [h5]; simp; ring
  obtain ⟨r1, r2, r3, r4, r5⟩ := hr
  obtain ⟨l1, l2, l3, l4, l5⟩ := hl
  refine ⟨⟨r1, r2, r3, r5⟩, ⟨l1, l2, l3, l5⟩, ?_, ?_, r4, l4⟩
  · rw [r1, r3]; linarith
  · rw [l1, l3]; linarith

/-! ### C2 -/

theorem mul_le_corner_max (x y lo1 hi1 lo2 hi2 : Int) (hx1 : lo1 ≤ x) (hx2 : x ≤ hi1)
    (hy1 : lo2 ≤ y) (hy2 : y ≤ hi2) :
    x * y ≤ max (max (max (hi1 * hi2) (hi1 * lo2)) (lo1 * hi2)) (lo1 * lo2) := by
  simp only [le_max_iff]
  rcases le_total 0 y with hy | hy
  · rcases le_total 0 hi1 with hh | hh
    · left; left; left; nlinarith
    · left; left; right; nlinarith
  · rcases le_total 0 lo1 with hl | hl
    · left; right; nlinarith
    · right; nlinarith

theorem corner_min_le_mul (x y lo1 hi1 lo2 hi2 : Int) (hx1 : lo1 ≤ x) (hx2 : x ≤ hi1)
    (hy1 : lo2 ≤ y) (hy2 : y ≤ hi2) :
    min (min (min (hi1 * hi2) (hi1 * lo2)) (lo1 * hi2)) (lo1 * lo2) ≤ x * y := by
  simp only [min_le_iff]
  rcases le_total 0 y with hy | hy
  · rcases le_total 0 lo1 with hl | hl
    · right; nlinarith
    · left; right; nlinarith
  · rcases le_total 0 hi1 with hh | hh
    · left; left; right; nlinarith
    · left; left; left; nlinarith

theorem new_max_interval (cfg : Config) (o : SIF) (hI : cfg.AFFINE = false) :
    new_max cfg o =
      if ¬ o.max = 0 ∧ o.shift ≠ 0 then round_shift cfg o.max o.shift else o.max := by
  unfold new_max double_int_zero_p
  simp [hI]

theorem new_min_interval (cfg : Config) (o : SIF) (hI : cfg.AFFINE = false) :
    new_min cfg o =
      if ¬ o.min = 0 ∧ o.shift ≠ 0 then round_shift cfg o.min o.shift else o.min := by
  unfold new_min double_int_zero_p
  simp [hI]

theorem new_min_le_new_max (cfg : Config) (o : SIF) (hI : cfg.AFFINE = false)
    (h : o.min ≤ o.max) (hs : range_shift_fits o) : new_min cfg o ≤ new_max cfg o := by
  rw [new_min_interval cfg o hI, new_max_interval cfg o hI]
  exact shifted_bound_mono cfg o.shift o.min o.max h hs.1 hs.2

/-- C2: interval propagation is sound and tight. In interval mode, for operand
formats with `min ≤ max` whose pending shifts apply without overflow, and
writing `[lo_i, hi_i] = [new_min op_i, new_max op_i]` (an interval: `lo_i ≤
hi_i`): whenever the exact bounds fit a `double_int`, `new_range_add` returns
`[lo1+lo2, hi1+hi2]`, `new_range_sub` returns `[lo1-hi2, hi1-lo2]` and
`new_range_mul` returns the minimum and maximum of the four corner products;
every `x op y` with `x` in `[lo1,hi1]` and `y` in `[lo2,hi2]` lies in the
returned range, both returned bounds are attained, and every field of the
result other than `min` and `max` is the one passed in. -/
theorem C2_interval_propagation (cfg : Config) (next_error_id : Int)
    (oprnd1 oprnd2 result_frmt : SIF) (hI : cfg.AFFINE = false)
    (h1 : oprnd1.min ≤ oprnd1.max) (h2 : oprnd2.min ≤ oprnd2.max)
    (hs1 : range_shift_fits oprnd1) (hs2 : range_shift_fits oprnd2) :
    new_min cfg oprnd1 ≤ new_max cfg oprnd1 ∧ new_min cfg oprnd2 ≤ new_max cfg oprnd2 ∧
    (DI_fits (new_min cfg oprnd1 + new_min cfg oprnd2) →
     DI_fits (new_max cfg oprnd1 + new_max cfg oprnd2) →
      new_range_add cfg oprnd1 oprnd2 result_frmt =
        { result_frmt with max := new_max cfg oprnd1 + new_max cfg oprnd2,
                           min := new_min cfg oprnd1 + new_min cfg oprnd2 } ∧
      (∀ x y : Int, new_min cfg oprnd1 ≤ x → x ≤ new_max cfg oprnd1 →
        new_min cfg oprnd2 ≤ y → y ≤ new_max cfg oprnd2 →
        (new_range_add cfg oprnd1 oprnd2 result_frmt).min ≤ x + y ∧
        x + y ≤ (new_range_add cfg oprnd1 oprnd2 result_frmt).max) ∧
      (∃ x y : Int, new_min cfg oprnd1 ≤ x ∧ x ≤ new_max cfg oprnd1 ∧
        new_min cfg oprnd2 ≤ y ∧ y ≤ new_max cfg oprnd2 ∧
        x + y = (new_range_add cfg oprnd1 oprnd2 result_frmt).max) ∧
      (∃ x y : Int, new_min cfg oprnd1 ≤ x ∧ x ≤ new_max cfg oprnd1 ∧
        new_min cfg oprnd2 ≤ y ∧ y ≤ new_max cfg oprnd2 ∧
        x + y = (new_range_add cfg oprnd1 oprnd2 result_frmt).min)) ∧
    (DI_fits (new_min cfg oprnd1 - new_max cfg oprnd2) →
     DI_fits (new_max cfg oprnd1 - new_min cfg oprnd2) →
      new_range_sub cfg oprnd1 oprnd2 result_frmt =
        { result_frmt with max := new_max cfg oprnd1 - new_min cfg oprnd2,
                           min := new_min cfg oprnd1 - new_max cfg oprnd2 } ∧
      (∀ x y : Int, new_min cfg oprnd1 ≤ x → x ≤ new_max cfg oprnd1 →
        new_min cfg oprnd2 ≤ y → y ≤ new_max cfg oprnd2 →
        (new_range_sub cfg oprnd1 oprnd2 result_frmt).min ≤ x - y ∧
        x - y ≤ (new_range_sub cfg oprnd1 oprnd2 result_frmt).max) ∧
      (∃ x y : Int, new_min cfg oprnd1 ≤ x ∧ x ≤ new_max cfg oprnd1 ∧
        new_min cfg oprnd2 ≤ y ∧ y ≤ new_max cfg oprnd2 ∧
        x - y = (new_range_sub cfg oprnd1 oprnd2 result_frmt).max) ∧
      (∃ x y : Int, new_min cfg oprnd1 ≤ x ∧ x ≤ new_max cfg oprnd1 ∧
        new_min cfg oprnd2 ≤ y ∧ y ≤ new_max cfg oprnd2 ∧
        x - y = (new_range_sub cfg oprnd1 oprnd2 result_frmt).min)) ∧
    (DI_fits (new_max cfg oprnd1 * new_max cfg oprnd2) →
     DI_fits (new_max cfg oprnd1 * new_min cfg oprnd2) →
     DI_fits (new_min cfg oprnd1 * new_max cfg oprnd2) →
     DI_fits (new_min cfg oprnd1 * new_min cfg oprnd2) →
      new_range_mul cfg next_error_id oprnd1 oprnd2 result_frmt =
        ({ result_frmt with
            max := max (max (max (new_max cfg oprnd1 * new_max cfg oprnd2)
                                 (new_max cfg oprnd1 * new_min cfg oprnd2))
                            (new_min cfg oprnd1 * new_max cfg oprnd2))
                       (new_min cfg oprnd1 * new_min cfg oprnd2),
            min := min (min (min (new_max cfg oprnd1 * new_max cfg oprnd2)
                                 (new_max cfg oprnd1 * new_min cfg oprnd2))
                            (new_min cfg oprnd1 * new_max cfg oprnd2))
                       (new_min cfg oprnd1 * new_min cfg oprnd2) }, next_error_id) ∧
      (∀ x y : Int, new_min cfg oprnd1 ≤ x → x ≤ new_max cfg oprnd1 →
        new_min cfg oprnd2 ≤ y → y ≤ new_max cfg oprnd2 →
        (new_range_mul cfg next_error_id oprnd1 oprnd2 result_frmt).1.min ≤ x * y ∧
        x * y ≤ (new_range_mul cfg next_error_id oprnd1 oprnd2 result_frmt).1.max) ∧
      (∃ x y : Int, new_min cfg oprnd1 ≤ x ∧ x ≤ new_max cfg oprnd1 ∧
        new_min cfg oprnd2 ≤ y ∧ y ≤ new_max cfg oprnd2 ∧
        x * y = (new_range_mul cfg next_error_id oprnd1 oprnd2 result_frmt).1.max) ∧
      (∃ x y : Int, new_min cfg oprnd1 ≤ x ∧ x ≤ new_max cfg oprnd1 ∧
        new_min cfg oprnd2 ≤ y ∧ y ≤ new_max cfg oprnd2 ∧
        x * y = (new_range_mul cfg next_error_id oprnd1 oprnd2 result_frmt).1.min)) := by
  have hl1 := new_min_le_new_max cfg oprnd1 hI h1 hs1
  have hl2 := new_min_le_new_max cfg oprnd2 hI h2 hs2
  generalize ha1 : new_min cfg oprnd1 = lo1 at *
  generalize hb1 : new_max cfg oprnd1 = hi1 at *
  generalize ha2 : new_min cfg oprnd2 = lo2 at *
  generalize hb2 : new_max cfg oprnd2 = hi2 at *
  refine ⟨hl1, hl2, ?_, ?_, ?_⟩
  · intro f1 f2
    have e : new_range_add cfg oprnd1 oprnd2 result_frmt =
        { result_frmt with max := hi1 + hi2, min := lo1 + lo2 } := by
      unfold new_range_add double_int_add
      simp only [hI, Bool.false_eq_true, if_false]
      rw [ha1, hb1, ha2, hb2, wrap_eq_self f1, wrap_eq_self f2]
    rw [e]
    refine ⟨rfl, ?_, ⟨hi1, hi2, hl1, le_refl _, hl2, le_refl _, rfl⟩,
      ⟨lo1, lo2, le_refl _, hl1, le_refl _, hl2, rfl⟩⟩
    intro x y hx1 hx2 hy1 hy2
    constructor
    · show lo1 + lo2 ≤ x + y
      linarith
    · show x + y ≤ hi1 + hi2
      linarith
  · intro f1 f2
    have e : new_range_sub cfg oprnd1 oprnd2 result_frmt =
        { result_frmt with max := hi1 - lo2, min := lo1 - hi2 } := by
      unfold new_range_sub double_int_sub
      simp only [hI, Bool.false_eq_true, if_false]
      rw [ha1, hb1, ha2, hb2, wrap_eq_self f1, wrap_eq_self f2]
    rw [e]
    refine ⟨rfl, ?_, ⟨hi1, lo2, hl1, le_refl _, le_refl _, hl2, rfl⟩,
      ⟨lo1, hi2, le_refl _, hl1, hl2, le_refl _, rfl⟩⟩
    intro x y hx1 hx2 hy1 hy2
    constructor
    · show lo1 - hi2 ≤ x - y
      linarith
    · show x - y ≤ hi1 - lo2
      linarith
  · intro f1 f2 f3 f4
    have e : new_range_mul cfg next_error_id oprnd1 oprnd2 result_frmt =
        ({ result_frmt with
            max := max (max (max (hi1 * hi2) (hi1 * lo2)) (lo1 * hi2)) (lo1 * lo2),
            min := min (min (min (hi1 * hi2) (hi1 * lo2)) (lo1 * hi2)) (lo1 * lo2) },
          next_error_id) := by
      unfold new_range_mul double_int_mul
      simp only [hI, Bool.false_eq_true, if_false]
      rw [ha1, hb1, ha2, hb2, wrap_eq_self f1, wrap_eq_self f2, wrap_eq_self f3,
        wrap_eq_self f4]
      simp only [double_int_smax_eq, double_int_smin_eq]
    rw [e]
    refine ⟨rfl, ?_, ?_, ?_⟩
    · intro x y hx1 hx2 hy1 hy2
      exact ⟨corner_min_le_mul x y lo1 hi1 lo2 hi2 hx1 hx2 hy1 hy2,
        mul_le_corner_max x y lo1 hi1 lo2 hi2 hx1 hx2 hy1 hy2⟩
    · show ∃ x y : Int, lo1 ≤ x ∧ x ≤ hi1 ∧ lo2 ≤ y ∧ y ≤ hi2 ∧
        x * y = max (max (max (hi1 * hi2) (hi1 * lo2)) (lo1 * hi2)) (lo1 * lo2)
      rcases max_choice (max (max (hi1 * hi2) (hi1 * lo2)) (lo1 * hi2)) (lo1 * lo2) with
        e1 | e1
      · rcases max_choice (max (hi1 * hi2) (hi1 * lo2)) (lo1 * hi2) with e2 | e2
        · rcases max_choice (hi1 * hi2) (hi1 * lo2) with e3 | e3
          · exact ⟨hi1, hi2, hl1, le_refl _, hl2, le_refl _, by rw [e1, e2, e3]⟩
          · exact ⟨hi1, lo2, hl1, le_refl _, le_refl _, hl2, by rw [e1, e2, e3]⟩
        · exact ⟨lo1, hi2, le_refl _, hl1, hl2, le_refl _, by rw [e1, e2]⟩
      · exact ⟨lo1, lo2, le_refl _, hl1, le_refl _, hl2, by rw [e1]⟩
    · show ∃ x y : Int, lo1 ≤ x ∧ x ≤ hi1 ∧ lo2 ≤ y ∧ y ≤ hi2 ∧
        x * y = min (min (min (hi1 * hi2) (hi1 * lo2)) (lo1 * hi2)) (lo1 * lo2)
      rcases min_choice (min (min (hi1 * hi2) (hi1 * lo2)) (lo1 * hi2)) (lo1 * lo2) with
        e1 | e1
      · rcases min_choice (min (hi1 * hi2) (hi1 * lo2)) (lo1 * hi2) with e2 | e2
        · rcases min_choice (hi1 * hi2) (hi1 * lo2) with e3 | e3
          · exact ⟨hi1, hi2, hl1, le_refl _, hl2, le_refl _, by rw [e1, e2, e3]⟩
          · exact ⟨hi1, lo2, hl1, le_refl _, le_refl _, hl2, by rw [e1, e2, e3]⟩
        · exact ⟨lo1, hi2, le_refl _, hl1, hl2, le_refl _, by rw [e1, e2]⟩
      · exact ⟨lo1, lo2, le_refl _, hl1, le_refl _, hl2, by rw [e1]⟩

set_option maxRecDepth 100000 in
theorem C2_interval_propagation_witness :
    (new_range_add cfg_interval (sample_format 1 3 4 0 1 (-5) 9 [])
        (sample_format 1 2 5 0 0 (-2) 7 []) (sample_format 1 4 3 0 0 1 0 [])).max = 12 ∧
    (new_range_sub cfg_interval (sample_format 1 3 4 0 1 (-5) 9 [])
        (sample_format 1 2 5 0 0 (-2) 7 []) (sample_format 1 4 3 0 0 1 0 [])).min = -10 ∧
    (new_range_mul cfg_interval 1 (sample_format 1 3 4 0 1 (-5) 9 [])
        (sample_format 1 2 5 0 0 (-2) 7 []) (sample_format 1 4 3 0 0 1 0 [])).1.max = 35 := by
  have h := C2_interval_propagation cfg_interval 1 (sample_format 1 3 4 0 1 (-5) 9 [])
    (sample_format 1 2 5 0 0 (-2) 7 []) (sample_format 1 4 3 0 0 1 0 []) rfl
    (by decide) (by decide) (by decide) (by decide)
  obtain ⟨-, -, hadd, hsub, hmul⟩ := h
  rw [(hadd (by decide) (by decide)).1, (hsub (by decide) (by decide)).1,
    (hmul (by decide) (by decide) (by decide) (by decide)).1]
  decide

/-! ### C3 -/

/-- C3: `affine_add` in `ADD` mode is exact affine addition. If either operand
has no affine list the result is `NULL`. When both operands carry a list with
distinct keys whose terms sit at the operand's binary point `F + E`, the two
binary points are equal and the coefficient sums do not overflow a
`double_int`: the result has distinct keys, its key set is the union of the
operands' key sets, every term sits at the common binary point, the
coefficient of every key is the sum of the operands' coefficients for it (a
key that only one operand has keeps its coefficient), so for every assignment
of the noise symbols the value of the result is `v1 + v2`, which for symbols
in `[-1, 1]` lies in `[aa_min, aa_max]` of the result, and `aa_max` of the
result is at most `aa_max op1 + aa_max op2`. -/
theorem C3_affine_add_exact (cfg : Config) (oprnd1 oprnd2 : SIF) :
    ((oprnd1.aa = [] ∨ oprnd2.aa = []) → affine_add cfg oprnd1 oprnd2 true = []) ∧
    (oprnd1.aa ≠ [] → oprnd2.aa ≠ [] →
     (aa_keys oprnd1.aa).Nodup → (aa_keys oprnd2.aa).Nodup →
     (∀ e ∈ oprnd1.aa, e.bp = oprnd1.F + oprnd1.E) →
     (∀ e ∈ oprnd2.aa, e.bp = oprnd2.F + oprnd2.E) →
     oprnd1.F + oprnd1.E = oprnd2.F + oprnd2.E →
     aa_abs_sum oprnd1.aa + aa_abs_sum oprnd2.aa < 2 ^ 127 →
      (aa_keys (affine_add cfg oprnd1 oprnd2 true)).Nodup ∧
      (∀ k, k ∈ aa_keys (affine_add cfg oprnd1 oprnd2 true) ↔
        k ∈ aa_keys oprnd1.aa ∨ k ∈ aa_keys oprnd2.aa) ∧
      (∀ e ∈ affine_add cfg oprnd1 oprnd2 true, e.bp = oprnd1.F + oprnd1.E) ∧
      (∀ k, coeff_of (affine_add cfg oprnd1 oprnd2 true) k =
        coeff_of oprnd1.aa k + coeff_of oprnd2.aa k) ∧
      (∀ (K : Type) [LinearOrderedField K] (eps : Int → K),
        aa_value eps (affine_add cfg oprnd1 oprnd2 true) =
          aa_value eps oprnd1.aa + aa_value eps oprnd2.aa) ∧
      (∀ (K : Type) [LinearOrderedField K] (eps : Int → K), eps 0 = 1 → (∀ k, |eps k| ≤ 1) →
        ((aa_min (affine_add cfg oprnd1 oprnd2 true) : Int) : K) ≤
          aa_value eps oprnd1.aa + aa_value eps oprnd2.aa ∧
        aa_value eps oprnd1.aa + aa_value eps oprnd2.aa ≤
          ((aa_max (affine_add cfg oprnd1 oprnd2 true) : Int) : K)) ∧
      aa_max (affine_add cfg oprnd1 oprnd2 true) ≤ aa_max oprnd1.aa + aa_max oprnd2.aa) := by
  constructor
  · intro h
    unfold affine_add
    simp [h]
  intro hne1 hne2 hk1 hk2 hbp1 hbp2 hbp hfit
  obtain ⟨hkn, hkm⟩ := aa_keys_affine_add_nodup cfg oprnd1 oprnd2 true hne1 hne2 hk1 hk2 hbp1 hbp2
  have hco := coeff_of_affine_add cfg oprnd1 oprnd2 hne1 hne2 hk1 hk2 hbp1 hbp2 hfit
  have hRne : affine_add cfg oprnd1 oprnd2 true ≠ [] := by
    intro h
    have hk : aa_keys (affine_add cfg oprnd1 oprnd2 true) = [] := by rw [h]; rfl
    cases hl : oprnd1.aa with
    | nil => exact hne1 hl
    | cons a r =>
      have : a.id ∈ aa_keys (affine_add cfg oprnd1 oprnd2 true) :=
        (hkm a.id).mpr (Or.inl (by rw [hl]; simp [aa_keys]))
      rw [hk] at this
      cases this
  let S : Finset Int := (aa_keys oprnd1.aa ++ aa_keys oprnd2.aa).toFinset
  have hS1 : ∀ k ∈ aa_keys oprnd1.aa, k ∈ S := by
    intro k hk; exact List.mem_toFinset.mpr (List.mem_append.mpr (Or.inl hk))
  have hS2 : ∀ k ∈ aa_keys oprnd2.aa, k ∈ S := by
    intro k hk; exact List.mem_toFinset.mpr (List.mem_append.mpr (Or.inr hk))
  have hSR : ∀ k ∈ aa_keys (affine_add cfg oprnd1 oprnd2 true), k ∈ S := by
    intro k hk
    exact List.mem_toFinset.mpr (List.mem_append.mpr ((hkm k).mp hk))
  have hval : ∀ (K : Type) [LinearOrderedField K] (eps : Int → K),
      aa_value eps (affine_add cfg oprnd1 oprnd2 true) =
        aa_value eps oprnd1.aa + aa_value eps oprnd2.aa := by
    intro K _ eps
    rw [aa_value_eq_sum_keys eps _ hkn S hSR, aa_value_eq_sum_keys eps _ hk1 S hS1,
      aa_value_eq_sum_keys eps _ hk2 S hS2, ← Finset.sum_add_distrib]
    apply Finset.sum_congr rfl
    intro k _
    rw [hco k]
    push_cast
    ring
  have habs : aa_abs_sum (affine_add cfg oprnd1 oprnd2 true) ≤
      aa_abs_sum oprnd1.aa + aa_abs_sum oprnd2.aa := by
    rw [aa_abs_sum_eq_sum_keys _ hkn S hSR, aa_abs_sum_eq_sum_keys _ hk1 S hS1,
      aa_abs_sum_eq_sum_keys _ hk2 S hS2, ← Finset.sum_add_distrib]
    apply Finset.sum_le_sum
    intro k _
    rw [hco k]
    exact abs_add _ _
  have hfR : aa_abs_sum (affine_add cfg oprnd1 oprnd2 true) < 2 ^ 127 := lt_of_le_of_lt habs hfit
  have hf1 : aa_abs_sum oprnd1.aa < 2 ^ 127 := by
    linarith [aa_abs_sum_nonneg oprnd2.aa]
  have hf2 : aa_abs_sum oprnd2.aa < 2 ^ 127 := by
    linarith [aa_abs_sum_nonneg oprnd1.aa]
  refine ⟨hkn, hkm, affine_add_bp cfg oprnd1 oprnd2 true hne1 hne2 hk1 hk2 hbp1 hbp2 hbp,
    hco, hval, ?_, ?_⟩
  · intro K _ eps h0 h1
    rw [← hval K eps]
    exact aa_min_le_value_le_aa_max eps h0 h1 _ hRne hkn hfR
  · rw [aa_max_eq _ hkn hfR, aa_max_eq _ hk1 hf1, aa_max_eq _ hk2 hf2]
    rw [aa_center_sum_eq_sum_keys _ hkn S hSR, aa_center_sum_eq_sum_keys _ hk1 S hS1,
      aa_center_sum_eq_sum_keys _ hk2 S hS2, aa_radius_eq_sum_keys _ hkn S hSR,
      aa_radius_eq_sum_keys _ hk1 S hS1, aa_radius_eq_sum_keys _ hk2 S hS2]
    rw [← Finset.sum_add_distrib, ← Finset.sum_add_distrib, ← Finset.sum_add_distrib,
      ← Finset.sum_add_distrib]
    apply Finset.sum_le_sum
    intro k _
    rw [hco k]
    by_cases hz : k = 0
    · simp only [hz, if_true]
      linarith
    · simp only [hz, if_false]
      linarith [abs_add (coeff_of oprnd1.aa k) (coeff_of oprnd2.aa k)]

set_option maxRecDepth 100000 in
theorem C3_affine_add_exact_witness :
    coeff_of (affine_add cfg_affine
        (sample_format 1 3 4 0 0 (-5) 9 [⟨0, 2, 4⟩, ⟨65791, 7, 4⟩])
        (sample_format 1 3 4 0 0 (-2) 7 [⟨0, 3, 4⟩, ⟨65791, -4, 4⟩, ⟨131327, 1, 4⟩]) true) 65791
      = 7 + -4 ∧
    aa_max (affine_add cfg_affine
        (sample_format 1 3 4 0 0 (-5) 9 [⟨0, 2, 4⟩, ⟨65791, 7, 4⟩])
        (sample_format 1 3 4 0 0 (-2) 7 [⟨0, 3, 4⟩, ⟨65791, -4, 4⟩, ⟨131327, 1, 4⟩]) true)
      ≤ 9 + 8 := by
  have h := (C3_affine_add_exact cfg_affine
    (sample_format 1 3 4 0 0 (-5) 9 [⟨0, 2, 4⟩, ⟨65791, 7, 4⟩])
    (sample_format 1 3 4 0 0 (-2) 7 [⟨0, 3, 4⟩, ⟨65791, -4, 4⟩, ⟨131327, 1, 4⟩])).2
    (by decide) (by decide) (by decide) (by decide) (by decide) (by decide) (by decide)
    (by decide)
  obtain ⟨-, -, -, hco, -, -, hmax⟩ := h
  exact ⟨hco 65791, hmax⟩

/-! ### C4 -/

set_option maxRecDepth 100000 in
/-- C4 (evaluation at a failing input): `affine_multiply` of the list `3·x`
(one term, key 130816 = variable 1, not an array, pass 0; binary point 0) with
itself halves the product 9 with an arithmetic shift, twice: the center gets
4 and the fresh error term gets 4, so `aa_max` of the result is 8, while the
assignment `x = 1` gives the product `v1 * v2 = 9`, outside `[aa_min, aa_max]`
`= [0, 8]`. -/
theorem C4_affine_multiply_odd_square_unsound :
    affine_multiply 1 [⟨130816, 3, 0⟩] [⟨130816, 3, 0⟩] = ([⟨0, 4, 0⟩, ⟨1, 4, 0⟩], 2) ∧
    aa_min (affine_multiply 1 [⟨130816, 3, 0⟩] [⟨130816, 3, 0⟩]).1 = 0 ∧
    aa_max (affine_multiply 1 [⟨130816, 3, 0⟩] [⟨130816, 3, 0⟩]).1 = 8 ∧
    (∃ eps : Int → ℚ, eps 0 = 1 ∧ (∀ k, |eps k| ≤ 1) ∧
      ((aa_max (affine_multiply 1 [⟨130816, 3, 0⟩] [⟨130816, 3, 0⟩]).1 : Int) : ℚ) <
        aa_value eps [⟨130816, 3, 0⟩] * aa_value eps [⟨130816, 3, 0⟩]) := by
  have h8 : aa_max (affine_multiply 1 [⟨130816, 3, 0⟩] [⟨130816, 3, 0⟩]).1 = 8 := by decide
  refine ⟨by decide, by decide, h8, fun _ => 1, rfl, ?_, ?_⟩
  · intro k; simp
  · rw [h8]
    norm_num [aa_value]

/-! ### C5 -/

set_option maxRecDepth 100000 in
/-- C5 (evaluation at failing inputs): in `SUB` mode `affine_add` combines
operand 2's coefficient `c2` as `-(1 + c2)`, not `-c2`. Subtracting the form
`3 + 2·x` (binary point 4) from itself gives center `-1` and coefficient `-1`
for `x`, a range `[-2, 0]` instead of `[0, 0]`; subtracting the constant form
`3` from itself gives the range `[-1, -1]`, which does not contain the true
difference 0. -/
theorem C5_affine_sub_off_by_one :
    affine_add cfg_affine
        (sample_format 1 3 4 0 0 1 5 [⟨0, 3, 4⟩, ⟨130816, 2, 4⟩])
        (sample_format 1 3 4 0 0 1 5 [⟨0, 3, 4⟩, ⟨130816, 2, 4⟩]) false
      = [⟨0, -1, 4⟩, ⟨130816, -1, 4⟩] ∧
    aa_min (affine_add cfg_affine
        (sample_format 1 3 4 0 0 1 5 [⟨0, 3, 4⟩, ⟨130816, 2, 4⟩])
        (sample_format 1 3 4 0 0 1 5 [⟨0, 3, 4⟩, ⟨130816, 2, 4⟩]) false) = -2 ∧
    aa_max (affine_add cfg_affine
        (sample_format 1 3 4 0 0 1 5 [⟨0, 3, 4⟩, ⟨130816, 2, 4⟩])
        (sample_format 1 3 4 0 0 1 5 [⟨0, 3, 4⟩, ⟨130816, 2, 4⟩]) false) = 0 ∧
    affine_add cfg_affine (sample_format 1 3 4 0 0 3 3 [⟨0, 3, 4⟩])
        (sample_format 1 3 4 0 0 3 3 [⟨0, 3, 4⟩]) false = [⟨0, -1, 4⟩] ∧
    aa_max (affine_add cfg_affine (sample_format 1 3 4 0 0 3 3 [⟨0, 3, 4⟩])
        (sample_format 1 3 4 0 0 3 3 [⟨0, 3, 4⟩]) false) = -1 ∧
    (∀ eps : Int → ℚ, eps 0 = 1 →
      ((aa_max (affine_add cfg_affine (sample_format 1 3 4 0 0 3 3 [⟨0, 3, 4⟩])
        (sample_format 1 3 4 0 0 3 3 [⟨0, 3, 4⟩]) false) : Int) : ℚ) <
      aa_value eps [⟨0, 3, 4⟩] - aa_value eps [⟨0, 3, 4⟩]) := by
  have h : aa_max (affine_add cfg_affine (sample_format 1 3 4 0 0 3 3 [⟨0, 3, 4⟩])
        (sample_format 1 3 4 0 0 3 3 [⟨0, 3, 4⟩]) false) = -1 := by decide
  refine ⟨by decide, by decide, by decide, by decide, h, ?_⟩
  intro eps _
  rw [h]
  norm_num

/-! ### C6 -/

set_option maxRecDepth 100000 in
/-- C6 (counterexample): for the single term `3·x` at binary point 0 the
product has center 4 and error coefficient 4; they are not half of `3 * 3`
and sum to 8, not to 9. For the coefficient 0 the result is the center term
alone: no error term is appended. -/
theorem C6_self_multiply_counterexample :
    affine_multiply 1 [⟨130816, 3, 0⟩] [⟨130816, 3, 0⟩] = ([⟨0, 4, 0⟩, ⟨1, 4, 0⟩], 2) ∧
    ¬ (∃ center err : AA,
        (affine_multiply 1 [⟨130816, 3, 0⟩] [⟨130816, 3, 0⟩]).1 = [center, err] ∧
        center.coeff + err.coeff = 3 * 3) ∧
    affine_multiply 1 [⟨130816, 0, 0⟩] [⟨130816, 0, 0⟩] = ([⟨0, 0, 0⟩], 1) := by
  have h : affine_multiply 1 [⟨130816, 3, 0⟩] [⟨130816, 3, 0⟩] = ([⟨0, 4, 0⟩, ⟨1, 4, 0⟩], 2) := by
    decide
  refine ⟨h, ?_, by decide⟩
  rw [h]
  rintro ⟨center, err, he, hs⟩
  simp only [List.cons.injEq, and_true] at he
  obtain ⟨h1, h2⟩ := he
  rw [← h1, ← h2] at hs
  revert hs
  decide

/-- C6 (amended): for every list consisting of a single non-center term with
key `k ≠ 0` and an even, nonzero coefficient `c` at binary point `p` (with
`c * c` representable), and a fresh error id that is neither 0 nor `k`,
`affine_multiply(L, L)` consists of exactly a center term (key 0) and one
error term with the fresh id, both at binary point `2p`, each with the
positive coefficient `c * c / 2`; the two coefficients sum to `c * c`, no term
with key `k` remains, and `next_error_id` advances by one. -/
theorem C6_self_multiply_even (next_error_id k c p : Int) (hk : k ≠ 0)
    (hn0 : next_error_id ≠ 0) (hnk : next_error_id ≠ k) (hc : c ≠ 0) (heven : 2 ∣ c)
    (hfit : DI_fits (c * c)) :
    affine_multiply next_error_id [⟨k, c, p⟩] [⟨k, c, p⟩] =
      ([⟨0, c * c / 2, p + p⟩, ⟨next_error_id, c * c / 2, p + p⟩], next_error_id + 1) ∧
    0 < c * c / 2 ∧ c * c / 2 + c * c / 2 = c * c ∧
    search_aa_var (affine_multiply next_error_id [⟨k, c, p⟩] [⟨k, c, p⟩]).1 k = none := by
  obtain ⟨d, rfl⟩ := heven
  have hd : d ≠ 0 := by
    intro h; apply hc; rw [h]; ring
  have hdd : 0 < d * d := mul_self_pos.mpr hd
  have hhalf : 2 * d * (2 * d) / 2 = 2 * (d * d) := by
    have : 2 * d * (2 * d) = 2 * (2 * (d * d)) := by ring
    rw [this, Int.mul_ediv_cancel_left _ (by norm_num : (2 : Int) ≠ 0)]
  have hpos : 0 < 2 * d * (2 * d) / 2 := by rw [hhalf]; linarith
  have hsum : 2 * d * (2 * d) / 2 + 2 * d * (2 * d) / 2 = 2 * d * (2 * d) := by
    rw [hhalf]; ring
  have hbp : get_aa_bp [⟨k, 2 * d, p⟩] = p := by
    unfold get_aa_bp
    simp only [List.foldl_cons, List.foldl_nil]
    split_ifs with h1 <;> simp_all
  have hmul : double_int_mul (2 * d) (2 * d) = 2 * d * (2 * d) := wrap_eq_self hfit
  have hsh : double_int_rshift (2 * d * (2 * d)) 1 true = 2 * d * (2 * d) / 2 := by
    unfold double_int_rshift
    simp
  have hfit2 : DI_fits (2 * d * (2 * d) / 2) := by
    unfold DI_fits at hfit ⊢
    rw [hhalf]
    constructor <;> nlinarith [hfit.1, hfit.2]
  have habs : double_int_abs (2 * d * (2 * d) / 2) = 2 * d * (2 * d) / 2 := by
    unfold double_int_abs double_int_negative_p
    have : ¬ (2 * d * (2 * d) / 2 < 0) := not_lt.mpr (le_of_lt hpos)
    simp [this]
  have herr : double_int_add double_int_zero (2 * d * (2 * d) / 2) = 2 * d * (2 * d) / 2 := by
    unfold double_int_add double_int_zero
    rw [zero_add]
    exact wrap_eq_self hfit2
  have hres : affine_multiply next_error_id [⟨k, 2 * d, p⟩] [⟨k, 2 * d, p⟩] =
      ([⟨0, 2 * d * (2 * d) / 2, p + p⟩, ⟨next_error_id, 2 * d * (2 * d) / 2, p + p⟩],
        next_error_id + 1) := by
    unfold affine_multiply
    simp only [List.cons_ne_self, reduceCtorEq, or_self, if_false, hbp, List.foldl_cons,
      List.foldl_nil]
    unfold affine_multiply_step
    simp only [hk, if_false, if_true, hmul, hsh, habs, herr]
    have hz : double_int_zero_p (2 * d * (2 * d) / 2) = false := by
      unfold double_int_zero_p
      simp [ne_of_gt hpos]
    have hacc : aa_accumulate [] 0 (2 * d * (2 * d) / 2) (p + p) =
        [⟨0, 2 * d * (2 * d) / 2, p + p⟩] := by
      simp [aa_accumulate, search_aa_var, append_aa_var]
    have happ : append_aa_var [⟨0, 2 * d * (2 * d) / 2, p + p⟩] next_error_id
        (2 * d * (2 * d) / 2) (p + p) =
        [⟨0, 2 * d * (2 * d) / 2, p + p⟩, ⟨next_error_id, 2 * d * (2 * d) / 2, p + p⟩] := by
      have : ¬ (0 : Int) = next_error_id := fun h => hn0 h.symm
      simp [append_aa_var, search_aa_var, this]
    simp only [hz, hacc, happ, Bool.false_eq_true, if_false]
  refine ⟨hres, hpos, hsum, ?_⟩
  rw [hres]
  have h1 : ¬ (0 : Int) = k := fun h => hk h.symm
  simp [search_aa_var, h1, hnk]

set_option maxRecDepth 100000 in
theorem C6_self_multiply_even_witness :
    affine_multiply 1 [⟨130816, 4, 2⟩] [⟨130816, 4, 2⟩] =
      ([⟨0, 4 * 4 / 2, 2 + 2⟩, ⟨1, 4 * 4 / 2, 2 + 2⟩], 1 + 1) :=
  (C6_self_multiply_even 1 130816 4 2 (by decide) (by decide) (by decide) (by decide)
    (by decide) (by decide)).1

/-! ### C7 -/

set_option maxRecDepth 100000 in
/-- C7 (evaluation at the failing input): for the constant zero `log2_range`
returns `HOST_BITS_PER_DOUBLE_INT = 128`, not `-1`: zero passes the test
`const_val & (const_val - 1) == 0` and `double_int_ctz(0)` is 128. This is so
for the 8-bit format and for the 1-bit format `int_constant_format` gives the
integer constant 0. The constants 3 and -6 give `-1`, and 8, -8 give 3. -/
theorem C7_log2_range_of_zero :
    log2_range (sample_format 1 1 6 0 0 0 0 []) = 128 ∧
    log2_range { initialize_format with I := 1, size := 1, max := 0, min := 0 } = 128 ∧
    log2_range (sample_format 1 3 4 0 0 3 3 []) = -1 ∧
    log2_range (sample_format 1 3 4 0 0 (-6) (-6) []) = -1 ∧
    log2_range (sample_format 1 3 4 0 0 8 8 []) = 3 ∧
    log2_range (sample_format 1 3 4 0 0 (-8) (-8) []) = 3 ∧
    log2_range (sample_format 1 3 4 0 0 3 8 []) = -1 := by
  decide

/-! ### C8 -/

theorem double_int_mask_eq (n : Int) (h1 : 1 ≤ n) (h2 : n ≤ 127) :
    double_int_mask n = 2 ^ n.toNat - 1 := by
  unfold double_int_mask
  have : 1 ≤ n ∧ n ≤ 128 := ⟨h1, by linarith⟩
  simp only [this, and_self, if_true]
  apply wrap_eq_self
  have hp : (2 : Int) ^ n.toNat ≤ 2 ^ 127 := by
    apply pow_le_pow_right₀ (by norm_num)
    omega
  have hp0 : (0 : Int) < 2 ^ n.toNat := by positivity
  unfold DI_fits
  constructor <;> linarith

theorem double_int_not_mask (n : Int) (h1 : 1 ≤ n) (h2 : n ≤ 127) :
    double_int_not (2 ^ n.toNat - 1) = -2 ^ n.toNat := by
  unfold double_int_not
  have hp : (2 : Int) ^ n.toNat ≤ 2 ^ 127 := by
    apply pow_le_pow_right₀ (by norm_num)
    omega
  have hp0 : (0 : Int) < 2 ^ n.toNat := by positivity
  have : -(2 ^ n.toNat - 1 : Int) - 1 = -2 ^ n.toNat := by ring
  rw [this]
  apply wrap_eq_self
  unfold DI_fits
  constructor <;> linarith

/-- C8: divide-by-zero fallback in interval mode. For every numerator, every
divisor whose shifted, sign-extended range contains zero (`min2 = 0`, or
`max2 = 0`, or `min2 < 0 < max2`) and every destination of `2 ≤ size ≤ 128`
bits, `new_range_div` returns the result format with `max = 2^(size-1) - 1`
and `min = -2^(size-1)`, every other field as passed in; the numerator does
not enter the result and `next_error_id` is unchanged. -/
theorem C8_divide_by_zero_fallback (cfg : Config) (next_error_id : Int)
    (oprnd1 oprnd2 result_frmt : SIF) (hI : cfg.AFFINE = false)
    (hsize : 2 ≤ result_frmt.size ∧ result_frmt.size ≤ 128)
    (hzero : double_int_sext (new_min cfg oprnd2) oprnd2.size = 0 ∨
      double_int_sext (new_max cfg oprnd2) oprnd2.size = 0 ∨
      (double_int_sext (new_min cfg oprnd2) oprnd2.size < 0 ∧
        0 < double_int_sext (new_max cfg oprnd2) oprnd2.size)) :
    new_range_div cfg next_error_id oprnd1 oprnd2 result_frmt =
      some ({ result_frmt with
              max := 2 ^ (result_frmt.size - 1).toNat - 1,
              min := -2 ^ (result_frmt.size - 1).toNat }, next_error_id) := by
  have hz : divisor_may_be_zero (double_int_sext (new_min cfg oprnd2) oprnd2.size)
      (double_int_sext (new_max cfg oprnd2) oprnd2.size) = true := by
    unfold divisor_may_be_zero double_int_zero_p double_int_positive_p double_int_negative_p
      double_int_zero_p
    rcases hzero with h | h | ⟨h1, h2⟩
    · simp [h]
    · simp [h]
    · have : ¬ double_int_sext (new_max cfg oprnd2) oprnd2.size < 0 := not_lt.mpr (le_of_lt h2)
      simp [h1, this, ne_of_gt h2]
  unfold new_range_div
  simp only [hI, Bool.false_eq_true, if_false, hz, if_true]
  rw [double_int_mask_eq _ (by linarith [hsize.1]) (by linarith [hsize.2]),
    double_int_not_mask _ (by linarith [hsize.1]) (by linarith [hsize.2])]

set_option maxRecDepth 100000 in
theorem C8_divide_by_zero_fallback_witness :
    new_range_div cfg_interval 1 (sample_format 1 3 4 0 0 (-40) 90 [])
        (sample_format 1 3 4 0 0 (-1) 1 []) (sample_format 1 3 4 0 0 1 0 []) =
      some ({ sample_format 1 3 4 0 0 1 0 [] with
              max := 2 ^ ((sample_format 1 3 4 0 0 1 0 []).size - 1).toNat - 1,
              min := -2 ^ ((sample_format 1 3 4 0 0 1 0 []).size - 1).toNat }, 1) :=
  C8_divide_by_zero_fallback cfg_interval 1 (sample_format 1 3 4 0 0 (-40) 90 [])
    (sample_format 1 3 4 0 0 (-1) 1 []) (sample_format 1 3 4 0 0 1 0 []) rfl
    (by decide) (by decide)

/-! ### C9 -/

set_option maxRecDepth 100000 in
/-- C9 (evaluation at failing inputs): in affine mode `new_range_div` has no
test for a divisor range that contains zero. Dividing the constant form `1` by
the form `0 + 1·x`, whose affine range is `[-1, 1]`, for a signed 8-bit
destination returns the range `[-3, -1]`; dividing `1.0` by `1.0 + 2.0·x`
(binary point 4, affine range `[-1.0, 3.0]`) returns `[-16, 16]`; neither is
the full span `[-128, 127]` that the interval branch returns for the same
divisor range. For the divisor `1 + 1·x`, with affine range `[0, 2]`, the
value `a` that `affine_divide` passes to `double_int_sdiv` as divisor is 0. -/
theorem C9_affine_divide_no_zero_test :
    aa_min [⟨0, 0, 0⟩, ⟨130816, 1, 0⟩] = -1 ∧ aa_max [⟨0, 0, 0⟩, ⟨130816, 1, 0⟩] = 1 ∧
    (new_range_div cfg_affine 1 (sample_format 7 1 0 0 0 1 1 [⟨0, 1, 0⟩])
        (sample_format 7 1 0 0 0 (-1) 1 [⟨0, 0, 0⟩, ⟨130816, 1, 0⟩])
        (sample_format 7 1 0 0 0 1 0 [])).map (fun r => (r.1.min, r.1.max))
      = some (-3, -1) ∧
    (new_range_div cfg_interval 1 (sample_format 7 1 0 0 0 1 1 [⟨0, 1, 0⟩])
        (sample_format 7 1 0 0 0 (-1) 1 [⟨0, 0, 0⟩, ⟨130816, 1, 0⟩])
        (sample_format 7 1 0 0 0 1 0 [])).map (fun r => (r.1.min, r.1.max))
      = some (-128, 127) ∧
    aa_min [⟨0, 16, 4⟩, ⟨130816, 32, 4⟩] = -16 ∧ aa_max [⟨0, 16, 4⟩, ⟨130816, 32, 4⟩] = 48 ∧
    (new_range_div cfg_affine 1 (sample_format 3 1 4 0 0 16 16 [⟨0, 16, 4⟩])
        (sample_format 1 3 4 0 0 (-16) 48 [⟨0, 16, 4⟩, ⟨130816, 32, 4⟩])
        (sample_format 1 3 4 0 0 1 0 [])).map (fun r => (r.1.min, r.1.max))
      = some (-16, 16) ∧
    (new_range_div cfg_interval 1 (sample_format 3 1 4 0 0 16 16 [⟨0, 16, 4⟩])
        (sample_format 1 3 4 0 0 (-16) 48 [⟨0, 16, 4⟩, ⟨130816, 32, 4⟩])
        (sample_format 1 3 4 0 0 1 0 [])).map (fun r => (r.1.min, r.1.max))
      = some (-128, 127) ∧
    double_int_smin (double_int_abs (aa_min [⟨0, 1, 0⟩, ⟨130816, 1, 0⟩]))
      (double_int_abs (aa_max [⟨0, 1, 0⟩, ⟨130816, 1, 0⟩])) = 0 := by
  decide

/-! ### C10 -/

/-- C10 (counterexample): for a signed 8-bit destination and the signed 8-bit
variable operands `(S1,I3,F4,E0)` and `(S1,I2,F5,E0)`, the sign-bit and
alignment steps of `addition` leave both operands with 3 fraction bits, not 5,
and the provisional result has `F = 3`. -/
theorem C10_addition_alignment_counterexample :
    (addition_align_step (sample_format 1 4 3 0 0 1 0 [])
      (addition_sign_step (sample_format 1 4 3 0 0 1 0 [])
        (sample_format 1 3 4 0 0 (-100) 100 [], sample_format 1 2 5 0 0 (-100) 100 [])
        tree.var tree.var) tree.var tree.var).1.F = 3 ∧
    (addition_align_step (sample_format 1 4 3 0 0 1 0 [])
      (addition_sign_step (sample_format 1 4 3 0 0 1 0 [])
        (sample_format 1 3 4 0 0 (-100) 100 [], sample_format 1 2 5 0 0 (-100) 100 [])
        tree.var tree.var) tree.var tree.var).2.F = 3 ∧
    (addition_provisional (sample_format 1 4 3 0 0 1 0 [])
      (addition_guard_step cfg_interval
        (addition_align_step (sample_format 1 4 3 0 0 1 0 [])
          (addition_sign_step (sample_format 1 4 3 0 0 1 0 [])
            (sample_format 1 3 4 0 0 (-100) 100 [], sample_format 1 2 5 0 0 (-100) 100 [])
            tree.var tree.var) tree.var tree.var) tree.var tree.var)).F = 3 ∧
    ¬ ((addition_provisional (sample_format 1 4 3 0 0 1 0 [])
      (addition_guard_step cfg_interval
        (addition_align_step (sample_format 1 4 3 0 0 1 0 [])
          (addition_sign_step (sample_format 1 4 3 0 0 1 0 [])
            (sample_format 1 3 4 0 0 (-100) 100 [], sample_format 1 2 5 0 0 (-100) 100 [])
            tree.var tree.var) tree.var tree.var) tree.var tree.var)).F = 5) := by
  decide

/-- The operands of the scenario after the sign-bit and alignment steps. -/
theorem addition_scenario_aligned (b0 b1 b2 : SIF) :
    addition_align_step { b0 with size := 8, sgnd := 1 }
      (addition_sign_step { b0 with size := 8, sgnd := 1 }
        ({ b1 with S := 1, I := 3, F := 4, E := 0, size := 8, sgnd := 1, shift := 0 },
         { b2 with S := 1, I := 2, F := 5, E := 0, size := 8, sgnd := 1, shift := 0 })
        tree.var tree.var) tree.var tree.var =
      ({ b1 with S := 2, I := 3, F := 3, E := 0, size := 8, sgnd := 1, shift := 1 },
       { b2 with S := 3, I := 2, F := 3, E := 0, size := 8, sgnd := 1, shift := 2 }) := by
  unfold addition_align_step addition_sign_step
  simp [shift_right_var, BINARY_PT]

theorem addition_range_frame (cfg : Config) (minus : Bool) (ops : SIF × SIF) (r : SIF) :
    (addition_range cfg minus ops r).S = r.S ∧ (addition_range cfg minus ops r).I = r.I ∧
    (addition_range cfg minus ops r).F = r.F ∧ (addition_range cfg minus ops r).E = r.E := by
  unfold addition_range new_range_sub new_range_add
  split <;> split <;> simp

/-- The integer-bit count `addition` returns: the provisional one, less one
when the pessimism correction applies. -/
theorem addition_result_I (cfg : Config) (f0 : SIF) (ops : SIF × SIF) (t1 t2 : tree)
    (minus : Bool) :
    (addition cfg f0 ops t1 t2 minus).1.I =
      if pessimistic_format cfg
            (addition_range cfg minus
              (addition_guard_step cfg
                (addition_align_step f0 (addition_sign_step f0 ops t1 t2) t1 t2) t1 t2)
              (addition_provisional f0
                (addition_guard_step cfg
                  (addition_align_step f0 (addition_sign_step f0 ops t1 t2) t1 t2) t1 t2))) ≠ 0 ∧
          f0.ptr_op = 0 then
        (addition_provisional f0
          (addition_guard_step cfg
            (addition_align_step f0 (addition_sign_step f0 ops t1 t2) t1 t2) t1 t2)).I - 1
      else
        (addition_provisional f0
          (addition_guard_step cfg
            (addition_align_step f0 (addition_sign_step f0 ops t1 t2) t1 t2) t1 t2)).I := by
  unfold addition
  simp only [(addition_range_frame cfg minus _ _).2.1]
  unfold addition_pessimism
  simp only
  split_ifs <;> rfl

/-- C10 (amended): addition scenario. For a signed 8-bit destination and two
signed 8-bit variable operands `(S1,I3,F4,E0)` and `(S1,I2,F5,E0)` without
pending shifts, whatever their ranges and the option flags: after the sign-bit
and alignment steps operand 1 is `(S2,I3,F3,E0)` with pending shift 1 and
operand 2 is `(S3,I2,F3,E0)` with pending shift 2, so both are aligned at 3
fraction bits; the provisional result is `(S1,I4,F3,E0)` when no guard shift
is inserted and `(S2,I4,F2,E0)` when it is; and if `pessimistic_format` finds
the computed range to need fewer bits than the provisional format gives (and
the destination is not a pointer), the returned format has one integer bit
less than the provisional one, the same number otherwise. -/
theorem C10_addition_scenario (cfg : Config) (b0 b1 b2 : SIF) (minus : Bool) :
    addition_align_step { b0 with size := 8, sgnd := 1 }
      (addition_sign_step { b0 with size := 8, sgnd := 1 }
        ({ b1 with S := 1, I := 3, F := 4, E := 0, size := 8, sgnd := 1, shift := 0 },
         { b2 with S := 1, I := 2, F := 5, E := 0, size := 8, sgnd := 1, shift := 0 })
        tree.var tree.var) tree.var tree.var =
      ({ b1 with S := 2, I := 3, F := 3, E := 0, size := 8, sgnd := 1, shift := 1 },
       { b2 with S := 3, I := 2, F := 3, E := 0, size := 8, sgnd := 1, shift := 2 }) ∧
    (addition_guard_step cfg
        ({ b1 with S := 2, I := 3, F := 3, E := 0, size := 8, sgnd := 1, shift := 1 },
         { b2 with S := 3, I := 2, F := 3, E := 0, size := 8, sgnd := 1, shift := 2 })
        tree.var tree.var =
        ({ b1 with S := 2, I := 3, F := 3, E := 0, size := 8, sgnd := 1, shift := 1 },
         { b2 with S := 3, I := 2, F := 3, E := 0, size := 8, sgnd := 1, shift := 2 }) →
      (addition_provisional { b0 with size := 8, sgnd := 1 }
        (addition_guard_step cfg
          ({ b1 with S := 2, I := 3, F := 3, E := 0, size := 8, sgnd := 1, shift := 1 },
           { b2 with S := 3, I := 2, F := 3, E := 0, size := 8, sgnd := 1, shift := 2 })
          tree.var tree.var)) =
        { b0 with size := 8, sgnd := 1, aa := [], S := 1, I := 4, F := 3, E := 0 }) ∧
    (addition_guard_step cfg
        ({ b1 with S := 2, I := 3, F := 3, E := 0, size := 8, sgnd := 1, shift := 1 },
         { b2 with S := 3, I := 2, F := 3, E := 0, size := 8, sgnd := 1, shift := 2 })
        tree.var tree.var ≠
        ({ b1 with S := 2, I := 3, F := 3, E := 0, size := 8, sgnd := 1, shift := 1 },
         { b2 with S := 3, I := 2, F := 3, E := 0, size := 8, sgnd := 1, shift := 2 }) →
      (addition_provisional { b0 with size := 8, sgnd := 1 }
        (addition_guard_step cfg
          ({ b1 with S := 2, I := 3, F := 3, E := 0, size := 8, sgnd := 1, shift := 1 },
           { b2 with S := 3, I := 2, F := 3, E := 0, size := 8, sgnd := 1, shift := 2 })
          tree.var tree.var)) =
        { b0 with size := 8, sgnd := 1, aa := [], S := 2, I := 4, F := 2, E := 0 }) ∧
    (pessimistic_format cfg
        (addition_range cfg minus
          (addition_guard_step cfg
            ({ b1 with S := 2, I := 3, F := 3, E := 0, size := 8, sgnd := 1, shift := 1 },
             { b2 with S := 3, I := 2, F := 3, E := 0, size := 8, sgnd := 1, shift := 2 })
            tree.var tree.var)
          (addition_provisional { b0 with size := 8, sgnd := 1 }
            (addition_guard_step cfg
              ({ b1 with S := 2, I := 3, F := 3, E := 0, size := 8, sgnd := 1, shift := 1 },
               { b2 with S := 3, I := 2, F := 3, E := 0, size := 8, sgnd := 1, shift := 2 })
              tree.var tree.var))) ≠ 0 ∧ b0.ptr_op = 0 →
      (addition cfg { b0 with size := 8, sgnd := 1 }
        ({ b1 with S := 1, I := 3, F := 4, E := 0, size := 8, sgnd := 1, shift := 0 },
         { b2 with S := 1, I := 2, F := 5, E := 0, size := 8, sgnd := 1, shift := 0 })
        tree.var tree.var minus).1.I = 4 - 1) ∧
    (¬ (pessimistic_format cfg
        (addition_range cfg minus
          (addition_guard_step cfg
            ({ b1 with S := 2, I := 3, F := 3, E := 0, size := 8, sgnd := 1, shift := 1 },
             { b2 with S := 3, I := 2, F := 3, E := 0, size := 8, sgnd := 1, shift := 2 })
            tree.var tree.var)
          (addition_provisional { b0 with size := 8, sgnd := 1 }
            (addition_guard_step cfg
              ({ b1 with S := 2, I := 3, F := 3, E := 0, size := 8, sgnd := 1, shift := 1 },
               { b2 with S := 3, I := 2, F := 3, E := 0, size := 8, sgnd := 1, shift := 2 })
              tree.var tree.var))) ≠ 0 ∧ b0.ptr_op = 0) →
      (addition cfg { b0 with size := 8, sgnd := 1 }
        ({ b1 with S := 1, I := 3, F := 4, E := 0, size := 8, sgnd := 1, shift := 0 },
         { b2 with S := 1, I := 2, F := 5, E := 0, size := 8, sgnd := 1, shift := 0 })
        tree.var tree.var minus).1.I = 4) := by
  have hal := addition_scenario_aligned b0 b1 b2
  have hg : addition_guard_step cfg
        ({ b1 with S := 2, I := 3, F := 3, E := 0, size := 8, sgnd := 1, shift := 1 },
         { b2 with S := 3, I := 2, F := 3, E := 0, size := 8, sgnd := 1, shift := 2 })
        tree.var tree.var =
        ({ b1 with S := 2, I := 3, F := 3, E := 0, size := 8, sgnd := 1, shift := 1 },
         { b2 with S := 3, I := 2, F := 3, E := 0, size := 8, sgnd := 1, shift := 2 }) ∨
      addition_guard_step cfg
        ({ b1 with S := 2, I := 3, F := 3, E := 0, size := 8, sgnd := 1, shift := 1 },
         { b2 with S := 3, I := 2, F := 3, E := 0, size := 8, sgnd := 1, shift := 2 })
        tree.var tree.var =
        ({ b1 with S := 3, I := 3, F := 2, E := 0, size := 8, sgnd := 1, shift := 2 },
         { b2 with S := 4, I := 2, F := 2, E := 0, size := 8, sgnd := 1, shift := 3 }) := by
    unfold addition_guard_step
    split_ifs
    · right
      simp [shift_right_var]
    · left; rfl
    · left; rfl
  have hI : (addition_provisional { b0 with size := 8, sgnd := 1 }
        (addition_guard_step cfg
          ({ b1 with S := 2, I := 3, F := 3, E := 0, size := 8, sgnd := 1, shift := 1 },
           { b2 with S := 3, I := 2, F := 3, E := 0, size := 8, sgnd := 1, shift := 2 })
          tree.var tree.var)).I = 4 := by
    rcases hg with h | h <;> rw [h] <;> simp [addition_provisional]
  have hres := addition_result_I cfg { b0 with size := 8, sgnd := 1 }
    ({ b1 with S := 1, I := 3, F := 4, E := 0, size := 8, sgnd := 1, shift := 0 },
     { b2 with S := 1, I := 2, F := 5, E := 0, size := 8, sgnd := 1, shift := 0 })
    tree.var tree.var minus
  rw [hal] at hres
  refine ⟨hal, ?_, ?_, ?_, ?_⟩
  · intro h
    rw [h]
    simp [addition_provisional]
  · intro h
    rcases hg with h2 | h2
    · exact absurd h2 h
    · rw [h2]
      simp [addition_provisional]
  · intro h
    rw [hres, if_pos h, hI]
  · intro h
    rw [hres, if_neg h, hI]

set_option maxRecDepth 100000 in
theorem C10_addition_scenario_witness :
    (addition cfg_interval { sample_format 1 4 3 0 0 1 0 [] with size := 8, sgnd := 1 }
      ({ sample_format 1 3 4 0 0 (-10) 10 [] with
           S := 1, I := 3, F := 4, E := 0, size := 8, sgnd := 1, shift := 0 },
       { sample_format 1 2 5 0 0 (-10) 10 [] with
           S := 1, I := 2, F := 5, E := 0, size := 8, sgnd := 1, shift := 0 })
      tree.var tree.var false).1.I = 4 - 1 :=
  (C10_addition_scenario cfg_interval (sample_format 1 4 3 0 0 1 0 [])
    (sample_format 1 3 4 0 0 (-10) 10 []) (sample_format 1 2 5 0 0 (-10) 10 []) false).2.2.2.1
    (by decide)


/-! ### C11 -/

set_option maxRecDepth 100000 in
/-- C11, counterexample: an 8-bit signed variable `(1, 7, 0, 0)` plus the
integer constant 3, whose format is `(6, 2, 0, 0)`. Both operands enter with
S+I+F+E = 8, E = 0 and S ≥ 1, yet after the sign-bit and alignment shifts the
constant has E = -1 and the provisional result is `(1, 8, 0, -1)`: E is
negative. -/
theorem C11_addition_negative_E_counterexample :
    (1 : Int) + 7 + 0 + 0 = 8 ∧ (6 : Int) + 2 + 0 + 0 = 8 ∧
    (addition_guard_step cfg_interval
      (addition_align_step (sample_format 1 7 0 0 0 1 0 [])
        (addition_sign_step (sample_format 1 7 0 0 0 1 0 [])
          (sample_format 1 7 0 0 0 (-128) 127 [],
           { sample_format 6 2 0 0 0 3 3 [⟨0, 3, 0⟩] with size := 2, sgnd := 0 })
          tree.var (tree.integer_cst 3)) tree.var (tree.integer_cst 3))
      tree.var (tree.integer_cst 3)).2.E = -1 ∧
    (addition_provisional (sample_format 1 7 0 0 0 1 0 [])
      (addition_guard_step cfg_interval
        (addition_align_step (sample_format 1 7 0 0 0 1 0 [])
          (addition_sign_step (sample_format 1 7 0 0 0 1 0 [])
            (sample_format 1 7 0 0 0 (-128) 127 [],
             { sample_format 6 2 0 0 0 3 3 [⟨0, 3, 0⟩] with size := 2, sgnd := 0 })
            tree.var (tree.integer_cst 3)) tree.var (tree.integer_cst 3))
        tree.var (tree.integer_cst 3))).E = -1 := by
  decide

/-- One half of the alignment step of `addition`: `b` has the smaller binary
point; its spare sign bits are consumed first, then `a` is shifted right. -/
theorem align_half (m : Int) (a b : SIF) (ta tb : tree) (a2 b2 : SIF)
    (hgt : BINARY_PT a > BINARY_PT b)
    (hb : b2 = if b.S > m then
                 shift_left b tb (min (b.S - m) (BINARY_PT a - BINARY_PT b)) else b)
    (ha : a2 = if BINARY_PT a > BINARY_PT b2 then
                 shift_right a ta (BINARY_PT a - BINARY_PT b2) else a) :
    BINARY_PT a2 = BINARY_PT b2 ∧
    a2.S + a2.I + a2.F + a2.E = a.S + a.I + a.F + a.E ∧
    b2.S + b2.I + b2.F + b2.E = b.S + b.I + b.F + b.E ∧
    (m ≤ a.S → m ≤ a2.S) ∧ (m ≤ b.S → m ≤ b2.S) ∧
    (ta = tree.var → 0 ≤ a.E → 0 ≤ a2.E) ∧ (tb = tree.var → 0 ≤ b.E → 0 ≤ b2.E) := by
  unfold BINARY_PT at *
  have hb2 : b2.F + b2.E ≤ a.F + a.E ∧ b2.S + b2.I + b2.F + b2.E = b.S + b.I + b.F + b.E ∧
      (m ≤ b.S → m ≤ b2.S) ∧ (tb = tree.var → 0 ≤ b.E → 0 ≤ b2.E) := by
    by_cases h : b.S > m
    · rw [if_pos h] at hb
      obtain ⟨f1, -, f3, -, f5⟩ :=
        shift_left_frame b tb (min (b.S - m) (a.F + a.E - (b.F + b.E)))
      have hm1 := min_le_left (b.S - m) (a.F + a.E - (b.F + b.E))
      have hm2 := min_le_right (b.S - m) (a.F + a.E - (b.F + b.E))
      rw [hb]
      refine ⟨by linarith, by linarith, fun _ => by linarith, ?_⟩
      intro hv hE
      subst hv
      exact shift_left_var_E b _ hE
    · rw [if_neg h] at hb
      rw [hb]
      exact ⟨le_of_lt hgt, rfl, fun h => h, fun _ h => h⟩
  obtain ⟨g1, g2, g3, g4⟩ := hb2
  by_cases h : a.F + a.E > b2.F + b2.E
  · rw [if_pos h] at ha
    obtain ⟨f1, -, f3, -, f5⟩ := shift_right_frame a ta (a.F + a.E - (b2.F + b2.E))
    rw [ha]
    refine ⟨by linarith, by linarith, g2, fun _ => by linarith, g3, ?_, g4⟩
    intro hv hE
    subst hv
    exact shift_right_var_E a _ hE
  · rw [if_neg h] at ha
    rw [ha]
    exact ⟨by linarith, rfl, g2, fun h => h, g3, fun _ h => h, g4⟩

theorem addition_align_step_spec (f0 : SIF) (ops : SIF × SIF) (t1 t2 : tree) :
    BINARY_PT (addition_align_step f0 ops t1 t2).1 =
      BINARY_PT (addition_align_step f0 ops t1 t2).2 ∧
    (addition_align_step f0 ops t1 t2).1.S + (addition_align_step f0 ops t1 t2).1.I +
      (addition_align_step f0 ops t1 t2).1.F + (addition_align_step f0 ops t1 t2).1.E =
      ops.1.S + ops.1.I + ops.1.F + ops.1.E ∧
    (addition_align_step f0 ops t1 t2).2.S + (addition_align_step f0 ops t1 t2).2.I +
      (addition_align_step f0 ops t1 t2).2.F + (addition_align_step f0 ops t1 t2).2.E =
      ops.2.S + ops.2.I + ops.2.F + ops.2.E ∧
    (f0.sgnd + 1 ≤ ops.1.S → f0.sgnd + 1 ≤ (addition_align_step f0 ops t1 t2).1.S) ∧
    (f0.sgnd + 1 ≤ ops.2.S → f0.sgnd + 1 ≤ (addition_align_step f0 ops t1 t2).2.S) ∧
    (t1 = tree.var → 0 ≤ ops.1.E → 0 ≤ (addition_align_step f0 ops t1 t2).1.E) ∧
    (t2 = tree.var → 0 ≤ ops.2.E → 0 ≤ (addition_align_step f0 ops t1 t2).2.E) := by
  by_cases hgt : BINARY_PT ops.1 > BINARY_PT ops.2
  · obtain ⟨k1, k2, k3, k4, k5, k6, k7⟩ :=
      align_half (f0.sgnd + 1) ops.1 ops.2 t1 t2 _ _ hgt rfl rfl
    have hnot : ¬ BINARY_PT
        (if ops.2.S > f0.sgnd + 1 then
          shift_left ops.2 t2 (min (ops.2.S - (f0.sgnd + 1)) (BINARY_PT ops.1 - BINARY_PT ops.2))
         else ops.2) >
        BINARY_PT
          (if BINARY_PT ops.1 >
              BINARY_PT
                (if ops.2.S > f0.sgnd + 1 then
                  shift_left ops.2 t2
                    (min (ops.2.S - (f0.sgnd + 1)) (BINARY_PT ops.1 - BINARY_PT ops.2))
                 else ops.2) then
            shift_right ops.1 t1
              (BINARY_PT ops.1 -
                BINARY_PT
                  (if ops.2.S > f0.sgnd + 1 then
                    shift_left ops.2 t2
                      (min (ops.2.S - (f0.sgnd + 1)) (BINARY_PT ops.1 - BINARY_PT ops.2))
                   else ops.2))
           else ops.1) := by
      rw [k1]; exact lt_irrefl _
    unfold addition_align_step
    simp only [hgt, if_true, hnot, if_false]
    exact ⟨k1, k2, k3, k4, k5, k6, k7⟩
  · by_cases hlt : BINARY_PT ops.2 > BINARY_PT ops.1
    · obtain ⟨k1, k2, k3, k4, k5, k6, k7⟩ :=
        align_half (f0.sgnd + 1) ops.2 ops.1 t2 t1 _ _ hlt rfl rfl
      unfold addition_align_step
      simp only [hgt, if_false, hlt, if_true]
      exact ⟨k1.symm, k3, k2, k5, k4, k7, k6⟩
    · unfold addition_align_step
      simp only [hgt, if_false, hlt]
      exact ⟨by linarith [not_lt.mp hgt, not_lt.mp hlt], trivial, trivial, fun h => h,
        fun h => h, fun _ h => h, fun _ h => h⟩

theorem addition_sign_step_spec (f0 : SIF) (ops : SIF × SIF) (t1 t2 : tree) :
    (addition_sign_step f0 ops t1 t2).1.S + (addition_sign_step f0 ops t1 t2).1.I +
      (addition_sign_step f0 ops t1 t2).1.F + (addition_sign_step f0 ops t1 t2).1.E =
      ops.1.S + ops.1.I + ops.1.F + ops.1.E ∧
    (addition_sign_step f0 ops t1 t2).2.S + (addition_sign_step f0 ops t1 t2).2.I +
      (addition_sign_step f0 ops t1 t2).2.F + (addition_sign_step f0 ops t1 t2).2.E =
      ops.2.S + ops.2.I + ops.2.F + ops.2.E ∧
    (f0.sgnd ≤ ops.1.S → f0.sgnd + 1 ≤ (addition_sign_step f0 ops t1 t2).1.S) ∧
    (f0.sgnd ≤ ops.2.S → f0.sgnd + 1 ≤ (addition_sign_step f0 ops t1 t2).2.S) ∧
    (t1 = tree.var → 0 ≤ ops.1.E → 0 ≤ (addition_sign_step f0 ops t1 t2).1.E) ∧
    (t2 = tree.var → 0 ≤ ops.2.E → 0 ≤ (addition_sign_step f0 ops t1 t2).2.E) := by
  have key : ∀ (o : SIF) (t : tree) (o2 : SIF),
      o2 = (if o.S < f0.sgnd + 1 then shift_right o t 1 else o) →
      o2.S + o2.I + o2.F + o2.E = o.S + o.I + o.F + o.E ∧
      (f0.sgnd ≤ o.S → f0.sgnd + 1 ≤ o2.S) ∧ (t = tree.var → 0 ≤ o.E → 0 ≤ o2.E) := by
    intro o t o2 h
    by_cases hc : o.S < f0.sgnd + 1
    · rw [if_pos hc] at h
      obtain ⟨f1, -, f3, -, f5⟩ := shift_right_frame o t 1
      rw [h]
      refine ⟨by linarith, fun _ => by linarith, ?_⟩
      intro hv hE
      subst hv
      exact shift_right_var_E o 1 hE
    · rw [if_neg hc] at h
      rw [h]
      exact ⟨rfl, fun _ => by linarith [not_lt.mp hc], fun _ h => h⟩
  obtain ⟨a1, a2, a3⟩ := key ops.1 t1 _ rfl
  obtain ⟨b1, b2, b3⟩ := key ops.2 t2 _ rfl
  exact ⟨a1, b1, a2, b2, a3, b3⟩

theorem addition_guard_step_spec (cfg : Config) (ops : SIF × SIF) (t1 t2 : tree) :
    (BINARY_PT ops.1 = BINARY_PT ops.2 →
      BINARY_PT (addition_guard_step cfg ops t1 t2).1 =
        BINARY_PT (addition_guard_step cfg ops t1 t2).2) ∧
    (addition_guard_step cfg ops t1 t2).1.S + (addition_guard_step cfg ops t1 t2).1.I +
      (addition_guard_step cfg ops t1 t2).1.F + (addition_guard_step cfg ops t1 t2).1.E =
      ops.1.S + ops.1.I + ops.1.F + ops.1.E ∧
    (addition_guard_step cfg ops t1 t2).2.S + (addition_guard_step cfg ops t1 t2).2.I +
      (addition_guard_step cfg ops t1 t2).2.F + (addition_guard_step cfg ops t1 t2).2.E =
      ops.2.S + ops.2.I + ops.2.F + ops.2.E ∧
    ops.1.S ≤ (addition_guard_step cfg ops t1 t2).1.S ∧
    ops.2.S ≤ (addition_guard_step cfg ops t1 t2).2.S ∧
    (t1 = tree.var → 0 ≤ ops.1.E → 0 ≤ (addition_guard_step cfg ops t1 t2).1.E) ∧
    (t2 = tree.var → 0 ≤ ops.2.E → 0 ≤ (addition_guard_step cfg ops t1 t2).2.E) := by
  obtain ⟨f1, -, f3, -, f5⟩ := shift_right_frame ops.1 t1 1
  obtain ⟨g1, -, g3, -, g5⟩ := shift_right_frame ops.2 t2 1
  unfold addition_guard_step
  split
  · split
    · unfold BINARY_PT
      refine ⟨fun h => by simp only; linarith, by simp only; linarith, by simp only; linarith,
        by simp only; linarith, by simp only; linarith, ?_, ?_⟩
      · intro hv hE; subst hv; exact shift_right_var_E ops.1 1 hE
      · intro hv hE; subst hv; exact shift_right_var_E ops.2 1 hE
    · exact ⟨fun h => h, rfl, rfl, le_refl _, le_refl _, fun _ h => h, fun _ h => h⟩
  · exact ⟨fun h => h, rfl, rfl, le_refl _, le_refl _, fun _ h => h, fun _ h => h⟩

theorem addition_pessimism_sum (cfg : Config) (f0 : SIF) (minus : Bool) (ops : SIF × SIF)
    (t1 t2 : tree) (r : SIF) :
    (addition_pessimism cfg f0 minus ops t1 t2 r).1.S +
      (addition_pessimism cfg f0 minus ops t1 t2 r).1.I +
      (addition_pessimism cfg f0 minus ops t1 t2 r).1.F +
      (addition_pessimism cfg f0 minus ops t1 t2 r).1.E = r.S + r.I + r.F + r.E := by
  unfold addition_pessimism
  simp only
  split
  · split
    · split
      · simp only; ring
      · simp only; ring
    · simp only; ring
  · rfl

theorem addition_result_sum (cfg : Config) (f0 : SIF) (ops : SIF × SIF) (t1 t2 : tree)
    (minus : Bool) :
    (addition cfg f0 ops t1 t2 minus).1.S + (addition cfg f0 ops t1 t2 minus).1.I +
      (addition cfg f0 ops t1 t2 minus).1.F + (addition cfg f0 ops t1 t2 minus).1.E =
      f0.size := by
  unfold addition
  simp only
  obtain ⟨e1, e2, e3, e4⟩ := addition_range_frame cfg minus
    (addition_pessimism cfg f0 minus
      (addition_guard_step cfg
        (addition_align_step f0 (addition_sign_step f0 ops t1 t2) t1 t2) t1 t2) t1 t2
      (addition_provisional f0
        (addition_guard_step cfg
          (addition_align_step f0 (addition_sign_step f0 ops t1 t2) t1 t2) t1 t2))).2
    (addition_pessimism cfg f0 minus
      (addition_guard_step cfg
        (addition_align_step f0 (addition_sign_step f0 ops t1 t2) t1 t2) t1 t2) t1 t2
      (addition_provisional f0
        (addition_guard_step cfg
          (addition_align_step f0 (addition_sign_step f0 ops t1 t2) t1 t2) t1 t2))).1
  rw [e1, e2, e3, e4, addition_pessimism_sum]
  unfold addition_provisional
  simp only
  ring

/-- C11: the result format of `addition`. With both operands defined, the
provisional result is S = min(S1,S2) - 1, I = max(I1,I2) + 1, F = max(F1,F2),
E = width - S - I - F, from the operand formats after the sign-bit, alignment
and guard shifts. If each operand entered with S+I+F+E = width and with at
least the destination's `sgnd` sign bits (S ≥ 1 for a signed destination,
S ≥ 0 for an unsigned one), then after the shifts the binary points are equal,
E = min(E1,E2), S ≥ `sgnd`, and the returned format, after the optional
pessimism correction, satisfies S+I+F+E = width. When both operands are
variables that entered with E ≥ 0, E ≥ 0 as well. -/
theorem C11_addition_result_format (cfg : Config) (f0 : SIF) (ops : SIF × SIF)
    (t1 t2 : tree) (minus : Bool)
    (h1 : ops.1.S + ops.1.I + ops.1.F + ops.1.E = f0.size)
    (h2 : ops.2.S + ops.2.I + ops.2.F + ops.2.E = f0.size)
    (hS1 : f0.sgnd ≤ ops.1.S) (hS2 : f0.sgnd ≤ ops.2.S) :
    ∀ sh : SIF × SIF,
      sh = addition_guard_step cfg
            (addition_align_step f0 (addition_sign_step f0 ops t1 t2) t1 t2) t1 t2 →
      (addition_provisional f0 sh).S = min sh.1.S sh.2.S - 1 ∧
      (addition_provisional f0 sh).I = max sh.1.I sh.2.I + 1 ∧
      (addition_provisional f0 sh).F = max sh.1.F sh.2.F ∧
      (addition_provisional f0 sh).E =
        f0.size - (addition_provisional f0 sh).S - (addition_provisional f0 sh).I -
          (addition_provisional f0 sh).F ∧
      sh.1.F + sh.1.E = sh.2.F + sh.2.E ∧
      (addition_provisional f0 sh).E = min sh.1.E sh.2.E ∧
      f0.sgnd ≤ (addition_provisional f0 sh).S ∧
      (t1 = tree.var → t2 = tree.var → 0 ≤ ops.1.E → 0 ≤ ops.2.E →
        0 ≤ (addition_provisional f0 sh).E) ∧
      (addition cfg f0 ops t1 t2 minus).1.S + (addition cfg f0 ops t1 t2 minus).1.I +
        (addition cfg f0 ops t1 t2 minus).1.F + (addition cfg f0 ops t1 t2 minus).1.E =
        f0.size := by
  intro sh hsh
  obtain ⟨a1, a2, a3, a4, a5, a6⟩ := addition_sign_step_spec f0 ops t1 t2
  obtain ⟨b0, b1, b2, b3, b4, b5, b6⟩ :=
    addition_align_step_spec f0 (addition_sign_step f0 ops t1 t2) t1 t2
  obtain ⟨c0, c1, c2, c3, c4, c5, c6⟩ := addition_guard_step_spec cfg
    (addition_align_step f0 (addition_sign_step f0 ops t1 t2) t1 t2) t1 t2
  rw [← hsh] at c0 c1 c2 c3 c4 c5 c6
  have hbp : sh.1.F + sh.1.E = sh.2.F + sh.2.E := c0 b0
  have s1 : sh.1.S + sh.1.I + sh.1.F + sh.1.E = f0.size := by rw [c1, b1, a1, h1]
  have s2 : sh.2.S + sh.2.I + sh.2.F + sh.2.E = f0.size := by rw [c2, b2, a2, h2]
  have m1 : f0.sgnd + 1 ≤ sh.1.S := le_trans (b3 (a3 hS1)) c3
  have m2 : f0.sgnd + 1 ≤ sh.2.S := le_trans (b4 (a4 hS2)) c4
  have hE : (addition_provisional f0 sh).E = min sh.1.E sh.2.E := by
    unfold addition_provisional
    simp only
    rcases le_total sh.1.S sh.2.S with hs | hs
    · have hi : sh.2.I ≤ sh.1.I := by linarith
      rcases le_total sh.1.F sh.2.F with hf | hf
      · rw [min_eq_left hs, max_eq_left hi, max_eq_right hf, min_eq_right (by linarith)]
        linarith
      · rw [min_eq_left hs, max_eq_left hi, max_eq_left hf, min_eq_left (by linarith)]
        linarith
    · have hi : sh.1.I ≤ sh.2.I := by linarith
      rcases le_total sh.1.F sh.2.F with hf | hf
      · rw [min_eq_right hs, max_eq_right hi, max_eq_right hf, min_eq_right (by linarith)]
        linarith
      · rw [min_eq_right hs, max_eq_right hi, max_eq_left hf, min_eq_left (by linarith)]
        linarith
  refine ⟨rfl, rfl, rfl, rfl, hbp, hE, ?_, ?_, addition_result_sum cfg f0 ops t1 t2 minus⟩
  · show f0.sgnd ≤ min sh.1.S sh.2.S - 1
    have := le_min m1 m2
    linarith
  · intro hv1 hv2 e1 e2
    rw [hE]
    exact le_min (c5 hv1 (b5 hv1 (a5 hv1 e1))) (c6 hv2 (b6 hv2 (a6 hv2 e2)))

set_option maxRecDepth 100000 in
theorem C11_addition_result_format_witness :
    (addition_provisional (sample_format 1 4 3 0 0 1 0 [])
      (addition_guard_step cfg_interval
        (addition_align_step (sample_format 1 4 3 0 0 1 0 [])
          (addition_sign_step (sample_format 1 4 3 0 0 1 0 [])
            (sample_format 1 3 4 0 0 (-10) 10 [], sample_format 1 2 5 0 0 (-10) 10 [])
            tree.var tree.var) tree.var tree.var) tree.var tree.var)).E = 0 ∧
    (addition cfg_interval (sample_format 1 4 3 0 0 1 0 [])
      (sample_format 1 3 4 0 0 (-10) 10 [], sample_format 1 2 5 0 0 (-10) 10 [])
      tree.var tree.var false).1.S +
    (addition cfg_interval (sample_format 1 4 3 0 0 1 0 [])
      (sample_format 1 3 4 0 0 (-10) 10 [], sample_format 1 2 5 0 0 (-10) 10 [])
      tree.var tree.var false).1.I +
    (addition cfg_interval (sample_format 1 4 3 0 0 1 0 [])
      (sample_format 1 3 4 0 0 (-10) 10 [], sample_format 1 2 5 0 0 (-10) 10 [])
      tree.var tree.var false).1.F +
    (addition cfg_interval (sample_format 1 4 3 0 0 1 0 [])
      (sample_format 1 3 4 0 0 (-10) 10 [], sample_format 1 2 5 0 0 (-10) 10 [])
      tree.var tree.var false).1.E = 8 := by
  have h := C11_addition_result_format cfg_interval (sample_format 1 4 3 0 0 1 0 [])
    (sample_format 1 3 4 0 0 (-10) 10 [], sample_format 1 2 5 0 0 (-10) 10 [])
    tree.var tree.var false (by decide) (by decide) (by decide) (by decide) _ rfl
  obtain ⟨-, -, -, -, -, hE, -, -, hsum⟩ := h
  refine ⟨?_, hsum⟩
  rw [hE]
  decide

/-! ### C12 -/

set_option maxRecDepth 100000 in
/-- C12, counterexample: an initialized 8-bit operand `(1, 1, 6, 0)` times the
constant 0.25. The virtual-shift path is taken, K = -2 exceeds the one integer
bit of the operand and the error "multiply by 2^(-K), K too big" is
reported; the returned format has I = -1. -/
theorem C12_multiply_by_quarter_counterexample :
    format_initialized (sample_format 1 1 6 0 0 (-100) 100 []) = true ∧
    (multiplication 0 cfg_interval 1 (sample_format 1 1 6 0 0 1 0 [])
      (sample_format 1 1 6 0 0 (-100) 100 [], quarter_format)
      tree.var (tree.real_cst (2 ^ 61) 1)).map (fun r => (r.errors, r.frmt.I)) =
      some ([fx_error.mul_neg_K_too_big], -1) := by
  decide

/-- C12: multiplication by 0.25. For every operand-1 format with F1, E1 ≥ 0 and
a constant format with no integer bits whose stored integer is `2^m` with
F2 ≠ 0 and F2 + E2 = m + 2, `multiplication` takes the virtual-shift path: it
returns without touching either operand (pending shifts unchanged), the result
has pending shift 0, S = S1, I = I1 - 2, F = F1 + 2, E = E1 and the range
integers of operand 1, so the binary point moves left by 2 and S+I+F+E is
preserved. No error is reported exactly when operand 1 has at least two
integer bits. -/
theorem C12_multiply_by_quarter (fuel : Nat) (cfg : Config) (next_error_id : Int)
    (f0 : SIF) (ops : SIF × SIF) (t1 t2 : tree) (m : Nat)
    (hI2 : ops.2.I = 0) (hF2 : ops.2.F ≠ 0) (hbp : ops.2.F + ops.2.E = m + 2)
    (hmax : ops.2.max = 2 ^ m) (hmin : ops.2.min = 2 ^ m)
    (hm : m ≤ 126) (hs1 : (m : Int) + 1 ≤ ops.2.size) (hs2 : ops.2.size ≤ 128)
    (hF1 : 0 ≤ ops.1.F) (hE1 : 0 ≤ ops.1.E) :
    ∃ r : stmt_result,
      multiplication fuel cfg next_error_id f0 ops t1 t2 = some r ∧
      r.ops = ops ∧ r.frmt.shift = 0 ∧
      r.frmt.S = ops.1.S ∧ r.frmt.I = ops.1.I - 2 ∧ r.frmt.F = ops.1.F + 2 ∧
      r.frmt.E = ops.1.E ∧ r.frmt.max = ops.1.max ∧ r.frmt.min = ops.1.min ∧
      r.frmt.S + r.frmt.I + r.frmt.F + r.frmt.E =
        ops.1.S + ops.1.I + ops.1.F + ops.1.E ∧
      (r.errors = [] ↔ 2 ≤ ops.1.I) := by
  have hlog : log2_range ops.2 = m :=
    log2_range_two_pow ops.2 m (Or.inl hmax) (by rw [hmin, hmax]) hm hs1 hs2
  have hk : multiplication_k ops = -2 := by
    unfold multiplication_k
    simp only [hlog]
    rw [if_pos ⟨hI2, hF2⟩]
    linarith
  have hge : log2_range ops.2 ≥ 0 := by rw [hlog]; exact Int.ofNat_nonneg m
  have hFk : ops.1.F ≥ -2 := by linarith
  obtain ⟨vS, vI, vF, vE, vsh, vmax, vmin, -⟩ := multiplication_virtual_fields f0 ops
  rw [hk] at vI vF vE
  rw [if_pos hFk] at vF vE
  refine ⟨_, by unfold multiplication; rw [if_pos hge], rfl, vsh, vS, ?_, ?_, vE, vmax, vmin,
    ?_, ?_⟩
  · show (multiplication_virtual f0 ops).I = ops.1.I - 2
    rw [vI]; ring
  · show (multiplication_virtual f0 ops).F = ops.1.F + 2
    rw [vF]; ring
  · show (multiplication_virtual f0 ops).S + (multiplication_virtual f0 ops).I +
      (multiplication_virtual f0 ops).F + (multiplication_virtual f0 ops).E = _
    rw [vS, vI, vF, vE]; ring
  · simp only [multiplication_virtual_errors, hk]
    have h2 : ¬ (-2 > ops.1.F + ops.1.E) := by linarith
    rw [if_neg h2]
    by_cases hI : 2 ≤ ops.1.I
    · have : ¬ ((ops.2.I = 0 ∧ ops.2.F ≠ 0) ∧ -2 + ops.1.I < 0) := by
        intro h; linarith [h.2]
      rw [if_neg this]
      simp [hI]
    · have : (ops.2.I = 0 ∧ ops.2.F ≠ 0) ∧ -2 + ops.1.I < 0 :=
        ⟨⟨hI2, hF2⟩, by linarith [not_le.mp hI]⟩
      rw [if_pos this]
      simp [hI]

set_option maxRecDepth 100000 in
theorem C12_multiply_by_quarter_witness :
    ∃ r : stmt_result,
      multiplication 0 cfg_interval 1 (sample_format 1 4 3 0 0 1 0 [])
        (sample_format 1 3 4 0 0 (-100) 100 [], quarter_format)
        tree.var (tree.real_cst (2 ^ 61) 1) = some r ∧
      r.frmt.S = 1 ∧ r.frmt.I = 1 ∧ r.frmt.F = 6 ∧ r.frmt.E = 0 ∧ r.errors = [] := by
  obtain ⟨r, h0, -, -, hS, hI, hF, hE, -, -, -, herr⟩ :=
    C12_multiply_by_quarter 0 cfg_interval 1 (sample_format 1 4 3 0 0 1 0 [])
      (sample_format 1 3 4 0 0 (-100) 100 [], quarter_format)
      tree.var (tree.real_cst (2 ^ 61) 1) 61 (by decide) (by decide) (by decide)
      (by decide) (by decide) (by decide) (by decide) (by decide) (by decide) (by decide)
  exact ⟨r, h0, by rw [hS]; decide, by rw [hI]; decide, by rw [hF]; decide,
    by rw [hE]; decide, herr.2 (by decide)⟩

/-! ### C13 -/

set_option maxRecDepth 100000 in
/-- C13, failing input: the 8-bit operand `(2, 3, 1, 2)` times the integer
constant `8 = 2^3`, with `k = 3 ≤ F1 + E1 = 3`. No error is reported and no
operand is shifted, but the branch for `F1 < k` sets F = 0 and E = E1 - k,
dropping the fraction bit it consumed: the result is `(2, 6, 0, -1)`, with
E < 0, F + E = -1 instead of F1 + E1 - k = 0, and S+I+F+E = 7 instead of 8. -/
theorem C13_virtual_shift_drops_fraction_bits :
    (multiplication 0 cfg_interval 1 (sample_format 1 4 3 0 0 1 0 [])
      (sample_format 2 3 1 2 0 (-100) 100 [],
       { initialize_format with
         I := 4, size := 4, max := 8, min := 8, aa := [⟨0, 8, 0⟩] })
      tree.var (tree.integer_cst 8)).map
        (fun r => (r.errors, r.ops.1.shift, r.frmt.S, r.frmt.I, r.frmt.F, r.frmt.E)) =
      some ([], 0, 2, 6, 0, -1) := by
  decide

/-! ### C14 -/

theorem new_range_mul_frame (cfg : Config) (nid : Int) (o1 o2 r : SIF) :
    (new_range_mul cfg nid o1 o2 r).1.S = r.S ∧ (new_range_mul cfg nid o1 o2 r).1.I = r.I ∧
    (new_range_mul cfg nid o1 o2 r).1.F = r.F ∧ (new_range_mul cfg nid o1 o2 r).1.E = r.E ∧
    (new_range_mul cfg nid o1 o2 r).1.size = r.size := by
  unfold new_range_mul
  split
  · exact ⟨rfl, rfl, rfl, rfl, rfl⟩
  · exact ⟨rfl, rfl, rfl, rfl, rfl⟩

theorem multiplication_pessimism_sum (cfg : Config) (nid fz : Int) (ops : SIF × SIF)
    (t1 t2 : tree) (r : SIF) :
    (multiplication_pessimism cfg nid fz ops t1 t2 r).1.1.S +
      (multiplication_pessimism cfg nid fz ops t1 t2 r).1.1.I +
      (multiplication_pessimism cfg nid fz ops t1 t2 r).1.1.F +
      (multiplication_pessimism cfg nid fz ops t1 t2 r).1.1.E = r.S + r.I + r.F + r.E ∧
    (multiplication_pessimism cfg nid fz ops t1 t2 r).1.1.size = r.size := by
  unfold multiplication_pessimism
  simp only
  split
  · split
    · constructor
      · simp only; ring
      · rfl
    · split
      · constructor
        · simp only; ring
        · rfl
      · split
        · constructor
          · simp only; ring
          · rfl
        · constructor
          · simp only; ring
          · rfl
  · exact ⟨rfl, rfl⟩

theorem fraction_zeros_cases (ops : SIF × SIF) :
    (ops.1.I > 0 ∧ ops.2.I = 0 →
      fraction_zeros ops = min (ops.2.F + ops.2.E - ceil_log2_range ops.2) ops.1.I) ∧
    (ops.2.I > 0 ∧ ops.1.I = 0 →
      fraction_zeros ops = min (ops.1.F + ops.1.E - ceil_log2_range ops.1) ops.2.I) ∧
    (¬ (ops.1.I > 0 ∧ ops.2.I = 0) → ¬ (ops.2.I > 0 ∧ ops.1.I = 0) →
      fraction_zeros ops = 0) := by
  unfold fraction_zeros
  simp only
  refine ⟨?_, ?_, ?_⟩
  · intro h
    have h2 : ¬ (ops.2.I > 0 ∧ ops.1.I = 0) := by
      intro h3; linarith [h.1, h3.2.symm ▸ (le_refl (0 : Int))]
    rw [if_neg h2, if_pos h]
  · intro h
    rw [if_pos h]
  · intro h1 h2
    rw [if_neg h2, if_neg h1]

/-- On the general path `multiplication` returns as soon as the operand shifts
do; the errors are those of the shifts plus the sign-bit test, and the format
is the corrected product format with its range. -/
theorem multiplication_general_spec (fuel : Nat) (cfg : Config) (nid : Int) (f0 : SIF)
    (ops : SIF × SIF) (t1 t2 : tree) (hgen : log2_range ops.2 < 0) (st : mul_state)
    (hs : multiplication_shifts fuel cfg nid f0 ops t1 t2 = some st) (prov : SIF)
    (hprov : prov = multiplication_product { f0 with aa := [], size := st.size } st.fz st.ops) :
    ∃ r : stmt_result, multiplication fuel cfg nid f0 ops t1 t2 = some r ∧
      r.errors =
        st.errors ++ (if prov.S < prov.sgnd then [fx_error.mul_sign_bit_lost] else []) ∧
      r.frmt.S + r.frmt.I + r.frmt.F + r.frmt.E = prov.S + prov.I + prov.F + prov.E ∧
      r.frmt.size = prov.size := by
  obtain ⟨e1, e2, e3, e4, e5⟩ := new_range_mul_frame cfg
    (multiplication_pessimism cfg st.next_error_id st.fz st.ops t1 t2 prov).2
    (multiplication_pessimism cfg st.next_error_id st.fz st.ops t1 t2 prov).1.2.1
    (multiplication_pessimism cfg st.next_error_id st.fz st.ops t1 t2 prov).1.2.2
    (multiplication_pessimism cfg st.next_error_id st.fz st.ops t1 t2 prov).1.1
  obtain ⟨q1, q2⟩ := multiplication_pessimism_sum cfg st.next_error_id st.fz st.ops t1 t2 prov
  subst hprov
  unfold multiplication
  rw [if_neg (not_le.mpr hgen), hs]
  refine ⟨_, rfl, rfl, ?_, ?_⟩
  · show (new_range_mul cfg _ _ _ _).1.S + (new_range_mul cfg _ _ _ _).1.I +
      (new_range_mul cfg _ _ _ _).1.F + (new_range_mul cfg _ _ _ _).1.E = _
    rw [e1, e2, e3, e4, q1]
  · show (new_range_mul cfg _ _ _ _).1.size = _
    rw [e5, q2]

/-- C14: the result format of `multiplication` on the general path (operand 2
not a power-of-two constant), for operands with F, E ≥ 0 and a loop budget
above F1+E1+F2+E2+1. The function returns. With `fz` the integer bits that
are known sign bits, computed from the operand formats on entry
(`min(F_n + E_n - ceil_log2_range(op_n), I_m)` when operand n has no integer
bit and operand m has some, 0 otherwise), and `width` the size of the product
(the destination's, doubled when a double-precision product is chosen), the
result before the pessimism correction is I = I1 + I2 - fz, F = F1 + F2,
E = E1 + E2, S = width - I - F - E, from the operand formats after all operand
shifts. An error is reported exactly when S is below the destination's `sgnd`,
and the format before and after the pessimism correction satisfies
S+I+F+E = width. -/
theorem C14_multiplication_result_format (fuel : Nat) (cfg : Config) (next_error_id : Int)
    (f0 : SIF) (ops : SIF × SIF) (t1 t2 : tree)
    (hgen : log2_range ops.2 < 0)
    (h1 : fe_nonneg ops.1) (h2 : fe_nonneg ops.2)
    (hfuel : ops.1.F + ops.1.E + (ops.2.F + ops.2.E) + 2 ≤ fuel) :
    ∃ (st : mul_state) (r : stmt_result),
      multiplication_shifts fuel cfg next_error_id f0 ops t1 t2 = some st ∧
      multiplication fuel cfg next_error_id f0 ops t1 t2 = some r ∧
      st.fz = fraction_zeros ops ∧
      (ops.1.I > 0 ∧ ops.2.I = 0 →
        st.fz = min (ops.2.F + ops.2.E - ceil_log2_range ops.2) ops.1.I) ∧
      (ops.2.I > 0 ∧ ops.1.I = 0 →
        st.fz = min (ops.1.F + ops.1.E - ceil_log2_range ops.1) ops.2.I) ∧
      (¬ (ops.1.I > 0 ∧ ops.2.I = 0) → ¬ (ops.2.I > 0 ∧ ops.1.I = 0) → st.fz = 0) ∧
      (st.size = f0.size ∨ st.size = 2 * f0.size) ∧
      ∀ prov : SIF,
        prov = multiplication_product { f0 with aa := [], size := st.size } st.fz st.ops →
        prov.I = st.ops.1.I + st.ops.2.I - st.fz ∧
        prov.F = st.ops.1.F + st.ops.2.F ∧
        prov.E = st.ops.1.E + st.ops.2.E ∧
        prov.S = st.size - prov.I - prov.F - prov.E ∧
        (r.errors ≠ [] ↔ prov.S < f0.sgnd) ∧
        prov.S + prov.I + prov.F + prov.E = st.size ∧
        r.frmt.S + r.frmt.I + r.frmt.F + r.frmt.E = st.size ∧
        r.frmt.size = st.size := by
  obtain ⟨st, s0, s1, s2, s3, s4, s5, s6, s7⟩ :=
    multiplication_shifts_spec fuel cfg next_error_id f0 ops t1 t2 h1 h2 hfuel
  obtain ⟨z1, z2, z3⟩ := fraction_zeros_cases ops
  obtain ⟨r, r0, r1, r2, r3⟩ := multiplication_general_spec fuel cfg next_error_id f0 ops
    t1 t2 hgen st s0 _ rfl
  refine ⟨st, r, s0, r0, s1, ?_, ?_, ?_, s2, ?_⟩
  · intro h; rw [s1]; exact z1 h
  · intro h; rw [s1]; exact z2 h
  · intro h h'; rw [s1]; exact z3 h h'
  intro prov hprov
  rw [← hprov] at r1 r2 r3
  have p1 : prov.I = st.ops.1.I + st.ops.2.I - st.fz := by rw [hprov]; rfl
  have p2 : prov.F = st.ops.1.F + st.ops.2.F := by rw [hprov]; rfl
  have p3 : prov.E = st.ops.1.E + st.ops.2.E := by rw [hprov]; rfl
  have p4 : prov.S = st.size - prov.I - prov.F - prov.E := by rw [hprov]; rfl
  have p5 : prov.sgnd = f0.sgnd := by rw [hprov]; rfl
  have p6 : prov.size = st.size := by rw [hprov]; rfl
  have psum : prov.S + prov.I + prov.F + prov.E = st.size := by rw [p4]; ring
  refine ⟨p1, p2, p3, p4, ?_, psum, by rw [r2, psum], by rw [r3, p6]⟩
  rw [r1, p5]
  constructor
  · intro hne
    by_contra hS
    rw [if_neg hS] at hne
    rcases s7 with e | ⟨e, esz, ei⟩
    · rw [e] at hne; exact hne rfl
    · apply hS
      rw [p4, p1, p2, p3, s5, s6, s1, esz]
      have := s3.1; have := s3.2; have := s4.1; have := s4.2
      linarith
  · intro hS
    rw [if_pos hS]
    simp

set_option maxRecDepth 100000 in
theorem C14_multiplication_result_format_witness :
    ∃ (st : mul_state) (r : stmt_result),
      multiplication_shifts 20 cfg_interval 1 (sample_format 1 4 3 0 0 1 0 [])
        (sample_format 1 3 4 0 0 (-100) 100 [], sample_format 1 2 5 0 0 20 100 [])
        tree.var tree.var = some st ∧
      multiplication 20 cfg_interval 1 (sample_format 1 4 3 0 0 1 0 [])
        (sample_format 1 3 4 0 0 (-100) 100 [], sample_format 1 2 5 0 0 20 100 [])
        tree.var tree.var = some r ∧
      st.fz = 0 ∧ (st.size = 8 ∨ st.size = 2 * 8) ∧
      r.frmt.S + r.frmt.I + r.frmt.F + r.frmt.E = st.size := by
  obtain ⟨st, r, h0, h1, -, -, -, hz, hsz, hp⟩ :=
    C14_multiplication_result_format 20 cfg_interval 1 (sample_format 1 4 3 0 0 1 0 [])
      (sample_format 1 3 4 0 0 (-100) 100 [], sample_format 1 2 5 0 0 20 100 [])
      tree.var tree.var (by decide) (by decide) (by decide) (by decide)
  obtain ⟨-, -, -, -, -, -, hsum, -⟩ := hp _ rfl
  exact ⟨st, r, h0, h1, hz (by decide) (by decide), hsz, hsum⟩

/-! ### C15 -/

/-- On a variable with no empty bits, a right shift by `count ≥ 0` takes
`count` fraction bits. -/
theorem shift_right_var_E0 (fmt : SIF) (count : Int) (hE : fmt.E = 0) (hc : 0 ≤ count) :
    (shift_right fmt tree.var count).E = 0 ∧
    (shift_right fmt tree.var count).F = fmt.F - count ∧
    (shift_right fmt tree.var count).I = fmt.I := by
  by_cases h0 : count = 0
  · subst h0; simp [shift_right, hE]
  · rw [shift_right_var fmt count h0]
    have : ¬ count ≤ fmt.E := by rw [hE]; omega
    rw [if_neg this]
    simp [hE]

/-- On a variable, the right shift by its own E clears E and keeps F. -/
theorem shift_right_var_own_E (fmt : SIF) :
    (shift_right fmt tree.var fmt.E).E = 0 ∧
    (shift_right fmt tree.var fmt.E).F = fmt.F ∧
    (shift_right fmt tree.var fmt.E).I = fmt.I := by
  by_cases h0 : fmt.E = 0
  · simp [shift_right, h0]
  · rw [shift_right_var fmt fmt.E h0]
    simp

theorem division_divisor_halve_var (op1 op2 : SIF) (hF : 0 ≤ op2.F) :
    (division_divisor_halve op1 op2 tree.var).E = 0 ∧
    0 ≤ (division_divisor_halve op1 op2 tree.var).F ∧
    (division_divisor_halve op1 op2 tree.var).I = op2.I := by
  obtain ⟨a1, a2, a3⟩ := shift_right_var_own_E op2
  unfold division_divisor_halve
  simp only
  split
  · next hc =>
    have hm : 0 ≤ min ((shift_right op2 tree.var op2.E).F + (shift_right op2 tree.var op2.E).I -
        Int.tdiv (op1.F + op1.I) 2) (shift_right op2 tree.var op2.E).F := by
      apply le_min
      · linarith
      · rw [a2]; exact hF
    obtain ⟨b1, b2, b3⟩ := shift_right_var_E0 (shift_right op2 tree.var op2.E) _ a1 hm
    refine ⟨b1, ?_, by rw [b3, a3]⟩
    rw [b2]
    have := min_le_right ((shift_right op2 tree.var op2.E).F +
        (shift_right op2 tree.var op2.E).I - Int.tdiv (op1.F + op1.I) 2)
      (shift_right op2 tree.var op2.E).F
    linarith
  · exact ⟨a1, by rw [a2]; exact hF, a3⟩

theorem division_divisor_truncate_var (op1 op2 : SIF) (hE : op2.E = 0) :
    (division_divisor_truncate op1 op2 tree.var).2 = false ∧
    (division_divisor_truncate op1 op2 tree.var).1.E = 0 ∧
    (division_divisor_truncate op1 op2 tree.var).1.F ≤ op1.F ∧
    (division_divisor_truncate op1 op2 tree.var).1.F ≤ op2.F ∧
    (division_divisor_truncate op1 op2 tree.var).1.I = op2.I := by
  unfold division_divisor_truncate
  split
  · next hgt =>
    have hpos : op2.F - op1.F > 0 := by linarith
    rw [if_pos hpos]
    obtain ⟨b1, b2, b3⟩ := shift_right_var_E0 op2 (op2.F - op1.F) hE (le_of_lt hpos)
    refine ⟨rfl, b1, ?_, ?_, b3⟩
    · show (shift_right op2 tree.var (op2.F - op1.F)).F ≤ op1.F
      rw [b2]; linarith
    · show (shift_right op2 tree.var (op2.F - op1.F)).F ≤ op2.F
      rw [b2]; linarith
  · next hle => exact ⟨rfl, hE, not_lt.mp hle, le_refl _, rfl⟩

theorem division_divisor_fit_var (f0 op1 op2 : SIF) (hE : op2.E = 0)
    (hok : (division_divisor_fit f0 op1 op2 tree.var).2 = false) :
    (division_divisor_fit f0 op1 op2 tree.var).1.E = 0 ∧
    (division_divisor_fit f0 op1 op2 tree.var).1.F ≤ op2.F ∧
    (division_divisor_fit f0 op1 op2 tree.var).1.I = op2.I := by
  unfold division_divisor_fit at hok ⊢
  split
  · next hge =>
    rw [if_pos hge] at hok
    simp only at hok ⊢
    split
    · next hsh =>
      obtain ⟨b1, b2, b3⟩ := shift_right_var_E0 op2 (f0.size - op1.I + 1) hE (le_of_lt hsh.1)
      refine ⟨b1, ?_, b3⟩
      show (shift_right op2 tree.var (f0.size - op1.I + 1)).F ≤ op2.F
      rw [b2]; linarith [hsh.1]
    · next hsh =>
      rw [if_neg hsh] at hok
      exact absurd hok (by simp)
  · exact ⟨hE, le_refl _, rfl⟩

theorem division_numerator_spec (op1 : SIF) (t1 : tree)
    (hsum : op1.S + op1.I + op1.F + op1.E = op1.size) :
    (division_numerator op1 t1).S = min op1.S 1 ∧
    (division_numerator op1 t1).I = op1.I ∧
    (division_numerator op1 t1).size = op1.size ∧
    (division_numerator op1 t1).F =
      (division_numerator op1 t1).size - (division_numerator op1 t1).S -
        (division_numerator op1 t1).I ∧
    (division_numerator op1 t1).E = 0 := by
  have key : ∀ o : SIF, o.S + o.I + o.F + o.E = o.size →
      (if o.F ≠ o.size - o.S - o.I then { o with F := o.size - o.S - o.I, E := 0 } else o).S
        = o.S ∧
      (if o.F ≠ o.size - o.S - o.I then { o with F := o.size - o.S - o.I, E := 0 } else o).I
        = o.I ∧
      (if o.F ≠ o.size - o.S - o.I then { o with F := o.size - o.S - o.I, E := 0 } else o).size
        = o.size ∧
      (if o.F ≠ o.size - o.S - o.I then { o with F := o.size - o.S - o.I, E := 0 } else o).F
        = o.size - o.S - o.I ∧
      (if o.F ≠ o.size - o.S - o.I then { o with F := o.size - o.S - o.I, E := 0 } else o).E
        = 0 := by
    intro o ho
    by_cases h : o.F ≠ o.size - o.S - o.I
    · rw [if_pos h]; exact ⟨rfl, rfl, rfl, rfl, rfl⟩
    · rw [if_neg h]
      have h2 : o.F = o.size - o.S - o.I := not_not.mp h
      exact ⟨rfl, rfl, rfl, h2, by linarith⟩
  unfold division_numerator
  simp only
  by_cases hS : op1.S > 1
  · rw [if_pos hS]
    obtain ⟨f1, -, f3, f4, f5⟩ := shift_left_frame op1 t1 (op1.S - 1)
    have hs2 : (shift_left op1 t1 (op1.S - 1)).S + (shift_left op1 t1 (op1.S - 1)).I +
        (shift_left op1 t1 (op1.S - 1)).F + (shift_left op1 t1 (op1.S - 1)).E =
        (shift_left op1 t1 (op1.S - 1)).size := by
      rw [f1, f3, f4]; linarith
    obtain ⟨k1, k2, k3, k4, k5⟩ := key (shift_left op1 t1 (op1.S - 1)) hs2
    refine ⟨?_, by rw [k2, f3], by rw [k3, f4], ?_, k5⟩
    · rw [k1, f1, min_eq_right (le_of_lt hS)]; ring
    · rw [k4, k3, k1, k2]
  · rw [if_neg hS]
    obtain ⟨k1, k2, k3, k4, k5⟩ := key op1 hsum
    refine ⟨?_, k2, k3, ?_, k5⟩
    · rw [k1, min_eq_left (not_lt.mp hS)]
    · rw [k4, k3, k1, k2]

theorem new_range_div_frame (cfg : Config) (nid : Int) (o1 o2 r : SIF) (x : SIF × Int)
    (h : new_range_div cfg nid o1 o2 r = some x) :
    x.1.S = r.S ∧ x.1.I = r.I ∧ x.1.F = r.F ∧ x.1.E = r.E ∧ x.1.size = r.size := by
  unfold new_range_div at h
  split at h
  · simp only at h
    cases hd : affine_divide nid (new_aa_list cfg o1) (new_aa_list cfg o2) with
    | none => rw [hd] at h; exact absurd h (by simp)
    | some quot =>
      rw [hd] at h
      simp only at h
      injection h with h
      subst h
      exact ⟨rfl, rfl, rfl, rfl, rfl⟩
  · simp only at h
    split at h
    · injection h with h
      subst h
      exact ⟨rfl, rfl, rfl, rfl, rfl⟩
    · injection h with h
      subst h
      exact ⟨rfl, rfl, rfl, rfl, rfl⟩

theorem new_range_div_interval_some (cfg : Config) (nid : Int) (o1 o2 r : SIF)
    (hA : cfg.AFFINE = false) : ∃ x, new_range_div cfg nid o1 o2 r = some x := by
  unfold new_range_div
  simp only [hA, Bool.false_eq_true, if_false]
  split
  · exact ⟨_, rfl⟩
  · exact ⟨_, rfl⟩

theorem division_pessimism_sum (cfg : Config) (r : SIF) :
    (division_pessimism cfg r).S + (division_pessimism cfg r).I +
      (division_pessimism cfg r).F + (division_pessimism cfg r).E = r.S + r.I + r.F + r.E := by
  unfold division_pessimism
  split
  · simp only; ring
  · rfl

theorem division_mnn_step_sum (cfg : Config) (r : SIF) :
    (division_mnn_step cfg r).S + (division_mnn_step cfg r).I +
      (division_mnn_step cfg r).F + (division_mnn_step cfg r).E = r.S + r.I + r.F + r.E := by
  unfold division_mnn_step
  split
  · simp only; ring
  · rfl

/-- C15: the result format of `division` on the general path (divisor range
not a power-of-two constant, statement not turned into a multiplication), for
a numerator that entered with S+I+F+E = size and a non-constant divisor with
F2 ≥ 0, whenever no "FAILED to process a division" return is taken. After the
operand shifts the numerator has `min(S1, 1)` sign bits, F1 = size1 - S1 - I1
and E1 = 0, and the divisor has E2 = 0 and F2 ≤ F1. The quotient format is
I = I1 + F2, F = F1 - F2, S = S1, E = width - S - I - F, hence F ≥ 0,
I + F = I1 + F1, S+I+F+E = width, and E = 0 when numerator and destination
have the same width. The returned format, after the pessimism and
most-negative-number corrections, keeps S+I+F+E = width and no error is
reported; in interval mode the function returns. -/
theorem C15_division_result_format (cfg : Config) (next_error_id : Int) (f0 : SIF)
    (ops : SIF × SIF) (t1 : tree)
    (hgen : log2_range ops.2 < 0)
    (hsum : ops.1.S + ops.1.I + ops.1.F + ops.1.E = ops.1.size)
    (hF2 : 0 ≤ ops.2.F)
    (hok : (division_divisor f0 (division_numerator ops.1 t1) ops.2 tree.var).2 = false) :
    ∀ op1 op2 q : SIF,
      op1 = division_numerator ops.1 t1 →
      op2 = (division_divisor f0 op1 ops.2 tree.var).1 →
      q = division_quotient f0 (op1, op2) →
      (op1.S = min ops.1.S 1 ∧ op1.F = op1.size - op1.S - op1.I ∧ op1.E = 0 ∧
        op2.E = 0 ∧ op2.F ≤ op1.F) ∧
      (q.I = op1.I + op2.F ∧ q.F = op1.F - op2.F ∧ q.S = op1.S ∧
        q.E = f0.size - q.S - q.I - q.F) ∧
      (0 ≤ q.F ∧ q.I + q.F = op1.I + op1.F ∧ q.S + q.I + q.F + q.E = f0.size ∧
        (ops.1.size = f0.size → q.E = 0)) ∧
      (∀ r : stmt_result, division cfg next_error_id f0 ops t1 tree.var = some r →
        r.errors = [] ∧ r.ops = (op1, op2) ∧
        r.frmt.S + r.frmt.I + r.frmt.F + r.frmt.E = f0.size) ∧
      (cfg.AFFINE = false →
        ∃ r : stmt_result, division cfg next_error_id f0 ops t1 tree.var = some r) := by
  intro op1 op2 q h1 h2 hq
  obtain ⟨n1, n2, n3, n4, n5⟩ := division_numerator_spec ops.1 t1 hsum
  rw [← h1] at n1 n2 n3 n4 n5 hok
  obtain ⟨a1, a2, a3⟩ := division_divisor_halve_var op1 ops.2 hF2
  obtain ⟨b1, b2, b3, b4, b5⟩ :=
    division_divisor_truncate_var op1 (division_divisor_halve op1 ops.2 tree.var) a1
  have hdiv : division_divisor f0 op1 ops.2 tree.var =
      division_divisor_fit f0 op1
        (division_divisor_truncate op1 (division_divisor_halve op1 ops.2 tree.var) tree.var).1
        tree.var := by
    unfold division_divisor
    simp only [b1, Bool.false_eq_true, if_false]
  rw [hdiv] at hok h2
  obtain ⟨c1, c2, c3⟩ := division_divisor_fit_var f0 op1 _ b2 hok
  rw [← h2] at c1 c2 c3
  have hle : op2.F ≤ op1.F := le_trans c2 b3
  have q1 : q.I = op1.I + op2.F := by rw [hq]; rfl
  have q2 : q.F = op1.F - op2.F := by rw [hq]; rfl
  have q3 : q.S = op1.S := by rw [hq]; rfl
  have q4 : q.E = f0.size - q.S - q.I - q.F := by rw [hq]; rfl
  have qsum : q.S + q.I + q.F + q.E = f0.size := by rw [q4]; ring
  refine ⟨⟨n1, n4, n5, c1, hle⟩, ⟨q1, q2, q3, q4⟩, ⟨?_, ?_, qsum, ?_⟩, ?_, ?_⟩
  · rw [q2]; linarith
  · rw [q1, q2]; ring
  · intro hw
    rw [q4, q3, q1, q2, n4, n3, hw]; ring
  · intro r hr
    unfold division at hr
    rw [if_neg (not_le.mpr hgen)] at hr
    simp only at hr
    rw [← h1, hdiv, ← h2, hok] at hr
    simp only [Bool.false_eq_true, if_false] at hr
    rw [← hq] at hr
    split at hr
    · exact absurd hr (by simp)
    · next x hx =>
      injection hr with hr
      subst hr
      obtain ⟨e1, e2, e3, e4, -⟩ := new_range_div_frame cfg next_error_id op1 op2 q x hx
      refine ⟨rfl, rfl, ?_⟩
      show (division_mnn_step cfg (division_pessimism cfg x.1)).S +
        (division_mnn_step cfg (division_pessimism cfg x.1)).I +
        (division_mnn_step cfg (division_pessimism cfg x.1)).F +
        (division_mnn_step cfg (division_pessimism cfg x.1)).E = f0.size
      rw [division_mnn_step_sum, division_pessimism_sum, e1, e2, e3, e4, qsum]
  · intro hA
    obtain ⟨x, hx⟩ := new_range_div_interval_some cfg next_error_id op1 op2 q hA
    unfold division
    rw [if_neg (not_le.mpr hgen)]
    simp only
    rw [← h1, hdiv, ← h2, hok]
    simp only [Bool.false_eq_true, if_false]
    rw [← hq, hx]
    exact ⟨_, rfl⟩

set_option maxRecDepth 100000 in
theorem C15_division_result_format_witness :
    (division_quotient (sample_format 1 4 3 0 0 1 0 [])
      (division_numerator (sample_format 1 3 4 0 0 (-100) 100 []) tree.var,
       (division_divisor (sample_format 1 4 3 0 0 1 0 [])
         (division_numerator (sample_format 1 3 4 0 0 (-100) 100 []) tree.var)
         (sample_format 1 2 5 0 0 20 100 []) tree.var).1)).E = 0 ∧
    ∃ r : stmt_result,
      division cfg_interval 1 (sample_format 1 4 3 0 0 1 0 [])
        (sample_format 1 3 4 0 0 (-100) 100 [], sample_format 1 2 5 0 0 20 100 [])
        tree.var tree.var = some r := by
  obtain ⟨-, -, ⟨-, -, -, hE⟩, -, hex⟩ :=
    C15_division_result_format cfg_interval 1 (sample_format 1 4 3 0 0 1 0 [])
      (sample_format 1 3 4 0 0 (-100) 100 [], sample_format 1 2 5 0 0 20 100 [])
      tree.var (by decide) (by decide) (by decide) (by decide) _ _ _ rfl rfl rfl
  exact ⟨hE (by decide), hex rfl⟩

/-! ### C16 -/

set_option maxRecDepth 100000 in
/-- C16, failing input: the 8-bit dividend `(2, 3, 1, 2)` divided by the
constant 0.25, so `k = 61 - 63 = -2`, with `k ≤ I1` and `k + F1 + E1 = 1 ≥ 0`.
No error is reported and no operand is shifted, but the branch for
`F1 + k < 0` sets F = 0 and E = E1 + k - F1, subtracting the fraction bit
instead of adding it: the result is `(2, 5, 0, -1)`, with E < 0, F + E = -1
instead of F1 + E1 + k = 1, and S+I+F+E = 6 instead of 8. -/
theorem C16_virtual_shift_subtracts_fraction_bits :
    (division cfg_interval 1 (sample_format 1 4 3 0 0 1 0 [])
      (sample_format 2 3 1 2 0 (-100) 100 [], quarter_format)
      tree.var (tree.real_cst (2 ^ 61) 1)).map
        (fun r => (r.errors, r.ops.1.shift, r.frmt.S, r.frmt.I, r.frmt.F, r.frmt.E)) =
      some ([], 0, 2, 5, 0, -1) := by
  decide

/-! ### C17 -/

/-- The rounding identity behind ties away from zero: for a negative bound the
code adds `2^(s-1) - 1` before the floor shift, which is the negated shift of
the negated bound. -/
theorem floor_neg_round (x : Int) (n : Nat) :
    (x + (2 ^ n - 1)) / 2 ^ (n + 1) = -((-x + 2 ^ n) / 2 ^ (n + 1)) := by
  have hp : (0 : Int) < 2 ^ (n + 1) := by positivity
  have h2 : (2 : Int) ^ (n + 1) = 2 ^ n + 2 ^ n := by rw [pow_succ]; ring
  have e1 := Int.emod_add_ediv (-x + 2 ^ n) (2 ^ (n + 1))
  have m0 := Int.emod_nonneg (-x + 2 ^ n) (ne_of_gt hp)
  have m1 := Int.emod_lt_of_pos (-x + 2 ^ n) hp
  set q := (-x + 2 ^ n) / 2 ^ (n + 1) with hq
  set r := (-x + 2 ^ n) % 2 ^ (n + 1) with hr
  have hx : x + (2 ^ n - 1) = (2 ^ (n + 1) - 1 - r) + 2 ^ (n + 1) * (-q) := by
    rw [h2] at e1 ⊢; linarith
  rw [hx, Int.add_mul_ediv_left _ _ (ne_of_gt hp)]
  have : (2 ^ (n + 1) - 1 - r) / 2 ^ (n + 1) = 0 :=
    Int.ediv_eq_zero_of_lt (by linarith) (by linarith)
  rw [this]; ring

theorem shifted_bound_eq_spec (cfg : Config) (x s : Int) (h : shift_fits x s) :
    (if ¬ x = 0 ∧ s ≠ 0 then round_shift cfg x s else x) = shifted_bound_spec cfg x s := by
  obtain ⟨hx, hs127, hl, hr⟩ := h
  unfold shifted_bound_spec
  by_cases h0 : s = 0 ∨ x = 0
  · have : ¬ (¬ x = 0 ∧ s ≠ 0) := by tauto
    rw [if_neg this, if_pos h0]
  · push_neg at h0
    rw [if_pos ⟨h0.2, h0.1⟩, if_neg (by tauto)]
    by_cases hs : s < 0
    · rw [if_pos hs, round_shift_left cfg x s hs (hl hs)]
    · have hs0 : 0 < s := by omega
      rw [if_neg hs, round_shift_right cfg x s hs0 hs127 hx (hr hs0)]
      by_cases hR : cfg.ROUNDING = false
      · have hR2 : ¬ cfg.ROUNDING = true := by simp [hR]
        rw [if_pos hR, if_neg hR2, add_zero]
      · have hR2 : cfg.ROUNDING = true := by simpa using hR
        rw [if_neg hR, if_pos hR2]
        by_cases hP : cfg.POSITIVE = true
        · have hP2 : ¬ (x < 0 ∧ cfg.POSITIVE = false) := by simp [hP]
          rw [if_pos hP, if_neg hP2, sub_zero]
        · have hP3 : cfg.POSITIVE = false := by simpa using hP
          rw [if_neg hP]
          by_cases hx0 : 0 < x
          · have : ¬ (x < 0 ∧ cfg.POSITIVE = false) := by
              intro h; omega
            rw [if_pos hx0, if_neg this, sub_zero]
          · have hneg : x < 0 := by
              rcases lt_trichotomy x 0 with h | h | h
              · exact h
              · exact absurd h h0.2
              · exact absurd h hx0
            rw [if_neg hx0, if_pos ⟨hneg, hP3⟩]
            obtain ⟨n, hn⟩ : ∃ n : Nat, s = n + 1 := ⟨(s - 1).toNat, by omega⟩
            subst hn
            have e1 : ((n : Int) + 1 - 1).toNat = n := by simp
            have e2 : ((n : Int) + 1).toNat = n + 1 := by omega
            rw [e1, e2]
            exact floor_neg_round x n

theorem shifted_bound_spec_neg (cfg : Config) (x s : Int) (hR : cfg.ROUNDING = true)
    (hP : cfg.POSITIVE = false) :
    shifted_bound_spec cfg (-x) s = -shifted_bound_spec cfg x s := by
  unfold shifted_bound_spec
  have hR2 : ¬ cfg.ROUNDING = false := by simp [hR]
  have hP2 : ¬ cfg.POSITIVE = true := by simp [hP]
  by_cases h0 : s = 0 ∨ x = 0
  · have h0n : s = 0 ∨ -x = 0 := by
      rcases h0 with h | h
      · exact Or.inl h
      · exact Or.inr (by omega)
    rw [if_pos h0, if_pos h0n]
  · have h0n : ¬ (s = 0 ∨ -x = 0) := by
      intro h; apply h0
      rcases h with h | h
      · exact Or.inl h
      · exact Or.inr (by omega)
    rw [if_neg h0, if_neg h0n]
    by_cases hs : s < 0
    · rw [if_pos hs, if_pos hs]; ring
    · rw [if_neg hs, if_neg hs, if_neg hR2, if_neg hR2, if_neg hP2, if_neg hP2]
      push_neg at h0
      rcases lt_trichotomy x 0 with h | h | h
      · have h1 : 0 < -x := by omega
        have h2 : ¬ 0 < x := by omega
        rw [if_pos h1, if_neg h2, neg_neg]
      · exact absurd h h0.2
      · have h1 : ¬ 0 < -x := by omega
        rw [if_neg h1, if_pos h, neg_neg]

/-- C17: shifted bounds. With `AFFINE` off and a pending shift that applies to
both stored bounds without overflow, `new_max` and `new_min` return the stored
bound `x` shifted as follows: `x` for shift 0 or `x = 0`; `x * 2^(-s)` for
`s < 0`; `floor(x / 2^s)` for `s > 0` without rounding;
`floor((x + 2^(s-1)) / 2^s)` with round-to-positive-infinity; and with plain
rounding `floor((x + 2^(s-1)) / 2^s)` for `x > 0` and
`-floor((-x + 2^(s-1)) / 2^s)` for `x < 0`. With plain rounding the shifted
bound of `-x` is the negated shifted bound of `x`. Both functions receive the
format by value and return one integer, so the stored bounds are untouched. -/
theorem C17_shifted_bounds (cfg : Config) (o : SIF) (hA : cfg.AFFINE = false)
    (hfit : range_shift_fits o) :
    new_max cfg o = shifted_bound_spec cfg o.max o.shift ∧
    new_min cfg o = shifted_bound_spec cfg o.min o.shift ∧
    (cfg.ROUNDING = true → cfg.POSITIVE = false →
      ∀ o2 : SIF, o2.shift = o.shift → range_shift_fits o2 →
        (o2.max = -o.max → new_max cfg o2 = -new_max cfg o) ∧
        (o2.min = -o.min → new_min cfg o2 = -new_min cfg o)) := by
  have hmax : ∀ p : SIF, range_shift_fits p →
      new_max cfg p = shifted_bound_spec cfg p.max p.shift := by
    intro p hp
    rw [new_max_interval cfg p hA]
    exact shifted_bound_eq_spec cfg p.max p.shift hp.2
  have hmin : ∀ p : SIF, range_shift_fits p →
      new_min cfg p = shifted_bound_spec cfg p.min p.shift := by
    intro p hp
    rw [new_min_interval cfg p hA]
    exact shifted_bound_eq_spec cfg p.min p.shift hp.1
  refine ⟨hmax o hfit, hmin o hfit, ?_⟩
  intro hR hP o2 hs hfit2
  constructor
  · intro hneg
    rw [hmax o2 hfit2, hmax o hfit, hs, hneg]
    exact shifted_bound_spec_neg cfg o.max o.shift hR hP
  · intro hneg
    rw [hmin o2 hfit2, hmin o hfit, hs, hneg]
    exact shifted_bound_spec_neg cfg o.min o.shift hR hP

set_option maxRecDepth 100000 in
theorem C17_shifted_bounds_witness :
    new_max cfg_interval (sample_format 1 3 4 0 2 (-10) 10 []) = 3 ∧
    new_min cfg_interval (sample_format 1 3 4 0 2 (-10) 10 []) = -3 ∧
    new_max cfg_interval (sample_format 1 3 4 0 2 (-10) (-10) []) =
      -new_max cfg_interval (sample_format 1 3 4 0 2 (-10) 10 []) := by
  have h := C17_shifted_bounds cfg_interval (sample_format 1 3 4 0 2 (-10) 10 []) rfl
    (by decide)
  obtain ⟨h1, h2, h3⟩ := h
  refine ⟨?_, ?_, ?_⟩
  · rw [h1]; decide
  · rw [h2]; decide
  · exact (h3 rfl rfl (sample_format 1 3 4 0 2 (-10) (-10) []) rfl (by decide)).1 (by decide)

/-! ### C18 -/

theorem wrap_emod (x : Int) : wrap x % 2 ^ 128 = x % 2 ^ 128 := by
  unfold wrap
  have e : (2 : Int) ^ 128 = 2 ^ 127 + 2 ^ 127 := by norm_num
  have h1 : (x + 2 ^ 127) % 2 ^ 128 - 2 ^ 127 = x + 2 ^ 128 * (-((x + 2 ^ 127) / 2 ^ 128)) := by
    have := Int.emod_add_ediv (x + 2 ^ 127) (2 ^ 128)
    linarith
  rw [h1, Int.add_mul_emod_self_left]

set_option maxRecDepth 100000 in
theorem pattern_lt (x : double_int) : pattern x < 2 ^ 128 := by
  unfold pattern
  have hpos : (0 : Int) < 2 ^ 128 := by positivity
  have h1 := Int.emod_nonneg x (ne_of_gt hpos)
  have h2 := Int.emod_lt_of_pos x hpos
  have : ((x % 2 ^ 128).toNat : Int) < ((2 ^ 128 : Nat) : Int) := by
    rw [Int.toNat_of_nonneg h1]; push_cast; exact h2
  exact_mod_cast this

theorem pattern_wrap_ofNat (p : Nat) (hp : p < 2 ^ 128) :
    pattern (wrap (Int.ofNat p)) = p := by
  unfold pattern
  rw [wrap_emod]
  have h0 : (0 : Int) ≤ Int.ofNat p := Int.ofNat_nonneg p
  have h1 : Int.ofNat p < 2 ^ 128 := by
    have : ((p : Nat) : Int) < ((2 ^ 128 : Nat) : Int) := by exact_mod_cast hp
    simpa using this
  rw [Int.emod_eq_of_lt h0 h1]
  simp

theorem wrap_ofNat_eq_zero (p : Nat) (hp : p < 2 ^ 128) :
    wrap (Int.ofNat p) = 0 ↔ p = 0 := by
  constructor
  · intro h
    have := pattern_wrap_ofNat p hp
    rw [h] at this
    rw [← this]; unfold pattern; simp
  · intro h; subst h; unfold wrap; norm_num

theorem pattern_abs (x : Int) (hx : DI_fits x) : pattern (double_int_abs x) = x.natAbs := by
  unfold double_int_abs double_int_negative_p double_int_neg
  obtain ⟨h1, h2⟩ := hx
  have e : (2 : Int) ^ 128 = 2 ^ 127 + 2 ^ 127 := by norm_num
  by_cases hn : x < 0
  · simp only [hn, decide_True, if_true]
    unfold pattern
    rw [wrap_emod, Int.emod_eq_of_lt (by linarith) (by linarith)]
    clear h1 h2 e
    omega
  · simp only [hn, decide_False, Bool.false_eq_true, if_false]
    unfold pattern
    have hx0 : 0 ≤ x := not_lt.mp hn
    rw [Int.emod_eq_of_lt hx0 (by linarith)]
    clear h1 h2 e
    omega

theorem lor_lt_two_pow_iff (a b n : Nat) : a ||| b < 2 ^ n ↔ a < 2 ^ n ∧ b < 2 ^ n := by
  constructor
  · intro h
    have hb : ∀ i, i ≥ n → (a ||| b).testBit i = false := by
      intro i hi
      exact Nat.testBit_lt_two_pow (lt_of_lt_of_le h (Nat.pow_le_pow_right (by norm_num) hi))
    constructor
    · apply Nat.lt_pow_two_of_testBit
      intro i hi
      have := hb i hi
      rw [Nat.testBit_or] at this
      simp at this
      exact this.1
    · apply Nat.lt_pow_two_of_testBit
      intro i hi
      have := hb i hi
      rw [Nat.testBit_or] at this
      simp at this
      exact this.2
  · intro h; exact Nat.or_lt_two_pow h.1 h.2

theorem ceil_log2_loop_spec (fuel : Nat) :
    ∀ (p : Nat) (c : Int), p < 2 ^ fuel → p < 2 ^ 128 →
      ∃ r : Nat, ceil_log2_loop fuel (wrap (Int.ofNat p)) c = c + r ∧ p < 2 ^ r ∧
        ∀ n : Nat, p < 2 ^ n → r ≤ n := by
  induction fuel with
  | zero =>
    intro p c hp _
    have : p = 0 := by simpa using hp
    subst this
    exact ⟨0, by simp [ceil_log2_loop], by simp, fun n _ => Nat.zero_le n⟩
  | succ k ih =>
    intro p c hp hp128
    by_cases h0 : p = 0
    · subst h0
      refine ⟨0, ?_, by simp, fun n _ => Nat.zero_le n⟩
      simp [ceil_log2_loop, double_int_zero_p, wrap]
    · have hz : ¬ wrap (Int.ofNat p) = 0 := fun h => h0 ((wrap_ofNat_eq_zero p hp128).1 h)
      have hhalf : p / 2 < 2 ^ k := by
        rw [pow_succ] at hp; omega
      have hhalf128 : p / 2 < 2 ^ 128 := lt_of_le_of_lt (Nat.div_le_self p 2) hp128
      obtain ⟨r, hr1, hr2, hr3⟩ := ih (p / 2) (c + 1) hhalf hhalf128
      refine ⟨r + 1, ?_, ?_, ?_⟩
      · have hs : double_int_rshift (wrap (Int.ofNat p)) 1 false = wrap (Int.ofNat (p / 2)) := by
          unfold double_int_rshift
          rw [if_neg (by norm_num : ¬ (1 : Int) < 0)]
          simp only [Bool.false_eq_true, if_false]
          rw [pattern_wrap_ofNat p hp128]
          norm_num
        simp only [ceil_log2_loop, double_int_zero_p, hz, decide_False, Bool.false_eq_true,
          if_false]
        rw [hs, hr1]; push_cast; ring
      · rw [pow_succ]; omega
      · intro n hn
        cases n with
        | zero => simp at hn; exact absurd hn h0
        | succ m =>
          have : p / 2 < 2 ^ m := by rw [pow_succ] at hn; omega
          have := hr3 m this
          omega

/-- C18: `ceil_log2_range` is a bit length. For bounds that are `double_int`
values, the loop of `ceil_log2_range` reaches the zero pattern within the 128
shifts a `double_int` allows (any larger budget returns the same count) and the
count `r` it returns is the number of bits needed for
`m = max(|max|, |min|)`: the smallest `n ≥ 0` with `m < 2^n`, which is 0 for
`m = 0` and `floor(log2 m) + 1` otherwise. -/
theorem C18_ceil_log2_range_bit_length (o : SIF) (hmax : DI_fits o.max)
    (hmin : DI_fits o.min) :
    ∃ r : Nat, ceil_log2_range o = r ∧
      max o.max.natAbs o.min.natAbs < 2 ^ r ∧
      (∀ n : Nat, max o.max.natAbs o.min.natAbs < 2 ^ n → r ≤ n) ∧
      r = (if max o.max.natAbs o.min.natAbs = 0 then 0
           else Nat.log 2 (max o.max.natAbs o.min.natAbs) + 1) ∧
      ∀ fuel : Nat, HOST_BITS_PER_DOUBLE_INT < fuel →
        ceil_log2_loop fuel
          (double_int_ior (double_int_abs o.max) (double_int_abs o.min)) 0 = r := by
  have hior : double_int_ior (double_int_abs o.max) (double_int_abs o.min) =
      wrap (Int.ofNat (o.max.natAbs ||| o.min.natAbs)) := by
    unfold double_int_ior
    rw [pattern_abs o.max hmax, pattern_abs o.min hmin]
    rfl
  have ha : o.max.natAbs < 2 ^ 128 := by
    rw [← pattern_abs o.max hmax]; exact pattern_lt _
  have hb : o.min.natAbs < 2 ^ 128 := by
    rw [← pattern_abs o.min hmin]; exact pattern_lt _
  have hp128 : o.max.natAbs ||| o.min.natAbs < 2 ^ 128 := Nat.or_lt_two_pow ha hb
  have hiff : ∀ n : Nat, max o.max.natAbs o.min.natAbs < 2 ^ n ↔
      o.max.natAbs ||| o.min.natAbs < 2 ^ n := by
    intro n
    rw [lor_lt_two_pow_iff, max_lt_iff]
  have hfuel : ∀ fuel : Nat, 128 < fuel →
      ∃ r : Nat, ceil_log2_loop fuel
          (double_int_ior (double_int_abs o.max) (double_int_abs o.min)) 0 = r ∧
        max o.max.natAbs o.min.natAbs < 2 ^ r ∧
        ∀ n : Nat, max o.max.natAbs o.min.natAbs < 2 ^ n → r ≤ n := by
    intro fuel hf
    have hpf : o.max.natAbs ||| o.min.natAbs < 2 ^ fuel :=
      lt_of_lt_of_le hp128 (Nat.pow_le_pow_right (by norm_num) (le_of_lt hf))
    obtain ⟨r, h1, h2, h3⟩ := ceil_log2_loop_spec fuel _ 0 hpf hp128
    refine ⟨r, ?_, (hiff r).2 h2, fun n hn => h3 n ((hiff n).1 hn)⟩
    rw [hior, h1]; simp
  obtain ⟨r, h1, h2, h3⟩ := hfuel 129 (by norm_num)
  refine ⟨r, h1, h2, h3, ?_, ?_⟩
  · by_cases hm : max o.max.natAbs o.min.natAbs = 0
    · rw [if_pos hm]
      have := h3 0 (by rw [hm]; norm_num)
      omega
    · rw [if_neg hm]
      have hr0 : r ≠ 0 := by
        intro h; rw [h] at h2; simp at h2; omega
      have hlow : 2 ^ (r - 1) ≤ max o.max.natAbs o.min.natAbs := by
        by_contra hlt
        have := h3 (r - 1) (not_le.mp hlt)
        omega
      have hup : max o.max.natAbs o.min.natAbs < 2 ^ (r - 1 + 1) := by
        have : r - 1 + 1 = r := by omega
        rw [this]; exact h2
      have := Nat.log_eq_of_pow_le_of_lt_pow hlow hup
      omega
  · intro fuel hf
    obtain ⟨r2, g1, g2, g3⟩ := hfuel fuel hf
    rw [g1]
    have e1 := h3 r2 g2
    have e2 := g3 r h2
    have : r2 = r := le_antisymm e2 e1
    rw [this]

set_option maxRecDepth 100000 in
theorem C18_ceil_log2_range_bit_length_witness :
    ceil_log2_range (sample_format 1 3 4 0 0 (-100) 37 []) = 7 := by
  obtain ⟨r, h1, h2, h3, -, -⟩ :=
    C18_ceil_log2_range_bit_length (sample_format 1 3 4 0 0 (-100) 37 [])
      (by decide) (by decide)
  have e : max (sample_format 1 3 4 0 0 (-100) 37 []).max.natAbs
      (sample_format 1 3 4 0 0 (-100) 37 []).min.natAbs = 100 := by decide
  rw [e] at h2 h3
  have hle : r ≤ 7 := h3 7 (by norm_num)
  have hge : 7 ≤ r := by
    by_contra hlt
    have h6 : r ≤ 6 := by omega
    have : 2 ^ r ≤ 2 ^ 6 := Nat.pow_le_pow_right (by norm_num) h6
    omega
  rw [h1]
  have : r = 7 := le_antisymm hle hge
  rw [this]; rfl

/-! ### C19 -/

set_option maxRecDepth 100000 in
/-- C19, failing input: rounding on, `f1` has binary point 0 and range
`[0, 1]`, `f2` has binary point 1 and range `[0, 5]`, that is `[0, 2.5]`.
Both ranges are defined. `range_max(f1, f2)` takes its rounding constant from
a shift of one by `bp2 - bp2 - 1 = -1`, which is 0, and returns `5 >> 1 = 2`
at binary point 0, below the maximum 2.5 of `f2` (at the common binary point 1
it is 4 < 5). With the constant of the shift distance, `1 << (bp2 - bp1 - 1)`,
which is 1, the value returned is `(5 + 1) >> 1 = 3`, not below 2.5. -/
theorem C19_range_max_rounding_constant_zero :
    cfg_interval.ROUNDING = true ∧
    range_max_undefined (sample_format 1 7 0 0 0 0 1 []) (sample_format 1 6 1 0 0 0 5 [])
      = false ∧
    range_max cfg_interval (sample_format 1 7 0 0 0 0 1 []) (sample_format 1 6 1 0 0 0 5 [])
      = 2 ∧
    range_max cfg_interval (sample_format 1 7 0 0 0 0 1 []) (sample_format 1 6 1 0 0 0 5 [])
      * 2 ^ 1 < (sample_format 1 6 1 0 0 0 5 []).max ∧
    double_int_lshift double_int_one
      ((sample_format 1 6 1 0 0 0 5 []).F + (sample_format 1 6 1 0 0 0 5 []).E -
        ((sample_format 1 6 1 0 0 0 5 []).F + (sample_format 1 6 1 0 0 0 5 []).E) - 1)
      HOST_BITS_PER_DOUBLE_INT false = 0 ∧
    double_int_lshift double_int_one
      ((sample_format 1 6 1 0 0 0 5 []).F + (sample_format 1 6 1 0 0 0 5 []).E -
        ((sample_format 1 7 0 0 0 0 1 []).F + (sample_format 1 7 0 0 0 0 1 []).E) - 1)
      HOST_BITS_PER_DOUBLE_INT false = 1 ∧
    double_int_rshift (double_int_add (sample_format 1 6 1 0 0 0 5 []).max 1) 1 true = 3 ∧
    (sample_format 1 6 1 0 0 0 5 []).max ≤ 3 * 2 ^ 1 := by
  decide

theorem double_int_lshift_full (a : Int) (count : Int) (hc : 0 ≤ count)
    (hfit : DI_fits (a * 2 ^ count.toNat)) :
    double_int_lshift a count HOST_BITS_PER_DOUBLE_INT false = a * 2 ^ count.toNat := by
  unfold double_int_lshift
  rw [if_neg (not_lt.mpr hc)]
  simp only [ge_iff_le, le_refl, if_true]
  exact wrap_eq_self hfit

set_option maxRecDepth 100000 in
theorem merge_const_zero :
    double_int_lshift double_int_one (-1) HOST_BITS_PER_DOUBLE_INT false = 0 := by
  decide

theorem double_int_scmp_eq_neg_one (a b : Int) : double_int_scmp a b = -1 ↔ a < b := by
  unfold double_int_scmp
  constructor
  · intro h
    by_contra hn
    rw [if_neg hn] at h
    split at h <;> omega
  · intro h
    rw [if_pos h]

/-- The value the merge returns when the second bound wins and has the finer
binary point: the bound plus the merge constant, floor-shifted. -/
theorem merge_shift_back (cfg : Config) (x e : Int) (hx : DI_fits x) (hx1 : DI_fits (x - 1))
    (he : 0 < e) :
    double_int_rshift
      (if cfg.ROUNDING then
        double_int_add x
          (if double_int_negative_p x = true ∧ cfg.POSITIVE = false then
            double_int_sub
              (double_int_lshift double_int_one (-1) HOST_BITS_PER_DOUBLE_INT false)
              double_int_one
           else double_int_lshift double_int_one (-1) HOST_BITS_PER_DOUBLE_INT false)
       else x) e true = (x + merge_round_const cfg x) / 2 ^ e.toNat := by
  rw [merge_const_zero]
  unfold double_int_rshift merge_round_const double_int_negative_p
  rw [if_neg (by omega : ¬ e < 0)]
  simp only [if_true]
  by_cases hR : cfg.ROUNDING = true
  · simp only [hR, if_true, true_and]
    by_cases hn : x < 0 ∧ cfg.POSITIVE = false
    · have hn2 : decide (x < 0) = true ∧ cfg.POSITIVE = false := ⟨by simp [hn.1], hn.2⟩
      rw [if_pos hn2, if_pos hn]
      have e1 : double_int_sub 0 double_int_one = -1 := by
        unfold double_int_sub double_int_one
        exact wrap_eq_self ⟨by norm_num, by norm_num⟩
      rw [e1]
      unfold double_int_add
      have hx2 : DI_fits (x + -1) := by rw [← sub_eq_add_neg]; exact hx1
      rw [wrap_eq_self hx2]
    · have hn2 : ¬ (decide (x < 0) = true ∧ cfg.POSITIVE = false) := by
        intro h; exact hn ⟨by simpa using h.1, h.2⟩
      rw [if_neg hn2, if_neg hn]
      unfold double_int_add
      rw [add_zero, wrap_eq_self hx]
  · have hR2 : cfg.ROUNDING = false := by simpa using hR
    simp [hR2]

theorem floor_shift_bounds (m c : Int) (e : Nat) (hc1 : -1 ≤ c) (hc0 : c ≤ 0) :
    (m + c) / 2 ^ e * 2 ^ e ≤ m ∧ m - 2 ^ e ≤ (m + c) / 2 ^ e * 2 ^ e := by
  have hp : (0 : Int) < 2 ^ e := by positivity
  have h1 := Int.emod_add_ediv (m + c) (2 ^ e)
  have h2 := Int.emod_nonneg (m + c) (ne_of_gt hp)
  have h3 := Int.emod_lt_of_pos (m + c) hp
  constructor
  · nlinarith
  · nlinarith

theorem range_max_fine_first (cfg : Config) (f1 f2 : SIF) (d : Nat)
    (hbp : f1.F + f1.E = f2.F + f2.E + d) (hfit : DI_fits (f2.max * 2 ^ d)) :
    range_max cfg f1 f2 = max f1.max (f2.max * 2 ^ d) := by
  unfold range_max
  simp only
  by_cases hd : d = 0
  · subst hd
    have h1 : ¬ f1.F + f1.E > f2.F + f2.E := by rw [hbp]; simp
    have h2 : ¬ f2.F + f2.E > f1.F + f1.E := by rw [hbp]; simp
    simp only [h1, h2, if_false, double_int_scmp_eq_neg_one, pow_zero, mul_one]
    split
    · next h => rw [max_eq_right (le_of_lt h)]
    · next h => rw [max_eq_left (not_lt.mp h)]
  · have h1 : f1.F + f1.E > f2.F + f2.E := by
      rw [hbp]; have : 0 < (d : Int) := by omega
      linarith
    have hsh : double_int_lshift f2.max (f1.F + f1.E - (f2.F + f2.E))
        HOST_BITS_PER_DOUBLE_INT false = f2.max * 2 ^ d := by
      have e1 : f1.F + f1.E - (f2.F + f2.E) = (d : Int) := by rw [hbp]; ring
      rw [e1, double_int_lshift_full f2.max d (Int.ofNat_nonneg d) (by simpa using hfit)]
      simp
    simp only [h1, if_true, hsh, double_int_scmp_eq_neg_one]
    split
    · next h => rw [max_eq_right (le_of_lt h)]
    · next h => rw [max_eq_left (not_lt.mp h)]

theorem range_min_fine_first (cfg : Config) (f1 f2 : SIF) (d : Nat)
    (hbp : f1.F + f1.E = f2.F + f2.E + d) (hfit : DI_fits (f2.min * 2 ^ d)) :
    range_min cfg f1 f2 = min f1.min (f2.min * 2 ^ d) := by
  unfold range_min
  simp only
  by_cases hd : d = 0
  · subst hd
    have h1 : ¬ f1.F + f1.E > f2.F + f2.E := by rw [hbp]; simp
    have h2 : ¬ f2.F + f2.E > f1.F + f1.E := by rw [hbp]; simp
    simp only [h1, h2, if_false, double_int_scmp_eq_neg_one, pow_zero, mul_one]
    split
    · next h => rw [min_eq_right (le_of_lt h)]
    · next h => rw [min_eq_left (not_lt.mp h)]
  · have h1 : f1.F + f1.E > f2.F + f2.E := by
      rw [hbp]; have : 0 < (d : Int) := by omega
      linarith
    have hsh : double_int_lshift f2.min (f1.F + f1.E - (f2.F + f2.E))
        HOST_BITS_PER_DOUBLE_INT false = f2.min * 2 ^ d := by
      have e1 : f1.F + f1.E - (f2.F + f2.E) = (d : Int) := by rw [hbp]; ring
      rw [e1, double_int_lshift_full f2.min d (Int.ofNat_nonneg d) (by simpa using hfit)]
      simp
    simp only [h1, if_true, hsh, double_int_scmp_eq_neg_one]
    split
    · next h => rw [min_eq_right (le_of_lt h)]
    · next h => rw [min_eq_left (not_lt.mp h)]

theorem range_max_coarse_first (cfg : Config) (f1 f2 : SIF) (e : Nat) (he : 0 < e)
    (hbp : f2.F + f2.E = f1.F + f1.E + e) (hfit1 : DI_fits (f1.max * 2 ^ e))
    (hx : DI_fits f2.max) (hx1 : DI_fits (f2.max - 1)) :
    range_max cfg f1 f2 =
      if f1.max * 2 ^ e < f2.max then (f2.max + merge_round_const cfg f2.max) / 2 ^ e
      else f1.max := by
  have hpos : 0 < (e : Int) := by omega
  have h1 : ¬ f1.F + f1.E > f2.F + f2.E := by rw [hbp]; linarith
  have h2 : f2.F + f2.E > f1.F + f1.E := by rw [hbp]; linarith
  have e1 : f2.F + f2.E - (f1.F + f1.E) = (e : Int) := by rw [hbp]; ring
  have hsh : double_int_lshift f1.max (e : Int) HOST_BITS_PER_DOUBLE_INT false =
      f1.max * 2 ^ e := by
    rw [double_int_lshift_full f1.max e (Int.ofNat_nonneg e) (by simpa using hfit1)]
    simp
  have hc : f2.F + f2.E - (f2.F + f2.E) - 1 = -1 := by ring
  have hb := merge_shift_back cfg f2.max e hx hx1 hpos
  unfold range_max
  simp only [h1, h2, if_false, if_true, double_int_scmp_eq_neg_one, hc, e1, hsh]
  split
  · rw [hb]; simp
  · rfl

theorem range_min_coarse_first (cfg : Config) (f1 f2 : SIF) (e : Nat) (he : 0 < e)
    (hbp : f2.F + f2.E = f1.F + f1.E + e) (hfit1 : DI_fits (f1.min * 2 ^ e))
    (hx : DI_fits f2.min) (hx1 : DI_fits (f2.min - 1)) :
    range_min cfg f1 f2 =
      if f2.min < f1.min * 2 ^ e then (f2.min + merge_round_const cfg f2.min) / 2 ^ e
      else f1.min := by
  have hpos : 0 < (e : Int) := by omega
  have h1 : ¬ f1.F + f1.E > f2.F + f2.E := by rw [hbp]; linarith
  have h2 : f2.F + f2.E > f1.F + f1.E := by rw [hbp]; linarith
  have e1 : f2.F + f2.E - (f1.F + f1.E) = (e : Int) := by rw [hbp]; ring
  have hsh : double_int_lshift f1.min (e : Int) HOST_BITS_PER_DOUBLE_INT false =
      f1.min * 2 ^ e := by
    rw [double_int_lshift_full f1.min e (Int.ofNat_nonneg e) (by simpa using hfit1)]
    simp
  have hc : f2.F + f2.E - (f2.F + f2.E) - 1 = -1 := by ring
  have hb := merge_shift_back cfg f2.min e hx hx1 hpos
  unfold range_min
  simp only [h1, h2, if_false, if_true, double_int_scmp_eq_neg_one, hc, e1, hsh]
  split
  · rw [hb]; simp
  · rfl

theorem merge_round_const_bounds (cfg : Config) (x : Int) :
    -1 ≤ merge_round_const cfg x ∧ merge_round_const cfg x ≤ 0 := by
  unfold merge_round_const
  split <;> constructor <;> norm_num

/-- What `range_max` and `range_min` compute. When the first format has the
finer or the same binary point (`bp1 = bp2 + d`) and the second bounds can be
scaled without overflow, the merge is exact:
`range_max = max(f1.max, f2.max * 2^d)` and
`range_min = min(f1.min, f2.min * 2^d)`, in units of `2^(-bp1)`. When the
first format has the coarser binary point (`bp2 = bp1 + e`, `e > 0`), a
winning bound of `f2` has the constant `merge_round_const` added and is
floor-shifted by `e`, so the value returned is at most the exact merge and
at most one unit of `bp1` below it. -/
theorem range_merge_computed (cfg : Config) (f1 f2 : SIF) :
    (∀ d : Nat, f1.F + f1.E = f2.F + f2.E + d →
      DI_fits (f2.max * 2 ^ d) → DI_fits (f2.min * 2 ^ d) →
      range_max cfg f1 f2 = max f1.max (f2.max * 2 ^ d) ∧
      range_min cfg f1 f2 = min f1.min (f2.min * 2 ^ d)) ∧
    (∀ e : Nat, 0 < e → f2.F + f2.E = f1.F + f1.E + e →
      DI_fits (f1.max * 2 ^ e) → DI_fits (f1.min * 2 ^ e) →
      DI_fits f2.max → DI_fits (f2.max - 1) → DI_fits f2.min → DI_fits (f2.min - 1) →
      range_max cfg f1 f2 =
        (if f1.max * 2 ^ e < f2.max then (f2.max + merge_round_const cfg f2.max) / 2 ^ e
         else f1.max) ∧
      range_min cfg f1 f2 =
        (if f2.min < f1.min * 2 ^ e then (f2.min + merge_round_const cfg f2.min) / 2 ^ e
         else f1.min) ∧
      f1.max ≤ range_max cfg f1 f2 ∧
      range_max cfg f1 f2 * 2 ^ e ≤ max (f1.max * 2 ^ e) f2.max ∧
      max (f1.max * 2 ^ e) f2.max - 2 ^ e ≤ range_max cfg f1 f2 * 2 ^ e ∧
      range_min cfg f1 f2 ≤ f1.min ∧
      range_min cfg f1 f2 * 2 ^ e ≤ min (f1.min * 2 ^ e) f2.min ∧
      min (f1.min * 2 ^ e) f2.min - 2 ^ e ≤ range_min cfg f1 f2 * 2 ^ e) := by
  constructor
  · intro d hbp h1 h2
    exact ⟨range_max_fine_first cfg f1 f2 d hbp h1, range_min_fine_first cfg f1 f2 d hbp h2⟩
  · intro e he hbp h1 h2 h3 h4 h5 h6
    have hmax := range_max_coarse_first cfg f1 f2 e he hbp h1 h3 h4
    have hmin := range_min_coarse_first cfg f1 f2 e he hbp h2 h5 h6
    have hp : (0 : Int) < 2 ^ e := by positivity
    obtain ⟨c1, c2⟩ := merge_round_const_bounds cfg f2.max
    obtain ⟨k1, k2⟩ := merge_round_const_bounds cfg f2.min
    obtain ⟨b1, b2⟩ := floor_shift_bounds f2.max (merge_round_const cfg f2.max) e c1 c2
    obtain ⟨g1, g2⟩ := floor_shift_bounds f2.min (merge_round_const cfg f2.min) e k1 k2
    refine ⟨hmax, hmin, ?_, ?_, ?_, ?_, ?_, ?_⟩
    · rw [hmax]
      split
      · next h =>
        apply Int.le_ediv_of_mul_le hp
        linarith
      · exact le_refl _
    · rw [hmax]
      split
      · next h => rw [max_eq_right (le_of_lt h)]; exact b1
      · next h => rw [max_eq_left (not_lt.mp h)]
    · rw [hmax]
      split
      · next h => rw [max_eq_right (le_of_lt h)]; exact b2
      · next h => rw [max_eq_left (not_lt.mp h)]; linarith
    · rw [hmin]
      split
      · next h =>
        have : (f2.min + merge_round_const cfg f2.min) / 2 ^ e * 2 ^ e < f1.min * 2 ^ e := by
          linarith
        exact le_of_lt (lt_of_mul_lt_mul_right this (le_of_lt hp))
      · exact le_refl _
    · rw [hmin]
      split
      · next h => rw [min_eq_right (le_of_lt h)]; exact g1
      · next h => rw [min_eq_left (not_lt.mp h)]
    · rw [hmin]
      split
      · next h => rw [min_eq_right (le_of_lt h)]; exact g2
      · next h => rw [min_eq_left (not_lt.mp h)]; linarith

/-! ### C20 -/

set_option maxRecDepth 1000000 in
/-- C20, failing input: in pass 1 the table holds, for the pointer-valued uid
5, the element of index 0 with range `[0, 1]` and the entry of index 255
(`NOT_AN_ARRAY`) with range `[-100, 100]`, followed by an entry of uid 6. The
second loop starts the union at index 0, leaves index 255 out of it, and on
reaching uid 6 writes the union to every index below 256: the entry of index
255 goes from `[-100, 100]` to `[0, 1]`, a narrower range. When no entry of
another uid follows, the union is never written: the element with range
`[0, 1]` keeps it although a sibling has `[-100, 100]`. -/
theorem C20_alias_reconciliation_shrinks_range :
    (force_ptr_consistency 1
      [pointer_format (UID_PASS_IDX_TO_KEY 5 1 0) 0 1,
       pointer_format (UID_PASS_IDX_TO_KEY 5 1 255) (-100) 100,
       pointer_format (UID_PASS_IDX_TO_KEY 6 1 255) 0 0]).map
        (fun t => t.map (fun s => (s.id, s.min, s.max))) =
      some [(327681, 0, 1), (392961, 0, 1), (458497, 0, 0)] ∧
    (force_ptr_consistency 1
      [pointer_format (UID_PASS_IDX_TO_KEY 5 1 0) 0 1,
       pointer_format (UID_PASS_IDX_TO_KEY 5 1 1) (-100) 100]).map
        (fun t => t.map (fun s => (s.id, s.min, s.max))) =
      some [(327681, 0, 1), (327937, -100, 100)] := by
  decide

/-! ### C21 -/

/-- The counters of a pass only grow, `undefined_result_format` stays where it
was exactly when every assignment had an initialized result and no reported
change, and `statements_updated` stays exactly when every assignment had an
undefined result and no reported change. -/
theorem foldl_count_statement (os : List stmt_outcome) (c : pass_counters) :
    c.undefined_result_format ≤ (os.foldl count_statement c).undefined_result_format ∧
    c.statements_updated ≤ (os.foldl count_statement c).statements_updated ∧
    ((os.foldl count_statement c).undefined_result_format = c.undefined_result_format ↔
      ∀ o ∈ os, o.result_initialized = true ∧ o.lhs_changed = false) ∧
    ((os.foldl count_statement c).statements_updated = c.statements_updated ↔
      ∀ o ∈ os, o.result_initialized = false ∧ o.lhs_changed = false) := by
  induction os generalizing c with
  | nil => simp
  | cons o rest ih =>
    obtain ⟨i1, i2, i3, i4⟩ := ih (count_statement c o)
    simp only [List.foldl_cons, List.mem_cons, forall_eq_or_imp]
    have hu : c.undefined_result_format ≤ (count_statement c o).undefined_result_format ∧
        c.statements_updated ≤ (count_statement c o).statements_updated ∧
        ((count_statement c o).undefined_result_format = c.undefined_result_format ↔
          (o.result_initialized = true ∧ o.lhs_changed = false)) ∧
        ((count_statement c o).statements_updated = c.statements_updated ↔
          (o.result_initialized = false ∧ o.lhs_changed = false)) := by
      unfold count_statement
      cases o.result_initialized <;> cases o.lhs_changed <;> simp <;> omega
    obtain ⟨u1, u2, u3, u4⟩ := hu
    refine ⟨le_trans u1 i1, le_trans u2 i2, ?_, ?_⟩
    · constructor
      · intro h
        have e1 : (count_statement c o).undefined_result_format = c.undefined_result_format :=
          le_antisymm (by rw [← h]; exact i1) u1
        exact ⟨u3.mp e1, i3.mp (by rw [h, e1])⟩
      · intro h
        rw [i3.mpr h.2, u3.mpr h.1]
    · constructor
      · intro h
        have e1 : (count_statement c o).statements_updated = c.statements_updated :=
          le_antisymm (by rw [← h]; exact i2) u2
        exact ⟨u4.mp e1, i4.mp (by rw [h, e1])⟩
      · intro h
        rw [i4.mpr h.2, u4.mpr h.1]

/-- The counters at the end of a pass. -/
theorem pass_counts_spec (os : List stmt_outcome) :
    0 ≤ (pass_counts os).undefined_result_format ∧
    0 ≤ (pass_counts os).statements_updated ∧
    ((pass_counts os).undefined_result_format = 0 ↔
      ∀ o ∈ os, o.result_initialized = true ∧ o.lhs_changed = false) ∧
    ((pass_counts os).statements_updated = 0 ↔
      ∀ o ∈ os, o.result_initialized = false ∧ o.lhs_changed = false) :=
  foldl_count_statement os
    { undefined_result_format := 0, statements_updated := 0, formats_changed := 0 }

/-- One turn of the measure loop. -/
theorem measure_loop_succ {σ : Type} (body : Int → Bool → σ → σ × List stmt_outcome)
    (fuel : Nat) (fxpass formats_changed : Int) (s : σ) :
    measure_loop body (fuel + 1) fxpass formats_changed s =
      if fxpass + 1 ≥ MAX_PASSES then
        some { ending := measure_end.too_many_passes, fxpass := fxpass + 1, state := s,
               last := [] }
      else if (pass_counts (body (fxpass + 1) (decide (formats_changed ≠ 0)) s).2).undefined_result_format ≠ 0 ∧
          (pass_counts (body (fxpass + 1) (decide (formats_changed ≠ 0)) s).2).statements_updated ≠ 0 then
        measure_loop body fuel (fxpass + 1)
          (pass_counts (body (fxpass + 1) (decide (formats_changed ≠ 0)) s).2).formats_changed
          (body (fxpass + 1) (decide (formats_changed ≠ 0)) s).1
      else
        some { ending :=
                 if (pass_counts (body (fxpass + 1) (decide (formats_changed ≠ 0)) s).2).undefined_result_format ≠ 0
                 then measure_end.unresolved else measure_end.resolved,
               fxpass := fxpass + 1,
               state := (body (fxpass + 1) (decide (formats_changed ≠ 0)) s).1,
               last := (body (fxpass + 1) (decide (formats_changed ≠ 0)) s).2 } := by
  rfl

/-- With a budget of at least `MAX_PASSES - fxpass` turns (and at least one)
the measure loop ends, and its end is one of the three described. -/
theorem measure_loop_ends {σ : Type} (body : Int → Bool → σ → σ × List stmt_outcome)
    (fuel : Nat) (fxpass formats_changed : Int) (s : σ)
    (h1 : 1 ≤ fuel) (hfuel : MAX_PASSES - fxpass ≤ (fuel : Int)) :
    ∃ r, measure_loop body fuel fxpass formats_changed s = some r ∧
      fxpass < r.fxpass ∧
      (fxpass < MAX_PASSES → r.fxpass ≤ MAX_PASSES) ∧
      (r.ending = measure_end.too_many_passes ↔ MAX_PASSES ≤ r.fxpass) ∧
      (r.ending = measure_end.resolved →
        (pass_counts r.last).undefined_result_format = 0) ∧
      (r.ending = measure_end.unresolved →
        (pass_counts r.last).undefined_result_format ≠ 0 ∧
        (pass_counts r.last).statements_updated = 0) := by
  induction fuel generalizing fxpass formats_changed s with
  | zero => exact absurd h1 (by decide)
  | succ n ih =>
    rw [measure_loop_succ]
    by_cases hm : fxpass + 1 ≥ MAX_PASSES
    · rw [if_pos hm]
      refine ⟨_, rfl, by simp, fun h => by simp only; linarith, ?_, ?_, ?_⟩
      · simp only [true_iff]; exact hm
      · intro h; simp at h
      · intro h; simp at h
    · rw [if_neg hm]
      have hm2 : fxpass + 1 < MAX_PASSES := not_le.mp hm
      split
      · next hc =>
        have hn1 : 1 ≤ n := by
          have : (1 : Int) ≤ (n : Int) := by push_cast at hfuel; linarith
          exact_mod_cast this
        obtain ⟨r, e, p1, p2, p3⟩ := ih (fxpass + 1) _ _ hn1 (by push_cast at hfuel; linarith)
        exact ⟨r, e, by linarith, fun _ => p2 hm2, p3⟩
      · next hc =>
        refine ⟨_, rfl, by simp, fun _ => le_of_lt hm2, ?_, ?_, ?_⟩
        · simp only
          constructor
          · intro h
            split at h <;> exact absurd h (by decide)
          · intro h
            exact absurd h hm
        · simp only
          intro h
          by_contra hne
          rw [if_pos hne] at h
          exact absurd h (by decide)
        · simp only
          intro h
          by_cases hne : (pass_counts
              (body (fxpass + 1) (decide (formats_changed ≠ 0)) s).2).undefined_result_format ≠ 0
          · refine ⟨hne, ?_⟩
            by_contra hsu
            exact hc ⟨hne, hsu⟩
          · rw [if_neg hne] at h
            exact absurd h (by decide)

/-- A body that leaves undefined results and updated statements in every pass
is only stopped by the ceiling. -/
theorem measure_loop_never_settles {σ : Type} (body : Int → Bool → σ → σ × List stmt_outcome)
    (hbody : ∀ p b s, (pass_counts (body p b s).2).undefined_result_format ≠ 0 ∧
      (pass_counts (body p b s).2).statements_updated ≠ 0)
    (fuel : Nat) (fxpass formats_changed : Int) (s : σ)
    (h0 : fxpass < MAX_PASSES) (hfuel : MAX_PASSES - fxpass ≤ (fuel : Int)) :
    ∃ r, measure_loop body fuel fxpass formats_changed s = some r ∧
      r.ending = measure_end.too_many_passes ∧ r.fxpass = MAX_PASSES := by
  induction fuel generalizing fxpass formats_changed s with
  | zero => exact absurd hfuel (by push_cast; linarith)
  | succ n ih =>
    rw [measure_loop_succ]
    by_cases hm : fxpass + 1 ≥ MAX_PASSES
    · rw [if_pos hm]
      exact ⟨_, rfl, rfl, by simp only; linarith⟩
    · rw [if_neg hm, if_pos (hbody _ _ _)]
      exact ih (fxpass + 1) _ _ (not_le.mp hm) (by push_cast at hfuel; linarith)
/-- C21: the measure loop always terminates. The processing of the statements
of one pass is any total `body`; the pass counter enters below
`MAX_PASSES = 256`. With a budget of `MAX_PASSES - fxpass` turns the loop
ends: the pass counter has grown and is at most `MAX_PASSES`, and the loop
was aborted with "Too many passes" exactly when the counter is `MAX_PASSES`.
It ended successfully only after a pass with no undefined result, in which
every assignment had an initialized result and no iteratively used
destination changed; it ended with "couldn't resolve all formats" only after
a pass with undefined results that updated no statement. Turn by turn: a
pass below the ceiling that leaves no undefined result ends the loop
successfully at once, a pass that leaves undefined results and updated no
statement ends it with the error at once, a pass that leaves both goes on to
the next turn, and the turn in which the counter reaches `MAX_PASSES` aborts
before any statement is processed. A body that leaves undefined results and
updated statements in every pass (a value whose range widens every pass) is
aborted with the counter at 256. -/
theorem C21_measure_loop_terminates {σ : Type}
    (body : Int → Bool → σ → σ × List stmt_outcome)
    (fuel : Nat) (fxpass formats_changed : Int) (s : σ)
    (h0 : fxpass < MAX_PASSES) (hfuel : MAX_PASSES - fxpass ≤ (fuel : Int)) :
    MAX_PASSES = 256 ∧
    (∃ r, measure_loop body fuel fxpass formats_changed s = some r ∧
      fxpass < r.fxpass ∧ r.fxpass ≤ MAX_PASSES ∧
      (r.ending = measure_end.too_many_passes ↔ r.fxpass = MAX_PASSES) ∧
      (r.ending = measure_end.resolved →
        (pass_counts r.last).undefined_result_format = 0 ∧
        ∀ o ∈ r.last, o.result_initialized = true ∧ o.lhs_changed = false) ∧
      (r.ending = measure_end.unresolved →
        (pass_counts r.last).undefined_result_format ≠ 0 ∧
        (pass_counts r.last).statements_updated = 0 ∧
        ∀ o ∈ r.last, o.result_initialized = false ∧ o.lhs_changed = false)) ∧
    (fxpass + 1 < MAX_PASSES →
      (pass_counts (body (fxpass + 1) (decide (formats_changed ≠ 0)) s).2).undefined_result_format
        = 0 →
      (∀ o ∈ (body (fxpass + 1) (decide (formats_changed ≠ 0)) s).2,
        o.result_initialized = true ∧ o.lhs_changed = false) ∧
      measure_loop body fuel fxpass formats_changed s =
        some { ending := measure_end.resolved, fxpass := fxpass + 1,
               state := (body (fxpass + 1) (decide (formats_changed ≠ 0)) s).1,
               last := (body (fxpass + 1) (decide (formats_changed ≠ 0)) s).2 }) ∧
    (fxpass + 1 < MAX_PASSES →
      (pass_counts (body (fxpass + 1) (decide (formats_changed ≠ 0)) s).2).undefined_result_format
        ≠ 0 →
      (pass_counts (body (fxpass + 1) (decide (formats_changed ≠ 0)) s).2).statements_updated
        = 0 →
      measure_loop body fuel fxpass formats_changed s =
        some { ending := measure_end.unresolved, fxpass := fxpass + 1,
               state := (body (fxpass + 1) (decide (formats_changed ≠ 0)) s).1,
               last := (body (fxpass + 1) (decide (formats_changed ≠ 0)) s).2 }) ∧
    (fxpass + 1 < MAX_PASSES →
      (pass_counts (body (fxpass + 1) (decide (formats_changed ≠ 0)) s).2).undefined_result_format
        ≠ 0 →
      (pass_counts (body (fxpass + 1) (decide (formats_changed ≠ 0)) s).2).statements_updated
        ≠ 0 →
      measure_loop body fuel fxpass formats_changed s =
        measure_loop body (fuel - 1) (fxpass + 1)
          (pass_counts (body (fxpass + 1) (decide (formats_changed ≠ 0)) s).2).formats_changed
          (body (fxpass + 1) (decide (formats_changed ≠ 0)) s).1) ∧
    (fxpass + 1 = MAX_PASSES →
      measure_loop body fuel fxpass formats_changed s =
        some { ending := measure_end.too_many_passes, fxpass := MAX_PASSES, state := s,
               last := [] }) ∧
    ((∀ p b t, (pass_counts (body p b t).2).undefined_result_format ≠ 0 ∧
        (pass_counts (body p b t).2).statements_updated ≠ 0) →
      ∃ r, measure_loop body fuel fxpass formats_changed s = some r ∧
        r.ending = measure_end.too_many_passes ∧ r.fxpass = 256) := by
  have h1 : 1 ≤ fuel := by
    have : (1 : Int) ≤ (fuel : Int) := by linarith
    exact_mod_cast this
  obtain ⟨n, rfl⟩ : ∃ n, fuel = n + 1 := ⟨fuel - 1, by omega⟩
  refine ⟨rfl, ?_, ?_, ?_, ?_, ?_, ?_⟩
  · obtain ⟨r, e, p1, p2, p3, p4, p5⟩ :=
      measure_loop_ends body (n + 1) fxpass formats_changed s h1 hfuel
    refine ⟨r, e, p1, p2 h0, ?_, ?_, ?_⟩
    · rw [p3]
      exact ⟨fun h => le_antisymm (p2 h0) h, fun h => le_of_eq h.symm⟩
    · intro h
      exact ⟨p4 h, (pass_counts_spec r.last).2.2.1.mp (p4 h)⟩
    · intro h
      exact ⟨(p5 h).1, (p5 h).2, (pass_counts_spec r.last).2.2.2.mp (p5 h).2⟩
  · intro hm hu
    refine ⟨(pass_counts_spec _).2.2.1.mp hu, ?_⟩
    rw [measure_loop_succ, if_neg (not_le.mpr hm), if_neg (fun h => h.1 hu), if_neg (fun h => h hu)]
  · intro hm hu hsu
    rw [measure_loop_succ, if_neg (not_le.mpr hm), if_neg (fun h => h.2 hsu), if_pos hu]
  · intro hm hu hsu
    rw [measure_loop_succ, if_neg (not_le.mpr hm), if_pos ⟨hu, hsu⟩]
    rfl
  · intro hm
    rw [measure_loop_succ, if_pos (le_of_eq hm.symm), hm]
  · intro hbody
    exact measure_loop_never_settles body hbody (n + 1) fxpass formats_changed s h0 hfuel

set_option maxRecDepth 100000 in
/-- C21, witness: from pass counter 0, a body that settles in its third pass
ends the loop successfully with the counter at 3, and the widening body is
aborted with the counter at 256. -/
theorem C21_measure_loop_terminates_witness :
    (measure_loop settling_body 256 0 0 0).map (fun r => (r.ending, r.fxpass, r.state)) =
      some (measure_end.resolved, 3, 3) ∧
    (∃ r, measure_loop settling_body 256 0 0 0 = some r ∧ r.fxpass ≤ MAX_PASSES) ∧
    (∃ r, measure_loop widening_body 256 0 0 0 = some r ∧
      r.ending = measure_end.too_many_passes ∧ r.fxpass = 256) := by
  refine ⟨by decide, ?_, ?_⟩
  · obtain ⟨r, e, _, p, _⟩ :=
      (C21_measure_loop_terminates settling_body 256 0 0 0 (by decide) (by decide)).2.1
    exact ⟨r, e, p⟩
  · exact (C21_measure_loop_terminates widening_body 256 0 0 0 (by decide)
      (by decide)).2.2.2.2.2.2
      (fun p b t => by simp [widening_body, pass_counts, count_statement])

/-! ### C22 -/

set_option maxRecDepth 100000 in
/-- C23, counterexample: the constant -4. `int_constant_format` gives S = 1
and I = 2 (the bits needed for the complement 3), while the magnitude 4 needs
3 bits: `ceil_log2_range` of the format is 3 > I. -/
theorem C23_negative_power_of_two_counterexample :
    (int_constant_format (-4) initialize_format).S = 1 ∧
    (int_constant_format (-4) initialize_format).I = 2 ∧
    ceil_log2_range (int_constant_format (-4) initialize_format) = 3 := by
  refine ⟨by decide, ?_, by decide⟩
  show (if (-4 : Int) = 0 then 1 else tree_int_cst_min_precision (-4) true) = 2
  unfold tree_int_cst_min_precision
  have : Nat.log 2 (Int.toNat 3) = 1 :=
    Nat.log_eq_of_pow_le_of_lt_pow (by decide) (by decide)
  norm_num [this]

/-- `ceil_log2_range` as a bit length: 0 for a zero range, `floor(log2 m) + 1`
for the largest magnitude `m` of the two bounds. -/
theorem ceil_log2_range_eq_log (o : SIF) (hmax : DI_fits o.max) (hmin : DI_fits o.min) :
    ceil_log2_range o =
      ((if max o.max.natAbs o.min.natAbs = 0 then 0
        else Nat.log 2 (max o.max.natAbs o.min.natAbs) + 1 : Nat) : Int) := by
  have hior : double_int_ior (double_int_abs o.max) (double_int_abs o.min) =
      wrap (Int.ofNat (o.max.natAbs ||| o.min.natAbs)) := by
    unfold double_int_ior
    rw [pattern_abs o.max hmax, pattern_abs o.min hmin]
    rfl
  have ha : o.max.natAbs < 2 ^ 128 := by
    rw [← pattern_abs o.max hmax]; exact pattern_lt _
  have hb : o.min.natAbs < 2 ^ 128 := by
    rw [← pattern_abs o.min hmin]; exact pattern_lt _
  have hp128 : o.max.natAbs ||| o.min.natAbs < 2 ^ 128 := Nat.or_lt_two_pow ha hb
  have hiff : ∀ n : Nat, max o.max.natAbs o.min.natAbs < 2 ^ n ↔
      o.max.natAbs ||| o.min.natAbs < 2 ^ n := by
    intro n
    rw [lor_lt_two_pow_iff, max_lt_iff]
  have hpf : o.max.natAbs ||| o.min.natAbs < 2 ^ 129 :=
    lt_of_lt_of_le hp128 (Nat.pow_le_pow_right (by norm_num) (by omega))
  obtain ⟨r, h1, h2, h3⟩ := ceil_log2_loop_spec 129 _ 0 hpf hp128
  have e : ceil_log2_range o = (r : Int) := by
    show ceil_log2_loop 129 (double_int_ior (double_int_abs o.max) (double_int_abs o.min)) 0 = _
    rw [hior, h1]; simp
  rw [e]
  have h2m := (hiff r).2 h2
  have h3m : ∀ n : Nat, max o.max.natAbs o.min.natAbs < 2 ^ n → r ≤ n :=
    fun n hn => h3 n ((hiff n).1 hn)
  suffices hr : r = (if max o.max.natAbs o.min.natAbs = 0 then 0
      else Nat.log 2 (max o.max.natAbs o.min.natAbs) + 1) by
    exact congrArg Nat.cast hr
  by_cases hm : max o.max.natAbs o.min.natAbs = 0
  · rw [if_pos hm]
    have := h3m 0 (by rw [hm]; norm_num)
    omega
  · rw [if_neg hm]
    have hr0 : r ≠ 0 := by
      intro h; rw [h] at h2m; simp at h2m; omega
    have hlow : 2 ^ (r - 1) ≤ max o.max.natAbs o.min.natAbs := by
      by_contra hlt
      have := h3m (r - 1) (not_le.mp hlt)
      omega
    have hup : max o.max.natAbs o.min.natAbs < 2 ^ (r - 1 + 1) := by
      have : r - 1 + 1 = r := by omega
      rw [this]; exact h2m
    have := Nat.log_eq_of_pow_le_of_lt_pow hlow hup
    omega

theorem int_constant_format_fields (v : Int) (f : SIF) :
    (int_constant_format v f).F = 0 ∧ (int_constant_format v f).E = 0 ∧
    (int_constant_format v f).S = (if v < 0 then 1 else 0) ∧
    (int_constant_format v f).sgnd = (if v < 0 then 1 else 0) ∧
    (int_constant_format v f).I =
      (if v = 0 then 1 else tree_int_cst_min_precision v true) ∧
    (int_constant_format v f).size =
      (int_constant_format v f).I + (int_constant_format v f).S ∧
    (int_constant_format v f).min = v ∧ (int_constant_format v f).max = v ∧
    (int_constant_format v f).shift = 0 ∧
    (int_constant_format v f).aa = [⟨0, v, 0⟩] := by
  have hs : (if tree_int_cst_sgn (tree.integer_cst v) < 0 then (1 : Int) else 0) =
      (if v < 0 then 1 else 0) := by
    unfold tree_int_cst_sgn
    by_cases h : v < 0
    · simp [h]
    · by_cases h0 : v = 0
      · simp [h0]
      · simp [h, h0]
  unfold int_constant_format
  simp [hs, append_aa_var, search_aa_var]

/-- Bits of a magnitude against the bits of its predecessor: one more at
most, and one more exactly at a power of two. -/
theorem log_pred_bounds (a : Nat) (ha : 2 ≤ a) :
    Nat.log 2 a ≤ Nat.log 2 (a - 1) + 1 ∧
    ((∀ k : Nat, a ≠ 2 ^ k) → Nat.log 2 a ≤ Nat.log 2 (a - 1)) ∧
    (∀ k : Nat, a = 2 ^ k → Nat.log 2 a = k ∧ Nat.log 2 (a - 1) + 1 = k) := by
  have h1 : a - 1 ≠ 0 := by omega
  refine ⟨?_, ?_, ?_⟩
  · have := Nat.log_mul_base (by norm_num : 1 < 2) h1
    have hle : a ≤ (a - 1) * 2 := by omega
    have := Nat.log_mono_right (b := 2) hle
    omega
  · intro hne
    have hp := Nat.pow_log_le_self 2 (by omega : a ≠ 0)
    have hlt : 2 ^ Nat.log 2 a ≤ a - 1 := by
      have := hne (Nat.log 2 a)
      omega
    exact (Nat.pow_le_iff_le_log (by norm_num) h1).1 hlt
  · intro k hk
    subst hk
    have hk1 : 1 ≤ k := by
      by_contra h
      have : k = 0 := by omega
      subst this
      simp at ha
    refine ⟨Nat.log_pow (by norm_num) k, ?_⟩
    have hlow : 2 ^ (k - 1) ≤ 2 ^ k - 1 := by
      have : 2 ^ k = 2 ^ (k - 1) * 2 := by
        rw [← pow_succ]; congr 1; omega
      have hp : 0 < 2 ^ (k - 1) := by positivity
      omega
    have hup : 2 ^ k - 1 < 2 ^ (k - 1 + 1) := by
      have : k - 1 + 1 = k := by omega
      rw [this]
      have hp : 0 < 2 ^ k := by positivity
      omega
    have := Nat.log_eq_of_pow_le_of_lt_pow hlow hup
    omega

/-- C23: integer constant classification. For every integer constant `v` that
is a `double_int`, `int_constant_format` yields F = E = 0, S = sgnd = 1 if
`v < 0` and 0 otherwise, size = I + S, min = max = v, pending shift 0 and the
affine list of the single center term `v` at binary point 0; I = 1 when
`v = 0` and otherwise `tree_int_cst_min_precision(v, unsigned)`. For
`v > 0` the magnitude needs exactly I bits and for `v = 0` none. For `v < 0`
the magnitude needs at most I + S = I + 1 bits: at most I unless `v = -2^k`
with `k ≥ 1`, where I = k and the magnitude needs k + 1 bits. -/
theorem C23_int_constant_format (v : Int) (f : SIF) (hv : DI_fits v) :
    ((int_constant_format v f).F = 0 ∧ (int_constant_format v f).E = 0 ∧
     (int_constant_format v f).S = (if v < 0 then 1 else 0) ∧
     (int_constant_format v f).sgnd = (if v < 0 then 1 else 0) ∧
     (int_constant_format v f).I =
       (if v = 0 then 1 else tree_int_cst_min_precision v true) ∧
     (int_constant_format v f).size =
       (int_constant_format v f).I + (int_constant_format v f).S ∧
     (int_constant_format v f).min = v ∧ (int_constant_format v f).max = v ∧
     (int_constant_format v f).shift = 0 ∧
     (int_constant_format v f).aa = [⟨0, v, 0⟩]) ∧
    (0 < v → ceil_log2_range (int_constant_format v f) = (int_constant_format v f).I) ∧
    (0 ≤ v → ceil_log2_range (int_constant_format v f) ≤ (int_constant_format v f).I) ∧
    (v < 0 → ceil_log2_range (int_constant_format v f) ≤
      (int_constant_format v f).I + (int_constant_format v f).S) ∧
    (v < 0 → (∀ k : Nat, 1 ≤ k → v ≠ -2 ^ k) →
      ceil_log2_range (int_constant_format v f) ≤ (int_constant_format v f).I) ∧
    (∀ k : Nat, 1 ≤ k → v = -2 ^ k →
      (int_constant_format v f).I = k ∧
      ceil_log2_range (int_constant_format v f) = k + 1) := by
  have hf := int_constant_format_fields v f
  obtain ⟨f1, f2, f3, f4, f5, f6, f7, f8, f9, f10⟩ := hf
  have hc := ceil_log2_range_eq_log (int_constant_format v f) (by rw [f8]; exact hv)
    (by rw [f7]; exact hv)
  rw [f7, f8, max_self] at hc
  have hIneg : v < 0 → (int_constant_format v f).I =
      ((if v.natAbs - 1 = 0 then 0 else Nat.log 2 (v.natAbs - 1) : Nat) : Int) + 1 := by
    intro h
    rw [f5, if_neg (by omega)]
    unfold tree_int_cst_min_precision
    simp only [h, if_true, add_zero]
    have e : (-v - 1).toNat = v.natAbs - 1 := by omega
    by_cases h1 : -v - 1 = 0
    · have : v.natAbs - 1 = 0 := by omega
      rw [if_pos h1, if_pos this]; simp
    · have : ¬ v.natAbs - 1 = 0 := by omega
      rw [if_neg h1, if_neg this, e]
  have hcne : v ≠ 0 → ceil_log2_range (int_constant_format v f) =
      (Nat.log 2 v.natAbs : Int) + 1 := by
    intro h
    have : ¬ v.natAbs = 0 := by omega
    rw [hc, if_neg this]; push_cast; ring
  have hpos : 0 < v → ceil_log2_range (int_constant_format v f) =
      (int_constant_format v f).I := by
    intro h
    rw [hcne (by omega), f5, if_neg (by omega)]
    unfold tree_int_cst_min_precision
    have h1 : ¬ v < 0 := by omega
    have h2 : ¬ v = 0 := by omega
    have e : v.toNat = v.natAbs := by omega
    simp only [h1, if_false, h2, if_true, add_zero, e]
  refine ⟨⟨f1, f2, f3, f4, f5, f6, f7, f8, f9, f10⟩, hpos, ?_, ?_, ?_, ?_⟩
  · intro h
    rcases eq_or_lt_of_le h with h0 | h0
    · have : v.natAbs = 0 := by omega
      rw [hc, if_pos this, f5, if_pos h0.symm]; norm_num
    · rw [hpos h0]
  · intro h
    rw [f3, if_pos h, hcne (by omega), hIneg h]
    by_cases h1 : v.natAbs - 1 = 0
    · have : v.natAbs = 1 := by omega
      rw [if_pos h1, this]; simp
    · rw [if_neg h1]
      have := (log_pred_bounds v.natAbs (by omega)).1
      omega
  · intro h hne
    rw [hcne (by omega), hIneg h]
    by_cases h1 : v.natAbs - 1 = 0
    · have : v.natAbs = 1 := by omega
      rw [if_pos h1, this]; simp
    · rw [if_neg h1]
      have hk : ∀ k : Nat, v.natAbs ≠ 2 ^ k := by
        intro k hk
        by_cases hk0 : k = 0
        · subst hk0; simp at hk; omega
        · apply hne k (by omega)
          have : (v.natAbs : Int) = -v := by omega
          have h2 : ((2 ^ k : Nat) : Int) = -v := by rw [← hk]; exact this
          push_cast at h2
          linarith
      have := (log_pred_bounds v.natAbs (by omega)).2.1 hk
      omega
  · intro k hk hvk
    have hneg : v < 0 := by
      rw [hvk]; have : (0 : Int) < 2 ^ k := by positivity
      linarith
    have hnat : v.natAbs = 2 ^ k := by
      have h1 : (v.natAbs : Int) = -v := by omega
      have h2 : (v.natAbs : Int) = ((2 ^ k : Nat) : Int) := by
        rw [h1, hvk]; push_cast; ring
      exact Int.ofNat_inj.mp h2
    have h2k : 2 ≤ v.natAbs := by
      rw [hnat]
      calc 2 = 2 ^ 1 := by norm_num
        _ ≤ 2 ^ k := Nat.pow_le_pow_right (by norm_num) hk
    obtain ⟨l1, l2⟩ := (log_pred_bounds v.natAbs h2k).2.2 k hnat
    have h1 : ¬ v.natAbs - 1 = 0 := by omega
    constructor
    · rw [hIneg hneg, if_neg h1]
      have : ((Nat.log 2 (v.natAbs - 1) : Nat) : Int) + 1 = ((Nat.log 2 (v.natAbs - 1) + 1 : Nat) : Int) := by
        push_cast; ring
      rw [this, l2]
    · rw [hcne (by omega), l1]

set_option maxRecDepth 100000 in
theorem C23_int_constant_format_witness :
    ceil_log2_range (int_constant_format 100 initialize_format) =
      (int_constant_format 100 initialize_format).I ∧
    (int_constant_format (-4) initialize_format).I = ((2 : Nat) : Int) :=
  ⟨(C23_int_constant_format 100 initialize_format (by decide)).2.1 (by decide),
   ((C23_int_constant_format (-4) initialize_format (by decide)).2.2.2.2.2 2 (by decide)
      (by decide)).1⟩

/-! ### C24 -/

/-- C24, counterexample: the source is marked as an induction variable
(`iv = 1`), the destination is not. After `copy_SIF` the destination has
`iv = 1`: the field is copied with the format. -/
theorem C24_copy_SIF_copies_iv_counterexample :
    ({ sample_format 1 4 3 0 0 (-5) 5 [] with id := 2 } : SIF).iv = 0 ∧
    (copy_SIF { sample_format 1 3 4 0 0 (-10) 10 [] with id := 1, iv := 1 }
      { sample_format 1 4 3 0 0 (-5) 5 [] with id := 2 } false false).iv = 1 := by
  decide

theorem copy_aa_list_eq (l : List AA) (h : ∀ e ∈ l, e.id ≠ 0xbad) : copy_aa_list l = l := by
  unfold copy_aa_list
  have : l.any (fun e => decide (e.id = 0xbad)) = false := by
    rw [List.any_eq_false]
    intro e he
    simpa using h e he
  rw [this]
  simp

/-- C24: the format-only copy. For distinct objects `src` and `dest`,
`copy_SIF(src, dest)` sets S, I, F, E, min, max and `iv` of `dest` to those of
`src` and leaves `id`, `alias`, `size`, `sgnd`, `shift`, `originalF`,
`ptr_op`, `iter`, `has_attribute` and the `attr` values of `dest` unchanged.
When the two objects do not already point to one list, the affine list of
`dest` becomes `copy_aa_list(src.aa)`: equal term by term to the list of `src`
when no term carries the key `0xbad`, and the empty list otherwise.
`copy_SIF(x, x)` changes nothing. -/
theorem C24_copy_SIF_frame (src dest : SIF) (shared_aa : Bool) :
    ((copy_SIF src dest false shared_aa).S = src.S ∧
     (copy_SIF src dest false shared_aa).I = src.I ∧
     (copy_SIF src dest false shared_aa).F = src.F ∧
     (copy_SIF src dest false shared_aa).E = src.E ∧
     (copy_SIF src dest false shared_aa).min = src.min ∧
     (copy_SIF src dest false shared_aa).max = src.max ∧
     (copy_SIF src dest false shared_aa).iv = src.iv) ∧
    ((copy_SIF src dest false shared_aa).id = dest.id ∧
     (copy_SIF src dest false shared_aa).alias_id = dest.alias_id ∧
     (copy_SIF src dest false shared_aa).size = dest.size ∧
     (copy_SIF src dest false shared_aa).sgnd = dest.sgnd ∧
     (copy_SIF src dest false shared_aa).shift = dest.shift ∧
     (copy_SIF src dest false shared_aa).originalF = dest.originalF ∧
     (copy_SIF src dest false shared_aa).ptr_op = dest.ptr_op ∧
     (copy_SIF src dest false shared_aa).iter = dest.iter ∧
     (copy_SIF src dest false shared_aa).has_attribute = dest.has_attribute ∧
     (copy_SIF src dest false shared_aa).attrS = dest.attrS ∧
     (copy_SIF src dest false shared_aa).attrI = dest.attrI ∧
     (copy_SIF src dest false shared_aa).attrF = dest.attrF ∧
     (copy_SIF src dest false shared_aa).attrE = dest.attrE ∧
     (copy_SIF src dest false shared_aa).attrmax = dest.attrmax ∧
     (copy_SIF src dest false shared_aa).attrmin = dest.attrmin) ∧
    ((copy_SIF src dest false false).aa = copy_aa_list src.aa) ∧
    ((∀ e ∈ src.aa, e.id ≠ 0xbad) → (copy_SIF src dest false false).aa = src.aa) ∧
    ((∃ e ∈ src.aa, e.id = 0xbad) → (copy_SIF src dest false false).aa = []) ∧
    ((copy_SIF src dest false true).aa = dest.aa) ∧
    (copy_SIF dest dest true shared_aa = dest) := by
  refine ⟨⟨rfl, rfl, rfl, rfl, rfl, rfl, rfl⟩,
    ⟨rfl, rfl, rfl, rfl, rfl, rfl, rfl, rfl, rfl, rfl, rfl, rfl, rfl, rfl, rfl⟩, rfl, ?_, ?_,
    rfl, rfl⟩
  · intro h
    show copy_aa_list src.aa = src.aa
    exact copy_aa_list_eq src.aa h
  · intro h
    show copy_aa_list src.aa = []
    unfold copy_aa_list
    have : src.aa.any (fun e => decide (e.id = 0xbad)) = true := by
      rw [List.any_eq_true]
      obtain ⟨e, he, hid⟩ := h
      exact ⟨e, he, by simpa using hid⟩
    rw [this]
    simp

theorem C24_copy_SIF_frame_witness :
    (copy_SIF { sample_format 1 3 4 0 0 (-10) 10 [⟨0, 1, 4⟩, ⟨0xbad, 2, 4⟩] with id := 1 }
      { sample_format 1 4 3 0 0 (-5) 5 [⟨7, 1, 3⟩] with id := 2 } false false).aa = [] ∧
    (copy_SIF { sample_format 1 3 4 0 0 (-10) 10 [⟨0, 1, 4⟩, ⟨9, 2, 4⟩] with id := 1 }
      { sample_format 1 4 3 0 0 (-5) 5 [⟨7, 1, 3⟩] with id := 2 } false false).aa =
      [⟨0, 1, 4⟩, ⟨9, 2, 4⟩] :=
  ⟨(C24_copy_SIF_frame
      { sample_format 1 3 4 0 0 (-10) 10 [⟨0, 1, 4⟩, ⟨0xbad, 2, 4⟩] with id := 1 }
      { sample_format 1 4 3 0 0 (-5) 5 [⟨7, 1, 3⟩] with id := 2 } false).2.2.2.2.1
      ⟨⟨0xbad, 2, 4⟩, by decide, by decide⟩,
   (C24_copy_SIF_frame
      { sample_format 1 3 4 0 0 (-10) 10 [⟨0, 1, 4⟩, ⟨9, 2, 4⟩] with id := 1 }
      { sample_format 1 4 3 0 0 (-5) 5 [⟨7, 1, 3⟩] with id := 2 } false).2.2.2.1
      (by decide)⟩

/-! ### C25 -/

/-- C25: `initialize_format` yields a format of width 0 with
S = I = F = E = 0, pending shift 0, no flag (`has_attribute`, `ptr_op`, `iv`,
`iter`), no alias and no affine list; its range is min = 1 > max = 0, which is
the undefined range; and it is reported uninitialized. For every format,
`format_initialized` holds exactly when I ≠ 0 or F ≠ 0. -/
theorem C25_initialize_format_uninitialized :
    initialize_format.size = 0 ∧ initialize_format.S = 0 ∧ initialize_format.I = 0 ∧
    initialize_format.F = 0 ∧ initialize_format.E = 0 ∧ initialize_format.shift = 0 ∧
    initialize_format.has_attribute = 0 ∧ initialize_format.ptr_op = 0 ∧
    initialize_format.iv = 0 ∧ initialize_format.iter = 0 ∧
    initialize_format.alias_id = 0 ∧ initialize_format.aa = [] ∧
    initialize_format.max = 0 ∧ initialize_format.min = 1 ∧
    initialize_format.min > initialize_format.max ∧
    double_int_scmp initialize_format.max initialize_format.min = -1 ∧
    format_initialized initialize_format = false ∧
    ∀ f : SIF, format_initialized f = true ↔ (f.I ≠ 0 ∨ f.F ≠ 0) := by
  refine ⟨rfl, rfl, rfl, rfl, rfl, rfl, rfl, rfl, rfl, rfl, rfl, rfl, rfl, rfl, by decide,
    by decide, by decide, ?_⟩
  intro f
  unfold format_initialized
  simp

/-! ### C26 -/

theorem key_decode (uid pass idx : Int) (hu : 0 ≤ uid) (hp0 : 0 ≤ pass) (hp : pass < 256)
    (hi0 : 0 ≤ idx) (hi : idx < 256) :
    KEY_TO_UID (UID_PASS_IDX_TO_KEY uid pass idx) = uid ∧
    KEY_TO_PASS (UID_PASS_IDX_TO_KEY uid pass idx) = pass ∧
    KEY_TO_IDX (UID_PASS_IDX_TO_KEY uid pass idx) = idx := by
  unfold KEY_TO_UID KEY_TO_PASS KEY_TO_IDX UID_PASS_IDX_TO_KEY MAX_PASSES MAX_ELEMENTS
  have hk : 0 ≤ (uid * 256 + idx) * 256 + pass := by nlinarith
  have hq : 0 ≤ ((uid * 256 + idx) * 256 + pass) / 256 := Int.ediv_nonneg hk (by norm_num)
  refine ⟨?_, ?_, ?_⟩
  · rw [Int.tdiv_eq_ediv hk (by norm_num)]
    omega
  · rw [Int.tmod_eq_emod hk (by norm_num)]
    omega
  · rw [Int.tdiv_eq_ediv hk (by norm_num), Int.tmod_eq_emod hq (by norm_num)]
    omega

/-- C26: identity keys round-trip. For every uid ≥ 0 and every pass and
index in [0, 255], `KEY_TO_UID`, `KEY_TO_PASS` and `KEY_TO_IDX` applied to
`UID_PASS_IDX_TO_KEY(uid, pass, index)` return uid, pass and index, so two
such triples with the same key are equal; `UID_IDX_TO_KEY(uid, index)` is the
pass-0 key of (uid, index); and every key of magnitude below 65536 decodes to
uid 0. -/
theorem C26_identity_keys_round_trip :
    (∀ uid pass idx : Int, 0 ≤ uid → 0 ≤ pass → pass < 256 → 0 ≤ idx → idx < 256 →
      KEY_TO_UID (UID_PASS_IDX_TO_KEY uid pass idx) = uid ∧
      KEY_TO_PASS (UID_PASS_IDX_TO_KEY uid pass idx) = pass ∧
      KEY_TO_IDX (UID_PASS_IDX_TO_KEY uid pass idx) = idx) ∧
    (∀ uid pass idx uid2 pass2 idx2 : Int,
      0 ≤ uid → 0 ≤ pass → pass < 256 → 0 ≤ idx → idx < 256 →
      0 ≤ uid2 → 0 ≤ pass2 → pass2 < 256 → 0 ≤ idx2 → idx2 < 256 →
      UID_PASS_IDX_TO_KEY uid pass idx = UID_PASS_IDX_TO_KEY uid2 pass2 idx2 →
      uid = uid2 ∧ pass = pass2 ∧ idx = idx2) ∧
    (∀ uid idx : Int, UID_IDX_TO_KEY uid idx = UID_PASS_IDX_TO_KEY uid 0 idx) ∧
    (∀ key : Int, -65536 < key → key < 65536 → KEY_TO_UID key = 0) := by
  refine ⟨key_decode, ?_, ?_, ?_⟩
  · intro uid pass idx uid2 pass2 idx2 h1 h2 h3 h4 h5 g1 g2 g3 g4 g5 heq
    obtain ⟨a1, a2, a3⟩ := key_decode uid pass idx h1 h2 h3 h4 h5
    obtain ⟨b1, b2, b3⟩ := key_decode uid2 pass2 idx2 g1 g2 g3 g4 g5
    rw [heq] at a1 a2 a3
    exact ⟨a1.symm.trans b1, a2.symm.trans b2, a3.symm.trans b3⟩
  · intro uid idx
    unfold UID_IDX_TO_KEY UID_PASS_IDX_TO_KEY MAX_PASSES MAX_ELEMENTS
    ring
  · intro key h1 h2
    unfold KEY_TO_UID MAX_PASSES MAX_ELEMENTS
    rcases le_or_lt 0 key with h | h
    · exact Int.tdiv_eq_zero_of_lt h (by linarith)
    · have e : key = -(-key) := by ring
      rw [e, Int.neg_tdiv, Int.tdiv_eq_zero_of_lt (by linarith) (by linarith)]
      rfl

theorem C26_identity_keys_round_trip_witness :
    KEY_TO_UID (UID_PASS_IDX_TO_KEY 5 1 255) = 5 ∧
    KEY_TO_PASS (UID_PASS_IDX_TO_KEY 5 1 255) = 1 ∧
    KEY_TO_IDX (UID_PASS_IDX_TO_KEY 5 1 255) = 255 ∧
    KEY_TO_UID 0xbad = 0 :=
  ⟨(C26_identity_keys_round_trip.1 5 1 255 (by decide) (by decide) (by decide) (by decide)
      (by decide)).1,
   (C26_identity_keys_round_trip.1 5 1 255 (by decide) (by decide) (by decide) (by decide)
      (by decide)).2.1,
   (C26_identity_keys_round_trip.1 5 1 255 (by decide) (by decide) (by decide) (by decide)
      (by decide)).2.2,
   C26_identity_keys_round_trip.2.2.2 0xbad (by decide) (by decide)⟩

/-! ### C27 -/

set_option maxRecDepth 100000 in
/-- C27, failing input: the 8-bit format `(1, 3, 4, 0)` with no pending shift
and range `[-5, 0]`. The format has integer bits and its range is not
identically zero (min = -5), so the value should be
`max(0, (I+F+E) - n) = 7 - 3 = 4`, with `n = 3` the bits needed for the
range. The test for a zero range reads `max` twice and never `min`, and
`pessimistic_format` returns 0. -/
theorem C27_pessimistic_format_ignores_min :
    (sample_format 1 3 4 0 0 (-5) 0 []).I ≠ 0 ∧
    (sample_format 1 3 4 0 0 (-5) 0 []).min ≠ 0 ∧
    ceil_log2_range (new_range cfg_interval (sample_format 1 3 4 0 0 (-5) 0 [])) = 3 ∧
    max 0 (((sample_format 1 3 4 0 0 (-5) 0 []).I + (sample_format 1 3 4 0 0 (-5) 0 []).F +
        (sample_format 1 3 4 0 0 (-5) 0 []).E) -
      ceil_log2_range (new_range cfg_interval (sample_format 1 3 4 0 0 (-5) 0 []))) = 4 ∧
    pessimistic_format cfg_interval (sample_format 1 3 4 0 0 (-5) 0 []) = 0 := by
  decide

/-! ### C28 -/

/-- Truncating division by a positive divisor is monotone in the dividend. -/
theorem tdiv_mono_left (a b y : Int) (hy : 0 < y) (hab : a ≤ b) : Int.tdiv a y ≤ Int.tdiv b y := by
  rcases le_or_lt 0 a with ha | ha
  · rw [Int.tdiv_eq_ediv ha (le_of_lt hy), Int.tdiv_eq_ediv (le_trans ha hab) (le_of_lt hy)]
    exact Int.ediv_le_ediv hy hab
  · have e1 : Int.tdiv a y = -((-a) / y) := by
      rw [← Int.tdiv_eq_ediv (by linarith) (le_of_lt hy), Int.neg_tdiv, neg_neg]
    rcases le_or_lt 0 b with hb | hb
    · have h1 : 0 ≤ (-a) / y := Int.ediv_nonneg (by linarith) (le_of_lt hy)
      have h2 : 0 ≤ Int.tdiv b y := Int.tdiv_nonneg hb (le_of_lt hy)
      rw [e1]
      linarith
    · have e2 : Int.tdiv b y = -((-b) / y) := by
        rw [← Int.tdiv_eq_ediv (by linarith) (le_of_lt hy), Int.neg_tdiv, neg_neg]
      rw [e1, e2]
      have := Int.ediv_le_ediv hy (show -b ≤ -a by linarith)
      linarith

/-- For a dividend that is not negative, a larger positive divisor gives a
quotient that is not larger. -/
theorem ediv_anti_right (x y1 y2 : Int) (hx : 0 ≤ x) (h1 : 0 < y1) (h12 : y1 ≤ y2) :
    x / y2 ≤ x / y1 := by
  have hy2 : 0 < y2 := lt_of_lt_of_le h1 h12
  apply Int.le_ediv_of_mul_le h1
  have hq : 0 ≤ x / y2 := Int.ediv_nonneg hx (le_of_lt hy2)
  have h3 : x / y2 * y2 ≤ x := Int.ediv_mul_le x (ne_of_gt hy2)
  nlinarith

theorem tdiv_anti_right_nonneg (x y1 y2 : Int) (hx : 0 ≤ x) (h1 : 0 < y1) (h12 : y1 ≤ y2) :
    Int.tdiv x y2 ≤ Int.tdiv x y1 := by
  rw [Int.tdiv_eq_ediv hx (le_of_lt h1), Int.tdiv_eq_ediv hx (by linarith)]
  exact ediv_anti_right x y1 y2 hx h1 h12

theorem tdiv_mono_right_nonpos (x y1 y2 : Int) (hx : x ≤ 0) (h1 : 0 < y1) (h12 : y1 ≤ y2) :
    Int.tdiv x y1 ≤ Int.tdiv x y2 := by
  have e1 : Int.tdiv x y1 = -((-x) / y1) := by
    rw [← Int.tdiv_eq_ediv (by linarith) (le_of_lt h1), Int.neg_tdiv, neg_neg]
  have e2 : Int.tdiv x y2 = -((-x) / y2) := by
    rw [← Int.tdiv_eq_ediv (by linarith) (by linarith), Int.neg_tdiv, neg_neg]
  rw [e1, e2]
  have := ediv_anti_right (-x) y1 y2 (by linarith) h1 h12
  linarith

/-- Four-corner rule for truncating division by a positive divisor range. -/
theorem tdiv_corners_pos (x y lo1 hi1 lo2 hi2 : Int) (hx1 : lo1 ≤ x) (hx2 : x ≤ hi1)
    (hy1 : lo2 ≤ y) (hy2 : y ≤ hi2) (hpos : 0 < lo2) :
    min (min (min (Int.tdiv hi1 hi2) (Int.tdiv hi1 lo2)) (Int.tdiv lo1 hi2)) (Int.tdiv lo1 lo2)
      ≤ Int.tdiv x y ∧
    Int.tdiv x y ≤
      max (max (max (Int.tdiv hi1 hi2) (Int.tdiv hi1 lo2)) (Int.tdiv lo1 hi2)) (Int.tdiv lo1 lo2) := by
  have hy : 0 < y := lt_of_lt_of_le hpos hy1
  have hh : 0 < hi2 := lt_of_lt_of_le hy hy2
  simp only [min_le_iff, le_max_iff]
  rcases le_or_lt 0 x with hx | hx
  · constructor
    · left; right
      exact le_trans (tdiv_mono_left lo1 x hi2 hh hx1) (tdiv_anti_right_nonneg x y hi2 hx hy hy2)
    · left; left; right
      exact le_trans (tdiv_anti_right_nonneg x lo2 y hx hpos hy1) (tdiv_mono_left x hi1 lo2 hpos hx2)
  · constructor
    · right
      exact le_trans (tdiv_mono_left lo1 x lo2 hpos hx1)
        (tdiv_mono_right_nonpos x lo2 y (le_of_lt hx) hpos hy1)
    · left; left; left
      exact le_trans (tdiv_mono_right_nonpos x y hi2 (le_of_lt hx) hy hy2)
        (tdiv_mono_left x hi1 hi2 hh hx2)

/-- Four-corner rule for truncating division by a divisor range that does not
contain zero. -/
theorem tdiv_corners (x y lo1 hi1 lo2 hi2 : Int) (hx1 : lo1 ≤ x) (hx2 : x ≤ hi1)
    (hy1 : lo2 ≤ y) (hy2 : y ≤ hi2) (hnz : 0 < lo2 ∨ hi2 < 0) :
    min (min (min (Int.tdiv hi1 hi2) (Int.tdiv hi1 lo2)) (Int.tdiv lo1 hi2)) (Int.tdiv lo1 lo2)
      ≤ Int.tdiv x y ∧
    Int.tdiv x y ≤
      max (max (max (Int.tdiv hi1 hi2) (Int.tdiv hi1 lo2)) (Int.tdiv lo1 hi2)) (Int.tdiv lo1 lo2) := by
  rcases hnz with hpos | hneg
  · exact tdiv_corners_pos x y lo1 hi1 lo2 hi2 hx1 hx2 hy1 hy2 hpos
  · have h := tdiv_corners_pos x (-y) lo1 hi1 (-hi2) (-lo2) hx1 hx2 (by linarith) (by linarith)
      (by linarith)
    simp only [Int.tdiv_neg, min_le_iff, le_max_iff] at h ⊢
    obtain ⟨h1, h2⟩ := h
    constructor
    · rcases h2 with ((h2 | h2) | h2) | h2
      · left; left; right; linarith
      · left; left; left; linarith
      · right; linarith
      · left; right; linarith
    · rcases h1 with ((h1 | h1) | h1) | h1
      · left; left; right; linarith
      · left; left; left; linarith
      · right; linarith
      · left; right; linarith

/-- A truncating quotient of a `double_int` dividend above the most negative
number is a `double_int`. -/
theorem tdiv_fits (a b : Int) (ha : DI_fits a) (hmin : -2 ^ 127 < a) : DI_fits (Int.tdiv a b) := by
  have h1 : (Int.tdiv a b).natAbs ≤ a.natAbs := by
    rw [Int.natAbs_tdiv]
    exact Nat.div_le_self _ _
  unfold DI_fits at ha ⊢
  obtain ⟨B, hB⟩ : ∃ B : Int, B = 2 ^ 127 := ⟨_, rfl⟩
  rw [← hB] at ha hmin ⊢
  omega
/-- Sign extension from a width in which the value is representable returns
the value, and such a value is a `double_int`. -/
theorem double_int_sext_eq_self (x size : Int) (h : fits_width x size) :
    double_int_sext x size = x ∧ DI_fits x := by
  obtain ⟨h1, h2, h3, h4⟩ := h
  obtain ⟨p, hp⟩ : ∃ p : Nat, size = (p : Int) + 1 := ⟨(size - 1).toNat, by omega⟩
  subst hp
  have e1 : ((p : Int) + 1 - 1).toNat = p := by omega
  have e2 : ((p : Int) + 1).toNat = p + 1 := by omega
  rw [e1] at h3 h4
  have hp : p ≤ 127 := by omega
  constructor
  · unfold double_int_sext sext_bits
    rw [if_pos ⟨h1, h2⟩, e2, if_neg (Nat.succ_ne_zero p), Nat.add_sub_cancel]
    have e3 : (2 : Int) ^ (p + 1) = 2 * 2 ^ p := by rw [pow_succ]; ring
    rw [Int.emod_eq_of_lt (by linarith) (by rw [e3]; linarith)]
    ring
  · have hle : (2 : Int) ^ p ≤ 2 ^ 127 := pow_le_pow_right₀ (by norm_num) hp
    unfold DI_fits
    constructor <;> linarith

/-- The truncating quotient of `double_int` values by a nonzero divisor, the
dividend not being the most negative number. -/
theorem double_int_sdiv_eq (a b : Int) (ha : DI_fits a) (hmin : -2 ^ 127 < a) (hb : b ≠ 0) :
    double_int_sdiv a b = Int.tdiv a b := by
  unfold double_int_sdiv
  rw [if_neg hb]
  exact wrap_eq_self (tdiv_fits a b ha hmin)

/-- C28: four-corner division is safe and sound. In interval mode, write
`[lo_i, hi_i] = [new_min op_i, new_max op_i]` for the operand ranges with
their pending shifts applied. When the four bounds are representable in the
sizes of their operands, `lo_i ≤ hi_i`, the divisor range does not contain
zero (`0 < lo2` or `hi2 < 0`) and `lo1` is not the most negative `double_int`
(whose quotient by -1 is not a `double_int`): the zero-divisor test of
`new_range_div` does not fire and both divisors it uses are nonzero; each of
the four quotients it computes is the truncating quotient of the corner;
it returns the maximum and the minimum of the four corner quotients, every
other field and `next_error_id` as passed in; and for all integers `x` in
`[lo1, hi1]` and `y` in `[lo2, hi2]`, `y` is nonzero and the truncating
quotient `x / y` lies in the returned `[min, max]`. -/
theorem C28_four_corner_division (cfg : Config) (next_error_id : Int)
    (oprnd1 oprnd2 result_frmt : SIF) (hI : cfg.AFFINE = false)
    (hw1 : fits_width (new_min cfg oprnd1) oprnd1.size ∧
      fits_width (new_max cfg oprnd1) oprnd1.size)
    (hw2 : fits_width (new_min cfg oprnd2) oprnd2.size ∧
      fits_width (new_max cfg oprnd2) oprnd2.size)
    (h1 : new_min cfg oprnd1 ≤ new_max cfg oprnd1)
    (h2 : new_min cfg oprnd2 ≤ new_max cfg oprnd2)
    (hnz : 0 < new_min cfg oprnd2 ∨ new_max cfg oprnd2 < 0)
    (hmnn : -2 ^ 127 < new_min cfg oprnd1) :
    (divisor_may_be_zero (double_int_sext (new_min cfg oprnd2) oprnd2.size)
        (double_int_sext (new_max cfg oprnd2) oprnd2.size) = false ∧
      double_int_sext (new_max cfg oprnd2) oprnd2.size ≠ 0 ∧
      double_int_sext (new_min cfg oprnd2) oprnd2.size ≠ 0) ∧
    (double_int_sdiv (double_int_sext (new_max cfg oprnd1) oprnd1.size)
        (double_int_sext (new_max cfg oprnd2) oprnd2.size) =
        Int.tdiv (new_max cfg oprnd1) (new_max cfg oprnd2) ∧
      double_int_sdiv (double_int_sext (new_max cfg oprnd1) oprnd1.size)
        (double_int_sext (new_min cfg oprnd2) oprnd2.size) =
        Int.tdiv (new_max cfg oprnd1) (new_min cfg oprnd2) ∧
      double_int_sdiv (double_int_sext (new_min cfg oprnd1) oprnd1.size)
        (double_int_sext (new_max cfg oprnd2) oprnd2.size) =
        Int.tdiv (new_min cfg oprnd1) (new_max cfg oprnd2) ∧
      double_int_sdiv (double_int_sext (new_min cfg oprnd1) oprnd1.size)
        (double_int_sext (new_min cfg oprnd2) oprnd2.size) =
        Int.tdiv (new_min cfg oprnd1) (new_min cfg oprnd2)) ∧
    new_range_div cfg next_error_id oprnd1 oprnd2 result_frmt =
      some ({ result_frmt with
              max := max (max (max (Int.tdiv (new_max cfg oprnd1) (new_max cfg oprnd2))
                                   (Int.tdiv (new_max cfg oprnd1) (new_min cfg oprnd2)))
                              (Int.tdiv (new_min cfg oprnd1) (new_max cfg oprnd2)))
                         (Int.tdiv (new_min cfg oprnd1) (new_min cfg oprnd2)),
              min := min (min (min (Int.tdiv (new_max cfg oprnd1) (new_max cfg oprnd2))
                                   (Int.tdiv (new_max cfg oprnd1) (new_min cfg oprnd2)))
                              (Int.tdiv (new_min cfg oprnd1) (new_max cfg oprnd2)))
                         (Int.tdiv (new_min cfg oprnd1) (new_min cfg oprnd2)) },
            next_error_id) ∧
    (∀ x y : Int, new_min cfg oprnd1 ≤ x → x ≤ new_max cfg oprnd1 →
      new_min cfg oprnd2 ≤ y → y ≤ new_max cfg oprnd2 →
      y ≠ 0 ∧
      ∃ r, new_range_div cfg next_error_id oprnd1 oprnd2 result_frmt = some r ∧
        r.1.min ≤ Int.tdiv x y ∧ Int.tdiv x y ≤ r.1.max) := by
  obtain ⟨s1, f1⟩ := double_int_sext_eq_self _ _ hw1.1
  obtain ⟨s2, f2⟩ := double_int_sext_eq_self _ _ hw1.2
  obtain ⟨s3, f3⟩ := double_int_sext_eq_self _ _ hw2.1
  obtain ⟨s4, f4⟩ := double_int_sext_eq_self _ _ hw2.2
  have hmax2 : new_max cfg oprnd2 ≠ 0 := by
    rcases hnz with h | h
    · exact ne_of_gt (lt_of_lt_of_le h h2)
    · exact ne_of_lt h
  have hmin2 : new_min cfg oprnd2 ≠ 0 := by
    rcases hnz with h | h
    · exact ne_of_gt h
    · exact ne_of_lt (lt_of_le_of_lt h2 h)
  have hmnn2 : -2 ^ 127 < new_max cfg oprnd1 := lt_of_lt_of_le hmnn h1
  have hz : divisor_may_be_zero (new_min cfg oprnd2) (new_max cfg oprnd2) = false := by
    unfold divisor_may_be_zero double_int_zero_p double_int_positive_p double_int_negative_p
      double_int_zero_p
    rcases hnz with h | h
    · have h3 : ¬ new_min cfg oprnd2 < 0 := not_lt.mpr (le_of_lt h)
      simp [hmin2, hmax2, h3]
    · simp [hmin2, hmax2, h]
  have d1 := double_int_sdiv_eq (new_max cfg oprnd1) (new_max cfg oprnd2) f2 hmnn2 hmax2
  have d2 := double_int_sdiv_eq (new_max cfg oprnd1) (new_min cfg oprnd2) f2 hmnn2 hmin2
  have d3 := double_int_sdiv_eq (new_min cfg oprnd1) (new_max cfg oprnd2) f1 hmnn hmax2
  have d4 := double_int_sdiv_eq (new_min cfg oprnd1) (new_min cfg oprnd2) f1 hmnn hmin2
  have hres : new_range_div cfg next_error_id oprnd1 oprnd2 result_frmt =
      some ({ result_frmt with
              max := max (max (max (Int.tdiv (new_max cfg oprnd1) (new_max cfg oprnd2))
                                   (Int.tdiv (new_max cfg oprnd1) (new_min cfg oprnd2)))
                              (Int.tdiv (new_min cfg oprnd1) (new_max cfg oprnd2)))
                         (Int.tdiv (new_min cfg oprnd1) (new_min cfg oprnd2)),
              min := min (min (min (Int.tdiv (new_max cfg oprnd1) (new_max cfg oprnd2))
                                   (Int.tdiv (new_max cfg oprnd1) (new_min cfg oprnd2)))
                              (Int.tdiv (new_min cfg oprnd1) (new_max cfg oprnd2)))
                         (Int.tdiv (new_min cfg oprnd1) (new_min cfg oprnd2)) },
            next_error_id) := by
    unfold new_range_div
    simp only [hI, Bool.false_eq_true, if_false, s1, s2, s3, s4, hz, d1, d2, d3, d4,
      double_int_smax_eq, double_int_smin_eq]
  refine ⟨?_, ?_, hres, ?_⟩
  · rw [s3, s4]
    exact ⟨hz, hmax2, hmin2⟩
  · rw [s1, s2, s3, s4]
    exact ⟨d1, d2, d3, d4⟩
  · intro x y hx1 hx2 hy1 hy2
    refine ⟨?_, _, hres, ?_⟩
    · rcases hnz with h | h
      · exact ne_of_gt (lt_of_lt_of_le h hy1)
      · exact ne_of_lt (lt_of_le_of_lt hy2 h)
    · exact tdiv_corners x y _ _ _ _ hx1 hx2 hy1 hy2 hnz

set_option maxRecDepth 100000 in
/-- C28, witness: the numerator range `[-40, 90]` divided by the divisor range
`[-7, -2]` gives `[-45, 20]`. -/
theorem C28_four_corner_division_witness :
    new_range_div cfg_interval 1 (sample_format 1 3 4 0 0 (-40) 90 [])
        (sample_format 1 3 4 0 0 (-7) (-2) []) (sample_format 1 3 4 0 0 1 0 []) =
      some ({ sample_format 1 3 4 0 0 1 0 [] with max := 20, min := -45 }, 1) := by
  rw [(C28_four_corner_division cfg_interval 1 (sample_format 1 3 4 0 0 (-40) 90 [])
    (sample_format 1 3 4 0 0 (-7) (-2) []) (sample_format 1 3 4 0 0 1 0 []) rfl
    (by decide) (by decide) (by decide) (by decide) (by decide) (by decide)).2.2.1]
  decide

/-! ### C29 -/

/-- The keys of an affine list are pairwise distinct and every term is at the
binary point `nb`. -/
theorem append_aa_var_inv (l : List AA) (k : Int) (c : double_int) (nb : Int)
    (h : (aa_keys l).Nodup ∧ ∀ b ∈ l.map AA.bp, b = nb) :
    (aa_keys (append_aa_var l k c nb)).Nodup ∧ ∀ b ∈ (append_aa_var l k c nb).map AA.bp, b = nb := by
  unfold append_aa_var
  cases hs : search_aa_var l k with
  | some e => exact h
  | none =>
    have hk := search_aa_var_eq_none.mp hs
    unfold aa_keys at hk ⊢
    simp only [List.map_append, List.map_cons, List.map_nil]
    constructor
    · rw [List.nodup_append]
      refine ⟨h.1, List.nodup_singleton _, ?_⟩
      intro a ha hb
      rw [List.mem_singleton] at hb
      subst hb
      exact hk ha
    · intro b hb
      rcases List.mem_append.mp hb with h1 | h1
      · exact h.2 b h1
      · exact List.mem_singleton.mp h1

theorem append_aa_var_nodup (l : List AA) (k : Int) (c : double_int) (b : Int)
    (h : (aa_keys l).Nodup) : (aa_keys (append_aa_var l k c b)).Nodup := by
  unfold append_aa_var
  cases hs : search_aa_var l k with
  | some e => exact h
  | none =>
    have hk := search_aa_var_eq_none.mp hs
    unfold aa_keys at hk ⊢
    simp only [List.map_append, List.map_cons, List.map_nil]
    rw [List.nodup_append]
    refine ⟨h, List.nodup_singleton _, ?_⟩
    intro a ha hb
    rw [List.mem_singleton] at hb
    subst hb
    exact hk ha

theorem add_to_coeff_maps (l : List AA) (k : Int) (v : double_int) :
    (add_to_coeff l k v).map AA.id = l.map AA.id ∧
    (add_to_coeff l k v).map AA.bp = l.map AA.bp := by
  induction l with
  | nil => exact ⟨rfl, rfl⟩
  | cons a r ih =>
    unfold add_to_coeff
    split
    · exact ⟨rfl, rfl⟩
    · simp only [List.map_cons, ih.1, ih.2, and_self]

theorem aa_accumulate_inv (l : List AA) (k : Int) (c : double_int) (nb : Int)
    (h : (aa_keys l).Nodup ∧ ∀ b ∈ l.map AA.bp, b = nb) :
    (aa_keys (aa_accumulate l k c nb)).Nodup ∧
      ∀ b ∈ (aa_accumulate l k c nb).map AA.bp, b = nb := by
  unfold aa_accumulate
  cases hs : search_aa_var l k with
  | some e =>
    simp only
    unfold aa_keys
    rw [(add_to_coeff_maps l k c).1, (add_to_coeff_maps l k c).2]
    exact h
  | none => exact append_aa_var_inv l k c nb h

theorem affine_multiply_step_inv (l1 l2 : List AA) (nb : Int) (e1 e2 : AA)
    (st : List AA × double_int)
    (h : (aa_keys st.1).Nodup ∧ ∀ b ∈ st.1.map AA.bp, b = nb) :
    (aa_keys (affine_multiply_step l1 l2 nb e1 st e2).1).Nodup ∧
      ∀ b ∈ (affine_multiply_step l1 l2 nb e1 st e2).1.map AA.bp, b = nb := by
  unfold affine_multiply_step
  simp only
  split
  · exact aa_accumulate_inv _ _ _ _ h
  · split
    · exact aa_accumulate_inv _ _ _ _ h
    · split
      · exact aa_accumulate_inv _ _ _ _ h
      · split <;> exact h

/-- A loop keeps what each of its steps keeps. -/
theorem foldl_inv {α β : Type} (P : β → Prop) (f : β → α → β)
    (hf : ∀ b a, P b → P (f b a)) (l : List α) (b : β) (hb : P b) : P (l.foldl f b) := by
  induction l generalizing b with
  | nil => exact hb
  | cons a r ih => exact ih (f b a) (hf b a hb)

/-- The list `affine_multiply` returns has pairwise distinct keys, and every
term of it is at the sum of the binary points of the operand lists. -/
theorem affine_multiply_inv (nid : Int) (l1 l2 : List AA) :
    (aa_keys (affine_multiply nid l1 l2).1).Nodup ∧
      ∀ b ∈ (affine_multiply nid l1 l2).1.map AA.bp, b = get_aa_bp l1 + get_aa_bp l2 := by
  unfold affine_multiply
  split
  · exact ⟨List.nodup_nil, fun b hb => by cases hb⟩
  · have hst := foldl_inv
      (fun st : List AA × double_int =>
        (aa_keys st.1).Nodup ∧ ∀ b ∈ st.1.map AA.bp, b = get_aa_bp l1 + get_aa_bp l2)
      (fun st aa1_elt =>
        l2.foldl (affine_multiply_step l1 l2 (get_aa_bp l1 + get_aa_bp l2) aa1_elt) st)
      (fun st e1 hst => foldl_inv _ _
        (fun st2 e2 h2 => affine_multiply_step_inv l1 l2 _ e1 e2 st2 h2) l2 st hst)
      l1 (([] : List AA), double_int_zero) ⟨List.nodup_nil, fun b hb => by cases hb⟩
    simp only
    split
    · exact hst
    · exact append_aa_var_inv _ _ _ _ hst

theorem affine_add_nodup (cfg : Config) (o1 o2 : SIF) (add : Bool) :
    (aa_keys (affine_add cfg o1 o2 add)).Nodup := by
  unfold affine_add
  split
  · exact List.nodup_nil
  · simp only
    apply foldl_inv (fun l : List AA => (aa_keys l).Nodup)
    · intro b a hb
      split
      · exact append_aa_var_nodup _ _ _ _ hb
      · exact hb
    · apply foldl_inv (fun l : List AA => (aa_keys l).Nodup)
      · intro b a hb
        split
        · exact append_aa_var_nodup _ _ _ _ hb
        · exact append_aa_var_nodup _ _ _ _ hb
      · exact List.nodup_nil

theorem new_aa_list_keys (cfg : Config) (o : SIF) (hn : (aa_keys o.aa).Nodup) :
    aa_keys (new_aa_list cfg o) = aa_keys o.aa := by
  unfold new_aa_list
  have h := foldl_append_aa_var (fun _ => true)
    (fun e => { id := e.id,
                coeff := if e.bp - (o.F + o.E) ≠ 0 then
                           round_shift cfg e.coeff (e.bp - (o.F + o.E)) else e.coeff,
                bp := o.F + o.E })
    (fun _ => rfl) o.aa [] (by simpa using hn) (by intro e _; simp [aa_keys])
  simp only [if_true, List.filter_true, List.nil_append] at h
  simp only
  rw [h]
  unfold aa_keys
  rw [List.map_map]
  rfl

theorem shift_aa_list_keys (o : SIF) (k : Int) (hn : (aa_keys o.aa).Nodup) :
    aa_keys (shift_aa_list o k) = aa_keys o.aa := by
  unfold shift_aa_list
  have h := foldl_append_aa_var (fun _ => true)
    (fun e => { id := e.id, coeff := e.coeff, bp := e.bp - k })
    (fun _ => rfl) o.aa [] (by simpa using hn) (by intro e _; simp [aa_keys])
  simp only [if_true, List.filter_true, List.nil_append] at h
  rw [h]
  unfold aa_keys
  rw [List.map_map]
  rfl

theorem get_aa_bp_uniform (l : List AA) (b : Int) (hne : l ≠ []) (h : ∀ e ∈ l, e.bp = b) :
    get_aa_bp l = b := by
  unfold get_aa_bp
  have key : ∀ (r : List AA) (acc : Int), (∀ e ∈ r, e.bp = b) → acc = b →
      r.foldl (fun list_bp e =>
        if e.bp ≠ list_bp then (if list_bp = 0xbad then e.bp else list_bp) else list_bp) acc
        = b := by
    intro r
    induction r with
    | nil => intro acc _ h; exact h
    | cons a t ih =>
      intro acc hr hacc
      rw [List.foldl_cons]
      apply ih _ (fun e he => hr e (List.mem_cons_of_mem _ he))
      have ha := hr a (List.mem_cons_self _ _)
      rw [ha, hacc]
      simp
  cases l with
  | nil => exact absurd rfl hne
  | cons a t =>
    rw [List.foldl_cons]
    apply key t _ (fun e he => h e (List.mem_cons_of_mem _ he))
    have ha := h a (List.mem_cons_self _ _)
    rw [ha]
    by_cases hb : b = 0xbad
    · simp [hb]
    · simp [hb]

/-- C29: affine lists keep unique keys. `append_aa_var` on a list that has the
key reports the error and returns the list as it is; on a list without the
key it reports nothing and appends exactly one term. Consequently, for
argument lists with pairwise distinct keys, the lists returned by
`copy_aa_list`, `affine_assign` (both modes), `shift_aa_list`, `new_aa_list`
(these two keep the keys), `affine_add` (both modes) and `affine_multiply`
have pairwise distinct keys. Every term of the result of `affine_multiply` is
at the binary point `get_aa_bp aa1 + get_aa_bp aa2`, which is `bp1 + bp2` for
nonempty operand lists whose terms are all at `bp1` and at `bp2`. -/
theorem C29_affine_lists_unique_keys :
    (∀ (l : List AA) (k : Int) (c : double_int) (b : Int), k ∈ aa_keys l →
      append_aa_var_reports l k = true ∧ append_aa_var l k c b = l) ∧
    (∀ (l : List AA) (k : Int) (c : double_int) (b : Int), k ∉ aa_keys l →
      append_aa_var_reports l k = false ∧
      append_aa_var l k c b = l ++ [{ id := k, coeff := c, bp := b }]) ∧
    (∀ (l : List AA) (k : Int) (c : double_int) (b : Int), (aa_keys l).Nodup →
      (aa_keys (append_aa_var l k c b)).Nodup) ∧
    (∀ l : List AA, (aa_keys l).Nodup → (aa_keys (copy_aa_list l)).Nodup) ∧
    (∀ (l : List AA) (add : Bool), (aa_keys l).Nodup →
      (aa_keys (affine_assign l add)).Nodup) ∧
    (∀ (o : SIF) (k : Int), (aa_keys o.aa).Nodup →
      aa_keys (shift_aa_list o k) = aa_keys o.aa ∧ (aa_keys (shift_aa_list o k)).Nodup) ∧
    (∀ (cfg : Config) (o : SIF), (aa_keys o.aa).Nodup →
      aa_keys (new_aa_list cfg o) = aa_keys o.aa ∧ (aa_keys (new_aa_list cfg o)).Nodup) ∧
    (∀ (cfg : Config) (o1 o2 : SIF) (add : Bool),
      (aa_keys o1.aa).Nodup → (aa_keys o2.aa).Nodup →
      (aa_keys (affine_add cfg o1 o2 add)).Nodup) ∧
    (∀ (nid : Int) (l1 l2 : List AA), (aa_keys l1).Nodup → (aa_keys l2).Nodup →
      (aa_keys (affine_multiply nid l1 l2).1).Nodup) ∧
    (∀ (nid : Int) (l1 l2 : List AA), ∀ e ∈ (affine_multiply nid l1 l2).1,
      e.bp = get_aa_bp l1 + get_aa_bp l2) ∧
    (∀ (nid : Int) (l1 l2 : List AA) (bp1 bp2 : Int), l1 ≠ [] → l2 ≠ [] →
      (∀ e ∈ l1, e.bp = bp1) → (∀ e ∈ l2, e.bp = bp2) →
      ∀ e ∈ (affine_multiply nid l1 l2).1, e.bp = bp1 + bp2) := by
  refine ⟨?_, ?_, ?_, ?_, ?_, ?_, ?_, ?_, ?_, ?_, ?_⟩
  · intro l k c b hk
    unfold append_aa_var_reports append_aa_var
    cases hs : search_aa_var l k with
    | none => exact absurd hk (search_aa_var_eq_none.mp hs)
    | some e => exact ⟨rfl, rfl⟩
  · intro l k c b hk
    unfold append_aa_var_reports append_aa_var
    rw [search_aa_var_eq_none.mpr hk]
    exact ⟨rfl, rfl⟩
  · exact append_aa_var_nodup
  · intro l hn
    unfold copy_aa_list
    split
    · exact List.nodup_nil
    · exact hn
  · intro l add hn
    unfold affine_assign
    split
    · exact List.nodup_nil
    · unfold aa_keys at hn ⊢
      rw [List.map_map]
      have : (AA.id ∘ fun e : AA =>
          if add = true then e else { e with coeff := double_int_neg e.coeff }) = AA.id := by
        funext e
        simp only [Function.comp]
        split <;> rfl
      rw [this]
      exact hn
  · intro o k hn
    rw [shift_aa_list_keys o k hn]
    exact ⟨rfl, hn⟩
  · intro cfg o hn
    rw [new_aa_list_keys cfg o hn]
    exact ⟨rfl, hn⟩
  · intro cfg o1 o2 add _ _
    exact affine_add_nodup cfg o1 o2 add
  · intro nid l1 l2 _ _
    exact (affine_multiply_inv nid l1 l2).1
  · intro nid l1 l2 e he
    exact (affine_multiply_inv nid l1 l2).2 e.bp (List.mem_map_of_mem _ he)
  · intro nid l1 l2 bp1 bp2 h1 h2 hb1 hb2 e he
    rw [← get_aa_bp_uniform l1 bp1 h1 hb1, ← get_aa_bp_uniform l2 bp2 h2 hb2]
    exact (affine_multiply_inv nid l1 l2).2 e.bp (List.mem_map_of_mem _ he)

set_option maxRecDepth 100000 in
/-- C29, witness: the product of `3 + 2 e5` at binary point 4 and `1 + 2 e5 +
e7` at binary point 3 has pairwise distinct keys and every term at binary
point 7. -/
theorem C29_affine_lists_unique_keys_witness :
    (aa_keys (affine_multiply 100 [⟨0, 3, 4⟩, ⟨5, 2, 4⟩]
      [⟨0, 1, 3⟩, ⟨5, 2, 3⟩, ⟨7, 1, 3⟩]).1).Nodup ∧
    (∀ e ∈ (affine_multiply 100 [⟨0, 3, 4⟩, ⟨5, 2, 4⟩]
      [⟨0, 1, 3⟩, ⟨5, 2, 3⟩, ⟨7, 1, 3⟩]).1, e.bp = 4 + 3) ∧
    (affine_multiply 100 [⟨0, 3, 4⟩, ⟨5, 2, 4⟩] [⟨0, 1, 3⟩, ⟨5, 2, 3⟩, ⟨7, 1, 3⟩]).1 =
      [⟨0, 5, 7⟩, ⟨5, 8, 7⟩, ⟨7, 3, 7⟩, ⟨100, 4, 7⟩] := by
  refine ⟨C29_affine_lists_unique_keys.2.2.2.2.2.2.2.2.1 100 _ _ (by decide) (by decide),
    C29_affine_lists_unique_keys.2.2.2.2.2.2.2.2.2.2 100 _ _ 4 3 (by decide) (by decide)
      (by decide) (by decide), by decide⟩

/-! ### C30 -/

/-- The alignment step of `addition` when operand 1 has the larger binary
point: only the first block runs. -/
theorem addition_align_step_gt (f0 : SIF) (ops : SIF × SIF) (t1 t2 : tree)
    (hgt : BINARY_PT ops.1 > BINARY_PT ops.2) (b2 a2 : SIF)
    (hb : b2 = if ops.2.S > f0.sgnd + 1 then
                 shift_left ops.2 t2
                   (min (ops.2.S - (f0.sgnd + 1)) (BINARY_PT ops.1 - BINARY_PT ops.2))
               else ops.2)
    (ha : a2 = if BINARY_PT ops.1 > BINARY_PT b2 then
                 shift_right ops.1 t1 (BINARY_PT ops.1 - BINARY_PT b2) else ops.1) :
    addition_align_step f0 ops t1 t2 = (a2, b2) := by
  obtain ⟨k1, -⟩ := align_half (f0.sgnd + 1) ops.1 ops.2 t1 t2 a2 b2 hgt hb ha
  have hnot : ¬ BINARY_PT b2 > BINARY_PT a2 := by rw [k1]; exact lt_irrefl _
  subst ha
  subst hb
  unfold addition_align_step
  simp only [hgt, if_true, hnot, if_false]

/-- The alignment step of `addition` when operand 2 has the larger binary
point: only the second block runs. -/
theorem addition_align_step_lt (f0 : SIF) (ops : SIF × SIF) (t1 t2 : tree)
    (hlt : BINARY_PT ops.2 > BINARY_PT ops.1) (a2 b2 : SIF)
    (ha : a2 = if ops.1.S > f0.sgnd + 1 then
                 shift_left ops.1 t1
                   (min (ops.1.S - (f0.sgnd + 1)) (BINARY_PT ops.2 - BINARY_PT ops.1))
               else ops.1)
    (hb : b2 = if BINARY_PT ops.2 > BINARY_PT a2 then
                 shift_right ops.2 t2 (BINARY_PT ops.2 - BINARY_PT a2) else ops.2) :
    addition_align_step f0 ops t1 t2 = (a2, b2) := by
  have hgt : ¬ BINARY_PT ops.1 > BINARY_PT ops.2 := not_lt.mpr (le_of_lt hlt)
  subst hb
  subst ha
  unfold addition_align_step
  simp only [hgt, if_false, hlt, if_true]

/-- The amounts of one half of the alignment step: `b`, with the smaller binary
point and at least `m` sign bits, is shifted left by `c = min (b.S - m) d`,
and `a` is shifted right by `d - c`. -/
theorem align_half_amounts (m : Int) (a b : SIF) (ta tb : tree) (a2 b2 : SIF)
    (hgt : BINARY_PT a > BINARY_PT b) (hS : m ≤ b.S)
    (hb : b2 = if b.S > m then
                 shift_left b tb (min (b.S - m) (BINARY_PT a - BINARY_PT b)) else b)
    (ha : a2 = if BINARY_PT a > BINARY_PT b2 then
                 shift_right a ta (BINARY_PT a - BINARY_PT b2) else a) :
    0 ≤ min (b.S - m) (BINARY_PT a - BINARY_PT b) ∧
    (b.S = m → min (b.S - m) (BINARY_PT a - BINARY_PT b) = 0) ∧
    b2.shift = b.shift - min (b.S - m) (BINARY_PT a - BINARY_PT b) ∧
    b2.S = b.S - min (b.S - m) (BINARY_PT a - BINARY_PT b) ∧
    BINARY_PT b2 = BINARY_PT b + min (b.S - m) (BINARY_PT a - BINARY_PT b) ∧
    a2 = shift_right a ta
      (BINARY_PT a - BINARY_PT b - min (b.S - m) (BINARY_PT a - BINARY_PT b)) ∧
    a2.shift = a.shift +
      (BINARY_PT a - BINARY_PT b - min (b.S - m) (BINARY_PT a - BINARY_PT b)) ∧
    a2.S = a.S + (BINARY_PT a - BINARY_PT b - min (b.S - m) (BINARY_PT a - BINARY_PT b)) := by
  have hc0 : 0 ≤ min (b.S - m) (BINARY_PT a - BINARY_PT b) :=
    le_min (by linarith) (by linarith)
  have hcm : b.S = m → min (b.S - m) (BINARY_PT a - BINARY_PT b) = 0 := by
    intro h
    rw [h, sub_self]
    exact min_eq_left (by linarith)
  have hb2 : b2.shift = b.shift - min (b.S - m) (BINARY_PT a - BINARY_PT b) ∧
      b2.S = b.S - min (b.S - m) (BINARY_PT a - BINARY_PT b) ∧
      BINARY_PT b2 = BINARY_PT b + min (b.S - m) (BINARY_PT a - BINARY_PT b) := by
    by_cases h : b.S > m
    · rw [if_pos h] at hb
      obtain ⟨f1, f2, -, -, f5⟩ :=
        shift_left_frame b tb (min (b.S - m) (BINARY_PT a - BINARY_PT b))
      rw [hb]
      exact ⟨f2, f1, f5⟩
    · rw [if_neg h] at hb
      have hm : b.S = m := le_antisymm (not_lt.mp h) hS
      rw [hb, hcm hm]
      simp
  obtain ⟨g1, g2, g3⟩ := hb2
  have ha2 : a2 = shift_right a ta
      (BINARY_PT a - BINARY_PT b - min (b.S - m) (BINARY_PT a - BINARY_PT b)) := by
    have e : BINARY_PT a - BINARY_PT b2 =
        BINARY_PT a - BINARY_PT b - min (b.S - m) (BINARY_PT a - BINARY_PT b) := by
      rw [g3]; ring
    by_cases h : BINARY_PT a > BINARY_PT b2
    · rw [if_pos h, e] at ha
      exact ha
    · rw [if_neg h] at ha
      have hle := min_le_right (b.S - m) (BINARY_PT a - BINARY_PT b)
      have h0 : BINARY_PT a - BINARY_PT b - min (b.S - m) (BINARY_PT a - BINARY_PT b) = 0 := by
        rw [g3] at h
        linarith [not_lt.mp h]
      rw [h0, ha]
      simp [shift_right]
  obtain ⟨f1, f2, -⟩ := shift_right_frame a ta
    (BINARY_PT a - BINARY_PT b - min (b.S - m) (BINARY_PT a - BINARY_PT b))
  refine ⟨hc0, hcm, g1, g2, g3, ha2, ?_, ?_⟩
  · rw [ha2]; exact f2
  · rw [ha2]; exact f1

/-- C30: addition alignment prefers lossless shifts. `m = f0.sgnd + 1` is the
minimum number of sign bits (2 for a signed destination, whose `sgnd` is 1,
and 1 for an unsigned one). With both operands entering with at least `m - 1`
sign bits, let `s` be the operands after the sign-bit step and `a` the
operands after the alignment step. Then the operands of `a` have equal binary
points and at least `m` sign bits each. If `d = BINARY_PT s.1 - BINARY_PT s.2`
is positive, operand 2 is shifted left by `c = min (s.2.S - m) d` (zero when
it has no spare sign bit: its pending shift and its sign bits go down by `c`)
and operand 1 is shifted right by the remainder `d - c`; symmetrically when
operand 2 has the larger binary point; and nothing is shifted when the binary
points are equal after the sign-bit step. -/
theorem C30_addition_alignment (f0 : SIF) (ops : SIF × SIF) (t1 t2 : tree) (s a : SIF × SIF)
    (hs : s = addition_sign_step f0 ops t1 t2) (ha : a = addition_align_step f0 s t1 t2)
    (h1 : f0.sgnd + 1 - 1 ≤ ops.1.S) (h2 : f0.sgnd + 1 - 1 ≤ ops.2.S) :
    (f0.sgnd = 1 → f0.sgnd + 1 = 2) ∧ (f0.sgnd = 0 → f0.sgnd + 1 = 1) ∧
    (f0.sgnd + 1 ≤ s.1.S ∧ f0.sgnd + 1 ≤ s.2.S) ∧
    BINARY_PT a.1 = BINARY_PT a.2 ∧
    (f0.sgnd + 1 ≤ a.1.S ∧ f0.sgnd + 1 ≤ a.2.S) ∧
    (BINARY_PT s.1 > BINARY_PT s.2 →
      0 ≤ min (s.2.S - (f0.sgnd + 1)) (BINARY_PT s.1 - BINARY_PT s.2) ∧
      (s.2.S = f0.sgnd + 1 →
        min (s.2.S - (f0.sgnd + 1)) (BINARY_PT s.1 - BINARY_PT s.2) = 0) ∧
      a.2 = (if s.2.S > f0.sgnd + 1 then
               shift_left s.2 t2 (min (s.2.S - (f0.sgnd + 1)) (BINARY_PT s.1 - BINARY_PT s.2))
             else s.2) ∧
      a.2.shift = s.2.shift - min (s.2.S - (f0.sgnd + 1)) (BINARY_PT s.1 - BINARY_PT s.2) ∧
      a.2.S = s.2.S - min (s.2.S - (f0.sgnd + 1)) (BINARY_PT s.1 - BINARY_PT s.2) ∧
      a.1 = shift_right s.1 t1 (BINARY_PT s.1 - BINARY_PT s.2 -
        min (s.2.S - (f0.sgnd + 1)) (BINARY_PT s.1 - BINARY_PT s.2)) ∧
      a.1.shift = s.1.shift + (BINARY_PT s.1 - BINARY_PT s.2 -
        min (s.2.S - (f0.sgnd + 1)) (BINARY_PT s.1 - BINARY_PT s.2)) ∧
      a.1.S = s.1.S + (BINARY_PT s.1 - BINARY_PT s.2 -
        min (s.2.S - (f0.sgnd + 1)) (BINARY_PT s.1 - BINARY_PT s.2))) ∧
    (BINARY_PT s.2 > BINARY_PT s.1 →
      0 ≤ min (s.1.S - (f0.sgnd + 1)) (BINARY_PT s.2 - BINARY_PT s.1) ∧
      (s.1.S = f0.sgnd + 1 →
        min (s.1.S - (f0.sgnd + 1)) (BINARY_PT s.2 - BINARY_PT s.1) = 0) ∧
      a.1 = (if s.1.S > f0.sgnd + 1 then
               shift_left s.1 t1 (min (s.1.S - (f0.sgnd + 1)) (BINARY_PT s.2 - BINARY_PT s.1))
             else s.1) ∧
      a.1.shift = s.1.shift - min (s.1.S - (f0.sgnd + 1)) (BINARY_PT s.2 - BINARY_PT s.1) ∧
      a.1.S = s.1.S - min (s.1.S - (f0.sgnd + 1)) (BINARY_PT s.2 - BINARY_PT s.1) ∧
      a.2 = shift_right s.2 t2 (BINARY_PT s.2 - BINARY_PT s.1 -
        min (s.1.S - (f0.sgnd + 1)) (BINARY_PT s.2 - BINARY_PT s.1)) ∧
      a.2.shift = s.2.shift + (BINARY_PT s.2 - BINARY_PT s.1 -
        min (s.1.S - (f0.sgnd + 1)) (BINARY_PT s.2 - BINARY_PT s.1)) ∧
      a.2.S = s.2.S + (BINARY_PT s.2 - BINARY_PT s.1 -
        min (s.1.S - (f0.sgnd + 1)) (BINARY_PT s.2 - BINARY_PT s.1))) ∧
    (BINARY_PT s.1 = BINARY_PT s.2 → a = s) := by
  obtain ⟨-, -, s3, s4, -⟩ := addition_sign_step_spec f0 ops t1 t2
  have hs1 : f0.sgnd + 1 ≤ s.1.S := by rw [hs]; exact s3 (by linarith)
  have hs2 : f0.sgnd + 1 ≤ s.2.S := by rw [hs]; exact s4 (by linarith)
  obtain ⟨k1, -, -, k4, k5, -⟩ := addition_align_step_spec f0 s t1 t2
  refine ⟨fun h => by rw [h]; rfl, fun h => by rw [h]; rfl, ⟨hs1, hs2⟩, by rw [ha]; exact k1,
    ⟨by rw [ha]; exact k4 hs1, by rw [ha]; exact k5 hs2⟩, ?_, ?_, ?_⟩
  · intro hgt
    have e := addition_align_step_gt f0 s t1 t2 hgt _ _ rfl rfl
    obtain ⟨c0, c1, c2, c3, -, c5, c6, c7⟩ :=
      align_half_amounts (f0.sgnd + 1) s.1 s.2 t1 t2 _ _ hgt hs2 rfl rfl
    rw [ha, e]
    exact ⟨c0, c1, rfl, c2, c3, c5, c6, c7⟩
  · intro hlt
    have e := addition_align_step_lt f0 s t1 t2 hlt _ _ rfl rfl
    obtain ⟨c0, c1, c2, c3, -, c5, c6, c7⟩ :=
      align_half_amounts (f0.sgnd + 1) s.2 s.1 t2 t1 _ _ hlt hs1 rfl rfl
    rw [ha, e]
    exact ⟨c0, c1, rfl, c2, c3, c5, c6, c7⟩
  · intro heq
    rw [ha]
    unfold addition_align_step
    have g1 : ¬ BINARY_PT s.1 > BINARY_PT s.2 := by rw [heq]; exact lt_irrefl _
    have g2 : ¬ BINARY_PT s.2 > BINARY_PT s.1 := by rw [heq]; exact lt_irrefl _
    simp only [g1, if_false, g2]

set_option maxRecDepth 100000 in
/-- C30, witness: a signed destination, operand 1 `(1, 3, 4, 0)` and operand 2
`(5, 2, 1, 0)`. Operand 1 gets its second sign bit by a right shift of one,
then `d = 2`, and operand 2 has three spare sign bits: it is shifted left by
two and operand 1 is not shifted again. -/
theorem C30_addition_alignment_witness :
    (addition_align_step (sample_format 1 4 3 0 0 (-5) 5 [])
      (addition_sign_step (sample_format 1 4 3 0 0 (-5) 5 [])
        (sample_format 1 3 4 0 0 (-100) 100 [], sample_format 5 2 1 0 0 (-3) 3 [])
        tree.var tree.var) tree.var tree.var).2.shift = -2 ∧
    (addition_align_step (sample_format 1 4 3 0 0 (-5) 5 [])
      (addition_sign_step (sample_format 1 4 3 0 0 (-5) 5 [])
        (sample_format 1 3 4 0 0 (-100) 100 [], sample_format 5 2 1 0 0 (-3) 3 [])
        tree.var tree.var) tree.var tree.var).1.shift = 1 := by
  obtain ⟨-, -, -, -, -, h, -, -⟩ := C30_addition_alignment (sample_format 1 4 3 0 0 (-5) 5 [])
    (sample_format 1 3 4 0 0 (-100) 100 [], sample_format 5 2 1 0 0 (-3) 3 [])
    tree.var tree.var _ _ rfl rfl (by decide) (by decide)
  obtain ⟨-, -, -, g2, -, -, g1, -⟩ := h (by decide)
  rw [g2, g1]
  decide

/-! ### C31 -/

theorem shift_right_var_one (o : SIF) (h : fe_nonneg o) (hp : 0 < o.F + o.E) :
    (shift_right o tree.var 1).I = o.I ∧ (shift_right o tree.var 1).F ≤ o.F ∧
    (shift_right o tree.var 1).E ≤ o.E ∧ fe_nonneg (shift_right o tree.var 1) ∧
    (shift_right o tree.var 1).F + (shift_right o tree.var 1).E = o.F + o.E - 1 := by
  obtain ⟨hF, hE⟩ := h
  rw [shift_right_var o 1 (by norm_num)]
  unfold fe_nonneg
  split
  · next hc => simp only; refine ⟨trivial, le_refl _, ?_, ⟨hF, ?_⟩, ?_⟩ <;> linarith
  · next hc =>
    have hE0 : o.E = 0 := by omega
    simp only
    refine ⟨trivial, ?_, ?_, ⟨?_, le_refl _⟩, ?_⟩ <;> omega

theorem shift_right_var_all_E (o : SIF) (hE : 0 < o.E) :
    (shift_right o tree.var o.E).I = o.I ∧ (shift_right o tree.var o.E).F = o.F ∧
    (shift_right o tree.var o.E).E = 0 := by
  rw [shift_right_var o o.E (ne_of_gt hE), if_pos (le_refl _)]
  exact ⟨rfl, rfl, sub_self _⟩

theorem shift_left_var_one (o : SIF) (hl : LOST_F_BITS o > 0) :
    (shift_left o tree.var 1).I = o.I ∧ (shift_left o tree.var 1).F = o.F + 1 ∧
    (shift_left o tree.var 1).E = o.E := by
  unfold LOST_F_BITS at hl
  unfold shift_left
  simp only [fix_f_e_bits_var]
  split
  · exact ⟨rfl, rfl, rfl⟩
  · next hc =>
    simp only
    refine ⟨trivial, ?_, ?_⟩ <;> omega

/-- On variables the give-back step returns at most one fraction bit, and only
when the information bits are below the limit. -/
theorem mul_give_back_var (rib : Int) (ops : SIF × SIF)
    (hle : INFO_BITS ops.1 + INFO_BITS ops.2 ≤ rib) :
    INFO_BITS (mul_give_back rib ops tree.var tree.var).1 +
      INFO_BITS (mul_give_back rib ops tree.var tree.var).2 ≤ rib ∧
    (mul_give_back rib ops tree.var tree.var).1.E = ops.1.E ∧
    (mul_give_back rib ops tree.var tree.var).2.E = ops.2.E := by
  unfold INFO_BITS at *
  unfold mul_give_back INFO_BITS
  split
  · next hlt =>
    split
    · next h =>
      obtain ⟨a, b, c⟩ := shift_left_var_one ops.1 h.2
      simp only [a, b, c]
      exact ⟨by linarith, trivial, trivial⟩
    · split
      · next h =>
        obtain ⟨a, b, c⟩ := shift_left_var_one ops.2 h
        simp only [a, b, c]
        exact ⟨by linarith, trivial, trivial⟩
      · split
        · next h =>
          obtain ⟨a, b, c⟩ := shift_left_var_one ops.1 h
          simp only [a, b, c]
          exact ⟨by linarith, trivial, trivial⟩
        · exact ⟨hle, rfl, rfl⟩
  · exact ⟨hle, rfl, rfl⟩

/-- On variables a step of the second loop leaves the fraction bits alone. -/
theorem mul_justify_step_var (ops : SIF × SIF) (h2 : fe_nonneg ops.2)
    (hc : ops.1.E > 0 ∨ ops.2.E > 0) :
    (mul_justify_step ops tree.var tree.var).1.F = ops.1.F ∧
    (mul_justify_step ops tree.var tree.var).2.F = ops.2.F := by
  unfold mul_justify_step
  split
  · next h =>
    obtain ⟨-, b, -⟩ := shift_right_var_all_E ops.1 (by linarith [h2.2])
    exact ⟨b, rfl⟩
  · next h =>
    have hE2 : ops.2.E > 0 := by
      rcases hc with hc | hc
      · linarith [not_lt.mp h]
      · exact hc
    obtain ⟨-, b, -⟩ := shift_right_var_all_E ops.2 hE2
    exact ⟨rfl, b⟩

/-- The second loop on variables: it ends within the budget, keeps I and F of
both operands, and on exit all bits of the operands fit the limit when the
information bits did on entry. -/
theorem mul_justify_loop_var (rib : Int) :
    ∀ (fuel : Nat) (ops : SIF × SIF), fe_nonneg ops.1 → fe_nonneg ops.2 →
      BINARY_PT ops.1 + BINARY_PT ops.2 < fuel →
      ∃ ops2, mul_justify_loop fuel rib ops tree.var tree.var = some ops2 ∧
        fe_nonneg ops2.1 ∧ fe_nonneg ops2.2 ∧ ops2.1.I = ops.1.I ∧ ops2.2.I = ops.2.I ∧
        ops2.1.F = ops.1.F ∧ ops2.2.F = ops.2.F ∧
        (INFO_BITS ops.1 + INFO_BITS ops.2 ≤ rib →
          INFO_BITS ops2.1 + ops2.1.E + INFO_BITS ops2.2 + ops2.2.E ≤ rib) := by
  intro fuel
  induction fuel with
  | zero =>
    intro ops h1 h2 hb
    unfold BINARY_PT at hb
    have := h1.1; have := h1.2; have := h2.1; have := h2.2
    simp at hb
    linarith
  | succ k ih =>
    intro ops h1 h2 hb
    unfold mul_justify_loop
    split
    · next hc =>
      obtain ⟨a1, a2, a3, a4, a5⟩ := mul_justify_step_spec ops tree.var tree.var h1 h2 hc.2
      obtain ⟨b1, b2⟩ := mul_justify_step_var ops h2 hc.2
      have hb2 : BINARY_PT (mul_justify_step ops tree.var tree.var).1 +
          BINARY_PT (mul_justify_step ops tree.var tree.var).2 < k := by
        push_cast at hb; linarith
      obtain ⟨ops2, e1, e2, e3, e4, e5, e6, e7, e8⟩ :=
        ih (mul_justify_step ops tree.var tree.var) a1 a2 hb2
      refine ⟨ops2, e1, e2, e3, by rw [e4, a3], by rw [e5, a4], by rw [e6, b1],
        by rw [e7, b2], ?_⟩
      intro hle
      apply e8
      unfold INFO_BITS at hle ⊢
      rw [a3, a4, b1, b2]
      exact hle
    · next hc =>
      refine ⟨ops, rfl, h1, h2, rfl, rfl, rfl, rfl, ?_⟩
      intro hle
      by_contra hgt
      have hE : ¬ (ops.1.E > 0 ∨ ops.2.E > 0) := fun h => hc ⟨not_le.mp hgt, h⟩
      have hE1 : ops.1.E = 0 := le_antisymm (not_lt.mp (fun h => hE (Or.inl h))) h1.2
      have hE2 : ops.2.E = 0 := le_antisymm (not_lt.mp (fun h => hE (Or.inr h))) h2.2
      rw [hE1, hE2] at hgt
      exact hgt (by linarith)

/-- The most-negative-number step on variables does not add bits. -/
theorem mul_mnn_step_var (cfg : Config) (nid fz : Int) (rf : SIF) (ops : SIF × SIF)
    (h1 : fe_nonneg ops.1) (h2 : fe_nonneg ops.2) :
    INFO_BITS (mul_mnn_step cfg nid fz rf ops tree.var tree.var).1.1 +
      (mul_mnn_step cfg nid fz rf ops tree.var tree.var).1.1.E +
      INFO_BITS (mul_mnn_step cfg nid fz rf ops tree.var tree.var).1.2 +
      (mul_mnn_step cfg nid fz rf ops tree.var tree.var).1.2.E ≤
      INFO_BITS ops.1 + ops.1.E + INFO_BITS ops.2 + ops.2.E := by
  unfold mul_mnn_step INFO_BITS
  simp only
  split
  · split
    · next h =>
      obtain ⟨a, -, -, -, e⟩ := shift_right_var_one ops.1 h1 h.2
      simp only [a]
      linarith
    · split
      · next h =>
        obtain ⟨a, -, -, -, e⟩ := shift_right_var_one ops.2 h2 h
        simp only [a]
        linarith
      · exact le_refl _
  · exact le_refl _

/-- C31: multiplication bit shaving terminates and fits the product. Single
precision (`DBL_PRECISION_MULTS` off), general path, both operands variables
with F, E ≥ 0; `rib = width - sgnd + fraction_zeros` is the limit the loops
test against. Every iteration of the first loop takes exactly one off
F1+E1+F2+E2 and every iteration of the second loop at least one, F and E
staying non-negative, so with a budget above F1+E1+F2+E2 both loops end and
`multiplication` returns. If I1+I2 ≤ rib on entry, the information bits fit
after the first loop and the give-back step, all bits fit after the second
loop and after the most-negative-number step
(I1+F1+E1+I2+F2+E2 ≤ rib), the product format has S = width - I - F - E at
least `sgnd`, and no error is reported. -/
theorem C31_multiplication_discard_loops (fuel : Nat) (cfg : Config) (next_error_id : Int)
    (f0 : SIF) (ops : SIF × SIF)
    (hD : cfg.DBL_PRECISION_MULTS = false) (hgen : log2_range ops.2 < 0)
    (h1 : fe_nonneg ops.1) (h2 : fe_nonneg ops.2)
    (hfuel : ops.1.F + ops.1.E + (ops.2.F + ops.2.E) + 2 ≤ fuel) :
    (∀ o : SIF × SIF, fe_nonneg o.1 → fe_nonneg o.2 → (o.1.F > 0 ∨ o.2.F > 0) →
      fe_nonneg (mul_discard_step o tree.var tree.var).1 ∧
      fe_nonneg (mul_discard_step o tree.var tree.var).2 ∧
      (mul_discard_step o tree.var tree.var).1.F + (mul_discard_step o tree.var tree.var).1.E +
        ((mul_discard_step o tree.var tree.var).2.F +
          (mul_discard_step o tree.var tree.var).2.E) =
        o.1.F + o.1.E + (o.2.F + o.2.E) - 1) ∧
    (∀ o : SIF × SIF, fe_nonneg o.1 → fe_nonneg o.2 → (o.1.E > 0 ∨ o.2.E > 0) →
      fe_nonneg (mul_justify_step o tree.var tree.var).1 ∧
      fe_nonneg (mul_justify_step o tree.var tree.var).2 ∧
      (mul_justify_step o tree.var tree.var).1.F + (mul_justify_step o tree.var tree.var).1.E +
        ((mul_justify_step o tree.var tree.var).2.F +
          (mul_justify_step o tree.var tree.var).2.E) ≤
        o.1.F + o.1.E + (o.2.F + o.2.E) - 1) ∧
    ∃ (a b : SIF × SIF) (st : mul_state) (r : stmt_result),
      mul_discard_loop fuel (f0.size - f0.sgnd + fraction_zeros ops) ops tree.var tree.var =
        some a ∧
      mul_justify_loop fuel (f0.size - f0.sgnd + fraction_zeros ops)
        (mul_give_back (f0.size - f0.sgnd + fraction_zeros ops) a tree.var tree.var)
        tree.var tree.var = some b ∧
      multiplication_shifts fuel cfg next_error_id f0 ops tree.var tree.var = some st ∧
      multiplication fuel cfg next_error_id f0 ops tree.var tree.var = some r ∧
      st.size = f0.size ∧ st.fz = fraction_zeros ops ∧
      (ops.1.I + ops.2.I ≤ f0.size - f0.sgnd + fraction_zeros ops →
        a.1.I + a.1.F + (a.2.I + a.2.F) ≤ f0.size - f0.sgnd + fraction_zeros ops ∧
        b.1.I + b.1.F + b.1.E + (b.2.I + b.2.F + b.2.E) ≤
          f0.size - f0.sgnd + fraction_zeros ops ∧
        st.ops.1.I + st.ops.1.F + st.ops.1.E + (st.ops.2.I + st.ops.2.F + st.ops.2.E) ≤
          f0.size - f0.sgnd + fraction_zeros ops ∧
        f0.sgnd ≤
          (multiplication_product { f0 with aa := [], size := st.size } st.fz st.ops).S ∧
        (multiplication_product { f0 with aa := [], size := st.size } st.fz st.ops).S =
          f0.size -
            (multiplication_product { f0 with aa := [], size := st.size } st.fz st.ops).I -
            (multiplication_product { f0 with aa := [], size := st.size } st.fz st.ops).F -
            (multiplication_product { f0 with aa := [], size := st.size } st.fz st.ops).E ∧
        fx_error.mul_sign_bit_lost ∉ r.errors ∧ r.errors = []) := by
  refine ⟨?_, ?_, ?_⟩
  · intro o g1 g2 hc
    obtain ⟨a1, a2, -, -, a5⟩ := mul_discard_step_spec o tree.var tree.var g1 g2 hc
    unfold BINARY_PT at a5
    exact ⟨a1, a2, a5⟩
  · intro o g1 g2 hc
    obtain ⟨a1, a2, -, -, a5⟩ := mul_justify_step_spec o tree.var tree.var g1 g2 hc
    unfold BINARY_PT at a5
    exact ⟨a1, a2, a5⟩
  · have hfuel1 : BINARY_PT ops.1 + BINARY_PT ops.2 < (fuel : Int) := by
      unfold BINARY_PT; linarith
    obtain ⟨a, e1, e2, e3, e4, e5, e6, e7⟩ :=
      mul_discard_loop_spec (f0.size - f0.sgnd + fraction_zeros ops) tree.var tree.var fuel ops
        h1 h2 hfuel1
    obtain ⟨g1, g2, g3, g4, g5⟩ :=
      mul_give_back_spec (f0.size - f0.sgnd + fraction_zeros ops) a tree.var tree.var e2 e3
    obtain ⟨b, j1, j2, j3, j4, j5, j6, j7, j8⟩ :=
      mul_justify_loop_var (f0.size - f0.sgnd + fraction_zeros ops) fuel
        (mul_give_back (f0.size - f0.sgnd + fraction_zeros ops) a tree.var tree.var) g1 g2
        (by unfold BINARY_PT at e6 g5 ⊢; linarith)
    have hshape : multiplication_shape fuel cfg next_error_id f0 ops tree.var tree.var =
        some ((f0.size, mul_give_back (f0.size - f0.sgnd + fraction_zeros ops) a
          tree.var tree.var),
          if ops.1.I + ops.2.I > f0.size - f0.sgnd + fraction_zeros ops then
            [fx_error.mul_too_many_I_bits] else []) := by
      unfold multiplication_shape
      simp only [hD, Bool.false_eq_true, if_false, e1]
    have hshifts : multiplication_shifts fuel cfg next_error_id f0 ops tree.var tree.var =
        some { size := f0.size, fz := fraction_zeros ops,
               ops := (mul_mnn_step cfg
                 (new_range_mul cfg next_error_id ops.1 ops.2 { f0 with aa := [] }).2
                 (fraction_zeros ops) { f0 with aa := [], size := f0.size } b
                 tree.var tree.var).1,
               errors := if ops.1.I + ops.2.I > f0.size - f0.sgnd + fraction_zeros ops then
                 [fx_error.mul_too_many_I_bits] else [],
               next_error_id := (mul_mnn_step cfg
                 (new_range_mul cfg next_error_id ops.1 ops.2 { f0 with aa := [] }).2
                 (fraction_zeros ops) { f0 with aa := [], size := f0.size } b
                 tree.var tree.var).2 } := by
      unfold multiplication_shifts
      simp only [hshape, j1]
    obtain ⟨r, r0, r1, -, -⟩ := multiplication_general_spec fuel cfg next_error_id f0 ops
      tree.var tree.var hgen _ hshifts _ rfl
    refine ⟨a, b, _, r, e1, j1, hshifts, r0, rfl, rfl, ?_⟩
    intro hI
    have hinfoA : a.1.I + a.1.F + (a.2.I + a.2.F) ≤ f0.size - f0.sgnd + fraction_zeros ops := by
      by_contra hgt
      have hF : ¬ (a.1.F > 0 ∨ a.2.F > 0) := fun h => e7 ⟨by unfold INFO_BITS; linarith, h⟩
      have hF1 : a.1.F = 0 := le_antisymm (not_lt.mp (fun h => hF (Or.inl h))) e2.1
      have hF2 : a.2.F = 0 := le_antisymm (not_lt.mp (fun h => hF (Or.inr h))) e3.1
      rw [hF1, hF2, e4, e5] at hgt
      exact hgt (by linarith)
    obtain ⟨v1, -, -⟩ := mul_give_back_var (f0.size - f0.sgnd + fraction_zeros ops) a
      (by unfold INFO_BITS; linarith)
    have hb := j8 v1
    have hm := mul_mnn_step_var cfg
      (new_range_mul cfg next_error_id ops.1 ops.2 { f0 with aa := [] }).2
      (fraction_zeros ops) { f0 with aa := [], size := f0.size } b j2 j3
    unfold INFO_BITS at hb hm
    have hst : (mul_mnn_step cfg
        (new_range_mul cfg next_error_id ops.1 ops.2 { f0 with aa := [] }).2
        (fraction_zeros ops) { f0 with aa := [], size := f0.size } b tree.var tree.var).1.1.I +
        (mul_mnn_step cfg
        (new_range_mul cfg next_error_id ops.1 ops.2 { f0 with aa := [] }).2
        (fraction_zeros ops) { f0 with aa := [], size := f0.size } b tree.var tree.var).1.1.F +
        (mul_mnn_step cfg
        (new_range_mul cfg next_error_id ops.1 ops.2 { f0 with aa := [] }).2
        (fraction_zeros ops) { f0 with aa := [], size := f0.size } b tree.var tree.var).1.1.E +
        ((mul_mnn_step cfg
        (new_range_mul cfg next_error_id ops.1 ops.2 { f0 with aa := [] }).2
        (fraction_zeros ops) { f0 with aa := [], size := f0.size } b tree.var tree.var).1.2.I +
        (mul_mnn_step cfg
        (new_range_mul cfg next_error_id ops.1 ops.2 { f0 with aa := [] }).2
        (fraction_zeros ops) { f0 with aa := [], size := f0.size } b tree.var tree.var).1.2.F +
        (mul_mnn_step cfg
        (new_range_mul cfg next_error_id ops.1 ops.2 { f0 with aa := [] }).2
        (fraction_zeros ops) { f0 with aa := [], size := f0.size } b tree.var tree.var).1.2.E) ≤
        f0.size - f0.sgnd + fraction_zeros ops := by linarith
    have hS : f0.sgnd ≤ (multiplication_product { f0 with aa := [], size := f0.size }
        (fraction_zeros ops) (mul_mnn_step cfg
        (new_range_mul cfg next_error_id ops.1 ops.2 { f0 with aa := [] }).2
        (fraction_zeros ops) { f0 with aa := [], size := f0.size } b
        tree.var tree.var).1).S := by
      unfold multiplication_product
      simp only
      linarith
    have herr : r.errors = [] := by
      rw [r1]
      simp only [if_neg (not_lt.mpr hI), List.nil_append]
      rw [if_neg]
      exact not_lt.mpr hS
    refine ⟨hinfoA, by linarith, hst, hS, rfl, ?_, herr⟩
    rw [herr]
    exact List.not_mem_nil _

set_option maxRecDepth 100000 in
/-- C31, witness: an 8-bit signed product of the variables `(1, 3, 4, 0)` and
`(1, 2, 5, 0)`: 14 information bits against a limit of 7; the function
returns without error. -/
theorem C31_multiplication_discard_loops_witness :
    ∃ r, multiplication 20 cfg_interval 1 (sample_format 1 4 3 0 0 1 0 [])
        (sample_format 1 3 4 0 0 (-100) 100 [], sample_format 1 2 5 0 0 (-50) 70 [])
        tree.var tree.var = some r ∧ r.errors = [] := by
  obtain ⟨-, -, a, b, st, r, -, -, -, hr, -, -, h⟩ :=
    C31_multiplication_discard_loops 20 cfg_interval 1 (sample_format 1 4 3 0 0 1 0 [])
      (sample_format 1 3 4 0 0 (-100) 100 [], sample_format 1 2 5 0 0 (-50) 70 [])
      rfl (by decide) (by decide) (by decide) (by decide)
  exact ⟨r, hr, (h (by decide)).2.2.2.2.2.2⟩

/-! ### C32 -/

set_option maxRecDepth 100000 in
/-- C32, counterexample: the 8-bit signed quotient of a numerator `(1, 7, 0, 0)`
with range `[-128, 127]` by a divisor with range `[-2, -1]`. The quotient
format before the check is `(1, 7, 0, 0)` and its range `[-127, 128]` has the
maximum `2^7`. The returned format is `(0, 8, 0, 0)`: S is one smaller and I
one larger than before the check. -/
theorem C32_division_mnn_takes_sign_bit_counterexample :
    (division_pessimism cfg_interval
      { sample_format 1 7 0 0 0 (-127) 128 [] with aa := [] }).S = 1 ∧
    (division_pessimism cfg_interval
      { sample_format 1 7 0 0 0 (-127) 128 [] with aa := [] }).I = 7 ∧
    max_is_mnn cfg_interval (division_pessimism cfg_interval
      { sample_format 1 7 0 0 0 (-127) 128 [] with aa := [] }) = true ∧
    (division cfg_interval 1 (sample_format 1 7 0 0 0 1 0 [])
      (sample_format 1 7 0 0 0 (-128) 127 [], sample_format 6 2 0 0 0 (-2) (-1) [])
      tree.var tree.var).map
        (fun r => (r.errors, r.frmt.S, r.frmt.I, r.frmt.F, r.frmt.E)) =
      some ([], 0, 8, 0, 0) := by
  decide

/-- The test of `max_is_mnn` for a size of 1 to 127 bits: the shifted maximum
is `2^(size-1)`. -/
theorem max_is_mnn_iff (cfg : Config) (p : SIF) (h1 : 1 ≤ p.size) (h2 : p.size ≤ 127) :
    max_is_mnn cfg p = true ↔ new_max cfg p = 2 ^ (p.size - 1).toNat := by
  have hle : (2 : Int) ^ (p.size - 1).toNat ≤ 2 ^ 126 := pow_toNat_le_126 p.size h2
  have hpos : (0 : Int) < 2 ^ (p.size - 1).toNat := pow_pos (by norm_num) _
  have e : double_int_lshift double_int_one (p.size - 1) HOST_BITS_PER_DOUBLE_INT false =
      2 ^ (p.size - 1).toNat := by
    rw [double_int_lshift_full double_int_one (p.size - 1) (by linarith)]
    · unfold double_int_one; ring
    · unfold DI_fits double_int_one
      constructor <;> linarith
  unfold max_is_mnn double_int_equal_p
  simp only [e, decide_eq_true_eq]

/-- C32: division most-negative guard. For the format `p` the pessimism
correction leaves: when `max_is_mnn p` holds (for a width of 1 to 127 bits:
the shifted maximum of `p` equals `2^(width-1)`), the step gives up a sign bit
for an integer bit, S one smaller and I one larger than before the check,
with F, E, S+I+F+E and every other field unchanged; otherwise the step does
not change the format. On the general path of `division`, whenever no
"FAILED" return is taken and the range is computed, the returned format has
the S, I, F and E of that step applied to the corrected quotient format. -/
theorem C32_division_mnn_step (cfg : Config) (p : SIF) :
    (max_is_mnn cfg p = true →
      (division_mnn_step cfg p).S = p.S - 1 ∧ (division_mnn_step cfg p).I = p.I + 1 ∧
      (division_mnn_step cfg p).F = p.F ∧ (division_mnn_step cfg p).E = p.E ∧
      (division_mnn_step cfg p).S + (division_mnn_step cfg p).I + (division_mnn_step cfg p).F +
        (division_mnn_step cfg p).E = p.S + p.I + p.F + p.E ∧
      division_mnn_step cfg p = { p with S := p.S - 1, I := p.I + 1 }) ∧
    (max_is_mnn cfg p = false → division_mnn_step cfg p = p) ∧
    (1 ≤ p.size → p.size ≤ 127 →
      (max_is_mnn cfg p = true ↔ new_max cfg p = 2 ^ (p.size - 1).toNat)) ∧
    (∀ (next_error_id : Int) (f0 : SIF) (ops : SIF × SIF) (t1 t2 : tree) (temp : SIF × Int),
      log2_range ops.2 < 0 →
      (division_divisor f0 (division_numerator ops.1 t1) ops.2 t2).2 = false →
      new_range_div cfg next_error_id (division_numerator ops.1 t1)
        (division_divisor f0 (division_numerator ops.1 t1) ops.2 t2).1
        (division_quotient f0 (division_numerator ops.1 t1,
          (division_divisor f0 (division_numerator ops.1 t1) ops.2 t2).1)) = some temp →
      p = division_pessimism cfg temp.1 →
      ∃ r, division cfg next_error_id f0 ops t1 t2 = some r ∧
        r.frmt.S = (division_mnn_step cfg p).S ∧ r.frmt.I = (division_mnn_step cfg p).I ∧
        r.frmt.F = (division_mnn_step cfg p).F ∧ r.frmt.E = (division_mnn_step cfg p).E ∧
        r.frmt.size = (division_mnn_step cfg p).size ∧
        r.frmt.max = (division_mnn_step cfg p).max ∧
        r.frmt.min = (division_mnn_step cfg p).min) := by
  refine ⟨?_, ?_, max_is_mnn_iff cfg p, ?_⟩
  · intro h
    unfold division_mnn_step
    rw [if_pos h]
    refine ⟨rfl, rfl, rfl, rfl, ?_, rfl⟩
    simp only
    ring
  · intro h
    unfold division_mnn_step
    rw [if_neg (by rw [h]; exact Bool.false_ne_true)]
  · intro nid f0 ops t1 t2 temp hgen hok hrange hp
    subst hp
    unfold division
    rw [if_neg (not_le.mpr hgen)]
    simp only [hok, Bool.false_eq_true, if_false, hrange]
    exact ⟨_, rfl, rfl, rfl, rfl, rfl, rfl, rfl, rfl⟩

set_option maxRecDepth 100000 in
/-- C32, witness: the corrected quotient format `(1, 7, 0, 0)` with range
`[-127, 128]` in 8 bits becomes `(0, 8, 0, 0)`. -/
theorem C32_division_mnn_step_witness :
    (division_mnn_step cfg_interval (sample_format 1 7 0 0 0 (-127) 128 [])).S = 0 ∧
    (division_mnn_step cfg_interval (sample_format 1 7 0 0 0 (-127) 128 [])).I = 8 ∧
    division_mnn_step cfg_interval (sample_format 1 7 0 0 0 (-127) 127 []) =
      sample_format 1 7 0 0 0 (-127) 127 [] := by
  obtain ⟨h1, -, h3, -⟩ := C32_division_mnn_step cfg_interval
    (sample_format 1 7 0 0 0 (-127) 128 [])
  obtain ⟨a, b, -⟩ := h1 ((h3 (by decide) (by decide)).mpr (by decide))
  refine ⟨by rw [a]; decide, by rw [b]; decide, ?_⟩
  exact (C32_division_mnn_step cfg_interval (sample_format 1 7 0 0 0 (-127) 127 [])).2.1
    (by decide)

/-! ### C33 -/

/-- For a store through a pointer that needs the source moved right or not at
all (the destination has at least as many S+I bits as the source), `nop`
reports no error, gives the source a pending right shift by the difference and
returns a format with the destination's S+I that fills the width. -/
theorem nop_store_right (cfg : Config) (f0 f1 : SIF) (t1 : tree)
    (hinit : format_initialized f1 = true) (hsize : f0.size = f1.size)
    (hsgnd : f0.sgnd = f1.sgnd) (hp0 : f0.ptr_op ≠ 0) (hp1 : f1.ptr_op = 0)
    (hbp : f1.S + f1.I ≤ f0.S + f0.I) :
    (nop cfg false false f0 f1 t1).pointer_error = false ∧
    (nop cfg false false f0 f1 t1).frmt.S + (nop cfg false false f0 f1 t1).frmt.I =
      f0.S + f0.I ∧
    (nop cfg false false f0 f1 t1).oprnd1.shift =
      f1.shift + ((f0.S + f0.I) - (f1.S + f1.I)) ∧
    (nop cfg false false f0 f1 t1).frmt.S + (nop cfg false false f0 f1 t1).frmt.I +
      (nop cfg false false f0 f1 t1).frmt.F + (nop cfg false false f0 f1 t1).frmt.E =
      f0.size := by
  unfold nop
  simp only [hinit, Bool.true_eq_false, if_false, hsize, if_true, Bool.false_eq_true, false_or,
    hsgnd, true_or, copy_SIF]
  simp only [hp0, hp1, ne_eq, not_false_eq_true, and_self, if_true]
  by_cases hd : f0.S + f0.I - (f1.S + f1.I) > 0
  · obtain ⟨h1, h2, h3, _, _⟩ := shift_right_frame f1 t1 (f0.S + f0.I - (f1.S + f1.I))
    simp only [hd, if_true]
    refine ⟨trivial, ?_, h2, ?_⟩
    · show (shift_right f1 t1 (f0.S + f0.I - (f1.S + f1.I))).S +
        (shift_right f1 t1 (f0.S + f0.I - (f1.S + f1.I))).I = _
      rw [h1, h3]; ring
    · show (shift_right f1 t1 (f0.S + f0.I - (f1.S + f1.I))).S +
        (shift_right f1 t1 (f0.S + f0.I - (f1.S + f1.I))).I +
        (shift_right f1 t1 (f0.S + f0.I - (f1.S + f1.I))).F +
        (f1.size - (shift_right f1 t1 (f0.S + f0.I - (f1.S + f1.I))).S -
          (shift_right f1 t1 (f0.S + f0.I - (f1.S + f1.I))).I -
          (shift_right f1 t1 (f0.S + f0.I - (f1.S + f1.I))).F) = _
      ring
  · have he : f0.S + f0.I - (f1.S + f1.I) = 0 := by omega
    simp only [he, gt_iff_lt, lt_self_iff_false, if_false]
    refine ⟨trivial, ?_, ?_, ?_⟩
    · show f1.S + f1.I = _
      omega
    · show f1.shift = _
      omega
    · show f1.S + f1.I + f1.F + (f1.size - f1.S - f1.I - f1.F) = _
      ring

set_option maxRecDepth 100000 in
/-- C33: stores through a pointer and the pointee's binary point. The
destination is pointer-typed with the 8-bit format (1,3,4,0), the source is a
non-pointer variable of the same width and signedness with the format
(3,3,2,0): the source has two S+I bits more and two spare sign bits, so the
"move left" branch is taken and "could not preserve pointer format" is not
reported. `nop` passes the negative difference -2 to `shift_left`: the source
gets a pending shift of +2 (a right shift), its S grows from 3 to 5, and the
returned format is (5,3,0,0) with S+I = 8, while the destination has S+I = 4.
Moving the source left by two bits gives (1,3,2,2) with a pending shift of -2
and S+I = 4. -/
theorem C33_nop_store_left_moves_right :
    (nop cfg_interval false false sample_pointer_dest
        (sample_format 3 3 2 0 0 (-12) 12 []) tree.var).pointer_error = false ∧
    ((nop cfg_interval false false sample_pointer_dest
        (sample_format 3 3 2 0 0 (-12) 12 []) tree.var).frmt.S,
     (nop cfg_interval false false sample_pointer_dest
        (sample_format 3 3 2 0 0 (-12) 12 []) tree.var).frmt.I,
     (nop cfg_interval false false sample_pointer_dest
        (sample_format 3 3 2 0 0 (-12) 12 []) tree.var).frmt.F,
     (nop cfg_interval false false sample_pointer_dest
        (sample_format 3 3 2 0 0 (-12) 12 []) tree.var).frmt.E) = (5, 3, 0, 0) ∧
    (nop cfg_interval false false sample_pointer_dest
        (sample_format 3 3 2 0 0 (-12) 12 []) tree.var).oprnd1.shift = 2 ∧
    sample_pointer_dest.S + sample_pointer_dest.I = 4 ∧
    ((shift_left (sample_format 3 3 2 0 0 (-12) 12 []) tree.var 2).S,
     (shift_left (sample_format 3 3 2 0 0 (-12) 12 []) tree.var 2).I,
     (shift_left (sample_format 3 3 2 0 0 (-12) 12 []) tree.var 2).F,
     (shift_left (sample_format 3 3 2 0 0 (-12) 12 []) tree.var 2).E,
     (shift_left (sample_format 3 3 2 0 0 (-12) 12 []) tree.var 2).shift) = (1, 3, 2, 2, -2) := by
  decide

/-! ### C34 -/

theorem testBit_pow_sub_pow (a b i : Nat) (h : b ≤ a) :
    Nat.testBit (2 ^ a - 2 ^ b) i = (decide (b ≤ i) && decide (i < a)) := by
  have e : 2 ^ a - 2 ^ b = 2 ^ b * (2 ^ (a - b) - 1) := by
    rw [Nat.mul_sub, ← pow_add, Nat.add_sub_cancel' h, mul_one]
  rw [e, Nat.testBit_mul_pow_two, Nat.testBit_two_pow_sub_one]
  by_cases hb : b ≤ i
  · have : (i - b < a - b) ↔ i < a := by omega
    simp [hb, this]
  · simp [hb]

theorem land_pow_sub_pow (n j k : Nat) (hj : j ≤ n) (hn : n ≤ 128) (hk : k ≤ 128) :
    Nat.land (2 ^ n - 2 ^ j) (2 ^ 128 - 2 ^ k) = 2 ^ n - 2 ^ (min n (max j k)) := by
  apply Nat.eq_of_testBit_eq
  intro i
  show Nat.testBit ((2 ^ n - 2 ^ j) &&& (2 ^ 128 - 2 ^ k)) i = _
  rw [Nat.testBit_and, testBit_pow_sub_pow _ _ _ hj, testBit_pow_sub_pow _ _ _ hk,
    testBit_pow_sub_pow _ _ _ (min_le_left _ _)]
  by_cases h1 : j ≤ i <;> by_cases h2 : i < n <;> by_cases h3 : k ≤ i <;>
    by_cases h4 : i < 128 <;> (simp [h1, h2, h3, h4]; try omega)

/-- Clearing the low `k` bits of `2^n - 2^j`. -/
theorem and_not_step (n j : Nat) (k : Int) (hj : j ≤ n) (hn : n ≤ 127) (hk1 : 1 ≤ k)
    (hk2 : k ≤ 127) :
    double_int_and_not (2 ^ n - 2 ^ j) (double_int_mask k) =
      2 ^ n - 2 ^ (min n (max j k.toNat)) := by
  have hjn : (2 : Int) ^ j ≤ 2 ^ n := pow_le_pow_right₀ (by norm_num) hj
  have hn127 : (2 : Int) ^ n ≤ 2 ^ 127 := pow_le_pow_right₀ (by norm_num) hn
  have hj0 : (0 : Int) < 2 ^ j := by positivity
  have hK : k.toNat ≤ 127 := by omega
  have hK127 : (2 : Int) ^ k.toNat ≤ 2 ^ 127 := pow_le_pow_right₀ (by norm_num) hK
  have hK0 : (0 : Int) < 2 ^ k.toNat := by positivity
  have p1 : pattern ((2 : Int) ^ n - 2 ^ j) = 2 ^ n - 2 ^ j := by
    rw [pattern_of_nonneg _ (by linarith) (by linarith)]
    have hle : (2 : Nat) ^ j ≤ 2 ^ n := Nat.pow_le_pow_right (by norm_num) hj
    have : ((2 : Int) ^ n - 2 ^ j) = ((2 ^ n - 2 ^ j : Nat) : Int) := by
      rw [Nat.cast_sub hle]; push_cast; rfl
    rw [this, Int.toNat_natCast]
  have p2 : pattern (-(2 : Int) ^ k.toNat) = 2 ^ 128 - 2 ^ k.toNat := by
    unfold pattern
    have e128 : (2 : Int) ^ 128 = 2 ^ 127 + 2 ^ 127 := by norm_num
    have e : (-(2 : Int) ^ k.toNat) % 2 ^ 128 = 2 ^ 128 - 2 ^ k.toNat := by
      rw [← Int.add_emod_self]
      have e2 : -(2 : Int) ^ k.toNat + 2 ^ 128 = 2 ^ 128 - 2 ^ k.toNat := by ring
      rw [e2]
      exact Int.emod_eq_of_lt (by linarith) (by linarith)
    rw [e]
    have hle : (2 : Nat) ^ k.toNat ≤ 2 ^ 128 := Nat.pow_le_pow_right (by norm_num) (by omega)
    have : ((2 : Int) ^ 128 - 2 ^ k.toNat) = ((2 ^ 128 - 2 ^ k.toNat : Nat) : Int) := by
      rw [Nat.cast_sub hle]; push_cast; rfl
    rw [this, Int.toNat_natCast]
  unfold double_int_and_not
  rw [double_int_mask_eq k hk1 hk2, double_int_not_mask k hk1 hk2]
  unfold double_int_and
  rw [p1, p2, land_pow_sub_pow n j k.toNat hj (by omega) (by omega)]
  have hm : min n (max j k.toNat) ≤ n := min_le_left _ _
  have hle : (2 : Nat) ^ (min n (max j k.toNat)) ≤ 2 ^ n := Nat.pow_le_pow_right (by norm_num) hm
  have hmn : (2 : Int) ^ (min n (max j k.toNat)) ≤ 2 ^ n := pow_le_pow_right₀ (by norm_num) hm
  have hm0 : (0 : Int) < 2 ^ (min n (max j k.toNat)) := by positivity
  have : Int.ofNat (2 ^ n - 2 ^ (min n (max j k.toNat))) =
      (2 : Int) ^ n - 2 ^ (min n (max j k.toNat)) := by
    show ((2 ^ n - 2 ^ (min n (max j k.toNat)) : Nat) : Int) = _
    rw [Nat.cast_sub hle]; push_cast; rfl
  rw [this]
  apply wrap_eq_self
  unfold DI_fits
  constructor <;> linarith

/-- The saturation value in closed form. -/
theorem sat_value_eq (new_frmt : SIF) (sat_bits : Int) (h1 : 1 ≤ sat_bits)
    (h2 : sat_bits ≤ 127) (hs0 : 0 ≤ new_frmt.shift) (hs : new_frmt.shift ≤ 127)
    (hE : new_frmt.E ≤ 127) :
    sat_value new_frmt sat_bits =
      2 ^ sat_bits.toNat - 2 ^ (min sat_bits.toNat (max new_frmt.shift new_frmt.E).toNat) := by
  have hn : sat_bits.toNat ≤ 127 := by omega
  have e0 : double_int_mask sat_bits = 2 ^ sat_bits.toNat - 2 ^ 0 := by
    rw [double_int_mask_eq _ h1 h2]; norm_num
  unfold sat_value
  simp only
  by_cases he : new_frmt.E > 0
  · rw [if_pos he]
    by_cases hsh : new_frmt.shift = 0
    · have hsh2 : ¬ new_frmt.shift ≠ 0 := by simpa using hsh
      rw [if_neg hsh2, e0, and_not_step _ 0 _ (Nat.zero_le _) hn (by omega) hE]
      congr 2
      rw [hsh]
      omega
    · rw [if_pos hsh, e0, and_not_step _ 0 _ (Nat.zero_le _) hn (by omega) hs,
        and_not_step _ _ _ (min_le_left _ _) hn (by omega) hE]
      congr 2
      omega
  · rw [if_neg he]
    by_cases hsh : new_frmt.shift = 0
    · have hsh2 : ¬ new_frmt.shift ≠ 0 := by simpa using hsh
      rw [if_neg hsh2, e0]
      congr 2
      rw [hsh]
      omega
    · rw [if_pos hsh, e0, and_not_step _ 0 _ (Nat.zero_le _) hn (by omega) hs]
      congr 2
      omega

/-- The attribute block of `apply_fxfrmt` when it saturates, field by field. -/
theorem apply_fxfrmt_saturating (f0 r : SIF) (hA : f0.has_attribute ≠ 0)
    (hP : f0.ptr_op = 0) (hI : f0.I < r.I) :
    apply_fxfrmt f0 r =
      { r with
        S := r.S + (r.I - f0.I), I := f0.I, shift := max (r.shift - (r.I - f0.I)) 0,
        max := double_int_smin r.max
          (sat_value { r with shift := max (r.shift - (r.I - f0.I)) 0 } (f0.I + r.F + r.E)),
        min := double_int_smax r.min
          (double_int_sext
            (double_int_neg (double_int_smin r.max
              (sat_value { r with shift := max (r.shift - (r.I - f0.I)) 0 }
                (f0.I + r.F + r.E))))
            (f0.I + r.F + r.E + r.sgnd)) } := by
  have hP2 : ¬ f0.ptr_op ≠ 0 := by simpa using hP
  unfold apply_fxfrmt apply_fxfrmt_pointer apply_fxfrmt_saturate
  rw [if_neg hP2, if_pos hA, if_pos hI]
  rfl

/-- What `apply_fxfrmt` computes when it saturates. For a signed non-pointer
destination with an annotation whose integer-bit count I0 is smaller than the
derived I (with 1 ≤ I0+F+E ≤ 127, the remaining pending shift and E at most
127, and derived max above -2^(I0+F+E)), it returns I = I0, S increased by
I - I0, F and E unchanged and the pending shift reduced by I - I0 but not
below 0. With sat = 2^(I0+F+E) - 1 with the low bits at the remaining
pending-shift and unused positions cleared, the returned maximum is
min(max, sat) and the returned minimum is max(min, -max') for the returned
maximum max'. When the derived maximum reaches sat the returned range is the
derived range clamped to [-sat, +sat]. Without an annotation and without a
pointer destination the format is returned unchanged. -/
theorem apply_fxfrmt_saturation_bounds (f0 r : SIF) (hA : f0.has_attribute ≠ 0)
    (hP : f0.ptr_op = 0) (hI : f0.I < r.I) (hn1 : 1 ≤ f0.I + r.F + r.E)
    (hn2 : f0.I + r.F + r.E ≤ 127) (hs : r.shift - (r.I - f0.I) ≤ 127) (hE : r.E ≤ 127)
    (hsg : r.sgnd = 1) (hmax : -2 ^ (f0.I + r.F + r.E).toNat < r.max) :
    (apply_fxfrmt f0 r).I = f0.I ∧
    (apply_fxfrmt f0 r).S = r.S + (r.I - f0.I) ∧
    (apply_fxfrmt f0 r).S + (apply_fxfrmt f0 r).I = r.S + r.I ∧
    (apply_fxfrmt f0 r).F = r.F ∧ (apply_fxfrmt f0 r).E = r.E ∧
    (apply_fxfrmt f0 r).shift = max (r.shift - (r.I - f0.I)) 0 ∧
    (apply_fxfrmt f0 r).max = min r.max (sat_value_spec f0 r) ∧
    (apply_fxfrmt f0 r).min = max r.min (-(apply_fxfrmt f0 r).max) ∧
    (sat_value_spec f0 r ≤ r.max →
      (apply_fxfrmt f0 r).max = sat_value_spec f0 r ∧
      (apply_fxfrmt f0 r).min = max r.min (-sat_value_spec f0 r)) ∧
    (∀ x : Int, ((apply_fxfrmt f0 r).min ≤ x ∧ x ≤ (apply_fxfrmt f0 r).max) ↔
      (r.min ≤ x ∧ x ≤ r.max ∧ -(apply_fxfrmt f0 r).max ≤ x ∧ x ≤ sat_value_spec f0 r)) ∧
    (∀ g0 : SIF, g0.has_attribute = 0 → g0.ptr_op = 0 → apply_fxfrmt g0 r = r) := by
  have hsat : sat_value { r with shift := max (r.shift - (r.I - f0.I)) 0 } (f0.I + r.F + r.E) =
      sat_value_spec f0 r := by
    have h := sat_value_eq { r with shift := max (r.shift - (r.I - f0.I)) 0 }
      (f0.I + r.F + r.E) hn1 hn2 (le_max_right _ _) (max_le hs (by norm_num)) hE
    rw [h]
    rfl
  have hpos : (0 : Int) < 2 ^ (min (f0.I + r.F + r.E).toNat
      (max (max (r.shift - (r.I - f0.I)) 0) r.E).toNat) := by positivity
  have hlt : sat_value_spec f0 r < 2 ^ (f0.I + r.F + r.E).toNat := by
    have : sat_value_spec f0 r = 2 ^ (f0.I + r.F + r.E).toNat -
        2 ^ (min (f0.I + r.F + r.E).toNat
          (max (max (r.shift - (r.I - f0.I)) 0) r.E).toNat) := rfl
    rw [this]; linarith
  have hmx : (apply_fxfrmt f0 r).max = min r.max (sat_value_spec f0 r) := by
    rw [apply_fxfrmt_saturating f0 r hA hP hI]
    show double_int_smin r.max _ = _
    rw [hsat, double_int_smin_eq]
  have hm1 : min r.max (sat_value_spec f0 r) < 2 ^ (f0.I + r.F + r.E).toNat :=
    lt_of_le_of_lt (min_le_right _ _) hlt
  have hm2 : -2 ^ (f0.I + r.F + r.E).toNat < min r.max (sat_value_spec f0 r) := by
    apply lt_min hmax
    have : sat_value_spec f0 r = 2 ^ (f0.I + r.F + r.E).toNat -
        2 ^ (min (f0.I + r.F + r.E).toNat
          (max (max (r.shift - (r.I - f0.I)) 0) r.E).toNat) := rfl
    have hle : (2 : Int) ^ (min (f0.I + r.F + r.E).toNat
        (max (max (r.shift - (r.I - f0.I)) 0) r.E).toNat) ≤ 2 ^ (f0.I + r.F + r.E).toNat :=
      pow_le_pow_right₀ (by norm_num) (min_le_left _ _)
    have hp : (0 : Int) < 2 ^ (f0.I + r.F + r.E).toNat := by positivity
    rw [this]; linarith
  have hfw : fits_width (-(min r.max (sat_value_spec f0 r))) (f0.I + r.F + r.E + 1) := by
    have e : (f0.I + r.F + r.E + 1 - 1).toNat = (f0.I + r.F + r.E).toNat := by
      congr 1; ring
    refine ⟨by linarith, by linarith, ?_, ?_⟩
    · rw [e]; linarith
    · rw [e]; linarith
  have hmn : (apply_fxfrmt f0 r).min = max r.min (-(apply_fxfrmt f0 r).max) := by
    rw [hmx, apply_fxfrmt_saturating f0 r hA hP hI]
    show double_int_smax r.min _ = _
    rw [hsat, double_int_smin_eq, double_int_smax_eq, hsg]
    obtain ⟨e1, e2⟩ := double_int_sext_eq_self _ _ hfw
    have e3 : double_int_neg (min r.max (sat_value_spec f0 r)) =
        -(min r.max (sat_value_spec f0 r)) := wrap_eq_self e2
    rw [e3, e1]
  refine ⟨?_, ?_, ?_, ?_, ?_, ?_, hmx, hmn, ?_, ?_, ?_⟩
  · rw [apply_fxfrmt_saturating f0 r hA hP hI]
  · rw [apply_fxfrmt_saturating f0 r hA hP hI]
  · rw [apply_fxfrmt_saturating f0 r hA hP hI]
    show r.S + (r.I - f0.I) + f0.I = _
    ring
  · rw [apply_fxfrmt_saturating f0 r hA hP hI]
  · rw [apply_fxfrmt_saturating f0 r hA hP hI]
  · rw [apply_fxfrmt_saturating f0 r hA hP hI]
  · intro hle
    have e : (apply_fxfrmt f0 r).max = sat_value_spec f0 r := by
      rw [hmx]; exact min_eq_right hle
    refine ⟨e, ?_⟩
    rw [hmn, e]
  · intro x
    rw [hmn, hmx]
    constructor
    · rintro ⟨h1, h2⟩
      exact ⟨le_trans (le_max_left _ _) h1, le_trans h2 (min_le_left _ _),
        le_trans (le_max_right _ _) h1, le_trans h2 (min_le_right _ _)⟩
    · rintro ⟨h1, h2, h3, h4⟩
      exact ⟨max_le h1 h3, le_min h2 h4⟩
  · intro g0 h1 h2
    have h1n : ¬ g0.has_attribute ≠ 0 := by simpa using h1
    have h2n : ¬ g0.ptr_op ≠ 0 := by simpa using h2
    unfold apply_fxfrmt apply_fxfrmt_pointer apply_fxfrmt_saturate
    rw [if_neg h2n, if_neg h1n]

set_option maxRecDepth 100000 in
/-- C34, failing input: the destination is pinned to (1,3,4,0) and the derived
format is (1,5,2,0) with the range [-30, 10]. Here sat = 2^5 - 1 = 31, so
the whole derived range lies inside [-sat, +sat] and clamping to the pinned
format leaves it as it is: max' = min(10, 31) = 10 and
min' = max(-30, -31) = -30. `apply_fxfrmt` returns the range [-10, 10]: the
lower clamp is taken from the returned maximum 10 and not from sat, the
derived values -30 .. -11 are left out, and the statements inserted on the
last pass turn the value -30 into -10. With the derived range [-30, 90],
whose maximum exceeds sat, the returned range is [-30, 31]. -/
theorem C34_apply_fxfrmt_lower_clamp :
    sample_pinned_dest.has_attribute ≠ 0 ∧ sample_pinned_dest.ptr_op = 0 ∧
    sample_pinned_dest.I < (sample_format 1 5 2 0 0 (-30) 10 []).I ∧
    sat_value_spec sample_pinned_dest (sample_format 1 5 2 0 0 (-30) 10 []) = 31 ∧
    (apply_fxfrmt sample_pinned_dest (sample_format 1 5 2 0 0 (-30) 10 [])).max = 10 ∧
    (apply_fxfrmt sample_pinned_dest (sample_format 1 5 2 0 0 (-30) 10 [])).min = -10 ∧
    (apply_fxfrmt sample_pinned_dest (sample_format 1 5 2 0 0 (-30) 10 [])).min ≠
      max (sample_format 1 5 2 0 0 (-30) 10 []).min
        (-sat_value_spec sample_pinned_dest (sample_format 1 5 2 0 0 (-30) 10 [])) ∧
    ¬ ((apply_fxfrmt sample_pinned_dest (sample_format 1 5 2 0 0 (-30) 10 [])).min ≤ -30) ∧
    emitted_saturation
      (apply_fxfrmt sample_pinned_dest (sample_format 1 5 2 0 0 (-30) 10 [])) (-30) = -10 ∧
    (apply_fxfrmt sample_pinned_dest (sample_format 1 5 2 0 0 (-30) 90 [])).max = 31 ∧
    (apply_fxfrmt sample_pinned_dest (sample_format 1 5 2 0 0 (-30) 90 [])).min = -30 := by
  decide

/-! ### C35 -/

set_option maxRecDepth 100000 in
/-- C36, failing input: rounding to positive infinity (`ROUNDING` and
`POSITIVE` set, no guarding), a variable operand `(2, 3, 3, 0)` of 8 bits with range
`[-3, -1]`, pending right shift 1 that loses a fraction bit
(`originalF = 4 > F = 3`). The range engine assigns `(x + 1) >> 1` to every
`x`, so the analysed range is `[-1, 0]`. The statements emitted take the
branch for "only negative values", which adds `2^(s-1) - 1 = 0` whatever
`POSITIVE` is, and compute `x >> 1`: for `x = -3` the operand is `-2`, not
`-1`, and lies outside the analysed range; for `x = -1` it is `-1`, not 0.
With `POSITIVE` off the same operand agrees with the range engine. -/
theorem C36_emitted_rounding_ignores_positive :
    rounded_shift_spec cfg_interval_positive (-3) 1 = -1 ∧
    new_min cfg_interval_positive { sample_format 2 3 3 0 1 (-3) (-1) [] with originalF := 4 }
      = -1 ∧
    new_max cfg_interval_positive { sample_format 2 3 3 0 1 (-3) (-1) [] with originalF := 4 }
      = 0 ∧
    emitted_shift cfg_interval_positive
      { sample_format 2 3 3 0 1 (-3) (-1) [] with originalF := 4 } (-3) = -2 ∧
    emitted_shift cfg_interval_positive
      { sample_format 2 3 3 0 1 (-3) (-1) [] with originalF := 4 } (-1) = -1 ∧
    rounded_shift_spec cfg_interval_positive (-1) 1 = 0 ∧
    ([-3, -2, -1].map (emitted_shift cfg_interval
        { sample_format 2 3 3 0 1 (-3) (-1) [] with originalF := 4 }) =
      [-3, -2, -1].map (fun x => rounded_shift_spec cfg_interval x 1)) := by
  decide

/-! ### C37 -/

/-- GCC's `rshift_double` at a precision of at most 128 bits, on a value
between `-2^prec` and `2^prec`, for a count below the precision: the floor
quotient. -/
theorem rshift_double_fits (v : Int) (s p : Nat) (hs : s < p) (hp : p ≤ 128) (hs0 : 0 < s)
    (hlo : -2 ^ p ≤ v) (hhi : v < 2 ^ p) :
    rshift_double v s p true = v / 2 ^ s := by
  have hm : (0 : Int) < 2 ^ (p - s) := by positivity
  have h2s : (0 : Int) < 2 ^ s := by positivity
  have hpow : (2 : Int) ^ p = 2 ^ (p - s) * 2 ^ s := by
    rw [← pow_add]; congr 1; omega
  unfold rshift_double HOST_BITS_PER_DOUBLE_INT
  simp only [true_and, if_true]
  rw [if_neg (by omega), if_neg (by omega)]
  by_cases hv : v < 0
  · rw [if_pos hv]
    have h1 : v / 2 ^ s < 0 := Int.ediv_neg' hv h2s
    have h2 : -2 ^ (p - s) ≤ v / 2 ^ s := by
      apply Int.le_ediv_of_mul_le h2s
      rw [neg_mul, ← hpow]; exact hlo
    have h3 : v / 2 ^ s % 2 ^ (p - s) = v / 2 ^ s + 2 ^ (p - s) := by
      rw [← Int.add_emod_self]
      exact Int.emod_eq_of_lt (by linarith) (by linarith)
    rw [h3]; ring
  · rw [if_neg hv]
    have h0 : 0 ≤ v := not_lt.mp hv
    have h1 : 0 ≤ v / 2 ^ s := Int.ediv_nonneg h0 (le_of_lt h2s)
    have h2 : v / 2 ^ s < 2 ^ (p - s) := by
      apply Int.ediv_lt_of_lt_mul h2s
      rw [← hpow]; exact hhi
    rw [Int.emod_eq_of_lt h1 h2]; ring

/-- A left shift keeping `size` bits, when the exact result is representable
in `size` bits. -/
theorem double_int_lshift_fits (a k size : Int) (arith : Bool) (hk : 0 ≤ k)
    (h : fits_width (a * 2 ^ k.toNat) size) :
    double_int_lshift a k size.toNat arith = a * 2 ^ k.toNat := by
  obtain ⟨e1, e2⟩ := double_int_sext_eq_self _ _ h
  obtain ⟨h1, h2, -, -⟩ := h
  unfold double_int_lshift HOST_BITS_PER_DOUBLE_INT
  rw [if_neg (not_lt.mpr hk), wrap_eq_self e2]
  simp only
  split
  · rfl
  · unfold double_int_sext at e1
    rw [if_pos ⟨h1, h2⟩] at e1
    exact e1

/-- Adding less than the divisor moves a floor quotient up by at most one. -/
theorem ediv_add_small (a k m : Int) (hm : 0 < m) (hk0 : 0 ≤ k) (hk : k < m) :
    (a + k) / m = a / m ∨ (a + k) / m = a / m + 1 := by
  have h1 : a / m ≤ (a + k) / m := Int.ediv_le_ediv hm (by linarith)
  have h2 : (a + k) / m < a / m + 2 := by
    apply Int.ediv_lt_of_lt_mul hm
    have := Int.lt_ediv_add_one_mul_self a hm
    nlinarith
  omega
/-- The constant the last pass writes for a right shift: the constant rounded
to nearest, ties away from zero, whatever the rounding flags are. -/
theorem folded_constant_right (fmt : SIF) (t : tree)
    (hw : fits_width (tree_constant_value t) fmt.size)
    (hs0 : 0 < fmt.shift) (hs : fmt.shift < fmt.size)
    (hfit : DI_fits (tree_constant_value t + 2 ^ (fmt.shift - 1).toNat)) :
    folded_constant fmt t =
      (tree_constant_value t + 2 ^ (fmt.shift - 1).toNat -
        (if tree_constant_value t < 0 then 1 else 0)) / 2 ^ fmt.shift.toNat := by
  obtain ⟨-, hc⟩ := double_int_sext_eq_self _ _ hw
  obtain ⟨h1, h2, h3, h4⟩ := hw
  obtain ⟨q, hq⟩ : ∃ q : Nat, fmt.size = (q : Int) + 1 := ⟨(fmt.size - 1).toNat, by omega⟩
  obtain ⟨n, hn⟩ : ∃ n : Nat, fmt.shift = (n : Int) + 1 := ⟨(fmt.shift - 1).toNat, by omega⟩
  have hnq : n < q := by omega
  have hq127 : q ≤ 127 := by omega
  have e1 : ((q : Int) + 1 - 1).toNat = q := by omega
  have e2 : ((q : Int) + 1).toNat = q + 1 := by omega
  have e3 : ((n : Int) + 1 - 1).toNat = n := by omega
  have e4 : ((n : Int) + 1).toNat = n + 1 := by omega
  have e5 : (-(-((n : Int) + 1))).toNat = n + 1 := by omega
  have hpn : (0 : Int) < 2 ^ n := by positivity
  have hnq2 : (2 : Int) ^ n < 2 ^ q := pow_lt_pow_right₀ (by norm_num) hnq
  have hq2 : (2 : Int) ^ q ≤ 2 ^ 127 := pow_le_pow_right₀ (by norm_num) hq127
  have hqq : (2 : Int) ^ (q + 1) = 2 ^ q + 2 ^ q := by rw [pow_succ]; ring
  have hrc : double_int_lshift double_int_one ((n : Int) + 1 - 1) (q + 1) false = 2 ^ n := by
    have := double_int_lshift_fits double_int_one ((n : Int) + 1 - 1) ((q : Int) + 1) false
      (by omega) ⟨by omega, by omega, by
        rw [e1, e3]; unfold double_int_one; linarith, by
        rw [e1, e3]; unfold double_int_one; linarith⟩
    rw [e2, e3] at this
    rw [this]
    unfold double_int_one
    ring
  rw [hq, e1] at h3 h4
  rw [hn, e3] at hfit
  unfold DI_fits at hc hfit
  unfold folded_constant
  rw [hn, hq, e2, e3, e4]
  rw [if_neg (by omega)]
  simp only [hrc]
  unfold double_int_rshift_prec double_int_lshift double_int_negative_p double_int_add
    double_int_minus_one
  rw [if_pos (by omega), e5]
  by_cases hneg : tree_constant_value t < 0
  · simp only [hneg, decide_True, if_true]
    rw [wrap_eq_self (show DI_fits ((2 : Int) ^ n + -1) by
      unfold DI_fits; constructor <;> linarith)]
    rw [wrap_eq_self (show DI_fits (tree_constant_value t + ((2 : Int) ^ n + -1)) by
      unfold DI_fits; constructor <;> linarith [hc.1, hfit.2])]
    rw [rshift_double_fits _ (n + 1) (q + 1) (by omega) (by omega) (by omega)
      (by rw [hqq]; linarith) (by rw [hqq]; linarith)]
    congr 1
    ring
  · simp only [hneg, decide_False, Bool.false_eq_true, if_false]
    rw [wrap_eq_self hfit]
    rw [rshift_double_fits _ (n + 1) (q + 1) (by omega) (by omega) (by omega)
      (by rw [hqq]; linarith [not_lt.mp hneg]) (by rw [hqq]; linarith)]
    congr 1
    ring

/-- The constant the last pass writes for a left shift whose exact result is
representable in the size of the operand. -/
theorem folded_constant_left (fmt : SIF) (t : tree) (hs : fmt.shift < 0)
    (hl : fits_width (tree_constant_value t * 2 ^ (-fmt.shift).toNat) fmt.size) :
    folded_constant fmt t = tree_constant_value t * 2 ^ (-fmt.shift).toNat := by
  unfold folded_constant
  rw [if_pos hs]
  exact double_int_lshift_fits _ _ _ false (by omega) hl
/-- The shifted bound of a nonzero bound under a right shift. -/
theorem shifted_bound_spec_right (cfg : Config) (x s : Int) (hs : 0 < s) (hx : x ≠ 0) :
    shifted_bound_spec cfg x s =
      if cfg.ROUNDING = false then x / 2 ^ s.toNat
      else if cfg.POSITIVE = true then (x + 2 ^ (s - 1).toNat) / 2 ^ s.toNat
      else if 0 < x then (x + 2 ^ (s - 1).toNat) / 2 ^ s.toNat
      else -((-x + 2 ^ (s - 1).toNat) / 2 ^ s.toNat) := by
  unfold shifted_bound_spec
  rw [if_neg (show ¬ (s = 0 ∨ x = 0) by omega), if_neg (show ¬ s < 0 by omega)]

/-- The shifted bound of zero is zero. -/
theorem shifted_bound_spec_zero (cfg : Config) (s : Int) : shifted_bound_spec cfg 0 s = 0 := by
  unfold shifted_bound_spec
  rw [if_pos (Or.inr rfl)]

set_option maxRecDepth 100000 in
/-- C37, counterexample: a constant of 64 bits with stored integer 3 and
pending right shift 1. The last pass writes `(3 + 1) >> 1 = 2` whatever the
flags are; with `ROUNDING` off the range engine computes
`new_max = new_min = 3 >> 1 = 1`. For the stored integer -3 and rounding to
positive infinity the constant written is `(-3 + 1 - 1) >> 1 = -2` and the
range engine computes `(-3 + 1) >> 1 = -1`. -/
theorem C37_folded_constant_rounds_counterexample :
    folded_constant { sample_format 1 2 61 0 1 3 3 [] with size := 64 } (tree.integer_cst 3)
      = 2 ∧
    new_max cfg_interval_truncate { sample_format 1 2 61 0 1 3 3 [] with size := 64 } = 1 ∧
    new_min cfg_interval_truncate { sample_format 1 2 61 0 1 3 3 [] with size := 64 } = 1 ∧
    folded_constant { sample_format 1 2 61 0 1 (-3) (-3) [] with size := 64 }
      (tree.integer_cst (-3)) = -2 ∧
    new_max cfg_interval_positive { sample_format 1 2 61 0 1 (-3) (-3) [] with size := 64 }
      = -1 ∧
    new_min cfg_interval_positive { sample_format 1 2 61 0 1 (-3) (-3) [] with size := 64 }
      = -1 := by
  decide

/-- C37: the folded constant and its analysed range. Interval mode, a constant
operand whose range is the constant `c` of its tree, with a nonzero pending
shift `s` that applies to `c` without overflow; `c` is representable in the
size of the operand, and so is `c * 2^(-s)` for a left shift, and `s` is below
the size for a right shift. Then `new_max = new_min`. For a left shift the
constant written is `c * 2^(-s)` and equals that bound. For a right shift the
constant written is `(c + 2^(s-1) - d) >> s` with `d = 1` for `c < 0` and 0
otherwise, whatever `ROUNDING` and `POSITIVE` are: it equals the bound when
`ROUNDING` is set and `POSITIVE` is not, or when both are set and `c ≥ 0`;
with both set and `c < 0` the bound is `(c + 2^(s-1)) >> s` and the constant
written is the bound or one less; with `ROUNDING` off the bound is `c >> s`
and the constant written is the bound or one more. -/
theorem C37_folded_constant (cfg : Config) (fmt : SIF) (t : tree) (hA : cfg.AFFINE = false)
    (hmax : fmt.max = tree_constant_value t) (hmin : fmt.min = tree_constant_value t)
    (hw : fits_width (tree_constant_value t) fmt.size) (hfit : range_shift_fits fmt)
    (hl : fmt.shift < 0 →
      fits_width (tree_constant_value t * 2 ^ (-fmt.shift).toNat) fmt.size)
    (hr : 0 < fmt.shift → fmt.shift < fmt.size) :
    new_max cfg fmt = new_min cfg fmt ∧
    (fmt.shift < 0 →
      folded_constant fmt t = tree_constant_value t * 2 ^ (-fmt.shift).toNat ∧
      folded_constant fmt t = new_max cfg fmt) ∧
    (0 < fmt.shift →
      folded_constant fmt t =
        (tree_constant_value t + 2 ^ (fmt.shift - 1).toNat -
          (if tree_constant_value t < 0 then 1 else 0)) / 2 ^ fmt.shift.toNat) ∧
    (0 < fmt.shift → cfg.ROUNDING = true → cfg.POSITIVE = false →
      folded_constant fmt t = new_max cfg fmt) ∧
    (0 < fmt.shift → cfg.ROUNDING = true → cfg.POSITIVE = true → 0 ≤ tree_constant_value t →
      folded_constant fmt t = new_max cfg fmt) ∧
    (0 < fmt.shift → cfg.ROUNDING = true → cfg.POSITIVE = true → tree_constant_value t < 0 →
      new_max cfg fmt =
        (tree_constant_value t + 2 ^ (fmt.shift - 1).toNat) / 2 ^ fmt.shift.toNat ∧
      (folded_constant fmt t = new_max cfg fmt ∨
        folded_constant fmt t = new_max cfg fmt - 1)) ∧
    (0 < fmt.shift → cfg.ROUNDING = false →
      new_max cfg fmt = tree_constant_value t / 2 ^ fmt.shift.toNat ∧
      (folded_constant fmt t = new_max cfg fmt ∨
        folded_constant fmt t = new_max cfg fmt + 1)) := by
  have hsf : shift_fits (tree_constant_value t) fmt.shift := by
    have := hfit.2
    rw [hmax] at this
    exact this
  have hnmax : new_max cfg fmt = shifted_bound_spec cfg (tree_constant_value t) fmt.shift := by
    rw [new_max_interval cfg fmt hA, hmax]
    exact shifted_bound_eq_spec cfg _ _ hsf
  have hnmin : new_min cfg fmt = shifted_bound_spec cfg (tree_constant_value t) fmt.shift := by
    rw [new_min_interval cfg fmt hA, hmin]
    exact shifted_bound_eq_spec cfg _ _ hsf
  have hright : 0 < fmt.shift → folded_constant fmt t =
      (tree_constant_value t + 2 ^ (fmt.shift - 1).toNat -
        (if tree_constant_value t < 0 then 1 else 0)) / 2 ^ fmt.shift.toNat :=
    fun h => folded_constant_right fmt t hw h (hr h) (hsf.2.2.2 h)
  -- the half and the divisor of a right shift
  have hhalf : 0 < fmt.shift →
      (0 : Int) < 2 ^ (fmt.shift - 1).toNat ∧
      (2 : Int) ^ fmt.shift.toNat = 2 ^ (fmt.shift - 1).toNat + 2 ^ (fmt.shift - 1).toNat := by
    intro h
    obtain ⟨n, hn⟩ : ∃ n : Nat, fmt.shift = (n : Int) + 1 := ⟨(fmt.shift - 1).toNat, by omega⟩
    have e3 : ((n : Int) + 1 - 1).toNat = n := by omega
    have e4 : ((n : Int) + 1).toNat = n + 1 := by omega
    rw [hn, e3, e4]
    exact ⟨by positivity, by rw [pow_succ]; ring⟩
  refine ⟨by rw [hnmax, hnmin], ?_, hright, ?_, ?_, ?_, ?_⟩
  · intro hs
    have e := folded_constant_left fmt t hs (hl hs)
    refine ⟨e, ?_⟩
    rw [e, hnmax]
    unfold shifted_bound_spec
    by_cases h0 : fmt.shift = 0 ∨ tree_constant_value t = 0
    · rw [if_pos h0]
      rcases h0 with h0 | h0
      · omega
      · rw [h0, zero_mul]
    · rw [if_neg h0, if_pos hs]
  · intro hs hR hP
    obtain ⟨hp, hm⟩ := hhalf hs
    rw [hright hs, hnmax]
    have hR2 : ¬ cfg.ROUNDING = false := by simp [hR]
    have hP2 : ¬ cfg.POSITIVE = true := by simp [hP]
    rcases lt_trichotomy (tree_constant_value t) 0 with hc | hc | hc
    · rw [shifted_bound_spec_right cfg _ _ hs (ne_of_lt hc), if_neg hR2, if_neg hP2,
        if_neg (not_lt.mpr (le_of_lt hc)), if_pos hc]
      obtain ⟨n, hn⟩ : ∃ n : Nat, fmt.shift = (n : Int) + 1 :=
        ⟨(fmt.shift - 1).toNat, by omega⟩
      have e3 : ((n : Int) + 1 - 1).toNat = n := by omega
      have e4 : ((n : Int) + 1).toNat = n + 1 := by omega
      rw [hn, e3, e4, ← floor_neg_round]
      congr 1
      ring
    · rw [hc, shifted_bound_spec_zero, if_neg (lt_irrefl _), zero_add, sub_zero]
      exact Int.ediv_eq_zero_of_lt (le_of_lt hp) (by linarith)
    · rw [shifted_bound_spec_right cfg _ _ hs (ne_of_gt hc), if_neg hR2, if_neg hP2,
        if_pos hc, if_neg (not_lt.mpr (le_of_lt hc)), sub_zero]
  · intro hs hR hP hc
    obtain ⟨hp, hm⟩ := hhalf hs
    rw [hright hs, hnmax]
    have hR2 : ¬ cfg.ROUNDING = false := by simp [hR]
    rcases eq_or_lt_of_le hc with hc0 | hc0
    · rw [← hc0, shifted_bound_spec_zero, if_neg (lt_irrefl _), zero_add, sub_zero]
      exact Int.ediv_eq_zero_of_lt (le_of_lt hp) (by linarith)
    · rw [shifted_bound_spec_right cfg _ _ hs (ne_of_gt hc0), if_neg hR2, if_pos hP,
        if_neg (not_lt.mpr hc), sub_zero]
  · intro hs hR hP hc
    obtain ⟨hp, hm⟩ := hhalf hs
    have hR2 : ¬ cfg.ROUNDING = false := by simp [hR]
    have e : new_max cfg fmt =
        (tree_constant_value t + 2 ^ (fmt.shift - 1).toNat) / 2 ^ fmt.shift.toNat := by
      rw [hnmax, shifted_bound_spec_right cfg _ _ hs (ne_of_lt hc), if_neg hR2, if_pos hP]
    refine ⟨e, ?_⟩
    rw [hright hs, e, if_pos hc]
    have h := ediv_add_small (tree_constant_value t + 2 ^ (fmt.shift - 1).toNat - 1) 1
      (2 ^ fmt.shift.toNat) (by linarith) (by norm_num) (by linarith)
    rw [sub_add_cancel] at h
    rcases h with h | h
    · left; exact h.symm
    · right; rw [h]; ring
  · intro hs hR
    obtain ⟨hp, hm⟩ := hhalf hs
    have e : new_max cfg fmt = tree_constant_value t / 2 ^ fmt.shift.toNat := by
      rw [hnmax]
      by_cases h0 : tree_constant_value t = 0
      · rw [h0, shifted_bound_spec_zero, Int.zero_ediv]
      · rw [shifted_bound_spec_right cfg _ _ hs h0, if_pos hR]
    refine ⟨e, ?_⟩
    rw [hright hs, e]
    have h := ediv_add_small (tree_constant_value t)
      (2 ^ (fmt.shift - 1).toNat - (if tree_constant_value t < 0 then 1 else 0))
      (2 ^ fmt.shift.toNat) (by linarith) (by split <;> linarith) (by split <;> linarith)
    rw [← add_sub_assoc] at h
    exact h

set_option maxRecDepth 100000 in
/-- C37, witness: the stored integer -3 of a 64-bit constant under a right
shift by 1 with plain rounding: the constant written is -2, the analysed
bound. -/
theorem C37_folded_constant_witness :
    folded_constant { sample_format 1 2 61 0 1 (-3) (-3) [] with size := 64 }
      (tree.integer_cst (-3)) =
      new_max cfg_interval { sample_format 1 2 61 0 1 (-3) (-3) [] with size := 64 } ∧
    new_max cfg_interval { sample_format 1 2 61 0 1 (-3) (-3) [] with size := 64 } = -2 := by
  refine ⟨(C37_folded_constant cfg_interval
    { sample_format 1 2 61 0 1 (-3) (-3) [] with size := 64 } (tree.integer_cst (-3)) rfl
    rfl rfl (by decide) (by decide) (by decide) (by decide)).2.2.2.1 (by decide) rfl rfl, ?_⟩
  decide

/-! ### C38 -/

/-- C38: shifting preserves range order. With `AFFINE` off, for every pending
shift `s` (left or right), every setting of `ROUNDING` and `POSITIVE` and all
stored bounds `x ≤ y` to which the shift applies without overflow: `new_max`
and `new_min` compute the same shifted bound from a stored bound, and the
shifted bound of `x` is at most the shifted bound of `y`. Hence for every
format with `min ≤ max` whose shift applies without overflow,
`new_min ≤ new_max`, and the range `new_range` returns has `min ≤ max`. -/
theorem C38_shift_preserves_order (cfg : Config) (o : SIF) (hA : cfg.AFFINE = false) :
    (∀ x : Int, new_min cfg { o with min := x } = new_max cfg { o with max := x }) ∧
    (∀ s x y : Int, x ≤ y → shift_fits x s → shift_fits y s →
      new_max cfg { o with max := x, shift := s } ≤
        new_max cfg { o with max := y, shift := s } ∧
      new_min cfg { o with min := x, shift := s } ≤
        new_min cfg { o with min := y, shift := s } ∧
      new_min cfg { o with min := x, shift := s } ≤
        new_max cfg { o with max := y, shift := s }) ∧
    (o.min ≤ o.max → range_shift_fits o →
      new_min cfg o ≤ new_max cfg o ∧ (new_range cfg o).min ≤ (new_range cfg o).max) := by
  refine ⟨?_, ?_, ?_⟩
  · intro x
    rw [new_min_interval cfg _ hA, new_max_interval cfg _ hA]
  · intro s x y hxy hx hy
    rw [new_max_interval cfg _ hA, new_max_interval cfg _ hA, new_min_interval cfg _ hA,
      new_min_interval cfg _ hA]
    have h := shifted_bound_mono cfg s x y hxy hx hy
    exact ⟨h, h, h⟩
  · intro h hs
    have h1 : new_min cfg o ≤ new_max cfg o := by
      rw [new_min_interval cfg o hA, new_max_interval cfg o hA]
      exact shifted_bound_mono cfg o.shift o.min o.max h hs.1 hs.2
    exact ⟨h1, h1⟩

set_option maxRecDepth 100000 in
/-- C38, witness: the range `[-10, 9]` under a right shift by 2 with plain
rounding becomes `[-3, 2]`, and under a left shift by 2 `[-40, 36]`. -/
theorem C38_shift_preserves_order_witness :
    new_min cfg_interval (sample_format 1 3 4 0 2 (-10) 9 []) ≤
      new_max cfg_interval (sample_format 1 3 4 0 2 (-10) 9 []) ∧
    new_min cfg_interval (sample_format 1 3 4 0 2 (-10) 9 []) = -3 ∧
    new_max cfg_interval (sample_format 1 3 4 0 2 (-10) 9 []) = 2 ∧
    new_max cfg_interval { sample_format 1 3 4 0 0 1 0 [] with max := -10, shift := -2 } ≤
      new_max cfg_interval { sample_format 1 3 4 0 0 1 0 [] with max := 9, shift := -2 } := by
  refine ⟨((C38_shift_preserves_order cfg_interval (sample_format 1 3 4 0 2 (-10) 9 []) rfl).2.2
      (by decide) (by decide)).1, by decide, by decide,
    ((C38_shift_preserves_order cfg_interval (sample_format 1 3 4 0 0 1 0 []) rfl).2.1
      (-2) (-10) 9 (by decide) (by decide) (by decide)).1⟩

/-! ### C39 -/

set_option maxRecDepth 100000 in
/-- The product of the two sample forms: the linear part, and one error term
with the key `next_error_id`, which is then incremented. -/
theorem affine_multiply_sample (nid : Int) (h1 : 1 ≤ nid) (h2 : nid < 65536) :
    affine_multiply nid sample_aa1 sample_aa2 =
      ([⟨0, 3, 0⟩, ⟨458752, 3, 0⟩, ⟨327680, 2, 0⟩, ⟨nid, 2, 0⟩], nid + 1) := by
  have hst : sample_aa1.foldl
      (fun st aa1_elt =>
        sample_aa2.foldl (affine_multiply_step sample_aa1 sample_aa2 0 aa1_elt) st)
      (([] : List AA), double_int_zero) =
      ([⟨0, 3, 0⟩, ⟨458752, 3, 0⟩, ⟨327680, 2, 0⟩], 2) := by decide
  have hbp : get_aa_bp sample_aa1 + get_aa_bp sample_aa2 = 0 := by decide
  have hne : ¬ (sample_aa1 = [] ∨ sample_aa2 = []) := by decide
  unfold affine_multiply
  rw [if_neg hne]
  simp only [hbp, hst]
  have hz : double_int_zero_p 2 = false := by decide
  rw [hz]
  simp only [Bool.false_eq_true, if_false]
  have hk : nid ∉ aa_keys [(⟨0, 3, 0⟩ : AA), ⟨458752, 3, 0⟩, ⟨327680, 2, 0⟩] := by
    unfold aa_keys
    simp only [List.map_cons, List.map_nil, List.mem_cons, List.mem_singleton, not_or]
    refine ⟨?_, ?_, ?_, ?_⟩ <;> first | omega | exact List.not_mem_nil _
  rw [append_aa_var_of_not_mem _ _ hk]
  rfl

/-- After `n` products of the sample forms the counter has advanced by `n`. -/
theorem error_ids_after_sample (n : Nat) :
    ∀ nid : Int, 1 ≤ nid → nid + n ≤ 65536 →
      error_ids_after (List.replicate n (sample_aa1, sample_aa2)) nid = nid + n := by
  induction n with
  | zero => intro nid _ _; simp [error_ids_after]
  | succ k ih =>
    intro nid h1 h2
    unfold error_ids_after at ih ⊢
    rw [List.replicate_succ, List.foldl_cons]
    simp only
    rw [affine_multiply_sample nid h1 (by push_cast at h2; linarith)]
    simp only
    rw [ih (nid + 1) (by linarith) (by push_cast at h2 ⊢; linarith)]
    push_cast
    ring

set_option maxRecDepth 100000 in
/-- C39, failing input: 2988 products that each issue an error term, starting
from `next_error_id = 1`, leave `next_error_id = 0xbad`. The error term of
the next product gets the key `0xbad`, the mark of a destroyed list:
the product list is live, has four terms with pairwise distinct keys, and
`copy_aa_list` and `affine_assign` return the empty list for it. -/
theorem C39_error_key_reaches_sentinel :
    error_ids_after (List.replicate 2988 (sample_aa1, sample_aa2)) 1 = 0xbad ∧
    (affine_multiply (error_ids_after (List.replicate 2988 (sample_aa1, sample_aa2)) 1)
      sample_aa1 sample_aa2).1 =
      [⟨0, 3, 0⟩, ⟨458752, 3, 0⟩, ⟨327680, 2, 0⟩, ⟨0xbad, 2, 0⟩] ∧
    copy_aa_list (affine_multiply
      (error_ids_after (List.replicate 2988 (sample_aa1, sample_aa2)) 1)
      sample_aa1 sample_aa2).1 = [] ∧
    affine_assign (affine_multiply
      (error_ids_after (List.replicate 2988 (sample_aa1, sample_aa2)) 1)
      sample_aa1 sample_aa2).1 true = [] := by
  have e : error_ids_after (List.replicate 2988 (sample_aa1, sample_aa2)) 1 = 0xbad := by
    rw [error_ids_after_sample 2988 1 (by norm_num) (by norm_num)]
    norm_num
  rw [e, affine_multiply_sample 0xbad (by norm_num) (by norm_num)]
  exact ⟨rfl, rfl, by decide, by decide⟩

/-! ### C40 -/

/-- C40: division infeasibility is unreachable for well-formed signed
operands. General path of `division` on variables, numerator and destination
of the same width, numerator with at least one sign bit and S+I+F+E = width,
divisor with F2 ≥ 0. After the numerator is prepared it has one sign bit,
E1 = 0 and F1 = width - 1 - I1. The truncation step never takes its "FAILED"
return and leaves F2 ≤ F1, so I1 + F2 < width: the fit step does not shift
and does not take its "FAILED" return either. Hence `division` never reports
"FAILED to process a division", and in interval mode it returns a result
without error. -/
theorem C40_division_never_fails (f0 : SIF) (ops : SIF × SIF)
    (hgen : log2_range ops.2 < 0)
    (hw : ops.1.size = f0.size) (hS : 1 ≤ ops.1.S)
    (hsum : ops.1.S + ops.1.I + ops.1.F + ops.1.E = ops.1.size)
    (hF2 : 0 ≤ ops.2.F) :
    ((division_numerator ops.1 tree.var).S = 1 ∧
      (division_numerator ops.1 tree.var).I = ops.1.I ∧
      (division_numerator ops.1 tree.var).E = 0 ∧
      (division_numerator ops.1 tree.var).F = f0.size - 1 - ops.1.I) ∧
    ((division_divisor_truncate (division_numerator ops.1 tree.var)
        (division_divisor_halve (division_numerator ops.1 tree.var) ops.2 tree.var)
        tree.var).2 = false ∧
      (division_divisor_truncate (division_numerator ops.1 tree.var)
        (division_divisor_halve (division_numerator ops.1 tree.var) ops.2 tree.var)
        tree.var).1.F ≤ (division_numerator ops.1 tree.var).F ∧
      (division_numerator ops.1 tree.var).I +
        (division_divisor_truncate (division_numerator ops.1 tree.var)
          (division_divisor_halve (division_numerator ops.1 tree.var) ops.2 tree.var)
          tree.var).1.F < f0.size) ∧
    (division_divisor f0 (division_numerator ops.1 tree.var) ops.2 tree.var =
      ((division_divisor_truncate (division_numerator ops.1 tree.var)
        (division_divisor_halve (division_numerator ops.1 tree.var) ops.2 tree.var)
        tree.var).1, false)) ∧
    (∀ (cfg : Config) (next_error_id : Int) (r : stmt_result),
      division cfg next_error_id f0 ops tree.var tree.var = some r →
      fx_error.div_failed ∉ r.errors ∧ r.errors = []) ∧
    (∀ (cfg : Config) (next_error_id : Int), cfg.AFFINE = false →
      ∃ r, division cfg next_error_id f0 ops tree.var tree.var = some r ∧ r.errors = []) := by
  obtain ⟨n1, n2, n3, n4, n5⟩ := division_numerator_spec ops.1 tree.var hsum
  have nS : (division_numerator ops.1 tree.var).S = 1 := by
    rw [n1]; exact min_eq_right hS
  have nF : (division_numerator ops.1 tree.var).F = f0.size - 1 - ops.1.I := by
    rw [n4, n3, nS, n2, hw]
  obtain ⟨v1, v2, v3⟩ :=
    division_divisor_halve_var (division_numerator ops.1 tree.var) ops.2 hF2
  obtain ⟨t1, t2, t3, t4, t5⟩ := division_divisor_truncate_var
    (division_numerator ops.1 tree.var)
    (division_divisor_halve (division_numerator ops.1 tree.var) ops.2 tree.var) v1
  have hlt : (division_numerator ops.1 tree.var).I +
      (division_divisor_truncate (division_numerator ops.1 tree.var)
        (division_divisor_halve (division_numerator ops.1 tree.var) ops.2 tree.var)
        tree.var).1.F < f0.size := by
    rw [n2]
    rw [nF] at t3
    linarith
  have hdiv : division_divisor f0 (division_numerator ops.1 tree.var) ops.2 tree.var =
      ((division_divisor_truncate (division_numerator ops.1 tree.var)
        (division_divisor_halve (division_numerator ops.1 tree.var) ops.2 tree.var)
        tree.var).1, false) := by
    unfold division_divisor
    simp only [t1, Bool.false_eq_true, if_false]
    unfold division_divisor_fit
    rw [if_neg (not_le.mpr hlt)]
  refine ⟨⟨nS, n2, n5, nF⟩, ⟨t1, t3, hlt⟩, hdiv, ?_, ?_⟩
  · intro cfg nid r hr
    unfold division at hr
    rw [if_neg (not_le.mpr hgen)] at hr
    simp only [hdiv, Bool.false_eq_true, if_false] at hr
    have he : r.errors = [] := by
      cases hx : new_range_div cfg nid (division_numerator ops.1 tree.var)
          (division_divisor_truncate (division_numerator ops.1 tree.var)
            (division_divisor_halve (division_numerator ops.1 tree.var) ops.2 tree.var)
            tree.var).1
          (division_quotient f0 (division_numerator ops.1 tree.var,
            (division_divisor_truncate (division_numerator ops.1 tree.var)
              (division_divisor_halve (division_numerator ops.1 tree.var) ops.2 tree.var)
              tree.var).1)) with
      | none => rw [hx] at hr; exact absurd hr (by simp)
      | some temp =>
        rw [hx] at hr
        simp only at hr
        injection hr with hr
        rw [← hr]
    rw [he]
    exact ⟨List.not_mem_nil _, rfl⟩
  · intro cfg nid hA
    obtain ⟨x, hx⟩ := new_range_div_interval_some cfg nid (division_numerator ops.1 tree.var)
      (division_divisor_truncate (division_numerator ops.1 tree.var)
        (division_divisor_halve (division_numerator ops.1 tree.var) ops.2 tree.var)
        tree.var).1
      (division_quotient f0 (division_numerator ops.1 tree.var,
        (division_divisor_truncate (division_numerator ops.1 tree.var)
          (division_divisor_halve (division_numerator ops.1 tree.var) ops.2 tree.var)
          tree.var).1)) hA
    unfold division
    rw [if_neg (not_le.mpr hgen)]
    simp only [hdiv, Bool.false_eq_true, if_false, hx]
    exact ⟨_, rfl, rfl⟩

set_option maxRecDepth 100000 in
/-- C40, witness: an 8-bit signed division of `(1, 3, 4, 0)` by `(1, 2, 5, 0)`
returns without error. -/
theorem C40_division_never_fails_witness :
    ∃ r, division cfg_interval 1 (sample_format 1 4 3 0 0 1 0 [])
        (sample_format 1 3 4 0 0 (-100) 100 [], sample_format 1 2 5 0 0 20 70 [])
        tree.var tree.var = some r ∧ r.errors = [] :=
  (C40_division_never_fails (sample_format 1 4 3 0 0 1 0 [])
    (sample_format 1 3 4 0 0 (-100) 100 [], sample_format 1 2 5 0 0 20 70 [])
    (by decide) (by decide) (by decide) (by decide) (by decide)).2.2.2.2 cfg_interval 1 rfl
end Fxopt
